import Mathlib

/-!
# RmlUi inline layout: line boxes

A shallow embedding of `Source/Core/LayoutLineBox.cpp` (and of the text box of
`Source/Core/LayoutInlineLevelBoxText.cpp`) together with the properties of the
line box that the specification states.

Modelling conventions.

* A `float` value is a rational number (`ℚ`); there is no NaN and no infinity.
  `Math::RoundUpFloat` is the ceiling, `Math::Max` is `max`. The operations are given in two
  readings. In the exact reading (`LayoutLineBox.AddBox`, `LayoutLineBox.Close`, ...) `+`,
  `-` and `*` are those of `ℚ`; it carries the properties that hold whatever the sums come
  to (which fragment is appended, which index is pushed, what is copied where). In the
  binary32 reading (`Binary32.LayoutLineBox.AddBox`, `Binary32.LayoutLineBox.Close`, ...)
  every `+`, `-` and `*` of the source is followed by `Binary32.round`, the rounding to the
  nearest single-precision value (ties to even, `FLT_EVAL_METHOD` 0); it carries the
  properties that depend on the value of a sum or a difference.
* `int` (fragment indices, overflow handles) is `Int`; `-1` is the root index. The one sum
  of two `int` that the sources make on values from outside, `line_begin + line_length` of
  the text box, is reduced to 32 bits (`wrapInt`).
* `IsAlignedSubtreeRoot` and `DetermineAlignedSubtreeRoot` are defined in `LayoutLineBox.h`,
  which is not among the sources. The exact reading uses a model of them; the binary32
  reading of `Close` takes the test `IsAlignedSubtreeRoot` as a parameter.
* `Vector<T>` is `List T`; `push_back` appends at the end, `back` is the last element.
* An `InlineLevelBox*` is an address (`BoxPtr`); the objects live in a `BoxHeap` that maps
  an address to the virtual interface of the box stored there.
* `RMLUI_ASSERT`, `RMLUI_ERROR` and `RMLUI_ERRORMSG` do not change the control flow
  (release semantics); the message of `RMLUI_ERRORMSG` is returned next to the state.
* A call of a collaborator (`CreateFragment`) is recorded in a call log that is returned
  with the result.
* Reading or writing `fragments[i]` with `i` outside the array is undefined behaviour in
  the source; the model reads a default fragment and ignores the write.
-/

namespace Rml

/-! ## Data model -/

/-- Address of an `InlineLevelBox` object. -/
abbrev BoxPtr := Nat

/-- The type `LayoutOverflowHandle`, an `int` (a text offset for text boxes). -/
abbrev LayoutOverflowHandle := Int

/-- The value of an `int` (32 bits, two's complement) after an operation whose mathematical
result is `x`: `x` itself when it lies in `[-2 ^ 31, 2 ^ 31)`, and `x` reduced modulo `2 ^ 32`
into that range otherwise (`INT_MAX + 1` gives `INT_MIN`). -/
def wrapInt (x : Int) : Int :=
  (x + 2 ^ 31) % 2 ^ 32 - 2 ^ 31

/-- The type `LayoutFragmentHandle`, a token owned by the producing box. -/
abbrev LayoutFragmentHandle := Int

/-- The constant `RootFragmentIndex`: the index that stands for the root of the line. A
`FragmentIndex` is an `int`. -/
abbrev RootFragmentIndex : Int := -1

/-- The constant `FLT_MAX` of `<cfloat>`. -/
def FLT_MAX : ℚ := 340282346638528859811704183484516925440

/-- The enumeration `InlineLayoutMode`. -/
inductive InlineLayoutMode where
  | WrapAny
  | Wrap
  | Nowrap
  deriving DecidableEq, Repr

/-- The enumeration `FragmentType`. -/
inductive FragmentType where
  | Invalid
  | InlineBox
  | SizedBox
  | TextRun
  deriving DecidableEq, Repr

/-- Modelled from the spec: the values of `Style::VerticalAlign` (declared in
`ComputedValues.h`, not part of the sources at hand). The line box distinguishes only
`Top` and `Bottom` from the other values. -/
inductive VerticalAlign where
  | Baseline
  | Middle
  | Sub
  | Super
  | TextTop
  | TextBottom
  | Top
  | Bottom
  | Length
  deriving DecidableEq, Repr

/-- The enumeration `Style::TextAlign`, as used by the switch in `Close`. -/
inductive TextAlign where
  | Left
  | Right
  | Center
  | Justify
  deriving DecidableEq, Repr

/-- The type `Vector2f`. -/
structure Vector2f where
  x : ℚ := 0
  y : ℚ := 0
  deriving DecidableEq, Repr

/-- Modelled from the spec: the structure `FragmentResult` (declared in
`LayoutInlineLevelBox.h`, not part of the sources at hand), with the fields the spec lists
for the result of `CreateFragment` and the fields `AddBox` reads. A default-constructed
result has type `Invalid`. -/
structure FragmentResult where
  type : FragmentType := FragmentType.Invalid
  principal_fragment : Bool := false
  layout_width : ℚ := 0
  ascent : ℚ := 0
  descent : ℚ := 0
  overflow_handle : LayoutOverflowHandle := 0
  fragment_handle : LayoutFragmentHandle := 0
  text : String := ""
  deriving DecidableEq, Repr

/-- The virtual interface of `InlineLevelBox` that the line box uses. `CreateFragment` takes
`(mode, available_width, right_spacing_width, first_box, in_overflow_handle)`. -/
structure InlineLevelBox where
  CreateFragment : InlineLayoutMode → ℚ → ℚ → Bool → LayoutOverflowHandle → FragmentResult
  GetSpacingLeft : ℚ := 0
  GetSpacingRight : ℚ := 0
  GetVerticalAlign : VerticalAlign := VerticalAlign.Baseline
  GetHeightAboveBaseline : ℚ := 0
  GetDepthBelowBaseline : ℚ := 0
  GetVerticalOffsetFromParent : ℚ := 0

/-- The objects behind the box pointers. -/
abbrev BoxHeap := BoxPtr → InlineLevelBox

/-- Modelled from the spec: the structure `LayoutLineBox::Fragment` (declared in
`LayoutLineBox.h`, not part of the sources at hand) with the fields of the data model of
the spec; the default values are those of a fragment made by `fragments.push_back({})`:
no parent, no aligned subtree root, no content, no split, `children_end_index = 0`. -/
structure Fragment where
  box : BoxPtr := 0
  fragment_handle : LayoutFragmentHandle := 0
  type : FragmentType := FragmentType.Invalid
  vertical_align : VerticalAlign := VerticalAlign.Baseline
  position : Vector2f := {}
  layout_width : ℚ := 0
  parent_fragment : Int := -1
  aligned_subtree_root : Int := -1
  baseline_offset : ℚ := 0
  max_ascent : ℚ := 0
  max_descent : ℚ := 0
  has_content : Bool := false
  split_left : Bool := false
  split_right : Bool := false
  children_end_index : Int := 0
  deriving DecidableEq, Repr

instance : Inhabited Fragment := ⟨{}⟩

/-- Modelled from the spec: the data members of `LayoutLineBox` (declared in
`LayoutLineBox.h`, not part of the sources at hand): the fragments, the stack of open
fragments and the layout cursor state. A new line box is empty, with both cursors at zero. -/
structure LayoutLineBox where
  fragments : List Fragment := []
  open_fragments : List Int := []
  box_cursor : ℚ := 0
  open_spacing_left : ℚ := 0
  line_position : Vector2f := {}
  line_width : ℚ := 0
  offset_horizontal_alignment : ℚ := 0
  total_height_above_baseline : ℚ := 0
  is_closed : Bool := false
  deriving DecidableEq, Repr

/-- The arguments of one call of `InlineLevelBox::CreateFragment`. -/
structure CreateFragmentCall where
  box : BoxPtr
  mode : InlineLayoutMode
  available_width : ℚ
  right_spacing_width : ℚ
  first_box : Bool
  in_overflow_handle : LayoutOverflowHandle
  deriving DecidableEq, Repr

/-- What `AddBox` leaves behind: its return value, the line, the in/out overflow handle and
the calls of `CreateFragment` it made. -/
structure AddBoxResult where
  continue_on_new_line : Bool
  line : LayoutLineBox
  inout_overflow_handle : LayoutOverflowHandle
  calls : List CreateFragmentCall
  deriving DecidableEq, Repr

/-! ## Binary32 arithmetic -/

/-- The integer nearest to `x`; of two nearest integers the even one. -/
def Binary32.roundHalfEven (x : ℚ) : Int :=
  if x - (Int.floor x : ℚ) < 1 / 2 then Int.floor x
  else if 1 / 2 < x - (Int.floor x : ℚ) then Int.floor x + 1
  else if Int.floor x % 2 = 0 then Int.floor x else Int.floor x + 1

/-- The number of halvings that bring `n` below `2 ^ 24`, the size of the significand of a
single-precision value (`fuel` bounds the search). -/
def Binary32.droppedBits : Nat → Nat → Nat
  | 0, _ => 0
  | fuel + 1, n => if n < 2 ^ 24 then 0 else Binary32.droppedBits fuel (n / 2) + 1

/-- The binade of `x`, counted from the lowest one: every single-precision value is a multiple
of `2 ^ (-149)`, and a value of magnitude between `2 ^ (k + 23 - 149)` and
`2 ^ (k + 24 - 149)` with `k > 0` is a multiple of `2 ^ (k - 149)`. The subnormal values and
the first normal binade have `k = 0`; the largest finite value has `k = 253`. -/
def Binary32.shift (x : ℚ) : Nat := Binary32.droppedBits 254 (Int.floor (|x| * 2 ^ 149)).toNat

/-- The distance between neighbouring single-precision values in the binade of `x`. -/
def Binary32.ulp (x : ℚ) : ℚ := 2 ^ Binary32.shift x / 2 ^ 149

/-- The single-precision value nearest to `x`, ties to even: the rounding of IEEE 754
binary32 arithmetic. A result beyond the largest finite value (an infinity in the source) is
outside the model. -/
def Binary32.round (x : ℚ) : ℚ := (Binary32.roundHalfEven (x / Binary32.ulp x) : ℚ) * Binary32.ulp x

/-- The rational `x` is a single-precision value: rounding leaves it as it is. Every `float`
of the source is one. -/
def Binary32.IsValue (x : ℚ) : Prop := Binary32.round x = x

/-! ## Array access -/

/-- The expression `fragments[index]`, read. -/
def getFragment (fragments : List Fragment) (index : Int) : Fragment :=
  if index < 0 then default else fragments.getD index.toNat default

/-- The expression `fragments[index]`, updated in place by `f`. -/
def modifyFragment (fragments : List Fragment) (index : Int)
    (f : Fragment → Fragment) : List Fragment :=
  if index < 0 then fragments else fragments.modify f index.toNat

/-- The function `Math::RoundUpFloat`. -/
def RoundUpFloat (value : ℚ) : ℚ := ((Int.ceil value : Int) : ℚ)

/-! ## Helpers declared in `LayoutLineBox.h` -/

/-- Modelled from the spec: `LayoutLineBox::HasContent` (defined in `LayoutLineBox.h`, not
part of the sources at hand): a box is the first box on the line when the line holds no
fragment yet. -/
def LayoutLineBox.HasContent (self : LayoutLineBox) : Bool :=
  !self.fragments.isEmpty

/-- Modelled from the spec: `LayoutLineBox::GetOpenParent` (defined in `LayoutLineBox.h`,
not part of the sources at hand): the currently deepest open fragment, or the root index
when no fragment is open. -/
def LayoutLineBox.GetOpenParent (self : LayoutLineBox) : Int :=
  self.open_fragments.getLastD RootFragmentIndex

/-- Modelled from the spec: `LayoutLineBox::IsAlignedSubtreeRoot` (defined in
`LayoutLineBox.h`, not part of the sources at hand). The spec words the test in two ways.
This definition follows step 4 of its `Close` ("Top-aligned → `max_ascent` (of its subtree,
i.e. pinned to the subtree top)") and its remark that any vertical-align other than `Top` or
`Bottom` of a root is a programming error: a fragment is the root of an aligned subtree when
its vertical-align is `Top` or `Bottom`. It is the reading under which `Close` passes its own
checks: the switch over the vertical-align of a fragment that passes the test handles `Top`
and `Bottom` and reports an error for any other value, and the position pass asserts that a
fragment with any other value does not pass the test. The other wording of the spec
("vertical-align ∉ {Top, Bottom}") is `IsAlignedSubtreeRootAsSpecified`. The methods in
binary32 arithmetic take the test as a parameter. -/
def IsAlignedSubtreeRoot (fragment : Fragment) : Bool :=
  fragment.vertical_align = VerticalAlign.Top || fragment.vertical_align = VerticalAlign.Bottom

/-- The walk of `DetermineAlignedSubtreeRoot`: from `index` up the chain of
`parent_fragment` to the first fragment that is an aligned subtree root. Every step moves to
another fragment of the array, so `fuel` = number of fragments + 1 steps are enough
whenever the chain has no cycle; the root index is the answer when the fuel runs out. -/
def DetermineAlignedSubtreeRootLoop (fragments : List Fragment) :
    Nat → Int → Int
  | 0, _ => RootFragmentIndex
  | fuel + 1, index =>
    if index = RootFragmentIndex then index
    else if IsAlignedSubtreeRoot (getFragment fragments index) then index
    else DetermineAlignedSubtreeRootLoop fragments fuel (getFragment fragments index).parent_fragment

/-- Modelled from the spec: `LayoutLineBox::DetermineAlignedSubtreeRoot` (defined in
`LayoutLineBox.h`, not part of the sources at hand): the nearest fragment, starting with
the fragment at `index` itself and going up through `parent_fragment`, that is the root of
an aligned subtree, or the root index when there is none. -/
def DetermineAlignedSubtreeRoot (fragments : List Fragment) (index : Int) :
    Int :=
  DetermineAlignedSubtreeRootLoop fragments (fragments.length + 1) index

/-! ## `LayoutLineBox::AddBox` -/

/-- The local `open_spacing_right` of `AddBox`: the right spacing of all open fragments. -/
def AddBox.open_spacing_right (heap : BoxHeap) (self : LayoutLineBox) : ℚ :=
  self.open_fragments.foldl
    (fun acc fragment_index => acc + (heap (getFragment self.fragments fragment_index).box).GetSpacingRight) 0

/-- The local `box_placement_cursor` of `AddBox`. -/
def AddBox.box_placement_cursor (self : LayoutLineBox) : ℚ :=
  self.box_cursor + self.open_spacing_left

/-- The early return of `AddBox`: the rounded available width is negative under `WrapAny`. -/
def AddBox.no_width_available (self : LayoutLineBox) (layout_mode : InlineLayoutMode)
    (line_width : ℚ) : Bool :=
  decide (layout_mode ≠ InlineLayoutMode.Nowrap) &&
    (decide (RoundUpFloat (line_width - AddBox.box_placement_cursor self) < 0) &&
      decide (layout_mode = InlineLayoutMode.WrapAny))

/-- The local `available_width` of `AddBox` at the call of `CreateFragment`. -/
def AddBox.available_width (self : LayoutLineBox) (layout_mode : InlineLayoutMode)
    (line_width : ℚ) : ℚ :=
  if layout_mode ≠ InlineLayoutMode.Nowrap then
    (if RoundUpFloat (line_width - AddBox.box_placement_cursor self) < 0 then 0
     else RoundUpFloat (line_width - AddBox.box_placement_cursor self))
  else FLT_MAX

/-- The call `box->CreateFragment(layout_mode, available_width, open_spacing_right, first_box,
inout_overflow_handle)` that `AddBox` makes. -/
def AddBox.call (heap : BoxHeap) (self : LayoutLineBox) (box : BoxPtr)
    (layout_mode : InlineLayoutMode) (line_width : ℚ)
    (inout_overflow_handle : LayoutOverflowHandle) : CreateFragmentCall :=
  { box := box
    mode := layout_mode
    available_width := AddBox.available_width self layout_mode line_width
    right_spacing_width := AddBox.open_spacing_right heap self
    first_box := !self.HasContent
    in_overflow_handle := inout_overflow_handle }

/-- The result of a call of `CreateFragment`: virtual dispatch on the object at `call.box`. -/
def CreateFragmentCall.invoke (heap : BoxHeap) (call : CreateFragmentCall) : FragmentResult :=
  (heap call.box).CreateFragment call.mode call.available_width call.right_spacing_width
    call.first_box call.in_overflow_handle

/-- The fragment that `AddBox` appends, before `aligned_subtree_root` is determined. -/
def AddBox.new_fragment (heap : BoxHeap) (self : LayoutLineBox) (box : BoxPtr)
    (fragment : FragmentResult) : Fragment :=
  { box := box
    fragment_handle := fragment.fragment_handle
    type := fragment.type
    vertical_align := (heap box).GetVerticalAlign
    position := { x := AddBox.box_placement_cursor self, y := 0 }
    layout_width := fragment.layout_width
    parent_fragment := self.GetOpenParent }

/-- The fragment that `AddBox` appends, as it is stored: with `aligned_subtree_root`
determined on the array that already holds the fragment. -/
def AddBox.appended_fragment (heap : BoxHeap) (self : LayoutLineBox) (box : BoxPtr)
    (fragment : FragmentResult) : Fragment :=
  { AddBox.new_fragment heap self box fragment with
    aligned_subtree_root := DetermineAlignedSubtreeRoot
      (self.fragments ++ [AddBox.new_fragment heap self box fragment]) (self.fragments.length : Int) }

/-- The method `LayoutLineBox::AddBox`. -/
def LayoutLineBox.AddBox (heap : BoxHeap) (self : LayoutLineBox) (box : BoxPtr)
    (layout_mode : InlineLayoutMode) (line_width : ℚ)
    (inout_overflow_handle : LayoutOverflowHandle) : AddBoxResult :=
  if AddBox.no_width_available self layout_mode line_width then
    { continue_on_new_line := true, line := self,
      inout_overflow_handle := inout_overflow_handle, calls := [] }
  else
    let call := AddBox.call heap self box layout_mode line_width inout_overflow_handle
    let fragment := call.invoke heap
    if fragment.type = FragmentType.Invalid then
      { continue_on_new_line := true, line := self, inout_overflow_handle := 0,
        calls := [call] }
    else
      let fragment_index : Int := (self.fragments.length : Int)
      let pushed := self.fragments ++ [AddBox.new_fragment heap self box fragment]
      let fragments := modifyFragment pushed fragment_index
        (fun f => { f with aligned_subtree_root := DetermineAlignedSubtreeRoot pushed fragment_index })
      match fragment.type with
      | FragmentType.InlineBox =>
        { continue_on_new_line := false
          line := { self with
            fragments := fragments
            open_fragments := self.open_fragments ++ [fragment_index]
            open_spacing_left := self.open_spacing_left + (heap box).GetSpacingLeft }
          inout_overflow_handle := 0
          calls := [call] }
      | FragmentType.SizedBox | FragmentType.TextRun =>
        { continue_on_new_line := decide (fragment.overflow_handle ≠ 0)
          line := { self with
            fragments := self.open_fragments.foldl
              (fun fs index => modifyFragment fs index (fun f => { f with has_content := true }))
              fragments
            box_cursor := AddBox.box_placement_cursor self + fragment.layout_width
            open_spacing_left := 0 }
          inout_overflow_handle :=
            if fragment.overflow_handle ≠ 0 then fragment.overflow_handle else 0
          calls := [call] }
      | FragmentType.Invalid =>
        { continue_on_new_line := false
          line := { self with fragments := fragments }
          inout_overflow_handle := 0
          calls := [call] }

/-- A run of `AddBox` over a sequence of new boxes (each enters with an empty overflow
handle) on one line: the line after the last call and the return value of every call. -/
def AddBoxes (heap : BoxHeap) (layout_mode : InlineLayoutMode) (line_width : ℚ) :
    LayoutLineBox → List BoxPtr → LayoutLineBox × List Bool
  | self, [] => (self, [])
  | self, box :: boxes =>
    let result := self.AddBox heap box layout_mode line_width 0
    let rest := AddBoxes heap layout_mode line_width result.line boxes
    (rest.1, result.continue_on_new_line :: rest.2)

/-! ## `LayoutLineBox::CloseFragment`, `CloseInlineBox` and `SplitLine` -/

/-- The method `LayoutLineBox::CloseFragment`: the fragment array after the call. -/
def CloseFragment (heap : BoxHeap) (fragments : List Fragment) (open_fragment_index : Int)
    (right_inner_edge_position : ℚ) : List Fragment :=
  modifyFragment fragments open_fragment_index (fun open_fragment =>
    { open_fragment with
      children_end_index := (fragments.length : Int)
      layout_width := max (right_inner_edge_position - open_fragment.position.x -
        (if open_fragment.split_left then 0 else (heap open_fragment.box).GetSpacingLeft)) 0 })

/-- The method `LayoutLineBox::CloseInlineBox`: the line after the call, and the message
passed to `RMLUI_ERRORMSG` if there is one. -/
def LayoutLineBox.CloseInlineBox (heap : BoxHeap) (self : LayoutLineBox) (inline_box : BoxPtr) :
    LayoutLineBox × Option String :=
  if self.open_fragments.isEmpty ∨
      (getFragment self.fragments (self.open_fragments.getLastD RootFragmentIndex)).box ≠ inline_box then
    (self, some "Inline box open/close mismatch.")
  else
    let box_cursor := self.box_cursor + self.open_spacing_left
    let back := self.open_fragments.getLastD RootFragmentIndex
    let fragments := CloseFragment heap self.fragments back box_cursor
    let closed_fragment := getFragment fragments back
    ({ self with
        fragments := fragments
        box_cursor := box_cursor + (heap closed_fragment.box).GetSpacingRight
        open_spacing_left := 0
        open_fragments := self.open_fragments.dropLast }, none)

/-- The first loop of `SplitLine`, one iteration: the open fragment at `fragment_index` of
the line being split is copied to the end of `new_line`. -/
def SplitLine.copyOpenFragment (heap : BoxHeap) (fragments : List Fragment)
    (new_line : LayoutLineBox) (fragment_index : Int) : LayoutLineBox :=
  let new_index : Int := (new_line.fragments.length : Int)
  let pushed := new_line.fragments ++ [getFragment fragments fragment_index]
  let positioned := modifyFragment pushed new_index (fun fragment =>
    { fragment with
      position := { fragment.position with x := new_line.box_cursor }
      parent_fragment := new_index - 1 })
  let rooted := modifyFragment positioned new_index (fun fragment =>
    { fragment with aligned_subtree_root := DetermineAlignedSubtreeRoot positioned new_index })
  if (getFragment rooted new_index).has_content then
    { new_line with
      fragments := modifyFragment rooted new_index (fun fragment =>
        { fragment with split_left := true, has_content := false }) }
  else
    { new_line with
      fragments := rooted
      open_spacing_left := new_line.open_spacing_left +
        (heap (getFragment rooted new_index).box).GetSpacingLeft }

/-- The second loop of `SplitLine`, one iteration: an open fragment that has content is
closed at the box cursor and marked as split on its right side. -/
def SplitLine.closeOpenFragment (heap : BoxHeap) (box_cursor : ℚ) (fragments : List Fragment)
    (fragment_index : Int) : List Fragment :=
  if (getFragment fragments fragment_index).has_content then
    modifyFragment (CloseFragment heap fragments fragment_index box_cursor) fragment_index
      (fun closed_fragment => { closed_fragment with split_right := true })
  else fragments

/-- The method `LayoutLineBox::SplitLine`: the line after the call, and the new line
(`none` for `nullptr`). -/
def LayoutLineBox.SplitLine (heap : BoxHeap) (self : LayoutLineBox) :
    LayoutLineBox × Option LayoutLineBox :=
  if self.open_fragments.isEmpty then (self, none)
  else
    let copied := self.open_fragments.foldl (SplitLine.copyOpenFragment heap self.fragments) {}
    let fragments := self.open_fragments.reverse.foldl
      (SplitLine.closeOpenFragment heap self.box_cursor) self.fragments
    let new_line : LayoutLineBox :=
      { copied with
        open_fragments := (List.range self.open_fragments.length).map (fun i : Nat => (i : Int)) }
    ({ self with fragments := fragments, open_fragments := [] }, some new_line)

/-- The fragment of an open inline box with content after `SplitLine` closed it at
`box_cursor` on a line of `count` fragments: `CloseFragment` and `split_right = true`. -/
def SplitLine.closed_fragment (heap : BoxHeap) (box_cursor : ℚ) (count : Nat)
    (fragment : Fragment) : Fragment :=
  { fragment with
    children_end_index := (count : Int)
    layout_width := max (box_cursor - fragment.position.x -
      (if fragment.split_left then 0 else (heap fragment.box).GetSpacingLeft)) 0
    split_right := true }

/-- The copy of the open fragment `source` that `SplitLine` appends to the new line, after the
fragments `before` that the new line already holds and with the new line at `box_cursor`. -/
def SplitLine.clone (source : Fragment) (before : List Fragment) (box_cursor : ℚ) : Fragment :=
  { source with
    position := { source.position with x := box_cursor }
    parent_fragment := (before.length : Int) - 1
    aligned_subtree_root := DetermineAlignedSubtreeRoot
      (before ++ [{ source with
        position := { source.position with x := box_cursor }
        parent_fragment := (before.length : Int) - 1 }]) (before.length : Int)
    split_left := source.has_content || source.split_left
    has_content := false }

/-! ## `LayoutLineBox::VerticallyAlignSubtree` and `Close` -/

/-- The addition of `Vector2f`. -/
instance : Add Vector2f := ⟨fun a b => { x := a.x + b.x, y := a.y + b.y }⟩

/-- Modelled from the spec: the structure `FragmentBox` (declared in
`LayoutInlineLevelBox.h`, not part of the sources at hand), with the six members that `Close`
initialises in order: the offset parent (an `Element*`, an address), the fragment handle, the
position, the width and the two split flags. -/
structure FragmentBox where
  offset_parent : Nat
  fragment_handle : LayoutFragmentHandle
  position : Vector2f
  layout_width : ℚ
  split_left : Bool
  split_right : Bool
  deriving DecidableEq, Repr

/-- One call `box->Submit(fragment_box)`. -/
structure SubmitCall where
  box : BoxPtr
  fragment_box : FragmentBox
  deriving DecidableEq, Repr

/-- The fragment array and the two running maxima that `VerticallyAlignSubtree` updates
through its reference parameters `max_ascent` and `max_descent`. -/
structure VerticalAlignment where
  fragments : List Fragment
  max_ascent : ℚ
  max_descent : ℚ
  deriving DecidableEq, Repr

/-- The indices `first, first + 1, ..., last - 1` of a `for` loop over `int`. -/
def indexRange (first last : Int) : List Int :=
  (List.range (last - first).toNat).map (fun k : Nat => first + (k : Int))

/-- The body of the loop of `VerticallyAlignSubtree` for the fragment at index `i`. -/
def VerticallyAlignSubtree.step (heap : BoxHeap) (subtree_root_index : Int)
    (state : VerticalAlignment) (i : Int) : VerticalAlignment :=
  let fragment := getFragment state.fragments i
  if fragment.aligned_subtree_root ≠ subtree_root_index then state
  else
    let parent_absolute_baseline : ℚ :=
      if fragment.parent_fragment < 0 then 0
      else (getFragment state.fragments fragment.parent_fragment).baseline_offset
    let baseline_offset := parent_absolute_baseline + (heap fragment.box).GetVerticalOffsetFromParent
    let fragments := modifyFragment state.fragments i
      (fun f => { f with baseline_offset := baseline_offset })
    if fragment.type ≠ FragmentType.TextRun then
      { fragments := fragments
        max_ascent := max state.max_ascent
          ((heap fragment.box).GetHeightAboveBaseline - baseline_offset)
        max_descent := max state.max_descent
          ((heap fragment.box).GetDepthBelowBaseline + baseline_offset) }
    else
      { fragments := fragments
        max_ascent := state.max_ascent
        max_descent := state.max_descent }

/-- The method `LayoutLineBox::VerticallyAlignSubtree`: the fragment array and the values of
the reference parameters `max_ascent` and `max_descent` after the call. -/
def VerticallyAlignSubtree (heap : BoxHeap) (fragments : List Fragment)
    (subtree_root_index children_end_index : Int) (max_ascent max_descent : ℚ) :
    VerticalAlignment :=
  (indexRange (subtree_root_index + 1) children_end_index).foldl
    (VerticallyAlignSubtree.step heap subtree_root_index)
    { fragments := fragments, max_ascent := max_ascent, max_descent := max_descent }

/-- The loop of `Close` over the aligned subtrees, one iteration: when the fragment at index
`i` is the root of an aligned subtree, the subtree is aligned and sized on its own, and the
line (`state.max_ascent`, `state.max_descent`) grows to fit it. The switch over the
vertical-align is the chain of tests; its default case is `RMLUI_ERROR`. -/
def Close.alignSubtree (heap : BoxHeap) (state : VerticalAlignment) (i : Int) :
    VerticalAlignment :=
  let fragment := getFragment state.fragments i
  if IsAlignedSubtreeRoot fragment then
    let subtree : VerticalAlignment :=
      if fragment.type = FragmentType.InlineBox then
        VerticallyAlignSubtree heap state.fragments i fragment.children_end_index
          (heap fragment.box).GetHeightAboveBaseline (heap fragment.box).GetDepthBelowBaseline
      else
        { fragments := state.fragments
          max_ascent := (heap fragment.box).GetHeightAboveBaseline
          max_descent := (heap fragment.box).GetDepthBelowBaseline }
    let fragments := modifyFragment subtree.fragments i
      (fun f => { f with max_ascent := subtree.max_ascent, max_descent := subtree.max_descent })
    if fragment.vertical_align = VerticalAlign.Top then
      { fragments := fragments
        max_ascent := state.max_ascent
        max_descent := max state.max_descent
          (subtree.max_ascent + subtree.max_descent - state.max_ascent) }
    else if fragment.vertical_align = VerticalAlign.Bottom then
      { fragments := fragments
        max_ascent := max state.max_ascent
          (subtree.max_ascent + subtree.max_descent - state.max_descent)
        max_descent := state.max_descent }
    else
      { fragments := fragments
        max_ascent := state.max_ascent
        max_descent := state.max_descent }
  else state

/-- The vertical sizing of `Close`: the root inline box is the first aligned subtree (root
index -1, all fragments), then every aligned subtree in the order of the fragments. The
result holds the locals `max_ascent` and `max_descent` at the line `// Size the line.` -/
def Close.sized (heap : BoxHeap) (fragments : List Fragment) (root_inline_box : BoxPtr) :
    VerticalAlignment :=
  (indexRange 0 (fragments.length : Int)).foldl (Close.alignSubtree heap)
    (VerticallyAlignSubtree heap fragments (-1) (fragments.length : Int)
      (heap root_inline_box).GetHeightAboveBaseline (heap root_inline_box).GetDepthBelowBaseline)

/-- The switch of the loop of `Close` that sets the vertical position: the value that is
assigned to `fragment.position.y` for the fragment at index `i`. -/
def Close.verticalPosition (max_ascent out_height_of_line : ℚ) (fragments : List Fragment)
    (i : Int) : ℚ :=
  let fragment := getFragment fragments i
  if fragment.vertical_align = VerticalAlign.Top then fragment.max_ascent
  else if fragment.vertical_align = VerticalAlign.Bottom then
    out_height_of_line - fragment.max_descent
  else
    (if fragment.aligned_subtree_root < 0 then max_ascent
     else (getFragment fragments fragment.aligned_subtree_root).position.y) +
      fragment.baseline_offset

/-- The loop of `Close` that sets the vertical position, one iteration. -/
def Close.positionFragment (max_ascent out_height_of_line : ℚ) (fragments : List Fragment)
    (i : Int) : List Fragment :=
  modifyFragment fragments i (fun f => { f with position := { f.position with
    y := Close.verticalPosition max_ascent out_height_of_line fragments i } })

/-- The vertical pass of `Close` on a fragment array: sized, then positioned. -/
def Close.positioned (heap : BoxHeap) (fragments : List Fragment) (root_inline_box : BoxPtr) :
    List Fragment :=
  (indexRange 0 (fragments.length : Int)).foldl
    (Close.positionFragment (Close.sized heap fragments root_inline_box).max_ascent
      ((Close.sized heap fragments root_inline_box).max_ascent +
        (Close.sized heap fragments root_inline_box).max_descent))
    (Close.sized heap fragments root_inline_box).fragments

/-- The horizontal alignment of `Close`: the value of `offset_horizontal_alignment`. -/
def Close.horizontalOffset (self : LayoutLineBox) (text_align : TextAlign) : ℚ :=
  if self.box_cursor < self.line_width then
    match text_align with
    | TextAlign.Center => (self.line_width - self.box_cursor) * (1 / 2)
    | TextAlign.Right => self.line_width - self.box_cursor
    | TextAlign.Left => self.offset_horizontal_alignment
    | TextAlign.Justify => self.offset_horizontal_alignment
  else self.offset_horizontal_alignment

/-- The submission loop of `Close`, one iteration: the call of `Submit` for a fragment, none
for an inline box that has not been closed. -/
def Close.submit (offset_parent : Nat) (line_position : Vector2f)
    (offset_horizontal_alignment : ℚ) (fragment : Fragment) : Option SubmitCall :=
  if fragment.type = FragmentType.InlineBox ∧ fragment.children_end_index = 0 then none
  else some
    { box := fragment.box
      fragment_box :=
        { offset_parent := offset_parent
          fragment_handle := fragment.fragment_handle
          position := line_position + fragment.position +
            { x := offset_horizontal_alignment, y := 0 }
          layout_width := fragment.layout_width
          split_left := fragment.split_left
          split_right := fragment.split_right } }

/-- What `Close` leaves behind: the returned continuation line, the line itself, the
out-parameter `out_height_of_line` and the calls of `Submit` in the order they are made. -/
structure CloseResult where
  new_line_box : Option LayoutLineBox
  line : LayoutLineBox
  out_height_of_line : ℚ
  submitted : List SubmitCall
  deriving DecidableEq, Repr

/-- The method `LayoutLineBox::Close`. The parameter `line_position` hides the member of the
same name; `line_width` is the member. -/
def LayoutLineBox.Close (heap : BoxHeap) (self : LayoutLineBox) (root_inline_box : BoxPtr)
    (offset_parent : Nat) (line_position : Vector2f) (text_align : TextAlign) : CloseResult :=
  let split := self.SplitLine heap
  let sized := Close.sized heap split.1.fragments root_inline_box
  let fragments := Close.positioned heap split.1.fragments root_inline_box
  let offset_horizontal_alignment := Close.horizontalOffset split.1 text_align
  { new_line_box := split.2
    line := { split.1 with
      fragments := fragments
      offset_horizontal_alignment := offset_horizontal_alignment
      total_height_above_baseline := sized.max_ascent
      is_closed := true }
    out_height_of_line := sized.max_ascent + sized.max_descent
    submitted := fragments.filterMap
      (Close.submit offset_parent line_position offset_horizontal_alignment) }

/-- Modelled from the spec: the macro `RMLUI_ASSERT` (defined in `Debug.h`, not part of the
sources at hand) is fatal in a debug build and expands to nothing in a release build. `Close`
with `assertions_enabled` stops at its first statement `RMLUI_ASSERT(!is_closed)` when the
line is closed already, and has no result then; otherwise the call goes on as `Close`. -/
def LayoutLineBox.CloseChecked (assertions_enabled : Bool) (heap : BoxHeap)
    (self : LayoutLineBox) (root_inline_box : BoxPtr) (offset_parent : Nat)
    (line_position : Vector2f) (text_align : TextAlign) : Option CloseResult :=
  if assertions_enabled && self.is_closed then none
  else some (self.Close heap root_inline_box offset_parent line_position text_align)

/-- The method `LayoutLineBox::SetLineBox`. -/
def LayoutLineBox.SetLineBox (self : LayoutLineBox) (line_position : Vector2f) (line_width : ℚ) :
    LayoutLineBox :=
  { self with line_position := line_position, line_width := line_width }

/-- The method `LayoutLineBox::GetExtentRight`. -/
def LayoutLineBox.GetExtentRight (self : LayoutLineBox) : ℚ :=
  self.box_cursor + self.offset_horizontal_alignment

/-- The method `LayoutLineBox::GetBaseline`. -/
def LayoutLineBox.GetBaseline (self : LayoutLineBox) : ℚ :=
  self.total_height_above_baseline

/-! ## `InlineLevelBox_Text::CreateFragment` -/

/-- What `ElementText::GenerateLine` answers: its return value (true when the rest of the
text fit on the line) and its out-parameters `line`, `line_length` and `line_width`. -/
structure GenerateLineResult where
  fits : Bool
  line : String
  line_length : Int
  line_width : ℚ
  deriving DecidableEq, Repr

/-- The arguments of a call of `ElementText::GenerateLine`, without the out-parameters. -/
structure GenerateLineCall where
  line_begin : Int
  maximum_line_width : ℚ
  right_spacing_width : ℚ
  first_box : Bool
  decode_escape_characters : Bool
  allow_empty : Bool
  deriving DecidableEq, Repr

/-- Modelled from the spec: the text element with its line generator
`ElementText::GenerateLine` (declared in `ElementText.h`, not part of the sources at hand):
given the start offset, the available width, the reserved right spacing and the flags, it
answers with the text that fits, its length, its width and whether all fit. -/
structure ElementText where
  GenerateLine : GenerateLineCall → GenerateLineResult

/-- The call of `GenerateLine` that `InlineLevelBox_Text::CreateFragment` makes. -/
def InlineLevelBox_Text.generateLineCall (mode : InlineLayoutMode) (available_width : ℚ)
    (right_spacing_width : ℚ) (first_box : Bool) (in_overflow_handle : LayoutOverflowHandle) :
    GenerateLineCall :=
  { line_begin := in_overflow_handle
    maximum_line_width := available_width
    right_spacing_width := right_spacing_width
    first_box := first_box
    decode_escape_characters := true
    allow_empty := decide (mode = InlineLayoutMode.WrapAny) }

/-- The method `InlineLevelBox_Text::CreateFragment`. The locals `line_begin` and
`line_length` are `int`, and so is their sum `line_begin + line_length`. -/
def InlineLevelBox_Text.CreateFragment (text_element : ElementText) (mode : InlineLayoutMode)
    (available_width : ℚ) (right_spacing_width : ℚ) (first_box : Bool)
    (in_overflow_handle : LayoutOverflowHandle) : FragmentResult :=
  let line_begin : Int := in_overflow_handle
  let generated := text_element.GenerateLine (InlineLevelBox_Text.generateLineCall mode
    available_width right_spacing_width first_box in_overflow_handle)
  let overflow := !generated.fits
  if overflow ∧ generated.line.isEmpty then {}
  else
    { type := FragmentType.TextRun
      principal_fragment := decide (line_begin = 0)
      layout_width := generated.line_width
      ascent := 0
      descent := 0
      overflow_handle := if overflow then wrapInt (line_begin + generated.line_length) else 0
      text := generated.line }

/-- The open fragments of a line are well formed: the stack holds no index twice, and every
index on it is the index of an inline-box fragment that is not closed. -/
def OpenFragmentsValid (line : LayoutLineBox) : Prop :=
  line.open_fragments.Nodup ∧
  ∀ index ∈ line.open_fragments, 0 ≤ index ∧ index < (line.fragments.length : Int) ∧
    (getFragment line.fragments index).type = FragmentType.InlineBox ∧
    (getFragment line.fragments index).children_end_index = 0

/-! ## The parts of a fragment that the operations leave alone -/

/-- The fragment without what the vertical pass of `Close` writes: the vertical position,
the baseline offset and the two maxima. -/
def Fragment.layout (f : Fragment) : Fragment :=
  { f with
    position := { f.position with y := 0 }
    baseline_offset := 0
    max_ascent := 0
    max_descent := 0 }

/-- The fragment without its baseline offset, the one field that `VerticallyAlignSubtree`
writes. -/
def Fragment.eraseBaseline (f : Fragment) : Fragment :=
  { f with baseline_offset := 0 }

/-- The fragment without its vertical position, the one field that the position loop of
`Close` writes. -/
def Fragment.eraseY (f : Fragment) : Fragment :=
  { f with position := { f.position with y := 0 } }

/-- The fragment without the two maxima that the sizing loop of `Close` stores in the root of
an aligned subtree. -/
def Fragment.eraseMaxima (f : Fragment) : Fragment :=
  { f with max_ascent := 0, max_descent := 0 }

/-- The fragment without what `AddBox` (on earlier fragments), `CloseFragment` and `SplitLine`
(on the line that is split) write: the width, the content and split flags and the end of the
children. -/
def Fragment.tree (f : Fragment) : Fragment :=
  { f with
    layout_width := 0
    has_content := false
    split_left := false
    split_right := false
    children_end_index := 0 }

/-- The fragment array of a line that is not closed is well formed: every fragment has its
parent before it, the parent is an inline box, the aligned subtree root is the fragment
itself when it is the root of an aligned subtree and the aligned subtree root of its parent
otherwise (none without a parent), and nothing of the vertical pass is written yet. -/
def FragmentsValid (fragments : List Fragment) : Prop :=
  ∀ (i : Nat) (f : Fragment), fragments[i]? = some f →
    -1 ≤ f.parent_fragment ∧ f.parent_fragment < (i : Int) ∧
    (f.parent_fragment ≠ -1 →
      (getFragment fragments f.parent_fragment).type = FragmentType.InlineBox) ∧
    f.aligned_subtree_root =
      (if IsAlignedSubtreeRoot f then (i : Int)
       else if f.parent_fragment < 0 then -1
       else (getFragment fragments f.parent_fragment).aligned_subtree_root) ∧
    f.baseline_offset = 0 ∧ f.max_ascent = 0 ∧ f.max_descent = 0 ∧ f.position.y = 0

/-- The chain of `parent_fragment` from the fragment at `index` up to the top level:
`[index, parent, parent of the parent, ...]`; `fuel` bounds its length. -/
def parentChain (fragments : List Fragment) : Nat → Int → List Int
  | 0, _ => []
  | fuel + 1, index =>
    if index < 0 then []
    else index :: parentChain fragments fuel (getFragment fragments index).parent_fragment

/-- The sum of `GetVerticalOffsetFromParent` over the fragment at `index` and its ancestors
up to, but not including, the fragment at `subtree_root` (up to the top level when
`subtree_root` is -1); `fuel` bounds the length of the chain. -/
def baselineOffsetSum (heap : BoxHeap) (fragments : List Fragment) (subtree_root : Int) :
    Nat → Int → ℚ
  | 0, _ => 0
  | fuel + 1, index =>
    if index < 0 ∨ index = subtree_root then 0
    else (heap (getFragment fragments index).box).GetVerticalOffsetFromParent +
      baselineOffsetSum heap fragments subtree_root fuel
        (getFragment fragments index).parent_fragment

/-- The baseline offsets during the vertical pass of `Close` over the fragment array `fs`:
the state differs from `fs` only in what the pass writes, a fragment that has been visited
(`done`) holds the sum of the vertical offsets up to its aligned subtree root, and the root
of an aligned subtree holds 0. -/
def BaselineOffsetsAligned (heap : BoxHeap) (fs : List Fragment) (done : Nat → Prop)
    (state : List Fragment) : Prop :=
  state.map Fragment.layout = fs.map Fragment.layout ∧
  ∀ j : Nat, j < fs.length →
    (done j → (getFragment state (j : Int)).baseline_offset =
      baselineOffsetSum heap fs (getFragment fs (j : Int)).aligned_subtree_root fs.length
        (j : Int)) ∧
    (IsAlignedSubtreeRoot (getFragment fs (j : Int)) = true →
      (getFragment state (j : Int)).baseline_offset = 0)

/-- The fragment contract that `AddBox` asserts on the answer of `CreateFragment`: an
`InlineBox` fragment reports a negative width, a fixed-size fragment (`SizedBox` or
`TextRun`) a width that is not negative. -/
def RespectsFragmentContract (heap : BoxHeap) : Prop :=
  ∀ (box : BoxPtr) (mode : InlineLayoutMode) (available_width right_spacing_width : ℚ)
    (first_box : Bool) (in_overflow_handle : LayoutOverflowHandle),
    (((heap box).CreateFragment mode available_width right_spacing_width first_box
        in_overflow_handle).type = FragmentType.InlineBox →
      ((heap box).CreateFragment mode available_width right_spacing_width first_box
        in_overflow_handle).layout_width < 0) ∧
    ((((heap box).CreateFragment mode available_width right_spacing_width first_box
        in_overflow_handle).type = FragmentType.SizedBox ∨
      ((heap box).CreateFragment mode available_width right_spacing_width first_box
        in_overflow_handle).type = FragmentType.TextRun) →
      0 ≤ ((heap box).CreateFragment mode available_width right_spacing_width first_box
        in_overflow_handle).layout_width)

/-- The width of a fragment is set: the fragment is an inline box that is not closed yet, or
its width is not negative. -/
def FragmentWidthValid (f : Fragment) : Prop :=
  (f.type = FragmentType.InlineBox ∧ f.children_end_index = 0) ∨ 0 ≤ f.layout_width

/-- The stack of open fragments is the path from the implicit root of the line to the deepest
open inline box: from -1, each entry is larger than the entry before it and has it as its
`parent_fragment`; and every inline-box fragment with `children_end_index = 0` is on the
stack. -/
def OpenStackIsPath (line : LayoutLineBox) : Prop :=
  List.Chain (fun a b => a < b ∧ (getFragment line.fragments b).parent_fragment = a) (-1)
    line.open_fragments ∧
  ∀ (i : Nat) (f : Fragment), line.fragments[i]? = some f → f.type = FragmentType.InlineBox →
    f.children_end_index = 0 → (i : Int) ∈ line.open_fragments

/-- The proper ancestors of the fragment at `index` through the chain of `parent_fragment`,
nearest first. -/
def properAncestors (fragments : List Fragment) (index : Int) : List Int :=
  parentChain fragments fragments.length (getFragment fragments index).parent_fragment

/-- The descendants of an inline box follow it without a gap: for a closed inline-box fragment
at index `i` with `children_end_index = e`, `i < e ≤` number of fragments and the fragments
that have `i` among their ancestors are those at the indices between `i` and `e`; for an open
fragment on the stack they are all the fragments after it. -/
def ChildrenContiguous (fragments : List Fragment) (open_fragments : List Int) : Prop :=
  (∀ (i : Nat) (f : Fragment), fragments[i]? = some f → f.type = FragmentType.InlineBox →
    f.children_end_index ≠ 0 →
    (i : Int) < f.children_end_index ∧ f.children_end_index ≤ (fragments.length : Int) ∧
    ∀ j : Nat, j < fragments.length →
      ((i : Int) ∈ properAncestors fragments (j : Int) ↔
        (i : Int) < (j : Int) ∧ (j : Int) < f.children_end_index)) ∧
  (∀ s ∈ open_fragments, ∀ j : Nat, j < fragments.length →
    (s ∈ properAncestors fragments (j : Int) ↔ s < (j : Int)))

/-- The boxes have left and right spacing that is not negative, and their fixed-size
fragments (`SizedBox` or `TextRun`) have a width that is not negative. -/
def SpacingAndWidthsNonnegative (heap : BoxHeap) : Prop :=
  (∀ box : BoxPtr, 0 ≤ (heap box).GetSpacingLeft ∧ 0 ≤ (heap box).GetSpacingRight) ∧
  ∀ (box : BoxPtr) (mode : InlineLayoutMode) (available_width right_spacing_width : ℚ)
    (first_box : Bool) (in_overflow_handle : LayoutOverflowHandle),
    (((heap box).CreateFragment mode available_width right_spacing_width first_box
        in_overflow_handle).type = FragmentType.SizedBox ∨
      ((heap box).CreateFragment mode available_width right_spacing_width first_box
        in_overflow_handle).type = FragmentType.TextRun) →
      0 ≤ ((heap box).CreateFragment mode available_width right_spacing_width first_box
        in_overflow_handle).layout_width

/-- The left edge of the content range of an inline-box fragment: its position plus the left
spacing of its box, which a fragment that is split on its left does not have. This is what
`CloseFragment` subtracts from the right inner edge. -/
def contentLeft (heap : BoxHeap) (p : Fragment) : ℚ :=
  p.position.x + (if p.split_left then 0 else (heap p.box).GetSpacingLeft)

/-- The horizontal layout of a line that is not closed: the open spacing is not negative;
the content of every open inline box starts at or before the placement cursor
`box_cursor + open_spacing_left`, and at or before `box_cursor` once the box has content;
every fixed-size fragment has a width that is not negative, ends at or before `box_cursor`,
starts inside every open inline box before it, and lies inside the content range of every
closed inline box whose children range holds it. -/
def HorizontalLayoutValid (heap : BoxHeap) (line : LayoutLineBox) : Prop :=
  0 ≤ line.open_spacing_left ∧
  (∀ s ∈ line.open_fragments,
    contentLeft heap (getFragment line.fragments s) ≤ line.box_cursor + line.open_spacing_left ∧
    ((getFragment line.fragments s).has_content = true →
      contentLeft heap (getFragment line.fragments s) ≤ line.box_cursor)) ∧
  (∀ (j : Nat) (c : Fragment), line.fragments[j]? = some c →
    (c.type = FragmentType.SizedBox ∨ c.type = FragmentType.TextRun) →
    0 ≤ c.layout_width ∧ c.position.x + c.layout_width ≤ line.box_cursor ∧
    (∀ s ∈ line.open_fragments, s < (j : Int) →
      contentLeft heap (getFragment line.fragments s) ≤ c.position.x) ∧
    (∀ (i : Nat) (p : Fragment), line.fragments[i]? = some p →
      p.type = FragmentType.InlineBox → p.children_end_index ≠ 0 → i < j →
      (j : Int) < p.children_end_index →
      contentLeft heap p ≤ c.position.x ∧
      c.position.x + c.layout_width ≤ contentLeft heap p + p.layout_width))

/-! ## The operations in binary32 arithmetic

The methods of `LayoutLineBox.cpp` once more, statement by statement as above, with every
`+`, `-` and `*` on `float` rounded to single precision. What does no arithmetic
(`CreateFragmentCall.invoke`, `DetermineAlignedSubtreeRoot`, the array access) is shared. -/

/-- The local `open_spacing_right` of `AddBox`, summed up with `+=` on `float`. -/
def Binary32.AddBox.open_spacing_right (heap : BoxHeap) (self : LayoutLineBox) : ℚ :=
  self.open_fragments.foldl
    (fun acc fragment_index =>
      Binary32.round (acc + (heap (getFragment self.fragments fragment_index).box).GetSpacingRight)) 0

/-- The local `box_placement_cursor` of `AddBox`: `box_cursor + open_spacing_left` on
`float`. -/
def Binary32.AddBox.box_placement_cursor (self : LayoutLineBox) : ℚ :=
  Binary32.round (self.box_cursor + self.open_spacing_left)

/-- The value `Math::RoundUpFloat(line_width - box_placement_cursor)` of `AddBox`. The
rounding up of a single-precision value to an integer is exact. -/
def Binary32.AddBox.rounded_up_width (self : LayoutLineBox) (line_width : ℚ) : ℚ :=
  RoundUpFloat (Binary32.round (line_width - Binary32.AddBox.box_placement_cursor self))

/-- The early return of `AddBox`: the rounded available width is negative under `WrapAny`. -/
def Binary32.AddBox.no_width_available (self : LayoutLineBox) (layout_mode : InlineLayoutMode)
    (line_width : ℚ) : Bool :=
  decide (layout_mode ≠ InlineLayoutMode.Nowrap) &&
    (decide (Binary32.AddBox.rounded_up_width self line_width < 0) &&
      decide (layout_mode = InlineLayoutMode.WrapAny))

/-- The local `available_width` of `AddBox` at the call of `CreateFragment`. -/
def Binary32.AddBox.available_width (self : LayoutLineBox) (layout_mode : InlineLayoutMode)
    (line_width : ℚ) : ℚ :=
  if layout_mode ≠ InlineLayoutMode.Nowrap then
    (if Binary32.AddBox.rounded_up_width self line_width < 0 then 0
     else Binary32.AddBox.rounded_up_width self line_width)
  else FLT_MAX

/-- The call `box->CreateFragment(layout_mode, available_width, open_spacing_right, first_box,
inout_overflow_handle)` that `AddBox` makes. -/
def Binary32.AddBox.call (heap : BoxHeap) (self : LayoutLineBox) (box : BoxPtr)
    (layout_mode : InlineLayoutMode) (line_width : ℚ)
    (inout_overflow_handle : LayoutOverflowHandle) : CreateFragmentCall :=
  { box := box
    mode := layout_mode
    available_width := Binary32.AddBox.available_width self layout_mode line_width
    right_spacing_width := Binary32.AddBox.open_spacing_right heap self
    first_box := !self.HasContent
    in_overflow_handle := inout_overflow_handle }

/-- The fragment that `AddBox` appends, before `aligned_subtree_root` is determined. -/
def Binary32.AddBox.new_fragment (heap : BoxHeap) (self : LayoutLineBox) (box : BoxPtr)
    (fragment : FragmentResult) : Fragment :=
  { box := box
    fragment_handle := fragment.fragment_handle
    type := fragment.type
    vertical_align := (heap box).GetVerticalAlign
    position := { x := Binary32.AddBox.box_placement_cursor self, y := 0 }
    layout_width := fragment.layout_width
    parent_fragment := self.GetOpenParent }

/-- The fragment that `AddBox` appends in binary32 arithmetic, as it is stored: with
`aligned_subtree_root` determined on the array that already holds the fragment. -/
def Binary32.AddBox.appended_fragment (heap : BoxHeap) (self : LayoutLineBox) (box : BoxPtr)
    (fragment : FragmentResult) : Fragment :=
  { Binary32.AddBox.new_fragment heap self box fragment with
    aligned_subtree_root := DetermineAlignedSubtreeRoot
      (self.fragments ++ [Binary32.AddBox.new_fragment heap self box fragment])
      (self.fragments.length : Int) }

/-- The method `LayoutLineBox::AddBox` in binary32 arithmetic. -/
def Binary32.LayoutLineBox.AddBox (heap : BoxHeap) (self : LayoutLineBox) (box : BoxPtr)
    (layout_mode : InlineLayoutMode) (line_width : ℚ)
    (inout_overflow_handle : LayoutOverflowHandle) : AddBoxResult :=
  if Binary32.AddBox.no_width_available self layout_mode line_width then
    { continue_on_new_line := true, line := self,
      inout_overflow_handle := inout_overflow_handle, calls := [] }
  else
    let call := Binary32.AddBox.call heap self box layout_mode line_width inout_overflow_handle
    let fragment := call.invoke heap
    if fragment.type = FragmentType.Invalid then
      { continue_on_new_line := true, line := self, inout_overflow_handle := 0,
        calls := [call] }
    else
      let fragment_index : Int := (self.fragments.length : Int)
      let pushed := self.fragments ++ [Binary32.AddBox.new_fragment heap self box fragment]
      let fragments := modifyFragment pushed fragment_index
        (fun f => { f with aligned_subtree_root := DetermineAlignedSubtreeRoot pushed fragment_index })
      match fragment.type with
      | FragmentType.InlineBox =>
        { continue_on_new_line := false
          line := { self with
            fragments := fragments
            open_fragments := self.open_fragments ++ [fragment_index]
            open_spacing_left :=
              Binary32.round (self.open_spacing_left + (heap box).GetSpacingLeft) }
          inout_overflow_handle := 0
          calls := [call] }
      | FragmentType.SizedBox | FragmentType.TextRun =>
        { continue_on_new_line := decide (fragment.overflow_handle ≠ 0)
          line := { self with
            fragments := self.open_fragments.foldl
              (fun fs index => modifyFragment fs index (fun f => { f with has_content := true }))
              fragments
            box_cursor :=
              Binary32.round (Binary32.AddBox.box_placement_cursor self + fragment.layout_width)
            open_spacing_left := 0 }
          inout_overflow_handle :=
            if fragment.overflow_handle ≠ 0 then fragment.overflow_handle else 0
          calls := [call] }
      | FragmentType.Invalid =>
        { continue_on_new_line := false
          line := { self with fragments := fragments }
          inout_overflow_handle := 0
          calls := [call] }

/-- A run of `AddBox` in binary32 arithmetic over a sequence of new boxes (each enters with
an empty overflow handle) on one line: the line after the last call and the return value of
every call. -/
def Binary32.AddBoxes (heap : BoxHeap) (layout_mode : InlineLayoutMode) (line_width : ℚ) :
    LayoutLineBox → List BoxPtr → LayoutLineBox × List Bool
  | self, [] => (self, [])
  | self, box :: boxes =>
    let result := Binary32.LayoutLineBox.AddBox heap self box layout_mode line_width 0
    let rest := Binary32.AddBoxes heap layout_mode line_width result.line boxes
    (rest.1, result.continue_on_new_line :: rest.2)

/-- The method `LayoutLineBox::CloseFragment` in binary32 arithmetic: the two subtractions
are made from left to right. -/
def Binary32.CloseFragment (heap : BoxHeap) (fragments : List Fragment)
    (open_fragment_index : Int) (right_inner_edge_position : ℚ) : List Fragment :=
  modifyFragment fragments open_fragment_index (fun open_fragment =>
    { open_fragment with
      children_end_index := (fragments.length : Int)
      layout_width := max
        (Binary32.round (Binary32.round (right_inner_edge_position - open_fragment.position.x) -
          (if open_fragment.split_left then 0 else (heap open_fragment.box).GetSpacingLeft))) 0 })

/-- The method `LayoutLineBox::CloseInlineBox` in binary32 arithmetic. -/
def Binary32.LayoutLineBox.CloseInlineBox (heap : BoxHeap) (self : LayoutLineBox)
    (inline_box : BoxPtr) : LayoutLineBox × Option String :=
  if self.open_fragments.isEmpty ∨
      (getFragment self.fragments (self.open_fragments.getLastD RootFragmentIndex)).box ≠ inline_box then
    (self, some "Inline box open/close mismatch.")
  else
    let box_cursor := Binary32.round (self.box_cursor + self.open_spacing_left)
    let back := self.open_fragments.getLastD RootFragmentIndex
    let fragments := Binary32.CloseFragment heap self.fragments back box_cursor
    let closed_fragment := getFragment fragments back
    ({ self with
        fragments := fragments
        box_cursor := Binary32.round (box_cursor + (heap closed_fragment.box).GetSpacingRight)
        open_spacing_left := 0
        open_fragments := self.open_fragments.dropLast }, none)

/-- The first loop of `SplitLine` in binary32 arithmetic, one iteration. -/
def Binary32.SplitLine.copyOpenFragment (heap : BoxHeap) (fragments : List Fragment)
    (new_line : LayoutLineBox) (fragment_index : Int) : LayoutLineBox :=
  let new_index : Int := (new_line.fragments.length : Int)
  let pushed := new_line.fragments ++ [getFragment fragments fragment_index]
  let positioned := modifyFragment pushed new_index (fun fragment =>
    { fragment with
      position := { fragment.position with x := new_line.box_cursor }
      parent_fragment := new_index - 1 })
  let rooted := modifyFragment positioned new_index (fun fragment =>
    { fragment with aligned_subtree_root := DetermineAlignedSubtreeRoot positioned new_index })
  if (getFragment rooted new_index).has_content then
    { new_line with
      fragments := modifyFragment rooted new_index (fun fragment =>
        { fragment with split_left := true, has_content := false }) }
  else
    { new_line with
      fragments := rooted
      open_spacing_left := Binary32.round (new_line.open_spacing_left +
        (heap (getFragment rooted new_index).box).GetSpacingLeft) }

/-- The second loop of `SplitLine` in binary32 arithmetic, one iteration. -/
def Binary32.SplitLine.closeOpenFragment (heap : BoxHeap) (box_cursor : ℚ)
    (fragments : List Fragment) (fragment_index : Int) : List Fragment :=
  if (getFragment fragments fragment_index).has_content then
    modifyFragment (Binary32.CloseFragment heap fragments fragment_index box_cursor) fragment_index
      (fun closed_fragment => { closed_fragment with split_right := true })
  else fragments

/-- The method `LayoutLineBox::SplitLine` in binary32 arithmetic: the line after the call, and
the new line (`none` for `nullptr`). -/
def Binary32.LayoutLineBox.SplitLine (heap : BoxHeap) (self : LayoutLineBox) :
    LayoutLineBox × Option LayoutLineBox :=
  if self.open_fragments.isEmpty then (self, none)
  else
    let copied := self.open_fragments.foldl
      (Binary32.SplitLine.copyOpenFragment heap self.fragments) {}
    let fragments := self.open_fragments.reverse.foldl
      (Binary32.SplitLine.closeOpenFragment heap self.box_cursor) self.fragments
    let new_line : LayoutLineBox :=
      { copied with
        open_fragments := (List.range self.open_fragments.length).map (fun i : Nat => (i : Int)) }
    ({ self with fragments := fragments, open_fragments := [] }, some new_line)

/-- The body of the loop of `VerticallyAlignSubtree` in binary32 arithmetic. -/
def Binary32.VerticallyAlignSubtree.step (heap : BoxHeap) (subtree_root_index : Int)
    (state : VerticalAlignment) (i : Int) : VerticalAlignment :=
  let fragment := getFragment state.fragments i
  if fragment.aligned_subtree_root ≠ subtree_root_index then state
  else
    let parent_absolute_baseline : ℚ :=
      if fragment.parent_fragment < 0 then 0
      else (getFragment state.fragments fragment.parent_fragment).baseline_offset
    let baseline_offset :=
      Binary32.round (parent_absolute_baseline + (heap fragment.box).GetVerticalOffsetFromParent)
    let fragments := modifyFragment state.fragments i
      (fun f => { f with baseline_offset := baseline_offset })
    if fragment.type ≠ FragmentType.TextRun then
      { fragments := fragments
        max_ascent := max state.max_ascent
          (Binary32.round ((heap fragment.box).GetHeightAboveBaseline - baseline_offset))
        max_descent := max state.max_descent
          (Binary32.round ((heap fragment.box).GetDepthBelowBaseline + baseline_offset)) }
    else
      { fragments := fragments
        max_ascent := state.max_ascent
        max_descent := state.max_descent }

/-- The method `LayoutLineBox::VerticallyAlignSubtree` in binary32 arithmetic. -/
def Binary32.VerticallyAlignSubtree (heap : BoxHeap) (fragments : List Fragment)
    (subtree_root_index children_end_index : Int) (max_ascent max_descent : ℚ) :
    VerticalAlignment :=
  (indexRange (subtree_root_index + 1) children_end_index).foldl
    (Binary32.VerticallyAlignSubtree.step heap subtree_root_index)
    { fragments := fragments, max_ascent := max_ascent, max_descent := max_descent }

/-- The loop of `Close` over the aligned subtrees in binary32 arithmetic, one iteration:
`fragment.max_ascent + fragment.max_descent - max_ascent` is a sum, rounded, and then a
difference, rounded. The test `IsAlignedSubtreeRoot` (defined in `LayoutLineBox.h`, not part
of the sources at hand) is the parameter `is_root`. -/
def Binary32.Close.alignSubtree (heap : BoxHeap) (is_root : Fragment → Bool)
    (state : VerticalAlignment) (i : Int) : VerticalAlignment :=
  let fragment := getFragment state.fragments i
  if is_root fragment then
    let subtree : VerticalAlignment :=
      if fragment.type = FragmentType.InlineBox then
        Binary32.VerticallyAlignSubtree heap state.fragments i fragment.children_end_index
          (heap fragment.box).GetHeightAboveBaseline (heap fragment.box).GetDepthBelowBaseline
      else
        { fragments := state.fragments
          max_ascent := (heap fragment.box).GetHeightAboveBaseline
          max_descent := (heap fragment.box).GetDepthBelowBaseline }
    let fragments := modifyFragment subtree.fragments i
      (fun f => { f with max_ascent := subtree.max_ascent, max_descent := subtree.max_descent })
    if fragment.vertical_align = VerticalAlign.Top then
      { fragments := fragments
        max_ascent := state.max_ascent
        max_descent := max state.max_descent
          (Binary32.round (Binary32.round (subtree.max_ascent + subtree.max_descent) -
            state.max_ascent)) }
    else if fragment.vertical_align = VerticalAlign.Bottom then
      { fragments := fragments
        max_ascent := max state.max_ascent
          (Binary32.round (Binary32.round (subtree.max_ascent + subtree.max_descent) -
            state.max_descent))
        max_descent := state.max_descent }
    else
      { fragments := fragments
        max_ascent := state.max_ascent
        max_descent := state.max_descent }
  else state

/-- The vertical sizing of `Close` in binary32 arithmetic: the fragments and the locals
`max_ascent` and `max_descent` at the line `// Size the line.` -/
def Binary32.Close.sized (heap : BoxHeap) (is_root : Fragment → Bool)
    (fragments : List Fragment) (root_inline_box : BoxPtr) : VerticalAlignment :=
  (indexRange 0 (fragments.length : Int)).foldl (Binary32.Close.alignSubtree heap is_root)
    (Binary32.VerticallyAlignSubtree heap fragments (-1) (fragments.length : Int)
      (heap root_inline_box).GetHeightAboveBaseline (heap root_inline_box).GetDepthBelowBaseline)

/-- The value of `out_height_of_line = max_ascent + max_descent` in binary32 arithmetic. -/
def Binary32.Close.height (heap : BoxHeap) (is_root : Fragment → Bool)
    (fragments : List Fragment) (root_inline_box : BoxPtr) : ℚ :=
  Binary32.round ((Binary32.Close.sized heap is_root fragments root_inline_box).max_ascent +
    (Binary32.Close.sized heap is_root fragments root_inline_box).max_descent)

/-- The switch of the loop of `Close` that sets the vertical position, in binary32
arithmetic: the value that is assigned to `fragment.position.y`. -/
def Binary32.Close.verticalPosition (max_ascent out_height_of_line : ℚ)
    (fragments : List Fragment) (i : Int) : ℚ :=
  let fragment := getFragment fragments i
  if fragment.vertical_align = VerticalAlign.Top then fragment.max_ascent
  else if fragment.vertical_align = VerticalAlign.Bottom then
    Binary32.round (out_height_of_line - fragment.max_descent)
  else
    Binary32.round ((if fragment.aligned_subtree_root < 0 then max_ascent
      else (getFragment fragments fragment.aligned_subtree_root).position.y) +
      fragment.baseline_offset)

/-- The loop of `Close` that sets the vertical position in binary32 arithmetic, one
iteration. -/
def Binary32.Close.positionFragment (max_ascent out_height_of_line : ℚ)
    (fragments : List Fragment) (i : Int) : List Fragment :=
  modifyFragment fragments i (fun f => { f with position := { f.position with
    y := Binary32.Close.verticalPosition max_ascent out_height_of_line fragments i } })

/-- The vertical pass of `Close` in binary32 arithmetic: sized, then positioned. -/
def Binary32.Close.positioned (heap : BoxHeap) (is_root : Fragment → Bool)
    (fragments : List Fragment) (root_inline_box : BoxPtr) : List Fragment :=
  (indexRange 0 (fragments.length : Int)).foldl
    (Binary32.Close.positionFragment
      (Binary32.Close.sized heap is_root fragments root_inline_box).max_ascent
      (Binary32.Close.height heap is_root fragments root_inline_box))
    (Binary32.Close.sized heap is_root fragments root_inline_box).fragments

/-- The horizontal alignment of `Close` in binary32 arithmetic: the value of
`offset_horizontal_alignment`. -/
def Binary32.Close.horizontalOffset (self : LayoutLineBox) (text_align : TextAlign) : ℚ :=
  if self.box_cursor < self.line_width then
    match text_align with
    | TextAlign.Center =>
      Binary32.round (Binary32.round (self.line_width - self.box_cursor) * (1 / 2))
    | TextAlign.Right => Binary32.round (self.line_width - self.box_cursor)
    | TextAlign.Left => self.offset_horizontal_alignment
    | TextAlign.Justify => self.offset_horizontal_alignment
  else self.offset_horizontal_alignment

/-- The sum `a + b` of two `Vector2f` in binary32 arithmetic. -/
def Binary32.addVector (a b : Vector2f) : Vector2f :=
  { x := Binary32.round (a.x + b.x), y := Binary32.round (a.y + b.y) }

/-- The submission loop of `Close` in binary32 arithmetic, one iteration. -/
def Binary32.Close.submit (offset_parent : Nat) (line_position : Vector2f)
    (offset_horizontal_alignment : ℚ) (fragment : Fragment) : Option SubmitCall :=
  if fragment.type = FragmentType.InlineBox ∧ fragment.children_end_index = 0 then none
  else some
    { box := fragment.box
      fragment_box :=
        { offset_parent := offset_parent
          fragment_handle := fragment.fragment_handle
          position := Binary32.addVector (Binary32.addVector line_position fragment.position)
            { x := offset_horizontal_alignment, y := 0 }
          layout_width := fragment.layout_width
          split_left := fragment.split_left
          split_right := fragment.split_right } }

/-- The method `LayoutLineBox::Close` in binary32 arithmetic. The test `IsAlignedSubtreeRoot`
of the sizing loop is the parameter `is_root`. -/
def Binary32.LayoutLineBox.Close (heap : BoxHeap) (is_root : Fragment → Bool)
    (self : LayoutLineBox) (root_inline_box : BoxPtr) (offset_parent : Nat)
    (line_position : Vector2f) (text_align : TextAlign) : CloseResult :=
  let split := Binary32.LayoutLineBox.SplitLine heap self
  let sized := Binary32.Close.sized heap is_root split.1.fragments root_inline_box
  let fragments := Binary32.Close.positioned heap is_root split.1.fragments root_inline_box
  let offset_horizontal_alignment := Binary32.Close.horizontalOffset split.1 text_align
  { new_line_box := split.2
    line := { split.1 with
      fragments := fragments
      offset_horizontal_alignment := offset_horizontal_alignment
      total_height_above_baseline := sized.max_ascent
      is_closed := true }
    out_height_of_line := Binary32.Close.height heap is_root split.1.fragments root_inline_box
    submitted := fragments.filterMap
      (Binary32.Close.submit offset_parent line_position offset_horizontal_alignment) }

/-- The method `LayoutLineBox::GetExtentRight` in binary32 arithmetic. -/
def Binary32.LayoutLineBox.GetExtentRight (self : LayoutLineBox) : ℚ :=
  Binary32.round (self.box_cursor + self.offset_horizontal_alignment)

/-- The lines that the operations of the line box produce before they are closed: a new
line, a line after `SetLineBox`, `AddBox` or `CloseInlineBox`, and the continuation line made
by `SplitLine`. -/
inductive Reachable (heap : BoxHeap) : LayoutLineBox → Prop
  | new_line : Reachable heap {}
  | set_line_box (self : LayoutLineBox) (line_position : Vector2f) (line_width : ℚ) :
      Reachable heap self → Reachable heap (self.SetLineBox line_position line_width)
  | add_box (self : LayoutLineBox) (box : BoxPtr) (layout_mode : InlineLayoutMode)
      (line_width : ℚ) (inout_overflow_handle : LayoutOverflowHandle) :
      Reachable heap self →
      Reachable heap (self.AddBox heap box layout_mode line_width inout_overflow_handle).line
  | close_inline_box (self : LayoutLineBox) (inline_box : BoxPtr) :
      Reachable heap self → Reachable heap (self.CloseInlineBox heap inline_box).1
  | split_line (self new_line : LayoutLineBox) :
      Reachable heap self → (self.SplitLine heap).2 = some new_line → Reachable heap new_line

/-- The lines that the operations of the line box produce in binary32 arithmetic before they
are closed: a new line, a line after `SetLineBox`, `AddBox` or `CloseInlineBox`, and the
continuation line made by `SplitLine`. -/
inductive Binary32.Reachable (heap : BoxHeap) : LayoutLineBox → Prop
  | new_line : Binary32.Reachable heap {}
  | set_line_box (self : LayoutLineBox) (line_position : Vector2f) (line_width : ℚ) :
      Binary32.Reachable heap self →
      Binary32.Reachable heap (self.SetLineBox line_position line_width)
  | add_box (self : LayoutLineBox) (box : BoxPtr) (layout_mode : InlineLayoutMode)
      (line_width : ℚ) (inout_overflow_handle : LayoutOverflowHandle) :
      Binary32.Reachable heap self →
      Binary32.Reachable heap (Binary32.LayoutLineBox.AddBox heap self box layout_mode
        line_width inout_overflow_handle).line
  | close_inline_box (self : LayoutLineBox) (inline_box : BoxPtr) :
      Binary32.Reachable heap self →
      Binary32.Reachable heap (Binary32.LayoutLineBox.CloseInlineBox heap self inline_box).1
  | split_line (self new_line : LayoutLineBox) :
      Binary32.Reachable heap self →
      (Binary32.LayoutLineBox.SplitLine heap self).2 = some new_line →
      Binary32.Reachable heap new_line

/-- The lines that the operations of the line box produce in binary32 arithmetic when no
operation on the way rounds: each `AddBox`, `CloseInlineBox` and `SplitLine` gives the line
that the same statements give with sums and differences that are not rounded. -/
inductive Binary32.ReachableWithoutRounding (heap : BoxHeap) : LayoutLineBox → Prop
  | new_line : Binary32.ReachableWithoutRounding heap {}
  | set_line_box (self : LayoutLineBox) (line_position : Vector2f) (line_width : ℚ) :
      Binary32.ReachableWithoutRounding heap self →
      Binary32.ReachableWithoutRounding heap (self.SetLineBox line_position line_width)
  | add_box (self : LayoutLineBox) (box : BoxPtr) (layout_mode : InlineLayoutMode)
      (line_width : ℚ) (inout_overflow_handle : LayoutOverflowHandle) :
      Binary32.ReachableWithoutRounding heap self →
      (Binary32.LayoutLineBox.AddBox heap self box layout_mode line_width
        inout_overflow_handle).line
        = (self.AddBox heap box layout_mode line_width inout_overflow_handle).line →
      Binary32.ReachableWithoutRounding heap (Binary32.LayoutLineBox.AddBox heap self box
        layout_mode line_width inout_overflow_handle).line
  | close_inline_box (self : LayoutLineBox) (inline_box : BoxPtr) :
      Binary32.ReachableWithoutRounding heap self →
      (Binary32.LayoutLineBox.CloseInlineBox heap self inline_box).1
        = (self.CloseInlineBox heap inline_box).1 →
      Binary32.ReachableWithoutRounding heap
        (Binary32.LayoutLineBox.CloseInlineBox heap self inline_box).1
  | split_line (self new_line : LayoutLineBox) :
      Binary32.ReachableWithoutRounding heap self →
      (Binary32.LayoutLineBox.SplitLine heap self).2 = (self.SplitLine heap).2 →
      (Binary32.LayoutLineBox.SplitLine heap self).2 = some new_line →
      Binary32.ReachableWithoutRounding heap new_line

/-! ## Boxes for the examples -/

/-- A box of fixed width for the examples: under `WrapAny` it refuses to be placed (an
`Invalid` result) when it is not the first box and does not fit in the available width;
otherwise it is placed whole. -/
def Example.sized_box (width : ℚ) : InlineLevelBox :=
  { CreateFragment := fun mode available_width right_spacing_width first_box _ =>
      if mode = InlineLayoutMode.WrapAny ∧ first_box = false ∧
          available_width < width + right_spacing_width then {}
      else { type := FragmentType.SizedBox, layout_width := width } }

/-- An inline box for the examples, with the given left and right spacing: it opens with an
`InlineBox` fragment of unknown (negative) width. -/
def Example.inline_box (spacing_left spacing_right : ℚ) : InlineLevelBox :=
  { CreateFragment := fun _ _ _ _ _ => { type := FragmentType.InlineBox, layout_width := -1 }
    GetSpacingLeft := spacing_left
    GetSpacingRight := spacing_right }

/-- The heap of the examples: sized boxes of width 30 at address 1, of width 50 at address 2
and of width 40 at address 3; inline boxes with left and right spacing 5 at address 4, with
right spacing -10 at address 5 and without spacing elsewhere. -/
def Example.heap : BoxHeap := fun box =>
  if box = 1 then Example.sized_box 30
  else if box = 2 then Example.sized_box 50
  else if box = 3 then Example.sized_box 40
  else if box = 4 then Example.inline_box 5 5
  else if box = 5 then Example.inline_box 0 (-10)
  else Example.inline_box 0 0

/-- The line of width 80 on which the inline box at address 4 (left spacing 5) is open. -/
def Example.line_open_box : LayoutLineBox :=
  (({} : LayoutLineBox).AddBox Example.heap 4 InlineLayoutMode.WrapAny 80 0).line

/-- The line of width 80 on which the inline box at address 4 is open and holds the box of
width 40. -/
def Example.line_box_40 : LayoutLineBox :=
  (Example.line_open_box.AddBox Example.heap 3 InlineLayoutMode.WrapAny 80 0).line

/-- The line on which the inline box at address 6 (no spacing) is open and holds the inline
box at address 5 (right spacing -10), opened and closed again. -/
def Example.line_negative_spacing : LayoutLineBox :=
  (((({} : LayoutLineBox).AddBox Example.heap 6 InlineLayoutMode.WrapAny 80 0).line.AddBox
    Example.heap 5 InlineLayoutMode.WrapAny 80 0).line.CloseInlineBox Example.heap 5).1

/-- The continuation line that `SplitLine` makes of `Example.line_box_40`: the inline box at
address 4 goes on as a split fragment. -/
def Example.line_continued : LayoutLineBox :=
  ((Example.line_box_40.SplitLine Example.heap).2).getD {}

/-- The line of width 80 after two boxes of width 30. -/
def Example.line_30_30 : LayoutLineBox :=
  (AddBoxes Example.heap InlineLayoutMode.WrapAny 80 {} [1, 1]).1

/-- A text box for the examples: it answers with a `TextRun` fragment of the given width, and
has the given vertical-align, height above and depth below the baseline and vertical offset
from its parent. -/
def Example.text_box (width ascent descent : ℚ) (vertical_align : VerticalAlign)
    (vertical_offset : ℚ) : InlineLevelBox :=
  { CreateFragment := fun _ _ _ _ _ => { type := FragmentType.TextRun, layout_width := width }
    GetVerticalAlign := vertical_align
    GetHeightAboveBaseline := ascent
    GetDepthBelowBaseline := descent
    GetVerticalOffsetFromParent := vertical_offset }

/-- An inline box for the examples of the vertical pass, without spacing. -/
def Example.aligned_inline_box (ascent descent : ℚ) (vertical_align : VerticalAlign)
    (vertical_offset : ℚ) : InlineLevelBox :=
  { CreateFragment := fun _ _ _ _ _ => { type := FragmentType.InlineBox, layout_width := -1 }
    GetVerticalAlign := vertical_align
    GetHeightAboveBaseline := ascent
    GetDepthBelowBaseline := descent
    GetVerticalOffsetFromParent := vertical_offset }

/-- The heap of the examples of the vertical pass: the root inline box at address 10 (10
above and 8 below the baseline); text boxes of width 30 at address 11 (`Top`, 20 above and 1
below) and at address 12 (`Baseline`, 20 above and 5 below); inline boxes at address 13
(`Top`, 6 above and 2 below) and at address 14 (`Baseline`, 5 above and 1 below, offset 3 from
the baseline of its parent); text boxes of width 30 without height elsewhere. -/
def Example.vertical_heap : BoxHeap := fun box =>
  if box = 10 then Example.aligned_inline_box 10 8 VerticalAlign.Baseline 0
  else if box = 11 then Example.text_box 30 20 1 VerticalAlign.Top 0
  else if box = 12 then Example.text_box 30 20 5 VerticalAlign.Baseline 0
  else if box = 13 then Example.aligned_inline_box 6 2 VerticalAlign.Top 0
  else if box = 14 then Example.aligned_inline_box 5 1 VerticalAlign.Baseline 3
  else Example.text_box 30 0 0 VerticalAlign.Baseline 0

/-- A new line of width 100. -/
def Example.line_100 : LayoutLineBox :=
  ({} : LayoutLineBox).SetLineBox {} 100

/-- The line of width 100 with a `Top` text fragment (address 11). -/
def Example.line_top_text : LayoutLineBox :=
  (Example.line_100.AddBox Example.vertical_heap 11 InlineLayoutMode.WrapAny 100 0).line

/-- The line of width 100 with a `Baseline` text fragment (address 12). -/
def Example.line_baseline_text : LayoutLineBox :=
  (Example.line_100.AddBox Example.vertical_heap 12 InlineLayoutMode.WrapAny 100 0).line

/-- The line of width 100 with two text fragments of width 30 (address 15). -/
def Example.line_two_texts : LayoutLineBox :=
  ((Example.line_100.AddBox Example.vertical_heap 15 InlineLayoutMode.WrapAny 100 0).line.AddBox
    Example.vertical_heap 15 InlineLayoutMode.WrapAny 100 0).line

/-- The line of width 100 on which the `Top` inline box (address 13) and in it the `Baseline`
inline box with offset 3 (address 14) are open, both without content. -/
def Example.line_open_top_box : LayoutLineBox :=
  ((Example.line_100.AddBox Example.vertical_heap 13 InlineLayoutMode.WrapAny 100 0).line.AddBox
    Example.vertical_heap 14 InlineLayoutMode.WrapAny 100 0).line

/-- A text element for the examples: of its text nothing fits in a width below 40 when an
empty line is allowed; otherwise the word `word` of width 40 is generated and the text goes
on. -/
def Example.text_element : ElementText :=
  { GenerateLine := fun call =>
      if call.allow_empty = true ∧ call.maximum_line_width < 40 then
        { fits := false, line := "", line_length := 0, line_width := 0 }
      else { fits := false, line := "word", line_length := 4, line_width := 40 } }

/-- The line of width 100 with a `Top` text fragment (address 11) and a `Baseline` text
fragment (address 12). -/
def Example.line_top_and_baseline_text : LayoutLineBox :=
  (Example.line_top_text.AddBox Example.vertical_heap 12 InlineLayoutMode.WrapAny 100 0).line

/-- The line of width 80 with the inline box at address 4, closed, around the box of width
40. -/
def Example.line_closed_box_40 : LayoutLineBox :=
  (Example.line_box_40.CloseInlineBox Example.heap 4).1

/-- The heap of the example of the horizontal layout: the sized box of width 30 at address 1
and inline boxes with left and right spacing 5 elsewhere. -/
def Example.spaced_heap : BoxHeap := fun box =>
  if box = 1 then Example.sized_box 30 else Example.inline_box 5 5

/-- The line of width 80 with an inline box (left and right spacing 5), closed, around the
box of width 30. -/
def Example.line_spaced : LayoutLineBox :=
  (((({} : LayoutLineBox).AddBox Example.spaced_heap 4 InlineLayoutMode.WrapAny 80 0).line.AddBox
    Example.spaced_heap 1 InlineLayoutMode.WrapAny 80 0).line.CloseInlineBox
      Example.spaced_heap 4).1

/-- The heap of the examples in binary32 arithmetic. Sized boxes: at address 21 of width
11.869145 (`12445701 / 2 ^ 20`), at 22 of width 113.112465 (`14825877 / 2 ^ 17`), at 23 of
width 28.000002 (`14680065 / 2 ^ 19`), at 25 of width 0.1 (`13421773 / 2 ^ 27`), at 26 of
width 100.2 (`6566707 / 2 ^ 16`), at 27 of width 277.8 (`4551475 / 2 ^ 14`), at 29 of width 0
and at 30 of width 2.1 (`4404019 / 2 ^ 21`), each value being the `float` nearest to the
decimal. Inline boxes: at address 24 with left spacing 0.3 (`5033165 / 2 ^ 24`), at 28 with
left spacing 16.4 (`8598323 / 2 ^ 19`), and without spacing elsewhere. -/
def Example.binary32_heap : BoxHeap := fun box =>
  if box = 21 then Example.sized_box (12445701 / 1048576)
  else if box = 22 then Example.sized_box (14825877 / 131072)
  else if box = 23 then Example.sized_box (14680065 / 524288)
  else if box = 24 then Example.inline_box (5033165 / 16777216) 0
  else if box = 25 then Example.sized_box (13421773 / 134217728)
  else if box = 26 then Example.sized_box (6566707 / 65536)
  else if box = 27 then Example.sized_box (4551475 / 16384)
  else if box = 28 then Example.inline_box (8598323 / 524288) 0
  else if box = 29 then Example.sized_box 0
  else if box = 30 then Example.sized_box (4404019 / 2097152)
  else Example.inline_box 0 0

/-- The line of width 100 with the inline box of left spacing 0.3 (address 24), closed, around
the box of width 0.1 (address 25), in binary32 arithmetic. -/
def Example.line_tenth_in_box : LayoutLineBox :=
  (Binary32.LayoutLineBox.CloseInlineBox Example.binary32_heap
    (Binary32.LayoutLineBox.AddBox Example.binary32_heap
      (Binary32.LayoutLineBox.AddBox Example.binary32_heap {} 24 InlineLayoutMode.WrapAny 100
        0).line 25 InlineLayoutMode.WrapAny 100 0).line 24).1

/-- The line of width 10.2 (`10695475 / 2 ^ 20`) with the box of width 2.1 (address 30), in
binary32 arithmetic. -/
def Example.line_right_aligned : LayoutLineBox :=
  (Binary32.LayoutLineBox.AddBox Example.binary32_heap
    (({} : LayoutLineBox).SetLineBox {} (10695475 / 1048576)) 30 InlineLayoutMode.WrapAny
    (10695475 / 1048576) 0).line

/-- The heap of the examples of the vertical pass in binary32 arithmetic: root inline boxes
at address 40 (0.6 = `5033165 / 2 ^ 23` above and 0 below the baseline) and at address 42
(4.3 = `4508877 / 2 ^ 20` above and 0.2 = `13421773 / 2 ^ 26` below); `Top` text boxes of
width 30 at address 41 (3 above and 0.2 below) and at address 43 (23.1 = `12111053 / 2 ^ 19`
above and 0 below); text boxes of width 30 without height elsewhere. The values are the
`float` nearest to the decimals. -/
def Example.binary32_vertical_heap : BoxHeap := fun box =>
  if box = 40 then Example.aligned_inline_box (5033165 / 8388608) 0 VerticalAlign.Baseline 0
  else if box = 41 then Example.text_box 30 3 (13421773 / 67108864) VerticalAlign.Top 0
  else if box = 42 then
    Example.aligned_inline_box (4508877 / 1048576) (13421773 / 67108864) VerticalAlign.Baseline 0
  else if box = 43 then Example.text_box 30 (12111053 / 524288) 0 VerticalAlign.Top 0
  else Example.text_box 30 0 0 VerticalAlign.Baseline 0

/-- The line of width 100 with the `Top` text fragment 3 above and 0.2 below the baseline
(address 41). -/
def Example.line_top_text_3 : LayoutLineBox :=
  (Binary32.LayoutLineBox.AddBox Example.binary32_vertical_heap Example.line_100 41
    InlineLayoutMode.WrapAny 100 0).line

/-- The line of width 100 with the `Top` text fragment 23.1 above and 0 below the baseline
(address 43). -/
def Example.line_top_text_23 : LayoutLineBox :=
  (Binary32.LayoutLineBox.AddBox Example.binary32_vertical_heap Example.line_100 43
    InlineLayoutMode.WrapAny 100 0).line

/-- The line of the example of an inline box with spacing, made in binary32 arithmetic: the
inline box at address 4 (left and right spacing 5) around the box of width 30 at address 1,
closed. -/
def Example.line_spaced_binary32 : LayoutLineBox :=
  (Binary32.LayoutLineBox.CloseInlineBox Example.spaced_heap
    (Binary32.LayoutLineBox.AddBox Example.spaced_heap
      (Binary32.LayoutLineBox.AddBox Example.spaced_heap {} 4 InlineLayoutMode.WrapAny 80
        0).line 1 InlineLayoutMode.WrapAny 80 0).line 4).1

/-- The line of width 1000 with the box of width 100.2 (address 26) and after it the inline
box without spacing (address 31) around the box of width 0.1 (address 25), closed, in
binary32 arithmetic. -/
def Example.line_tenth_after_100 : LayoutLineBox :=
  (Binary32.LayoutLineBox.CloseInlineBox Example.binary32_heap
    (Binary32.LayoutLineBox.AddBox Example.binary32_heap
      (Binary32.LayoutLineBox.AddBox Example.binary32_heap
        (Binary32.LayoutLineBox.AddBox Example.binary32_heap {} 26 InlineLayoutMode.WrapAny
          1000 0).line 31 InlineLayoutMode.WrapAny 1000 0).line 25 InlineLayoutMode.WrapAny
      1000 0).line 31).1

/-- The line of width 1000 with the box of width 277.8 (address 27) and after it the inline
box with left spacing 16.4 (address 28), open, around the box of width 0 (address 29), in
binary32 arithmetic. -/
def Example.line_spacing_after_277 : LayoutLineBox :=
  (Binary32.LayoutLineBox.AddBox Example.binary32_heap
    (Binary32.LayoutLineBox.AddBox Example.binary32_heap
      (Binary32.LayoutLineBox.AddBox Example.binary32_heap {} 27 InlineLayoutMode.WrapAny
        1000 0).line 28 InlineLayoutMode.WrapAny 1000 0).line 29 InlineLayoutMode.WrapAny
    1000 0).line

theorem Binary32.floor_le_roundHalfEven (x : ℚ) : Int.floor x ≤ Binary32.roundHalfEven x := by
  unfold Binary32.roundHalfEven
  split_ifs <;> omega

theorem Binary32.roundHalfEven_le_floor_add_one (x : ℚ) :
    Binary32.roundHalfEven x ≤ Int.floor x + 1 := by
  unfold Binary32.roundHalfEven
  split_ifs <;> omega

theorem Binary32.roundHalfEven_intCast (m : Int) : Binary32.roundHalfEven (m : ℚ) = m := by
  unfold Binary32.roundHalfEven
  simp

theorem Binary32.le_roundHalfEven (m : Int) (x : ℚ) (h : (m : ℚ) ≤ x) :
    m ≤ Binary32.roundHalfEven x :=
  le_trans (Int.le_floor.mpr h) (Binary32.floor_le_roundHalfEven x)

theorem Binary32.roundHalfEven_le (m : Int) (x : ℚ) (h : x ≤ (m : ℚ)) :
    Binary32.roundHalfEven x ≤ m := by
  rcases eq_or_lt_of_le h with heq | hlt
  · rw [heq, Binary32.roundHalfEven_intCast]
  · have h1 : Int.floor x < m := Int.floor_lt.mpr hlt
    have h2 := Binary32.roundHalfEven_le_floor_add_one x
    omega

theorem Binary32.roundHalfEven_mono {x y : ℚ} (h : x ≤ y) :
    Binary32.roundHalfEven x ≤ Binary32.roundHalfEven y := by
  have hf : Int.floor x ≤ Int.floor y := Int.floor_mono h
  rcases eq_or_lt_of_le hf with heq | hlt
  · unfold Binary32.roundHalfEven
    rw [← heq]
    split_ifs <;> first | omega | (exfalso; linarith)
  · have h1 := Binary32.roundHalfEven_le_floor_add_one x
    have h2 := Binary32.floor_le_roundHalfEven y
    omega

theorem Binary32.roundHalfEven_neg (x : ℚ) :
    Binary32.roundHalfEven (-x) = -Binary32.roundHalfEven x := by
  rcases eq_or_lt_of_le (Int.floor_le x) with heq | hlt
  · rw [← heq, ← Int.cast_neg, Binary32.roundHalfEven_intCast, Binary32.roundHalfEven_intCast]
  · have hfl : Int.floor (-x) = -Int.floor x - 1 := by
      rw [Int.floor_eq_iff]
      push_cast
      constructor <;> linarith [Int.lt_floor_add_one x]
    unfold Binary32.roundHalfEven
    rw [hfl]
    push_cast
    split_ifs <;> first | omega | (exfalso; linarith)

theorem Binary32.droppedBits_le (fuel n : Nat) : Binary32.droppedBits fuel n ≤ fuel := by
  induction fuel generalizing n with
  | zero => simp [Binary32.droppedBits]
  | succ fuel ih =>
    unfold Binary32.droppedBits
    split_ifs
    · omega
    · have := ih (n / 2)
      omega

/-- A value that lost `k > 0` bits is at least `2 ^ (23 + k)`. -/
theorem Binary32.droppedBits_lower (fuel n : Nat) (h : 0 < Binary32.droppedBits fuel n) :
    2 ^ (23 + Binary32.droppedBits fuel n) ≤ n := by
  induction fuel generalizing n with
  | zero => simp [Binary32.droppedBits] at h
  | succ fuel ih =>
    unfold Binary32.droppedBits at h ⊢
    split_ifs at h ⊢ with hlt
    · omega
    · rcases Nat.eq_zero_or_pos (Binary32.droppedBits fuel (n / 2)) with h0 | hpos
      · rw [h0]
        simpa using hlt
      · have := ih (n / 2) hpos
        have h2 : 2 ^ (23 + (Binary32.droppedBits fuel (n / 2) + 1))
            = 2 * 2 ^ (23 + Binary32.droppedBits fuel (n / 2)) := by
          rw [← Nat.add_assoc, Nat.pow_succ, Nat.mul_comm]
        rw [h2]
        omega

/-- Unless the fuel ran out, what is left of the value after `k` halvings is below
`2 ^ 24`. -/
theorem Binary32.droppedBits_upper (fuel n : Nat) (h : Binary32.droppedBits fuel n < fuel) :
    n < 2 ^ (24 + Binary32.droppedBits fuel n) := by
  induction fuel generalizing n with
  | zero => omega
  | succ fuel ih =>
    unfold Binary32.droppedBits at h ⊢
    split_ifs at h ⊢ with hlt
    · simpa using hlt
    · have := ih (n / 2) (by omega)
      have h2 : 2 ^ (24 + (Binary32.droppedBits fuel (n / 2) + 1))
          = 2 * 2 ^ (24 + Binary32.droppedBits fuel (n / 2)) := by
        rw [← Nat.add_assoc, Nat.pow_succ, Nat.mul_comm]
      rw [h2]
      omega

theorem Binary32.droppedBits_mono (fuel : Nat) {n m : Nat} (h : n ≤ m) :
    Binary32.droppedBits fuel n ≤ Binary32.droppedBits fuel m := by
  induction fuel generalizing n m with
  | zero => simp [Binary32.droppedBits]
  | succ fuel ih =>
    unfold Binary32.droppedBits
    split_ifs with h1 h2 h2
    · omega
    · omega
    · omega
    · have := ih (Nat.div_le_div_right (c := 2) h)
      omega

/-- The number of dropped bits of a significand `m` with `k` zero bits behind it. -/
theorem Binary32.droppedBits_mul_pow (fuel m k : Nat) (hk : k ≤ fuel) (hm : m < 2 ^ 24)
    (hnormal : k = 0 ∨ 2 ^ 23 ≤ m) : Binary32.droppedBits fuel (m * 2 ^ k) = k := by
  induction k generalizing fuel with
  | zero =>
    cases fuel with
    | zero => rfl
    | succ fuel =>
      unfold Binary32.droppedBits
      rw [Nat.pow_zero, Nat.mul_one, if_pos hm]
  | succ k ih =>
    cases fuel with
    | zero => omega
    | succ fuel =>
      have h23 : 2 ^ 23 ≤ m := by
        rcases hnormal with h | h
        · omega
        · exact h
      unfold Binary32.droppedBits
      have hge : ¬ m * 2 ^ (k + 1) < 2 ^ 24 := by
        have h1 : 1 ≤ 2 ^ k := Nat.one_le_two_pow
        have h2 : m * 2 ^ (k + 1) = m * 2 ^ k * 2 := by
          rw [Nat.pow_succ, Nat.mul_assoc]
        have h3 : m * 1 ≤ m * 2 ^ k := Nat.mul_le_mul_left m h1
        have h4 : (2 : Nat) ^ 24 = 2 ^ 23 * 2 := by norm_num
        omega
      rw [if_neg hge]
      have hdiv : m * 2 ^ (k + 1) / 2 = m * 2 ^ k := by
        rw [Nat.pow_succ, ← Nat.mul_assoc]
        exact Nat.mul_div_cancel _ (by omega)
      rw [hdiv, ih fuel (by omega) (Or.inr h23)]

/-- A value of at least `2 ^ (23 + fuel)` uses up the fuel. -/
theorem Binary32.droppedBits_of_large (fuel n : Nat) (h : 2 ^ (23 + fuel) ≤ n) :
    Binary32.droppedBits fuel n = fuel := by
  induction fuel generalizing n with
  | zero => rfl
  | succ fuel ih =>
    unfold Binary32.droppedBits
    have h2 : 2 ^ (23 + (fuel + 1)) = 2 * 2 ^ (23 + fuel) := by
      rw [← Nat.add_assoc, Nat.pow_succ, Nat.mul_comm]
    have h3 : 2 ^ 24 ≤ 2 ^ (23 + (fuel + 1)) := Nat.pow_le_pow_right (by omega) (by omega)
    rw [if_neg (by omega), ih (n / 2) (by omega)]


theorem Binary32.shift_neg (x : ℚ) : Binary32.shift (-x) = Binary32.shift x := by
  unfold Binary32.shift
  rw [abs_neg]

theorem Binary32.ulp_pos (x : ℚ) : 0 < Binary32.ulp x := by
  unfold Binary32.ulp
  positivity

theorem Binary32.ulp_neg (x : ℚ) : Binary32.ulp (-x) = Binary32.ulp x := by
  unfold Binary32.ulp
  rw [Binary32.shift_neg]

/-- The integer part of the magnitude of `x` in units of `2 ^ (-149)`. -/
theorem Binary32.floor_scaled (x : ℚ) :
    (((Int.floor (|x| * 2 ^ 149)).toNat : Nat) : ℚ) ≤ |x| * 2 ^ 149 ∧
    |x| * 2 ^ 149 < (((Int.floor (|x| * 2 ^ 149)).toNat : Nat) : ℚ) + 1 := by
  have h0 : 0 ≤ Int.floor (|x| * 2 ^ 149) := Int.floor_nonneg.mpr (by positivity)
  have hcast : (((Int.floor (|x| * 2 ^ 149)).toNat : Nat) : ℚ)
      = ((Int.floor (|x| * 2 ^ 149) : Int) : ℚ) := by
    rw [← Int.cast_natCast, Int.toNat_of_nonneg h0]
  rw [hcast]
  exact ⟨Int.floor_le _, Int.lt_floor_add_one _⟩

theorem Binary32.shift_lower (x : ℚ) (h : 0 < Binary32.shift x) :
    (2 : ℚ) ^ (23 + Binary32.shift x) ≤ |x| * 2 ^ 149 := by
  have h1 := Binary32.droppedBits_lower 254 _ h
  have h2 : ((2 ^ (23 + Binary32.shift x) : Nat) : ℚ)
      ≤ (((Int.floor (|x| * 2 ^ 149)).toNat : Nat) : ℚ) := Nat.cast_le.mpr h1
  rw [Nat.cast_pow, Nat.cast_ofNat] at h2
  exact le_trans h2 (Binary32.floor_scaled x).1

theorem Binary32.shift_upper (x : ℚ) (h : Binary32.shift x < 254) :
    |x| * 2 ^ 149 < (2 : ℚ) ^ (24 + Binary32.shift x) := by
  have h1 := Binary32.droppedBits_upper 254 _ h
  have h2 : (((Int.floor (|x| * 2 ^ 149)).toNat + 1 : Nat) : ℚ)
      ≤ ((2 ^ (24 + Binary32.shift x) : Nat) : ℚ) := Nat.cast_le.mpr h1
  rw [Nat.cast_pow, Nat.cast_ofNat, Nat.cast_add, Nat.cast_one] at h2
  exact lt_of_lt_of_le (Binary32.floor_scaled x).2 h2

theorem Binary32.shift_mono {x y : ℚ} (h : |x| ≤ |y|) : Binary32.shift x ≤ Binary32.shift y := by
  unfold Binary32.shift
  apply Binary32.droppedBits_mono
  apply Int.toNat_le_toNat
  apply Int.floor_mono
  exact mul_le_mul_of_nonneg_right h (by positivity)

theorem Binary32.div_ulp (x : ℚ) :
    x / Binary32.ulp x = x * 2 ^ 149 / 2 ^ Binary32.shift x := by
  unfold Binary32.ulp
  field_simp

theorem Binary32.round_neg (x : ℚ) : Binary32.round (-x) = -Binary32.round x := by
  unfold Binary32.round
  rw [Binary32.ulp_neg, neg_div, Binary32.roundHalfEven_neg]
  push_cast
  ring

theorem Binary32.round_nonneg {x : ℚ} (h : 0 ≤ x) : 0 ≤ Binary32.round x := by
  unfold Binary32.round
  apply mul_nonneg _ (le_of_lt (Binary32.ulp_pos x))
  have : (0 : Int) ≤ Binary32.roundHalfEven (x / Binary32.ulp x) :=
    Binary32.le_roundHalfEven 0 _ (by
      simpa using div_nonneg h (le_of_lt (Binary32.ulp_pos x)))
  exact_mod_cast this

theorem Binary32.round_zero : Binary32.round 0 = 0 := by
  unfold Binary32.round
  rw [zero_div]
  have : Binary32.roundHalfEven 0 = 0 := by
    have := Binary32.roundHalfEven_intCast 0
    simpa using this
  rw [this]
  simp

/-- Rounding is monotone on the non-negative values. -/
theorem Binary32.round_mono_of_nonneg {x y : ℚ} (hx : 0 ≤ x) (h : x ≤ y) :
    Binary32.round x ≤ Binary32.round y := by
  have hy : 0 ≤ y := le_trans hx h
  have habs : |x| ≤ |y| := by rw [abs_of_nonneg hx, abs_of_nonneg hy]; exact h
  have hshift := Binary32.shift_mono habs
  rcases eq_or_lt_of_le hshift with heq | hlt
  · have hulp : Binary32.ulp x = Binary32.ulp y := by
      unfold Binary32.ulp
      rw [heq]
    unfold Binary32.round
    rw [hulp]
    apply mul_le_mul_of_nonneg_right _ (le_of_lt (Binary32.ulp_pos y))
    have : Binary32.roundHalfEven (x / Binary32.ulp y) ≤ Binary32.roundHalfEven (y / Binary32.ulp y) :=
      Binary32.roundHalfEven_mono (div_le_div_of_nonneg_right h (le_of_lt (Binary32.ulp_pos y)))
    exact_mod_cast this
  · have hupper := Binary32.shift_upper x (by
      have := Binary32.droppedBits_le 254 (Int.floor (|y| * 2 ^ 149)).toNat
      unfold Binary32.shift at hlt ⊢
      omega)
    have hlower := Binary32.shift_lower y (by omega)
    rw [abs_of_nonneg hx] at hupper
    rw [abs_of_nonneg hy] at hlower
    have hpx : (0 : ℚ) < 2 ^ Binary32.shift x := by positivity
    have hpy : (0 : ℚ) < 2 ^ Binary32.shift y := by positivity
    have h1 : Binary32.roundHalfEven (x / Binary32.ulp x) ≤ 2 ^ 24 := by
      apply Binary32.roundHalfEven_le
      rw [Binary32.div_ulp, div_le_iff₀ hpx, Int.cast_pow, Int.cast_ofNat, ← pow_add]
      exact le_of_lt hupper
    have h2 : (2 : Int) ^ 23 ≤ Binary32.roundHalfEven (y / Binary32.ulp y) := by
      apply Binary32.le_roundHalfEven
      rw [Binary32.div_ulp, le_div_iff₀ hpy, Int.cast_pow, Int.cast_ofNat, ← pow_add]
      exact hlower
    have h1' : (Binary32.roundHalfEven (x / Binary32.ulp x) : ℚ) ≤ 2 ^ 24 := by
      have := (Int.cast_le (R := ℚ)).mpr h1
      rwa [Int.cast_pow, Int.cast_ofNat] at this
    have h2' : (2 : ℚ) ^ 23 ≤ (Binary32.roundHalfEven (y / Binary32.ulp y) : ℚ) := by
      have := (Int.cast_le (R := ℚ)).mpr h2
      rwa [Int.cast_pow, Int.cast_ofNat] at this
    have hpow : (2 : ℚ) ^ (24 + Binary32.shift x) ≤ 2 ^ (23 + Binary32.shift y) :=
      pow_le_pow_right₀ (by norm_num) (by omega)
    unfold Binary32.round Binary32.ulp
    calc (Binary32.roundHalfEven (x / (2 ^ Binary32.shift x / 2 ^ 149)) : ℚ) *
          (2 ^ Binary32.shift x / 2 ^ 149)
        ≤ 2 ^ 24 * (2 ^ Binary32.shift x / 2 ^ 149) := by
          apply mul_le_mul_of_nonneg_right _ (by positivity)
          exact h1'
      _ = 2 ^ (24 + Binary32.shift x) / 2 ^ 149 := by rw [pow_add]; ring
      _ ≤ 2 ^ (23 + Binary32.shift y) / 2 ^ 149 :=
          div_le_div_of_nonneg_right hpow (by positivity)
      _ = 2 ^ 23 * (2 ^ Binary32.shift y / 2 ^ 149) := by rw [pow_add]; ring
      _ ≤ (Binary32.roundHalfEven (y / (2 ^ Binary32.shift y / 2 ^ 149)) : ℚ) *
          (2 ^ Binary32.shift y / 2 ^ 149) := by
          apply mul_le_mul_of_nonneg_right _ (by positivity)
          exact h2'

/-- Rounding to single precision is monotone. -/
theorem Binary32.round_mono {x y : ℚ} (h : x ≤ y) : Binary32.round x ≤ Binary32.round y := by
  rcases le_total 0 x with hx | hx
  · exact Binary32.round_mono_of_nonneg hx h
  · rcases le_total 0 y with hy | hy
    · have h1 : Binary32.round x ≤ 0 := by
        have := Binary32.round_nonneg (neg_nonneg.mpr hx)
        rw [Binary32.round_neg] at this
        linarith
      exact le_trans h1 (Binary32.round_nonneg hy)
    · have := Binary32.round_mono_of_nonneg (neg_nonneg.mpr hy) (neg_le_neg h)
      rw [Binary32.round_neg, Binary32.round_neg] at this
      linarith


/-- The binade of a non-negative multiple `m * 2 ^ k / 2 ^ 149`. -/
theorem Binary32.shift_multiple (m k : Nat) :
    Binary32.shift ((m : ℚ) * (2 ^ k / 2 ^ 149)) = Binary32.droppedBits 254 (m * 2 ^ k) := by
  unfold Binary32.shift
  have h0 : (0 : ℚ) ≤ (m : ℚ) * (2 ^ k / 2 ^ 149) := by positivity
  have h1 : |(m : ℚ) * (2 ^ k / 2 ^ 149)| * 2 ^ 149 = ((m * 2 ^ k : Nat) : ℚ) := by
    rw [abs_of_nonneg h0, Nat.cast_mul, Nat.cast_pow, Nat.cast_ofNat]
    field_simp
  rw [h1, Int.floor_natCast, Int.toNat_ofNat]

/-- A multiple of the unit of its own binade is a single-precision value. -/
theorem Binary32.round_multiple (m k : Nat)
    (h : Binary32.droppedBits 254 (m * 2 ^ k) = k) :
    Binary32.round ((m : ℚ) * (2 ^ k / 2 ^ 149)) = (m : ℚ) * (2 ^ k / 2 ^ 149) := by
  have hshift := Binary32.shift_multiple m k
  rw [h] at hshift
  have hu : (0 : ℚ) < 2 ^ k / 2 ^ 149 := by positivity
  unfold Binary32.round Binary32.ulp
  rw [hshift, mul_div_assoc, div_self (ne_of_gt hu), mul_one]
  have := Binary32.roundHalfEven_intCast (m : Int)
  rw [Int.cast_natCast] at this
  rw [this, Int.cast_natCast]

theorem Binary32.round_round_of_nonneg {x : ℚ} (hx : 0 ≤ x) :
    Binary32.round (Binary32.round x) = Binary32.round x := by
  have hu := Binary32.ulp_pos x
  have hm0 : (0 : Int) ≤ Binary32.roundHalfEven (x / Binary32.ulp x) :=
    Binary32.le_roundHalfEven 0 _ (by simpa using div_nonneg hx (le_of_lt hu))
  obtain ⟨m, hm⟩ := Int.eq_ofNat_of_zero_le hm0
  have hround : Binary32.round x = (m : ℚ) * (2 ^ Binary32.shift x / 2 ^ 149) := by
    unfold Binary32.round
    rw [hm, Int.cast_natCast]
    rfl
  have hp : (0 : ℚ) < 2 ^ Binary32.shift x := by positivity
  have hlow : 0 < Binary32.shift x → 2 ^ 23 ≤ m := by
    intro hpos
    have h1 := Binary32.shift_lower x hpos
    rw [abs_of_nonneg hx] at h1
    have h2 : (2 : Int) ^ 23 ≤ Binary32.roundHalfEven (x / Binary32.ulp x) := by
      apply Binary32.le_roundHalfEven
      rw [Binary32.div_ulp, le_div_iff₀ hp, Int.cast_pow, Int.cast_ofNat, ← pow_add]
      exact h1
    rw [hm] at h2
    exact_mod_cast h2
  rw [hround]
  rcases Nat.lt_or_ge (Binary32.shift x) 254 with hk | hk
  · have hupper := Binary32.shift_upper x hk
    rw [abs_of_nonneg hx] at hupper
    have h24 : m ≤ 2 ^ 24 := by
      have h1 : Binary32.roundHalfEven (x / Binary32.ulp x) ≤ 2 ^ 24 := by
        apply Binary32.roundHalfEven_le
        rw [Binary32.div_ulp, div_le_iff₀ hp, Int.cast_pow, Int.cast_ofNat, ← pow_add]
        exact le_of_lt hupper
      rw [hm] at h1
      exact_mod_cast h1
    rcases Nat.lt_or_ge m (2 ^ 24) with hlt | hge
    · apply Binary32.round_multiple
      apply Binary32.droppedBits_mul_pow _ _ _ (by omega) hlt
      rcases Nat.eq_zero_or_pos (Binary32.shift x) with h0 | hpos
      · exact Or.inl h0
      · exact Or.inr (hlow hpos)
    · have hmeq : m = 2 ^ 24 := Nat.le_antisymm h24 hge
      have hrewrite : (m : ℚ) * (2 ^ Binary32.shift x / 2 ^ 149)
          = ((2 ^ 23 : Nat) : ℚ) * (2 ^ (Binary32.shift x + 1) / 2 ^ 149) := by
        rw [hmeq, Nat.cast_pow, Nat.cast_ofNat, Nat.cast_pow, Nat.cast_ofNat, pow_succ]
        ring
      rw [hrewrite]
      apply Binary32.round_multiple
      exact Binary32.droppedBits_mul_pow _ _ _ (by omega) (by norm_num) (Or.inr (le_refl _))
  · have hle := Binary32.droppedBits_le 254 (Int.floor (|x| * 2 ^ 149)).toNat
    have hk254 : Binary32.shift x = 254 := by
      unfold Binary32.shift at hk ⊢
      omega
    have h23 := hlow (by omega)
    apply Binary32.round_multiple
    rw [hk254]
    apply Binary32.droppedBits_of_large
    calc 2 ^ (23 + 254) = 2 ^ 23 * 2 ^ 254 := by rw [Nat.pow_add]
      _ ≤ m * 2 ^ 254 := Nat.mul_le_mul_right _ h23

/-- A rounded value is a single-precision value: rounding it again changes nothing. -/
theorem Binary32.round_round (x : ℚ) : Binary32.round (Binary32.round x) = Binary32.round x := by
  rcases le_total 0 x with hx | hx
  · exact Binary32.round_round_of_nonneg hx
  · have := Binary32.round_round_of_nonneg (neg_nonneg.mpr hx)
    rw [Binary32.round_neg, Binary32.round_neg] at this
    linarith

theorem Binary32.isValue_round (x : ℚ) : Binary32.IsValue (Binary32.round x) :=
  Binary32.round_round x

theorem Binary32.isValue_zero : Binary32.IsValue 0 := Binary32.round_zero

/-- Rounding does not cross a single-precision value from below. -/
theorem Binary32.round_le_of_le {x y : ℚ} (hy : Binary32.IsValue y) (h : x ≤ y) :
    Binary32.round x ≤ y := by
  have := Binary32.round_mono h
  rwa [hy] at this

/-- Rounding does not cross a single-precision value from above. -/
theorem Binary32.le_round_of_le {x y : ℚ} (hx : Binary32.IsValue x) (h : x ≤ y) :
    x ≤ Binary32.round y := by
  have := Binary32.round_mono h
  rwa [hx] at this

/-! ## Array access lemmas -/

theorem getFragment_natCast (fs : List Fragment) (n : Nat) :
    getFragment fs (n : Int) = fs[n]?.getD default := by
  simp [getFragment, List.getD_eq_getElem?_getD]

theorem getFragment_of_getElem? {fs : List Fragment} {n : Nat} {f : Fragment}
    (h : fs[n]? = some f) : getFragment fs (n : Int) = f := by
  simp [getFragment_natCast, h]

theorem getFragment_neg {fs : List Fragment} {i : Int} (h : i < 0) :
    getFragment fs i = default := by
  simp [getFragment, h]

theorem modifyFragment_length (fs : List Fragment) (i : Int) (g : Fragment → Fragment) :
    (modifyFragment fs i g).length = fs.length := by
  unfold modifyFragment
  split <;> simp

theorem modifyFragment_getElem? (fs : List Fragment) (i : Int)
    (g : Fragment → Fragment) (j : Nat) :
    (modifyFragment fs i g)[j]? = (fs[j]?).map (fun a => if (j : Int) = i then g a else a) := by
  unfold modifyFragment
  split
  · next h =>
    have : ¬ ((j : Int) = i) := by omega
    simp [this]
  · next h =>
    rw [List.getElem?_modify]
    have : (i.toNat = j) ↔ ((j : Int) = i) := by omega
    simp only [this, Option.map_eq_map]

theorem modifyFragment_append_last (fs : List Fragment) (a : Fragment) (g : Fragment → Fragment) :
    modifyFragment (fs ++ [a]) (fs.length : Int) g = fs ++ [g a] := by
  apply List.ext_getElem?
  intro j
  rw [modifyFragment_getElem?]
  rcases Nat.lt_trichotomy j fs.length with h | h | h
  · have : ¬ ((j : Int) = (fs.length : Int)) := by omega
    simp [List.getElem?_append_left h, this]
  · subst h
    simp
  · have h1 : (fs ++ [a]).length ≤ j := by simp; omega
    have h2 : (fs ++ [g a]).length ≤ j := by simp; omega
    simp [List.getElem?_eq_none h1, List.getElem?_eq_none h2]

theorem foldl_modifyFragment_length (g : Fragment → Fragment) (indices : List Int)
    (fs : List Fragment) :
    (indices.foldl (fun fs index => modifyFragment fs index g) fs).length = fs.length := by
  induction indices generalizing fs with
  | nil => rfl
  | cons i rest ih => simp [List.foldl_cons, ih, modifyFragment_length]

theorem foldl_modifyFragment_getElem? (g : Fragment → Fragment) (hg : ∀ f, g (g f) = g f)
    (indices : List Int) (fs : List Fragment) (j : Nat) :
    (indices.foldl (fun fs index => modifyFragment fs index g) fs)[j]? =
      (fs[j]?).map (fun a => if (j : Int) ∈ indices then g a else a) := by
  induction indices generalizing fs with
  | nil => simp
  | cons i rest ih =>
    rw [List.foldl_cons, ih, modifyFragment_getElem?]
    cases fs[j]? with
    | none => rfl
    | some a =>
      simp only [Option.map_some', List.mem_cons]
      by_cases h1 : (j : Int) = i <;> by_cases h2 : (j : Int) ∈ rest <;> simp [h1, h2, hg]


/-! ## `AddBox`, case by case -/

theorem AddBox_of_no_width_available (heap : BoxHeap) (self : LayoutLineBox) (box : BoxPtr)
    (mode : InlineLayoutMode) (line_width : ℚ) (handle : LayoutOverflowHandle)
    (h : AddBox.no_width_available self mode line_width = true) :
    self.AddBox heap box mode line_width handle =
      { continue_on_new_line := true, line := self, inout_overflow_handle := handle,
        calls := [] } := by
  simp [LayoutLineBox.AddBox, h]

theorem AddBox_of_invalid (heap : BoxHeap) (self : LayoutLineBox) (box : BoxPtr)
    (mode : InlineLayoutMode) (line_width : ℚ) (handle : LayoutOverflowHandle)
    (h : AddBox.no_width_available self mode line_width = false)
    (hr : ((AddBox.call heap self box mode line_width handle).invoke heap).type =
      FragmentType.Invalid) :
    self.AddBox heap box mode line_width handle =
      { continue_on_new_line := true, line := self, inout_overflow_handle := 0,
        calls := [AddBox.call heap self box mode line_width handle] } := by
  simp [LayoutLineBox.AddBox, h, hr]

theorem AddBox_of_inline_box (heap : BoxHeap) (self : LayoutLineBox) (box : BoxPtr)
    (mode : InlineLayoutMode) (line_width : ℚ) (handle : LayoutOverflowHandle)
    (h : AddBox.no_width_available self mode line_width = false)
    (hr : ((AddBox.call heap self box mode line_width handle).invoke heap).type =
      FragmentType.InlineBox) :
    self.AddBox heap box mode line_width handle =
      { continue_on_new_line := false
        line := { self with
          fragments := self.fragments ++ [AddBox.appended_fragment heap self box
            ((AddBox.call heap self box mode line_width handle).invoke heap)]
          open_fragments := self.open_fragments ++ [(self.fragments.length : Int)]
          open_spacing_left := self.open_spacing_left + (heap box).GetSpacingLeft }
        inout_overflow_handle := 0
        calls := [AddBox.call heap self box mode line_width handle] } := by
  simp [LayoutLineBox.AddBox, h, hr, modifyFragment_append_last, AddBox.appended_fragment]

theorem AddBox_of_fixed_size (heap : BoxHeap) (self : LayoutLineBox) (box : BoxPtr)
    (mode : InlineLayoutMode) (line_width : ℚ) (handle : LayoutOverflowHandle)
    (h : AddBox.no_width_available self mode line_width = false)
    (hr : ((AddBox.call heap self box mode line_width handle).invoke heap).type =
        FragmentType.SizedBox ∨
      ((AddBox.call heap self box mode line_width handle).invoke heap).type =
        FragmentType.TextRun) :
    self.AddBox heap box mode line_width handle =
      { continue_on_new_line :=
          decide (((AddBox.call heap self box mode line_width handle).invoke heap).overflow_handle ≠ 0)
        line := { self with
          fragments := self.open_fragments.foldl
            (fun fs index => modifyFragment fs index (fun f => { f with has_content := true }))
            (self.fragments ++ [AddBox.appended_fragment heap self box
              ((AddBox.call heap self box mode line_width handle).invoke heap)])
          box_cursor := AddBox.box_placement_cursor self +
            ((AddBox.call heap self box mode line_width handle).invoke heap).layout_width
          open_spacing_left := 0 }
        inout_overflow_handle :=
          ((AddBox.call heap self box mode line_width handle).invoke heap).overflow_handle
        calls := [AddBox.call heap self box mode line_width handle] } := by
  rcases hr with hr | hr <;>
    simp [LayoutLineBox.AddBox, h, hr, modifyFragment_append_last, AddBox.appended_fragment] <;>
    exact fun h0 => h0.symm

theorem no_width_available_iff (self : LayoutLineBox) (mode : InlineLayoutMode) (line_width : ℚ) :
    AddBox.no_width_available self mode line_width = true ↔
      (mode = InlineLayoutMode.WrapAny ∧
        RoundUpFloat (line_width - (self.box_cursor + self.open_spacing_left)) < 0) := by
  cases mode <;> simp [AddBox.no_width_available, AddBox.box_placement_cursor]

theorem no_width_available_eq_false (self : LayoutLineBox) (mode : InlineLayoutMode)
    (line_width : ℚ)
    (h : ¬ (mode = InlineLayoutMode.WrapAny ∧
      RoundUpFloat (line_width - (self.box_cursor + self.open_spacing_left)) < 0)) :
    AddBox.no_width_available self mode line_width = false := by
  rw [← no_width_available_iff] at h
  simpa using h

theorem RoundUpFloat_neg_iff (value : ℚ) : RoundUpFloat value < 0 ↔ value ≤ -1 := by
  unfold RoundUpFloat
  constructor
  · intro h
    have h1 : Int.ceil value < 0 := by exact_mod_cast h
    have h2 : Int.ceil value ≤ -1 := by omega
    have h3 := Int.ceil_le.mp h2
    simpa using h3
  · intro h
    have h2 : Int.ceil value ≤ -1 := Int.ceil_le.mpr (by simpa using h)
    have h1 : Int.ceil value < 0 := by omega
    exact_mod_cast h1

theorem le_RoundUpFloat (value : ℚ) : value ≤ RoundUpFloat value :=
  Int.le_ceil value

theorem getFragment_of_lt {fs : List Fragment} {n : Nat} (h : n < fs.length) :
    getFragment fs (n : Int) = fs[n] := by
  simp [getFragment_natCast, List.getElem?_eq_getElem h]

theorem getElem?_getFragment {fs : List Fragment} {n : Nat} (h : n < fs.length) :
    fs[n]? = some (getFragment fs (n : Int)) := by
  rw [getFragment_of_lt h, List.getElem?_eq_getElem h]

theorem modifyFragment_eq_set {fs : List Fragment} {n : Nat} {f : Fragment}
    (h : fs[n]? = some f) (g : Fragment → Fragment) :
    modifyFragment fs (n : Int) g = fs.set n (g f) := by
  apply List.ext_getElem?
  intro j
  rw [modifyFragment_getElem?, List.getElem?_set]
  have hlt : n < fs.length := by
    rcases List.getElem?_eq_some_iff.mp h with ⟨hlt, _⟩
    exact hlt
  by_cases hj : n = j
  · subst hj
    simp [h, hlt]
  · have : ¬ ((j : Int) = (n : Int)) := by omega
    simp [hj, this]

theorem has_content_idempotent (f : Fragment) :
    (fun f : Fragment => { f with has_content := true })
      ((fun f : Fragment => { f with has_content := true }) f) =
    (fun f : Fragment => { f with has_content := true }) f := rfl

theorem getFragment_mark_has_content (indices : List Int) (fs : List Fragment) (j : Nat)
    (h : j < fs.length) :
    getFragment (indices.foldl
      (fun fs index => modifyFragment fs index (fun f => { f with has_content := true })) fs)
      (j : Int) =
    if (j : Int) ∈ indices then { getFragment fs (j : Int) with has_content := true }
    else getFragment fs (j : Int) := by
  rw [getFragment_natCast, foldl_modifyFragment_getElem? _ has_content_idempotent,
    getElem?_getFragment h]
  simp only [Option.map_some', Option.getD_some]

theorem CloseInlineBox_of_top (heap : BoxHeap) (self : LayoutLineBox)
    (inline_box : BoxPtr) (top : Nat) (f : Fragment)
    (htop : self.open_fragments.getLast? = some (top : Int))
    (hf : self.fragments[top]? = some f) (hbox : f.box = inline_box) :
    (self.CloseInlineBox heap inline_box).2 = none ∧
    (self.CloseInlineBox heap inline_box).1.open_fragments = self.open_fragments.dropLast ∧
    (self.CloseInlineBox heap inline_box).1.fragments = self.fragments.set top
      { f with
        children_end_index := (self.fragments.length : Int)
        layout_width := max (self.box_cursor + self.open_spacing_left - f.position.x -
          (if f.split_left then 0 else (heap inline_box).GetSpacingLeft)) 0 } ∧
    (self.CloseInlineBox heap inline_box).1.open_spacing_left = 0 ∧
    (self.CloseInlineBox heap inline_box).1.box_cursor =
      self.box_cursor + self.open_spacing_left + (heap inline_box).GetSpacingRight := by
  have hlast : self.open_fragments.getLastD RootFragmentIndex = (top : Int) := by
    rw [List.getLastD_eq_getLast?, htop]
    rfl
  have hne : self.open_fragments.isEmpty = false := by
    cases hopen : self.open_fragments with
    | nil => rw [hopen] at htop; simp at htop
    | cons a l => rfl
  have hget : getFragment self.fragments (top : Int) = f := getFragment_of_getElem? hf
  have hclose : CloseFragment heap self.fragments (top : Int)
      (self.box_cursor + self.open_spacing_left) = self.fragments.set top
      { f with
        children_end_index := (self.fragments.length : Int)
        layout_width := max (self.box_cursor + self.open_spacing_left - f.position.x -
          (if f.split_left then 0 else (heap inline_box).GetSpacingLeft)) 0 } := by
    unfold CloseFragment
    rw [modifyFragment_eq_set hf, hbox]
  have hlt : top < self.fragments.length := by
    rcases List.getElem?_eq_some_iff.mp hf with ⟨hlt, _⟩
    exact hlt
  have hcond : ¬ (self.open_fragments.isEmpty = true ∨
      (getFragment self.fragments (self.open_fragments.getLastD RootFragmentIndex)).box
        ≠ inline_box) := by
    rw [hlast, hget, hne]
    simp [hbox]
  unfold LayoutLineBox.CloseInlineBox
  rw [if_neg hcond]
  simp only [hlast, hclose]
  simp [getFragment_natCast, List.getElem?_set, hlt, hbox]

theorem mark_has_content_nil (fs : List Fragment) :
    ([] : List Int).foldl
      (fun fs index => modifyFragment fs index (fun f => { f with has_content := true })) fs
    = fs := rfl

/-- The run of `AddBox` over boxes that fit, from any line without an open inline box. -/
theorem AddBoxes_of_fit (heap : BoxHeap) (line_width : ℚ) (width : BoxPtr → ℚ)
    (boxes : List BoxPtr) :
    ∀ self : LayoutLineBox, self.open_fragments = [] → self.open_spacing_left = 0 →
    (∀ box ∈ boxes, 0 ≤ width box) →
    self.box_cursor + (boxes.map width).sum ≤ line_width →
    (∀ box ∈ boxes, ∀ (available_width : ℚ) (first_box : Bool) (handle : LayoutOverflowHandle),
      width box ≤ available_width →
      (((heap box).CreateFragment InlineLayoutMode.WrapAny available_width 0 first_box
          handle).type = FragmentType.TextRun ∨
        ((heap box).CreateFragment InlineLayoutMode.WrapAny available_width 0 first_box
          handle).type = FragmentType.SizedBox) ∧
      ((heap box).CreateFragment InlineLayoutMode.WrapAny available_width 0 first_box
        handle).layout_width = width box ∧
      ((heap box).CreateFragment InlineLayoutMode.WrapAny available_width 0 first_box
        handle).overflow_handle = 0) →
    (AddBoxes heap InlineLayoutMode.WrapAny line_width self boxes).2
      = List.replicate boxes.length false ∧
    (AddBoxes heap InlineLayoutMode.WrapAny line_width self boxes).1.fragments.length
      = self.fragments.length + boxes.length ∧
    (AddBoxes heap InlineLayoutMode.WrapAny line_width self boxes).1.box_cursor
      = self.box_cursor + (boxes.map width).sum ∧
    (∀ j : Nat, j < self.fragments.length →
      (AddBoxes heap InlineLayoutMode.WrapAny line_width self boxes).1.fragments[j]?
        = self.fragments[j]?) ∧
    (∀ i : Nat, i < boxes.length →
      (getFragment (AddBoxes heap InlineLayoutMode.WrapAny line_width self boxes).1.fragments
        ((self.fragments.length + i : Nat) : Int)).position.x
        = self.box_cursor + ((boxes.take i).map width).sum) := by
  induction boxes with
  | nil =>
    intro self _ _ _ _ _
    refine ⟨rfl, rfl, ?_, fun j _ => rfl, ?_⟩
    · simp [AddBoxes]
    · intro i hi
      simp at hi
  | cons box rest ih =>
    intro self hopen hspacing hnonneg hsum hfit
    have hrest_nonneg : 0 ≤ (rest.map width).sum :=
      List.sum_nonneg (by
        intro x hx
        rcases List.mem_map.mp hx with ⟨b, hb, rfl⟩
        exact hnonneg b (List.mem_cons_of_mem _ hb))
    have hsum' : self.box_cursor + (width box + (rest.map width).sum) ≤ line_width := by
      simpa using hsum
    have hbox_nonneg : 0 ≤ width box := hnonneg box (List.mem_cons_self _ _)
    have hremaining : width box ≤ line_width - (self.box_cursor + self.open_spacing_left) := by
      rw [hspacing]
      linarith
    have hno : AddBox.no_width_available self InlineLayoutMode.WrapAny line_width = false := by
      apply no_width_available_eq_false
      rintro ⟨_, hneg⟩
      have := (RoundUpFloat_neg_iff _).mp hneg
      linarith
    have hround : ¬ RoundUpFloat (line_width - (self.box_cursor + self.open_spacing_left)) < 0 := by
      intro hneg
      have := (RoundUpFloat_neg_iff _).mp hneg
      linarith
    have havailable : width box ≤ AddBox.available_width self InlineLayoutMode.WrapAny
        line_width := by
      simp only [AddBox.available_width, AddBox.box_placement_cursor, ne_eq, not_false_eq_true,
        if_true, if_neg hround, reduceCtorEq]
      exact le_trans hremaining (le_RoundUpFloat _)
    have hright : AddBox.open_spacing_right heap self = 0 := by
      simp [AddBox.open_spacing_right, hopen]
    obtain ⟨htype, hwidth, hhandle⟩ := hfit box (List.mem_cons_self _ _)
      (AddBox.available_width self InlineLayoutMode.WrapAny line_width) (!self.HasContent) 0
      havailable
    have hinvoke : (AddBox.call heap self box InlineLayoutMode.WrapAny line_width 0).invoke heap
        = (heap box).CreateFragment InlineLayoutMode.WrapAny
          (AddBox.available_width self InlineLayoutMode.WrapAny line_width) 0
          (!self.HasContent) 0 := by
      simp [CreateFragmentCall.invoke, AddBox.call, hright]
    rw [← hinvoke] at htype hwidth hhandle
    have hadd := AddBox_of_fixed_size heap self box InlineLayoutMode.WrapAny line_width 0 hno
      htype.symm
    rw [hwidth, hhandle, hopen, mark_has_content_nil] at hadd
    generalize hfrag : AddBox.appended_fragment heap self box
      ((AddBox.call heap self box InlineLayoutMode.WrapAny line_width 0).invoke heap) = fragment
      at hadd
    have hx : fragment.position.x = self.box_cursor := by
      rw [← hfrag]
      simp [AddBox.appended_fragment, AddBox.new_fragment, AddBox.box_placement_cursor, hspacing]
    have hunfold : AddBoxes heap InlineLayoutMode.WrapAny line_width self (box :: rest) =
        ((AddBoxes heap InlineLayoutMode.WrapAny line_width
            (self.AddBox heap box InlineLayoutMode.WrapAny line_width 0).line rest).1,
          (self.AddBox heap box InlineLayoutMode.WrapAny line_width 0).continue_on_new_line ::
          (AddBoxes heap InlineLayoutMode.WrapAny line_width
            (self.AddBox heap box InlineLayoutMode.WrapAny line_width 0).line rest).2) := rfl
    rw [hunfold, hadd]
    simp only []
    obtain ⟨h1, h2, h3, h4, h5⟩ := ih
      { self with
        fragments := self.fragments ++ [fragment]
        open_fragments := []
        box_cursor := AddBox.box_placement_cursor self + width box
        open_spacing_left := 0 }
      rfl rfl (fun b hb => hnonneg b (List.mem_cons_of_mem _ hb))
      (by simp only [AddBox.box_placement_cursor, hspacing]; linarith)
      (fun b hb => hfit b (List.mem_cons_of_mem _ hb))
    simp only [List.length_append, List.length_singleton, AddBox.box_placement_cursor,
      hspacing, add_zero] at h1 h2 h3 h4 h5
    simp only [AddBox.box_placement_cursor, hspacing, add_zero]
    refine ⟨?_, ?_, ?_, ?_, ?_⟩
    · rw [h1]
      simp [List.replicate_succ]
    · rw [h2]
      simp only [List.length_cons]
      omega
    · rw [h3]
      simp only [List.map_cons, List.sum_cons]
      ring
    · intro j hj
      rw [h4 j (by omega), List.getElem?_append_left hj]
    · intro i hi
      cases i with
      | zero =>
        rw [getFragment_natCast, Nat.add_zero, h4 _ (by omega)]
        simp [hx]
      | succ i =>
        have := h5 i (by simpa using hi)
        have hidx : self.fragments.length + (i + 1) = self.fragments.length + 1 + i := by omega
        rw [hidx, this]
        simp only [List.take_succ_cons, List.map_cons, List.sum_cons]
        ring

/-! ## The loops of `SplitLine` -/

theorem modifyFragment_modifyFragment (fs : List Fragment) (i : Int)
    (g₁ g₂ : Fragment → Fragment) :
    modifyFragment (modifyFragment fs i g₁) i g₂ = modifyFragment fs i (fun f => g₂ (g₁ f)) := by
  apply List.ext_getElem?
  intro j
  simp only [modifyFragment_getElem?, Option.map_map]
  congr 1
  funext a
  by_cases h : (j : Int) = i <;> simp [h]

theorem getFragment_eq_getD (fs : List Fragment) (i : Int) (j : Nat) (h : (j : Int) = i) :
    getFragment fs i = fs[j]?.getD default := by
  rw [← h, getFragment_natCast]

theorem closeOpenFragment_eq (heap : BoxHeap) (box_cursor : ℚ) (fs : List Fragment) (i : Int) :
    SplitLine.closeOpenFragment heap box_cursor fs i =
      modifyFragment fs i (fun f =>
        if f.has_content then SplitLine.closed_fragment heap box_cursor fs.length f else f) := by
  unfold SplitLine.closeOpenFragment CloseFragment
  apply List.ext_getElem?
  intro j
  split
  · next hc =>
    rw [modifyFragment_modifyFragment, modifyFragment_getElem?, modifyFragment_getElem?]
    cases hj : fs[j]? with
    | none => rfl
    | some a =>
      simp only [Option.map_some']
      by_cases h : (j : Int) = i
      · rw [getFragment_eq_getD fs i j h, hj] at hc
        simp only [Option.getD_some] at hc
        simp [h, hc, SplitLine.closed_fragment]
      · simp [h]
  · next hc =>
    rw [modifyFragment_getElem?]
    cases hj : fs[j]? with
    | none => rfl
    | some a =>
      simp only [Option.map_some']
      by_cases h : (j : Int) = i
      · rw [getFragment_eq_getD fs i j h, hj] at hc
        simp only [Option.getD_some] at hc
        simp [h, hc]
      · simp [h]

theorem closed_fragment_idempotent (heap : BoxHeap) (box_cursor : ℚ) (count : Nat)
    (f : Fragment) :
    (fun f : Fragment =>
      if f.has_content then SplitLine.closed_fragment heap box_cursor count f else f)
      ((fun f : Fragment =>
        if f.has_content then SplitLine.closed_fragment heap box_cursor count f else f) f) =
    (fun f : Fragment =>
      if f.has_content then SplitLine.closed_fragment heap box_cursor count f else f) f := by
  by_cases h : f.has_content = true <;> simp [h, SplitLine.closed_fragment]

theorem foldl_closeOpenFragment_eq (heap : BoxHeap) (box_cursor : ℚ) (indices : List Int) :
    ∀ fs : List Fragment,
    indices.foldl (SplitLine.closeOpenFragment heap box_cursor) fs =
      indices.foldl (fun fs index => modifyFragment fs index (fun f =>
        if f.has_content then SplitLine.closed_fragment heap box_cursor fs.length f else f)) fs := by
  induction indices with
  | nil => intro fs; rfl
  | cons i rest ih =>
    intro fs
    rw [List.foldl_cons, List.foldl_cons, closeOpenFragment_eq, ih]

theorem foldl_modifyFragment_length_dep (g : Nat → Fragment → Fragment) (indices : List Int) :
    ∀ fs : List Fragment,
    indices.foldl (fun fs index => modifyFragment fs index (g fs.length)) fs =
      indices.foldl (fun fs' index => modifyFragment fs' index (g fs.length)) fs := by
  induction indices with
  | nil => intro fs; rfl
  | cons i rest ih =>
    intro fs
    rw [List.foldl_cons, List.foldl_cons, ih, modifyFragment_length]

/-- The fragments of the line after the second loop of `SplitLine`. -/
theorem SplitLine_closed_getElem? (heap : BoxHeap) (box_cursor : ℚ) (indices : List Int)
    (fs : List Fragment) (j : Nat) :
    (indices.reverse.foldl (SplitLine.closeOpenFragment heap box_cursor) fs)[j]? =
      (fs[j]?).map (fun a => if (j : Int) ∈ indices then
        (if a.has_content then SplitLine.closed_fragment heap box_cursor fs.length a else a)
        else a) := by
  rw [foldl_closeOpenFragment_eq,
    foldl_modifyFragment_length_dep (fun n f =>
      if f.has_content then SplitLine.closed_fragment heap box_cursor n f else f),
    foldl_modifyFragment_getElem? _ (closed_fragment_idempotent heap box_cursor fs.length)]
  simp only [List.mem_reverse]

theorem SplitLine_of_nil (heap : BoxHeap) (self : LayoutLineBox) (h : self.open_fragments = []) :
    self.SplitLine heap = (self, none) := by
  simp [LayoutLineBox.SplitLine, h]

theorem SplitLine_of_ne_nil (heap : BoxHeap) (self : LayoutLineBox)
    (h : self.open_fragments ≠ []) :
    self.SplitLine heap =
      ({ self with
          fragments := self.open_fragments.reverse.foldl
            (SplitLine.closeOpenFragment heap self.box_cursor) self.fragments
          open_fragments := [] },
       some { self.open_fragments.foldl (SplitLine.copyOpenFragment heap self.fragments) {} with
          open_fragments :=
            (List.range self.open_fragments.length).map (fun i : Nat => (i : Int)) }) := by
  have : self.open_fragments.isEmpty = false := by
    cases hopen : self.open_fragments with
    | nil => exact absurd hopen h
    | cons a l => rfl
  simp [LayoutLineBox.SplitLine, this]

theorem getFragment_append_last (fs : List Fragment) (a : Fragment) :
    getFragment (fs ++ [a]) (fs.length : Int) = a := by
  rw [getFragment_natCast]
  simp

theorem getFragment_append_left (fs gs : List Fragment) (i : Int) (h0 : 0 ≤ i)
    (h : i < (fs.length : Int)) : getFragment (fs ++ gs) i = getFragment fs i := by
  obtain ⟨n, rfl⟩ := Int.eq_ofNat_of_zero_le h0
  have hn : n < fs.length := by exact_mod_cast h
  rw [getFragment_natCast, getFragment_natCast, List.getElem?_append_left hn]

theorem copyOpenFragment_eq (heap : BoxHeap) (fragments : List Fragment)
    (new_line : LayoutLineBox) (i : Int) :
    SplitLine.copyOpenFragment heap fragments new_line i =
      { new_line with
        fragments := new_line.fragments ++
          [SplitLine.clone (getFragment fragments i) new_line.fragments new_line.box_cursor]
        open_spacing_left := new_line.open_spacing_left +
          (if (getFragment fragments i).has_content then 0
           else (heap (getFragment fragments i).box).GetSpacingLeft) } := by
  unfold SplitLine.copyOpenFragment
  simp only [modifyFragment_append_last, getFragment_append_last]
  by_cases hc : (getFragment fragments i).has_content = true
  · simp [hc, SplitLine.clone]
  · simp only [hc]
    simp [SplitLine.clone, hc]

/-- The new line after the first loop of `SplitLine`. -/
theorem SplitLine_copied (heap : BoxHeap) (fragments : List Fragment) (indices : List Int) :
    ∀ new_line : LayoutLineBox,
    (indices.foldl (SplitLine.copyOpenFragment heap fragments) new_line).box_cursor
      = new_line.box_cursor ∧
    (indices.foldl (SplitLine.copyOpenFragment heap fragments) new_line).fragments.length
      = new_line.fragments.length + indices.length ∧
    (indices.foldl (SplitLine.copyOpenFragment heap fragments) new_line).open_spacing_left
      = new_line.open_spacing_left + (indices.map (fun i =>
          if (getFragment fragments i).has_content then 0
          else (heap (getFragment fragments i).box).GetSpacingLeft)).sum ∧
    (indices.foldl (SplitLine.copyOpenFragment heap fragments) new_line).fragments.take
      new_line.fragments.length = new_line.fragments ∧
    (∀ (k : Nat) (i : Int), indices[k]? = some i →
      (indices.foldl (SplitLine.copyOpenFragment heap fragments) new_line).fragments[
        new_line.fragments.length + k]? =
      some (SplitLine.clone (getFragment fragments i)
        ((indices.foldl (SplitLine.copyOpenFragment heap fragments) new_line).fragments.take
          (new_line.fragments.length + k)) new_line.box_cursor)) := by
  induction indices with
  | nil =>
    intro new_line
    refine ⟨rfl, rfl, ?_, ?_, ?_⟩
    · simp
    · simp
    · intro k i hk
      simp at hk
  | cons i rest ih =>
    intro new_line
    rw [List.foldl_cons]
    obtain ⟨h1, h2, h3, h4, h5⟩ := ih (SplitLine.copyOpenFragment heap fragments new_line i)
    generalize List.foldl (SplitLine.copyOpenFragment heap fragments)
      (SplitLine.copyOpenFragment heap fragments new_line i) rest = result at h1 h2 h3 h4 h5 ⊢
    rw [copyOpenFragment_eq] at h1 h2 h3 h4 h5
    simp only [List.length_append, List.length_singleton] at h2 h4 h5
    have htake : result.fragments.take new_line.fragments.length = new_line.fragments := by
      have := congrArg (List.take new_line.fragments.length) h4
      rw [List.take_take] at this
      simpa using this
    refine ⟨h1, ?_, ?_, htake, ?_⟩
    · rw [h2]
      simp only [List.length_cons]
      omega
    · rw [h3]
      simp only [List.map_cons, List.sum_cons]
      ring
    · intro k j hk
      cases k with
      | zero =>
        simp only [List.getElem?_cons_zero, Option.some.injEq] at hk
        subst hk
        have hget : result.fragments[new_line.fragments.length]? =
            (result.fragments.take (new_line.fragments.length + 1))[new_line.fragments.length]? := by
          rw [List.getElem?_take_of_lt (by omega)]
        rw [Nat.add_zero, hget, h4, htake]
        simp
      | succ k =>
        simp only [List.getElem?_cons_succ] at hk
        have := h5 k j hk
        have hidx : new_line.fragments.length + (k + 1) = new_line.fragments.length + 1 + k := by
          omega
        rw [hidx, this]

/-! ## The stack of open fragments of a reachable line -/

theorem AddBox_line_cases (heap : BoxHeap) (self : LayoutLineBox) (box : BoxPtr)
    (mode : InlineLayoutMode) (line_width : ℚ) (handle : LayoutOverflowHandle) :
    (self.AddBox heap box mode line_width handle).line = self ∨
    (((AddBox.call heap self box mode line_width handle).invoke heap).type
        = FragmentType.InlineBox ∧
      (self.AddBox heap box mode line_width handle).line =
        { self with
          fragments := self.fragments ++ [AddBox.appended_fragment heap self box
            ((AddBox.call heap self box mode line_width handle).invoke heap)]
          open_fragments := self.open_fragments ++ [(self.fragments.length : Int)]
          open_spacing_left := self.open_spacing_left + (heap box).GetSpacingLeft }) ∨
    ((((AddBox.call heap self box mode line_width handle).invoke heap).type
        = FragmentType.SizedBox ∨
      ((AddBox.call heap self box mode line_width handle).invoke heap).type
        = FragmentType.TextRun) ∧
      (self.AddBox heap box mode line_width handle).line =
        { self with
          fragments := self.open_fragments.foldl
            (fun fs index => modifyFragment fs index (fun f => { f with has_content := true }))
            (self.fragments ++ [AddBox.appended_fragment heap self box
              ((AddBox.call heap self box mode line_width handle).invoke heap)])
          box_cursor := AddBox.box_placement_cursor self +
            ((AddBox.call heap self box mode line_width handle).invoke heap).layout_width
          open_spacing_left := 0 }) := by
  cases hno : AddBox.no_width_available self mode line_width
  · cases ht : ((AddBox.call heap self box mode line_width handle).invoke heap).type
    · left
      rw [AddBox_of_invalid heap self box mode line_width handle hno ht]
    · right; left
      rw [AddBox_of_inline_box heap self box mode line_width handle hno ht]
      exact ⟨rfl, rfl⟩
    · right; right
      rw [AddBox_of_fixed_size heap self box mode line_width handle hno (Or.inl ht)]
      exact ⟨Or.inl rfl, rfl⟩
    · right; right
      rw [AddBox_of_fixed_size heap self box mode line_width handle hno (Or.inr ht)]
      exact ⟨Or.inr rfl, rfl⟩
  · left
    rw [AddBox_of_no_width_available heap self box mode line_width handle hno]

theorem getFragment_mark_has_content_of_valid (indices : List Int) (fs : List Fragment)
    (i : Int) (h0 : 0 ≤ i) (h : i < (fs.length : Int)) :
    getFragment (indices.foldl
      (fun fs index => modifyFragment fs index (fun f => { f with has_content := true })) fs) i =
    if i ∈ indices then { getFragment fs i with has_content := true } else getFragment fs i := by
  obtain ⟨n, rfl⟩ := Int.eq_ofNat_of_zero_le h0
  have hn : n < fs.length := by exact_mod_cast h
  exact getFragment_mark_has_content indices fs n hn

theorem OpenFragmentsValid_new_line : OpenFragmentsValid {} := by
  refine ⟨List.nodup_nil, ?_⟩
  intro index hindex
  simp at hindex

theorem OpenFragmentsValid_AddBox (heap : BoxHeap) (self : LayoutLineBox) (box : BoxPtr)
    (mode : InlineLayoutMode) (line_width : ℚ) (handle : LayoutOverflowHandle)
    (hvalid : OpenFragmentsValid self) :
    OpenFragmentsValid (self.AddBox heap box mode line_width handle).line := by
  obtain ⟨hnodup, hall⟩ := hvalid
  rcases AddBox_line_cases heap self box mode line_width handle with h | ⟨ht, h⟩ | ⟨_, h⟩
  · rw [h]
    exact ⟨hnodup, hall⟩
  · rw [h]
    refine ⟨?_, ?_⟩
    · simp only []
      rw [List.nodup_append]
      refine ⟨hnodup, List.nodup_singleton _, ?_⟩
      intro a ha hb
      have hlt := (hall a ha).2.1
      simp only [List.mem_singleton] at hb
      omega
    · intro index hindex
      simp only [List.mem_append, List.mem_singleton] at hindex
      simp only [List.length_append, List.length_singleton]
      rcases hindex with hindex | hindex
      · obtain ⟨h0, hlt, htype, hend⟩ := hall index hindex
        rw [getFragment_append_left _ _ _ h0 hlt]
        exact ⟨h0, by push_cast; omega, htype, hend⟩
      · subst hindex
        rw [getFragment_append_last]
        refine ⟨by omega, by push_cast; omega, ?_, rfl⟩
        simpa [AddBox.appended_fragment, AddBox.new_fragment] using ht
  · rw [h]
    refine ⟨hnodup, ?_⟩
    intro index hindex
    obtain ⟨h0, hlt, htype, hend⟩ := hall index hindex
    simp only [foldl_modifyFragment_length, List.length_append, List.length_singleton]
    rw [getFragment_mark_has_content_of_valid _ _ _ h0
      (by simp only [List.length_append, List.length_singleton]; push_cast; omega),
      if_pos hindex, getFragment_append_left _ _ _ h0 hlt]
    exact ⟨h0, by push_cast; omega, htype, hend⟩

theorem getFragment_set_ne (fs : List Fragment) (top : Nat) (a : Fragment) (i : Int)
    (h : i ≠ (top : Int)) : getFragment (fs.set top a) i = getFragment fs i := by
  by_cases h0 : i < 0
  · rw [getFragment_neg h0, getFragment_neg h0]
  · obtain ⟨n, rfl⟩ := Int.eq_ofNat_of_zero_le (not_lt.mp h0)
    have hne : top ≠ n := by
      intro heq
      apply h
      rw [heq]
    rw [getFragment_natCast, getFragment_natCast, List.getElem?_set]
    simp [hne]

theorem CloseInlineBox_cases (heap : BoxHeap) (self : LayoutLineBox) (inline_box : BoxPtr)
    (hvalid : OpenFragmentsValid self) :
    (self.CloseInlineBox heap inline_box).1 = self ∨
    ∃ (top : Nat) (f : Fragment), self.open_fragments.getLast? = some (top : Int) ∧
      self.fragments[top]? = some f ∧ f.box = inline_box ∧
      (self.CloseInlineBox heap inline_box).1.open_fragments = self.open_fragments.dropLast ∧
      (self.CloseInlineBox heap inline_box).1.fragments = self.fragments.set top
        { f with
          children_end_index := (self.fragments.length : Int)
          layout_width := max (self.box_cursor + self.open_spacing_left - f.position.x -
            (if f.split_left then 0 else (heap inline_box).GetSpacingLeft)) 0 } ∧
      (self.CloseInlineBox heap inline_box).1.open_spacing_left = 0 ∧
      (self.CloseInlineBox heap inline_box).1.box_cursor =
        self.box_cursor + self.open_spacing_left + (heap inline_box).GetSpacingRight := by
  by_cases hcond : self.open_fragments.isEmpty = true ∨
      (getFragment self.fragments (self.open_fragments.getLastD RootFragmentIndex)).box
        ≠ inline_box
  · left
    unfold LayoutLineBox.CloseInlineBox
    rw [if_pos hcond]
  · right
    push_neg at hcond
    obtain ⟨hne, hbox⟩ := hcond
    have hne' : self.open_fragments ≠ [] := by
      intro h
      rw [h] at hne
      simp at hne
    have hlast : self.open_fragments.getLast? = some (self.open_fragments.getLast hne') :=
      List.getLast?_eq_getLast _ hne'
    have hmem : self.open_fragments.getLast hne' ∈ self.open_fragments := List.getLast_mem hne'
    obtain ⟨h0, hlt, _, _⟩ := hvalid.2 _ hmem
    obtain ⟨top, htop⟩ := Int.eq_ofNat_of_zero_le h0
    rw [htop] at hlast hlt
    have hn : top < self.fragments.length := by exact_mod_cast hlt
    have hf : self.fragments[top]? = some self.fragments[top] := List.getElem?_eq_getElem hn
    have hbox' : (self.fragments[top]).box = inline_box := by
      rw [List.getLastD_eq_getLast?, hlast] at hbox
      simp only [Option.getD_some] at hbox
      rw [getFragment_of_lt hn] at hbox
      exact hbox
    obtain ⟨_, h2, h3, h4, h5⟩ := CloseInlineBox_of_top heap self inline_box top
      self.fragments[top] hlast hf hbox'
    exact ⟨top, self.fragments[top], hlast, hf, hbox', h2, h3, h4, h5⟩

theorem OpenFragmentsValid_CloseInlineBox (heap : BoxHeap) (self : LayoutLineBox)
    (inline_box : BoxPtr) (hvalid : OpenFragmentsValid self) :
    OpenFragmentsValid (self.CloseInlineBox heap inline_box).1 := by
  rcases CloseInlineBox_cases heap self inline_box hvalid with
    h | ⟨top, f, hlast, _, _, hstack, hfragments, _, _⟩
  · rw [h]
    exact hvalid
  · obtain ⟨hnodup, hall⟩ := hvalid
    have hne : self.open_fragments ≠ [] := by
      intro h
      rw [h] at hlast
      simp at hlast
    have hsplit : self.open_fragments = self.open_fragments.dropLast ++ [(top : Int)] := by
      have h1 := List.dropLast_append_getLast hne
      have h2 : self.open_fragments.getLast hne = (top : Int) := by
        have := List.getLast?_eq_getLast _ hne
        rw [hlast] at this
        exact (Option.some.inj this).symm
      rw [h2] at h1
      exact h1.symm
    have hnodup' : (self.open_fragments.dropLast ++ [(top : Int)]).Nodup := by
      rw [← hsplit]
      exact hnodup
    rw [List.nodup_append] at hnodup'
    obtain ⟨hnd, _, hdisjoint⟩ := hnodup'
    refine ⟨by rw [hstack]; exact hnd, ?_⟩
    intro index hindex
    rw [hstack] at hindex
    have hmem : index ∈ self.open_fragments := List.mem_of_mem_dropLast hindex
    have hne_top : index ≠ (top : Int) := by
      intro heq
      exact hdisjoint hindex (by rw [heq]; exact List.mem_singleton_self _)
    obtain ⟨h0, hlt, htype, hend⟩ := hall index hmem
    rw [hfragments, getFragment_set_ne _ _ _ _ hne_top, List.length_set]
    exact ⟨h0, hlt, htype, hend⟩

/-- The new line that `SplitLine` makes when inline boxes are open. -/
theorem SplitLine_new_line (heap : BoxHeap) (self : LayoutLineBox)
    (hopen : self.open_fragments ≠ []) :
    ∃ new_line : LayoutLineBox, (self.SplitLine heap).2 = some new_line ∧
      new_line.fragments.length = self.open_fragments.length ∧
      new_line.open_fragments =
        (List.range self.open_fragments.length).map (fun k : Nat => (k : Int)) ∧
      new_line.box_cursor = 0 ∧
      new_line.open_spacing_left = (self.open_fragments.map (fun i =>
        if (getFragment self.fragments i).has_content then 0
        else (heap (getFragment self.fragments i).box).GetSpacingLeft)).sum ∧
      (∀ (k : Nat) (i : Int), self.open_fragments[k]? = some i →
        new_line.fragments[k]? = some (SplitLine.clone (getFragment self.fragments i)
          (new_line.fragments.take k) 0)) := by
  rw [SplitLine_of_ne_nil heap self hopen]
  obtain ⟨h1, h2, h3, _, h5⟩ := SplitLine_copied heap self.fragments self.open_fragments {}
  refine ⟨_, rfl, ?_, rfl, ?_, ?_, ?_⟩
  · simpa using h2
  · simpa using h1
  · simpa using h3
  · intro k i hk
    have := h5 k i hk
    simpa using this

theorem mem_range_cast (n : Nat) (index : Int) :
    index ∈ (List.range n).map (fun k : Nat => (k : Int)) ↔ ∃ k : Nat, k < n ∧ index = (k : Int) := by
  simp only [List.mem_map, List.mem_range]
  constructor
  · rintro ⟨k, hk, rfl⟩
    exact ⟨k, hk, rfl⟩
  · rintro ⟨k, hk, rfl⟩
    exact ⟨k, hk, rfl⟩

theorem OpenFragmentsValid_SplitLine (heap : BoxHeap) (self new_line : LayoutLineBox)
    (hvalid : OpenFragmentsValid self) (hsplit : (self.SplitLine heap).2 = some new_line) :
    OpenFragmentsValid new_line := by
  by_cases hopen : self.open_fragments = []
  · rw [SplitLine_of_nil heap self hopen] at hsplit
    simp at hsplit
  · obtain ⟨nl, hnl, hlen, hstack, _, _, hclone⟩ := SplitLine_new_line heap self hopen
    rw [hsplit] at hnl
    obtain rfl := Option.some.inj hnl
    refine ⟨?_, ?_⟩
    · rw [hstack]
      apply List.Nodup.map _ (List.nodup_range _)
      intro a b hab
      have hab' : (a : Int) = (b : Int) := hab
      exact_mod_cast hab'
    · intro index hindex
      rw [hstack, mem_range_cast] at hindex
      obtain ⟨k, hk, rfl⟩ := hindex
      have hk' : k < self.open_fragments.length := hk
      have hget : self.open_fragments[k]? = some self.open_fragments[k] :=
        List.getElem?_eq_getElem hk'
      have hmem : self.open_fragments[k] ∈ self.open_fragments := List.getElem_mem hk'
      obtain ⟨_, _, htype, hend⟩ := hvalid.2 _ hmem
      rw [getFragment_of_getElem? (hclone k _ hget)]
      refine ⟨by omega, by rw [hlen]; exact_mod_cast hk, ?_, ?_⟩
      · simpa [SplitLine.clone] using htype
      · simpa [SplitLine.clone] using hend

theorem OpenFragmentsValid_of_Reachable (heap : BoxHeap) (line : LayoutLineBox)
    (hreach : Reachable heap line) : OpenFragmentsValid line := by
  induction hreach with
  | new_line => exact OpenFragmentsValid_new_line
  | set_line_box self line_position line_width _ ih => exact ih
  | add_box self box mode line_width handle _ ih =>
    exact OpenFragmentsValid_AddBox heap self box mode line_width handle ih
  | close_inline_box self inline_box _ ih =>
    exact OpenFragmentsValid_CloseInlineBox heap self inline_box ih
  | split_line self new_line _ hsplit ih =>
    exact OpenFragmentsValid_SplitLine heap self new_line ih hsplit

theorem DetermineAlignedSubtreeRootLoop_root (fs : List Fragment) :
    ∀ (fuel : Nat) (index : Int),
    DetermineAlignedSubtreeRootLoop fs fuel index = -1 ∨
    IsAlignedSubtreeRoot (getFragment fs (DetermineAlignedSubtreeRootLoop fs fuel index))
      = true := by
  intro fuel
  induction fuel with
  | zero =>
    intro index
    left
    rfl
  | succ fuel ih =>
    intro index
    unfold DetermineAlignedSubtreeRootLoop
    by_cases h1 : index = RootFragmentIndex
    · left
      rw [if_pos h1]
      exact h1
    · rw [if_neg h1]
      by_cases h2 : IsAlignedSubtreeRoot (getFragment fs index) = true
      · right
        rw [if_pos h2]
        exact h2
      · rw [if_neg h2]
        exact ih _

theorem IsAlignedSubtreeRoot_default : IsAlignedSubtreeRoot (default : Fragment) = false := rfl

theorem IsAlignedSubtreeRoot_of_prefix (fs : List Fragment) (k : Nat) (p c : Fragment)
    (hk : fs[k]? = some c) (halign : c.vertical_align = p.vertical_align) (r : Int)
    (h : IsAlignedSubtreeRoot (getFragment (fs.take k ++ [p]) r) = true) :
    IsAlignedSubtreeRoot (getFragment fs r) = true := by
  have hlt : k < fs.length := by
    rcases List.getElem?_eq_some_iff.mp hk with ⟨hlt, _⟩
    exact hlt
  have hlen : (fs.take k).length = k := by
    rw [List.length_take]
    omega
  by_cases h0 : r < 0
  · rw [getFragment_neg h0, IsAlignedSubtreeRoot_default] at h
    exact absurd h (by decide)
  · obtain ⟨n, rfl⟩ := Int.eq_ofNat_of_zero_le (not_lt.mp h0)
    rw [getFragment_natCast] at h ⊢
    rcases Nat.lt_trichotomy n k with hn | hn | hn
    · rw [List.getElem?_append_left (by omega), List.getElem?_take_of_lt hn] at h
      exact h
    · subst hn
      have hp : (fs.take n ++ [p])[n]? = some p := by
        rw [List.getElem?_append_right (by omega), hlen]
        simp
      rw [hp] at h
      rw [hk]
      simp only [Option.getD_some, IsAlignedSubtreeRoot] at h ⊢
      simpa only [halign] using h
    · have hnone : (fs.take k ++ [p])[n]? = none := by
        apply List.getElem?_eq_none
        simp only [List.length_append, hlen, List.length_singleton]
        omega
      rw [hnone] at h
      exact absurd h (by decide)

/-! ## What the vertical pass of `Close` leaves alone -/

theorem modifyFragment_map_eq (π : Fragment → Fragment) (fs : List Fragment) (i : Int)
    (g : Fragment → Fragment) (h : ∀ f, π (g f) = π f) :
    (modifyFragment fs i g).map π = fs.map π := by
  apply List.ext_getElem?
  intro j
  rw [List.getElem?_map, List.getElem?_map, modifyFragment_getElem?]
  cases fs[j]? with
  | none => rfl
  | some a =>
    simp only [Option.map_some']
    by_cases hj : (j : Int) = i <;> simp [hj, h]

theorem length_eq_of_map_eq (π : Fragment → Fragment) {fs fs' : List Fragment}
    (h : fs'.map π = fs.map π) : fs'.length = fs.length := by
  have := congrArg List.length h
  simpa using this

theorem getElem?_map_eq (π : Fragment → Fragment) {fs fs' : List Fragment}
    (h : fs'.map π = fs.map π) (j : Nat) : (fs'[j]?).map π = (fs[j]?).map π := by
  have := congrArg (fun l => l[j]?) h
  simpa [List.getElem?_map] using this

theorem getFragment_map_eq (π : Fragment → Fragment) {fs fs' : List Fragment}
    (h : fs'.map π = fs.map π) (i : Int) : π (getFragment fs' i) = π (getFragment fs i) := by
  by_cases h0 : i < 0
  · rw [getFragment_neg h0, getFragment_neg h0]
  · obtain ⟨n, rfl⟩ := Int.eq_ofNat_of_zero_le (not_lt.mp h0)
    rw [getFragment_natCast, getFragment_natCast]
    have := getElem?_map_eq π h n
    cases h1 : fs'[n]? with
    | none =>
      cases h2 : fs[n]? with
      | none => rfl
      | some b => rw [h1, h2] at this; simp at this
    | some a =>
      cases h2 : fs[n]? with
      | none => rw [h1, h2] at this; simp at this
      | some b =>
        rw [h1, h2] at this
        simpa using this

theorem foldl_fragments_map_eq (π : Fragment → Fragment)
    (step : VerticalAlignment → Int → VerticalAlignment)
    (hstep : ∀ state i, (step state i).fragments.map π = state.fragments.map π)
    (indices : List Int) :
    ∀ state : VerticalAlignment,
      (indices.foldl step state).fragments.map π = state.fragments.map π := by
  induction indices with
  | nil => intro state; rfl
  | cons i rest ih =>
    intro state
    rw [List.foldl_cons, ih, hstep]

theorem foldl_list_map_eq (π : Fragment → Fragment)
    (step : List Fragment → Int → List Fragment)
    (hstep : ∀ fs i, (step fs i).map π = fs.map π) (indices : List Int) :
    ∀ fs : List Fragment, (indices.foldl step fs).map π = fs.map π := by
  induction indices with
  | nil => intro fs; rfl
  | cons i rest ih =>
    intro fs
    rw [List.foldl_cons, ih, hstep]

theorem VerticallyAlignSubtree_step_map_eq (π : Fragment → Fragment)
    (hπ : ∀ (f : Fragment) (b : ℚ), π { f with baseline_offset := b } = π f)
    (heap : BoxHeap) (subtree_root_index : Int) (state : VerticalAlignment) (i : Int) :
    (VerticallyAlignSubtree.step heap subtree_root_index state i).fragments.map π
      = state.fragments.map π := by
  unfold VerticallyAlignSubtree.step
  simp only []
  split
  · rfl
  · split <;> exact modifyFragment_map_eq π _ _ _ (fun f => hπ f _)

theorem VerticallyAlignSubtree_map_eq (π : Fragment → Fragment)
    (hπ : ∀ (f : Fragment) (b : ℚ), π { f with baseline_offset := b } = π f)
    (heap : BoxHeap) (fragments : List Fragment) (subtree_root_index children_end_index : Int)
    (max_ascent max_descent : ℚ) :
    (VerticallyAlignSubtree heap fragments subtree_root_index children_end_index max_ascent
      max_descent).fragments.map π = fragments.map π := by
  unfold VerticallyAlignSubtree
  rw [foldl_fragments_map_eq π _ (VerticallyAlignSubtree_step_map_eq π hπ heap subtree_root_index)]

theorem alignSubtree_map_layout (heap : BoxHeap) (state : VerticalAlignment) (i : Int) :
    (Close.alignSubtree heap state i).fragments.map Fragment.layout
      = state.fragments.map Fragment.layout := by
  unfold Close.alignSubtree
  simp only []
  split
  · have hsub : ∀ sub : VerticalAlignment,
        sub.fragments.map Fragment.layout = state.fragments.map Fragment.layout →
        ∀ a d : ℚ, (modifyFragment sub.fragments i
          (fun f => { f with max_ascent := a, max_descent := d })).map Fragment.layout
          = state.fragments.map Fragment.layout := by
      intro sub hsub a d
      have hmod := modifyFragment_map_eq Fragment.layout sub.fragments i
        (fun f => { f with max_ascent := a, max_descent := d }) (fun f => rfl)
      exact hmod.trans hsub
    have hpass : (if (getFragment state.fragments i).type = FragmentType.InlineBox then
          VerticallyAlignSubtree heap state.fragments i
            (getFragment state.fragments i).children_end_index
            (heap (getFragment state.fragments i).box).GetHeightAboveBaseline
            (heap (getFragment state.fragments i).box).GetDepthBelowBaseline
        else
          { fragments := state.fragments
            max_ascent := (heap (getFragment state.fragments i).box).GetHeightAboveBaseline
            max_descent := (heap (getFragment state.fragments i).box).GetDepthBelowBaseline
              }).fragments.map Fragment.layout = state.fragments.map Fragment.layout := by
      split
      · exact VerticallyAlignSubtree_map_eq Fragment.layout (fun f b => rfl) _ _ _ _ _ _
      · rfl
    split
    · exact hsub _ hpass _ _
    · split
      · exact hsub _ hpass _ _
      · exact hsub _ hpass _ _
  · rfl

theorem sized_map_layout (heap : BoxHeap) (fragments : List Fragment) (root_inline_box : BoxPtr) :
    (Close.sized heap fragments root_inline_box).fragments.map Fragment.layout
      = fragments.map Fragment.layout := by
  unfold Close.sized
  rw [foldl_fragments_map_eq Fragment.layout _ (alignSubtree_map_layout heap),
    VerticallyAlignSubtree_map_eq Fragment.layout (fun f b => rfl)]

theorem positionFragment_map_eq (π : Fragment → Fragment)
    (hπ : ∀ (f : Fragment) (y : ℚ), π { f with position := { f.position with y := y } } = π f)
    (max_ascent out_height_of_line : ℚ) (fs : List Fragment) (i : Int) :
    (Close.positionFragment max_ascent out_height_of_line fs i).map π = fs.map π := by
  unfold Close.positionFragment
  exact modifyFragment_map_eq π _ _ _ (fun f => hπ f _)

theorem positioned_map_eraseY (heap : BoxHeap) (fragments : List Fragment)
    (root_inline_box : BoxPtr) :
    (Close.positioned heap fragments root_inline_box).map Fragment.eraseY
      = (Close.sized heap fragments root_inline_box).fragments.map Fragment.eraseY := by
  unfold Close.positioned
  rw [foldl_list_map_eq Fragment.eraseY _
    (positionFragment_map_eq Fragment.eraseY (fun f y => rfl) _ _)]

theorem positioned_map_layout (heap : BoxHeap) (fragments : List Fragment)
    (root_inline_box : BoxPtr) :
    (Close.positioned heap fragments root_inline_box).map Fragment.layout
      = fragments.map Fragment.layout := by
  unfold Close.positioned
  rw [foldl_list_map_eq Fragment.layout _
    (positionFragment_map_eq Fragment.layout (fun f y => rfl) _ _), sized_map_layout]

theorem layout_fields {f g : Fragment} (h : f.layout = g.layout) :
    f.box = g.box ∧ f.fragment_handle = g.fragment_handle ∧ f.type = g.type ∧
    f.vertical_align = g.vertical_align ∧ f.position.x = g.position.x ∧
    f.layout_width = g.layout_width ∧ f.parent_fragment = g.parent_fragment ∧
    f.aligned_subtree_root = g.aligned_subtree_root ∧ f.has_content = g.has_content ∧
    f.split_left = g.split_left ∧ f.split_right = g.split_right ∧
    f.children_end_index = g.children_end_index := by
  have h1 : f.layout.box = g.layout.box := by rw [h]
  have h2 : f.layout.fragment_handle = g.layout.fragment_handle := by rw [h]
  have h3 : f.layout.type = g.layout.type := by rw [h]
  have h4 : f.layout.vertical_align = g.layout.vertical_align := by rw [h]
  have h5 : f.layout.position.x = g.layout.position.x := by rw [h]
  have h6 : f.layout.layout_width = g.layout.layout_width := by rw [h]
  have h7 : f.layout.parent_fragment = g.layout.parent_fragment := by rw [h]
  have h8 : f.layout.aligned_subtree_root = g.layout.aligned_subtree_root := by rw [h]
  have h9 : f.layout.has_content = g.layout.has_content := by rw [h]
  have h10 : f.layout.split_left = g.layout.split_left := by rw [h]
  have h11 : f.layout.split_right = g.layout.split_right := by rw [h]
  have h12 : f.layout.children_end_index = g.layout.children_end_index := by rw [h]
  exact ⟨h1, h2, h3, h4, h5, h6, h7, h8, h9, h10, h11, h12⟩

theorem tree_fields {f g : Fragment} (h : f.tree = g.tree) :
    f.box = g.box ∧ f.fragment_handle = g.fragment_handle ∧ f.type = g.type ∧
    f.vertical_align = g.vertical_align ∧ f.position = g.position ∧
    f.parent_fragment = g.parent_fragment ∧
    f.aligned_subtree_root = g.aligned_subtree_root ∧ f.baseline_offset = g.baseline_offset ∧
    f.max_ascent = g.max_ascent ∧ f.max_descent = g.max_descent := by
  have h1 : f.tree.box = g.tree.box := by rw [h]
  have h2 : f.tree.fragment_handle = g.tree.fragment_handle := by rw [h]
  have h3 : f.tree.type = g.tree.type := by rw [h]
  have h4 : f.tree.vertical_align = g.tree.vertical_align := by rw [h]
  have h5 : f.tree.position = g.tree.position := by rw [h]
  have h7 : f.tree.parent_fragment = g.tree.parent_fragment := by rw [h]
  have h8 : f.tree.aligned_subtree_root = g.tree.aligned_subtree_root := by rw [h]
  have h9 : f.tree.baseline_offset = g.tree.baseline_offset := by rw [h]
  have h10 : f.tree.max_ascent = g.tree.max_ascent := by rw [h]
  have h11 : f.tree.max_descent = g.tree.max_descent := by rw [h]
  exact ⟨h1, h2, h3, h4, h5, h7, h8, h9, h10, h11⟩

/-! ## The line state through the operations -/

theorem closeOpenFragment_map_tree (heap : BoxHeap) (box_cursor : ℚ) (fs : List Fragment)
    (i : Int) :
    (SplitLine.closeOpenFragment heap box_cursor fs i).map Fragment.tree
      = fs.map Fragment.tree := by
  rw [closeOpenFragment_eq]
  apply modifyFragment_map_eq
  intro f
  by_cases h : f.has_content = true <;> simp [h, SplitLine.closed_fragment, Fragment.tree]

theorem SplitLine_map_tree (heap : BoxHeap) (self : LayoutLineBox) :
    (self.SplitLine heap).1.fragments.map Fragment.tree = self.fragments.map Fragment.tree := by
  by_cases hopen : self.open_fragments = []
  · rw [SplitLine_of_nil heap self hopen]
  · rw [SplitLine_of_ne_nil heap self hopen]
    exact foldl_list_map_eq Fragment.tree _ (closeOpenFragment_map_tree heap self.box_cursor) _ _

theorem SplitLine_line_fields (heap : BoxHeap) (self : LayoutLineBox) :
    (self.SplitLine heap).1.box_cursor = self.box_cursor ∧
    (self.SplitLine heap).1.line_width = self.line_width ∧
    (self.SplitLine heap).1.offset_horizontal_alignment = self.offset_horizontal_alignment ∧
    (self.SplitLine heap).1.open_fragments = [] := by
  by_cases hopen : self.open_fragments = []
  · rw [SplitLine_of_nil heap self hopen]
    exact ⟨rfl, rfl, rfl, hopen⟩
  · rw [SplitLine_of_ne_nil heap self hopen]
    exact ⟨rfl, rfl, rfl, rfl⟩

theorem copied_unclosed (heap : BoxHeap) (fragments : List Fragment) (indices : List Int) :
    ∀ new_line : LayoutLineBox,
    (indices.foldl (SplitLine.copyOpenFragment heap fragments) new_line).offset_horizontal_alignment
      = new_line.offset_horizontal_alignment ∧
    (indices.foldl (SplitLine.copyOpenFragment heap fragments) new_line).is_closed
      = new_line.is_closed := by
  induction indices with
  | nil => intro new_line; exact ⟨rfl, rfl⟩
  | cons i rest ih =>
    intro new_line
    rw [List.foldl_cons]
    obtain ⟨h1, h2⟩ := ih (SplitLine.copyOpenFragment heap fragments new_line i)
    rw [h1, h2, copyOpenFragment_eq]
    exact ⟨rfl, rfl⟩

/-- A reachable line has not been closed: the horizontal offset is not set yet. -/
theorem unclosed_of_Reachable (heap : BoxHeap) (line : LayoutLineBox)
    (hreach : Reachable heap line) :
    line.offset_horizontal_alignment = 0 ∧ line.is_closed = false := by
  induction hreach with
  | new_line => exact ⟨rfl, rfl⟩
  | set_line_box self line_position line_width _ ih => exact ih
  | add_box self box mode line_width handle _ ih =>
    rcases AddBox_line_cases heap self box mode line_width handle with h | ⟨_, h⟩ | ⟨_, h⟩ <;>
      rw [h] <;> exact ih
  | close_inline_box self inline_box _ ih =>
    unfold LayoutLineBox.CloseInlineBox
    split <;> exact ih
  | split_line self new_line _ hsplit ih =>
    by_cases hopen : self.open_fragments = []
    · rw [SplitLine_of_nil heap self hopen] at hsplit
      simp at hsplit
    · rw [SplitLine_of_ne_nil heap self hopen] at hsplit
      obtain rfl := Option.some.inj hsplit
      obtain ⟨h1, h2⟩ := copied_unclosed heap self.fragments self.open_fragments {}
      exact ⟨h1, h2⟩

theorem Close_fields (heap : BoxHeap) (self : LayoutLineBox) (root_inline_box : BoxPtr)
    (offset_parent : Nat) (line_position : Vector2f) (text_align : TextAlign) :
    (self.Close heap root_inline_box offset_parent line_position text_align).line.fragments =
      Close.positioned heap (self.SplitLine heap).1.fragments root_inline_box ∧
    (self.Close heap root_inline_box offset_parent line_position text_align).line.box_cursor =
      self.box_cursor ∧
    (self.Close heap root_inline_box offset_parent line_position
      text_align).line.offset_horizontal_alignment =
      Close.horizontalOffset (self.SplitLine heap).1 text_align ∧
    (self.Close heap root_inline_box offset_parent line_position text_align).submitted =
      (Close.positioned heap (self.SplitLine heap).1.fragments root_inline_box).filterMap
        (Close.submit offset_parent line_position
          (Close.horizontalOffset (self.SplitLine heap).1 text_align)) ∧
    (self.Close heap root_inline_box offset_parent line_position text_align).out_height_of_line =
      (Close.sized heap (self.SplitLine heap).1.fragments root_inline_box).max_ascent +
      (Close.sized heap (self.SplitLine heap).1.fragments root_inline_box).max_descent ∧
    (self.Close heap root_inline_box offset_parent line_position
      text_align).line.total_height_above_baseline =
      (Close.sized heap (self.SplitLine heap).1.fragments root_inline_box).max_ascent ∧
    (self.Close heap root_inline_box offset_parent line_position text_align).line.is_closed =
      true ∧
    (self.Close heap root_inline_box offset_parent line_position text_align).new_line_box =
      (self.SplitLine heap).2 :=
  ⟨rfl, (SplitLine_line_fields heap self).1, rfl, rfl, rfl, rfl, rfl, rfl⟩

/-! ## The sizing loops of `Close` -/

theorem mem_indexRange (first last j : Int) :
    j ∈ indexRange first last ↔ first ≤ j ∧ j < last := by
  unfold indexRange
  simp only [List.mem_map, List.mem_range]
  constructor
  · rintro ⟨k, hk, rfl⟩
    omega
  · rintro ⟨h1, h2⟩
    refine ⟨(j - first).toNat, by omega, by omega⟩

theorem indexRange_nodup (first last : Int) : (indexRange first last).Nodup := by
  unfold indexRange
  apply List.Nodup.map _ (List.nodup_range _)
  intro a b hab
  have hab' : first + (a : Int) = first + (b : Int) := hab
  omega

theorem getFragment_modifyFragment_ne (fs : List Fragment) (i j : Int)
    (g : Fragment → Fragment) (h : j ≠ i) :
    getFragment (modifyFragment fs i g) j = getFragment fs j := by
  by_cases h0 : j < 0
  · rw [getFragment_neg h0, getFragment_neg h0]
  · obtain ⟨n, rfl⟩ := Int.eq_ofNat_of_zero_le (not_lt.mp h0)
    rw [getFragment_natCast, getFragment_natCast, modifyFragment_getElem?]
    cases fs[n]? with
    | none => rfl
    | some a => simp [h]

theorem getFragment_modifyFragment_self (fs : List Fragment) (i : Int)
    (g : Fragment → Fragment) (h0 : 0 ≤ i) (h : i < (fs.length : Int)) :
    getFragment (modifyFragment fs i g) i = g (getFragment fs i) := by
  obtain ⟨n, rfl⟩ := Int.eq_ofNat_of_zero_le h0
  have hn : n < fs.length := by exact_mod_cast h
  rw [getFragment_natCast, getFragment_natCast, modifyFragment_getElem?,
    List.getElem?_eq_getElem hn]
  simp

theorem eraseBaseline_fields {f g : Fragment} (h : f.eraseBaseline = g.eraseBaseline) :
    f.max_ascent = g.max_ascent ∧ f.max_descent = g.max_descent ∧
    f.vertical_align = g.vertical_align ∧ f.position = g.position := by
  have h1 : f.eraseBaseline.max_ascent = g.eraseBaseline.max_ascent := by rw [h]
  have h2 : f.eraseBaseline.max_descent = g.eraseBaseline.max_descent := by rw [h]
  have h3 : f.eraseBaseline.vertical_align = g.eraseBaseline.vertical_align := by rw [h]
  have h4 : f.eraseBaseline.position = g.eraseBaseline.position := by rw [h]
  exact ⟨h1, h2, h3, h4⟩

theorem eraseY_fields {f g : Fragment} (h : f.eraseY = g.eraseY) :
    f.max_ascent = g.max_ascent ∧ f.max_descent = g.max_descent ∧
    f.vertical_align = g.vertical_align ∧ f.baseline_offset = g.baseline_offset ∧
    f.aligned_subtree_root = g.aligned_subtree_root := by
  have h1 : f.eraseY.max_ascent = g.eraseY.max_ascent := by rw [h]
  have h2 : f.eraseY.max_descent = g.eraseY.max_descent := by rw [h]
  have h3 : f.eraseY.vertical_align = g.eraseY.vertical_align := by rw [h]
  have h4 : f.eraseY.baseline_offset = g.eraseY.baseline_offset := by rw [h]
  have h5 : f.eraseY.aligned_subtree_root = g.eraseY.aligned_subtree_root := by rw [h]
  exact ⟨h1, h2, h3, h4, h5⟩

theorem VerticallyAlignSubtree_step_mono (heap : BoxHeap) (subtree_root_index : Int)
    (state : VerticalAlignment) (i : Int) :
    state.max_ascent ≤ (VerticallyAlignSubtree.step heap subtree_root_index state i).max_ascent ∧
    state.max_descent ≤ (VerticallyAlignSubtree.step heap subtree_root_index state i).max_descent := by
  unfold VerticallyAlignSubtree.step
  simp only []
  split
  · exact ⟨le_refl _, le_refl _⟩
  · split
    · exact ⟨le_max_left _ _, le_max_left _ _⟩
    · exact ⟨le_refl _, le_refl _⟩

theorem foldl_mono (step : VerticalAlignment → Int → VerticalAlignment)
    (hstep : ∀ state i, state.max_ascent ≤ (step state i).max_ascent ∧
      state.max_descent ≤ (step state i).max_descent) (indices : List Int) :
    ∀ state : VerticalAlignment,
      state.max_ascent ≤ (indices.foldl step state).max_ascent ∧
      state.max_descent ≤ (indices.foldl step state).max_descent := by
  induction indices with
  | nil => intro state; exact ⟨le_refl _, le_refl _⟩
  | cons i rest ih =>
    intro state
    rw [List.foldl_cons]
    exact ⟨le_trans (hstep state i).1 (ih _).1, le_trans (hstep state i).2 (ih _).2⟩

theorem VerticallyAlignSubtree_mono (heap : BoxHeap) (fragments : List Fragment)
    (subtree_root_index children_end_index : Int) (max_ascent max_descent : ℚ) :
    max_ascent ≤ (VerticallyAlignSubtree heap fragments subtree_root_index children_end_index
      max_ascent max_descent).max_ascent ∧
    max_descent ≤ (VerticallyAlignSubtree heap fragments subtree_root_index children_end_index
      max_ascent max_descent).max_descent := by
  unfold VerticallyAlignSubtree
  exact foldl_mono _ (VerticallyAlignSubtree_step_mono heap subtree_root_index) _ _

/-- The subtree that `Close.alignSubtree` sizes for the fragment at index `i`. -/
theorem alignSubtree_of_root (heap : BoxHeap) (state : VerticalAlignment) (i : Int)
    (hroot : IsAlignedSubtreeRoot (getFragment state.fragments i) = true) :
    ∃ subtree : VerticalAlignment,
      subtree.fragments.map Fragment.eraseBaseline
        = state.fragments.map Fragment.eraseBaseline ∧
      (Close.alignSubtree heap state i).fragments = modifyFragment subtree.fragments i
        (fun f => { f with max_ascent := subtree.max_ascent,
                           max_descent := subtree.max_descent }) ∧
      (((getFragment state.fragments i).vertical_align = VerticalAlign.Top ∧
        (Close.alignSubtree heap state i).max_ascent = state.max_ascent ∧
        (Close.alignSubtree heap state i).max_descent = max state.max_descent
          (subtree.max_ascent + subtree.max_descent - state.max_ascent)) ∨
       ((getFragment state.fragments i).vertical_align = VerticalAlign.Bottom ∧
        (Close.alignSubtree heap state i).max_ascent = max state.max_ascent
          (subtree.max_ascent + subtree.max_descent - state.max_descent) ∧
        (Close.alignSubtree heap state i).max_descent = state.max_descent)) := by
  have halign : (getFragment state.fragments i).vertical_align = VerticalAlign.Top ∨
      (getFragment state.fragments i).vertical_align = VerticalAlign.Bottom := by
    simpa [IsAlignedSubtreeRoot] using hroot
  refine ⟨if (getFragment state.fragments i).type = FragmentType.InlineBox then
      VerticallyAlignSubtree heap state.fragments i
        (getFragment state.fragments i).children_end_index
        (heap (getFragment state.fragments i).box).GetHeightAboveBaseline
        (heap (getFragment state.fragments i).box).GetDepthBelowBaseline
    else
      { fragments := state.fragments
        max_ascent := (heap (getFragment state.fragments i).box).GetHeightAboveBaseline
        max_descent := (heap (getFragment state.fragments i).box).GetDepthBelowBaseline },
    ?_, ?_, ?_⟩
  · split
    · exact VerticallyAlignSubtree_map_eq Fragment.eraseBaseline (fun f b => rfl) _ _ _ _ _ _
    · rfl
  · unfold Close.alignSubtree
    simp only [hroot, if_true]
    rcases halign with h | h
    · rw [if_pos h]
    · have hne : ¬ (getFragment state.fragments i).vertical_align = VerticalAlign.Top := by
        rw [h]; decide
      rw [if_neg hne, if_pos h]
  · unfold Close.alignSubtree
    simp only [hroot, if_true]
    rcases halign with h | h
    · left
      rw [if_pos h]
      exact ⟨h, rfl, rfl⟩
    · right
      have hne : ¬ (getFragment state.fragments i).vertical_align = VerticalAlign.Top := by
        rw [h]; decide
      rw [if_neg hne, if_pos h]
      exact ⟨h, rfl, rfl⟩

theorem alignSubtree_of_not_root (heap : BoxHeap) (state : VerticalAlignment) (i : Int)
    (hroot : ¬ IsAlignedSubtreeRoot (getFragment state.fragments i) = true) :
    Close.alignSubtree heap state i = state := by
  unfold Close.alignSubtree
  simp only [hroot]
  rfl

theorem alignSubtree_mono (heap : BoxHeap) (state : VerticalAlignment) (i : Int) :
    state.max_ascent ≤ (Close.alignSubtree heap state i).max_ascent ∧
    state.max_descent ≤ (Close.alignSubtree heap state i).max_descent := by
  by_cases hroot : IsAlignedSubtreeRoot (getFragment state.fragments i) = true
  · obtain ⟨subtree, _, _, h | h⟩ := alignSubtree_of_root heap state i hroot
    · rw [h.2.1, h.2.2]
      exact ⟨le_refl _, le_max_left _ _⟩
    · rw [h.2.1, h.2.2]
      exact ⟨le_max_left _ _, le_refl _⟩
  · rw [alignSubtree_of_not_root heap state i hroot]
    exact ⟨le_refl _, le_refl _⟩

/-- The maxima of a fragment other than the one at index `i` are not written by
`Close.alignSubtree` at `i`. -/
theorem alignSubtree_other (heap : BoxHeap) (state : VerticalAlignment) (i j : Int)
    (hne : j ≠ i) :
    (getFragment (Close.alignSubtree heap state i).fragments j).max_ascent
      = (getFragment state.fragments j).max_ascent ∧
    (getFragment (Close.alignSubtree heap state i).fragments j).max_descent
      = (getFragment state.fragments j).max_descent := by
  by_cases hroot : IsAlignedSubtreeRoot (getFragment state.fragments i) = true
  · obtain ⟨subtree, hsub, hfragments, _⟩ := alignSubtree_of_root heap state i hroot
    rw [hfragments, getFragment_modifyFragment_ne _ _ _ _ hne]
    obtain ⟨h1, h2, _, _⟩ :=
      eraseBaseline_fields (getFragment_map_eq Fragment.eraseBaseline hsub j)
    exact ⟨h1, h2⟩
  · rw [alignSubtree_of_not_root heap state i hroot]
    exact ⟨rfl, rfl⟩

/-- The subtree of the fragment at index `i` fits in the line after `Close.alignSubtree`. -/
theorem alignSubtree_fits (heap : BoxHeap) (state : VerticalAlignment) (i : Int)
    (h0 : 0 ≤ i) (hlt : i < (state.fragments.length : Int))
    (hroot : IsAlignedSubtreeRoot (getFragment state.fragments i) = true) :
    (getFragment (Close.alignSubtree heap state i).fragments i).max_ascent +
      (getFragment (Close.alignSubtree heap state i).fragments i).max_descent ≤
    (Close.alignSubtree heap state i).max_ascent +
      (Close.alignSubtree heap state i).max_descent := by
  obtain ⟨subtree, hsub, hfragments, hcase⟩ := alignSubtree_of_root heap state i hroot
  have hlen : subtree.fragments.length = state.fragments.length :=
    length_eq_of_map_eq Fragment.eraseBaseline hsub
  rw [hfragments, getFragment_modifyFragment_self _ _ _ h0 (by rw [hlen]; exact hlt)]
  simp only []
  rcases hcase with ⟨_, h1, h2⟩ | ⟨_, h1, h2⟩
  · rw [h1, h2]
    have := le_max_right state.max_descent
      (subtree.max_ascent + subtree.max_descent - state.max_ascent)
    linarith
  · rw [h1, h2]
    have := le_max_right state.max_ascent
      (subtree.max_ascent + subtree.max_descent - state.max_descent)
    linarith

theorem foldl_alignSubtree_other (heap : BoxHeap) (indices : List Int) (j : Int) :
    ∀ state : VerticalAlignment, j ∉ indices →
    (getFragment (indices.foldl (Close.alignSubtree heap) state).fragments j).max_ascent
      = (getFragment state.fragments j).max_ascent ∧
    (getFragment (indices.foldl (Close.alignSubtree heap) state).fragments j).max_descent
      = (getFragment state.fragments j).max_descent := by
  induction indices with
  | nil => intro state _; exact ⟨rfl, rfl⟩
  | cons i rest ih =>
    intro state hj
    rw [List.foldl_cons]
    have hne : j ≠ i := fun h => hj (by rw [h]; exact List.mem_cons_self _ _)
    have hrest : j ∉ rest := fun h => hj (List.mem_cons_of_mem _ h)
    obtain ⟨h1, h2⟩ := ih (Close.alignSubtree heap state i) hrest
    obtain ⟨h3, h4⟩ := alignSubtree_other heap state i j hne
    exact ⟨h1.trans h3, h2.trans h4⟩

/-- Every aligned subtree that the loop of `Close` has sized fits in the line. -/
theorem foldl_alignSubtree_fits (heap : BoxHeap) (indices : List Int) :
    ∀ state : VerticalAlignment, indices.Nodup →
    ∀ j ∈ indices, 0 ≤ j → j < (state.fragments.length : Int) →
    IsAlignedSubtreeRoot (getFragment state.fragments j) = true →
    (getFragment (indices.foldl (Close.alignSubtree heap) state).fragments j).max_ascent +
      (getFragment (indices.foldl (Close.alignSubtree heap) state).fragments j).max_descent ≤
    (indices.foldl (Close.alignSubtree heap) state).max_ascent +
      (indices.foldl (Close.alignSubtree heap) state).max_descent := by
  induction indices with
  | nil =>
    intro state _ j hj
    simp at hj
  | cons i rest ih =>
    intro state hnodup j hj h0 hlt hroot
    rw [List.foldl_cons]
    rw [List.nodup_cons] at hnodup
    have hlayout := alignSubtree_map_layout heap state i
    have hlen : (Close.alignSubtree heap state i).fragments.length = state.fragments.length :=
      length_eq_of_map_eq Fragment.layout hlayout
    rcases List.mem_cons.mp hj with hji | hjrest
    · subst hji
      obtain ⟨h1, h2⟩ := foldl_alignSubtree_other heap rest j
        (Close.alignSubtree heap state j) hnodup.1
      obtain ⟨h3, h4⟩ := foldl_mono _ (alignSubtree_mono heap) rest
        (Close.alignSubtree heap state j)
      have := alignSubtree_fits heap state j h0 hlt hroot
      rw [h1, h2]
      linarith
    · apply ih (Close.alignSubtree heap state i) hnodup.2 j hjrest h0 (by rw [hlen]; exact hlt)
      have hva := (layout_fields (getFragment_map_eq Fragment.layout hlayout j)).2.2.2.1
      unfold IsAlignedSubtreeRoot at hroot ⊢
      rw [hva]
      exact hroot

/-! ## The fragment tree of a reachable line -/

theorem IsAlignedSubtreeRoot_congr {f g : Fragment} (h : f.vertical_align = g.vertical_align) :
    IsAlignedSubtreeRoot f = IsAlignedSubtreeRoot g := by
  unfold IsAlignedSubtreeRoot
  rw [h]

theorem FragmentsValid_of_map_tree {fs fs' : List Fragment}
    (h : fs'.map Fragment.tree = fs.map Fragment.tree) (hvalid : FragmentsValid fs) :
    FragmentsValid fs' := by
  intro i f' hf'
  have hmap := getElem?_map_eq Fragment.tree h i
  rw [hf'] at hmap
  cases hf : fs[i]? with
  | none => rw [hf] at hmap; simp at hmap
  | some f =>
    rw [hf] at hmap
    have htree : f'.tree = f.tree := by simpa using hmap
    obtain ⟨_, _, _, hva, hpos, hparent, hasr, hb, hma, hmd⟩ := tree_fields htree
    obtain ⟨h1, h2, h3, h4, h5, h6, h7, h8⟩ := hvalid i f hf
    have hpf := tree_fields (getFragment_map_eq Fragment.tree h f.parent_fragment)
    rw [hparent, hasr, hb, hma, hmd, hpos, IsAlignedSubtreeRoot_congr hva, hpf.2.2.1,
      hpf.2.2.2.2.2.2.1]
    exact ⟨h1, h2, h3, h4, h5, h6, h7, h8⟩

theorem DetermineAlignedSubtreeRootLoop_none (fs : List Fragment) (fuel : Nat) :
    DetermineAlignedSubtreeRootLoop fs fuel (-1) = -1 := by
  cases fuel with
  | zero => rfl
  | succ fuel =>
    unfold DetermineAlignedSubtreeRootLoop
    simp

/-- The walk of `DetermineAlignedSubtreeRoot` from an earlier fragment ends at the aligned
subtree root that the fragment has stored. -/
theorem DetermineAlignedSubtreeRootLoop_of_valid (fs ext : List Fragment)
    (hvalid : FragmentsValid fs) :
    ∀ p : Nat, p < fs.length → ∀ fuel : Nat, p + 1 ≤ fuel →
    DetermineAlignedSubtreeRootLoop (fs ++ ext) fuel (p : Int)
      = (getFragment fs (p : Int)).aligned_subtree_root := by
  intro p
  induction p using Nat.strong_induction_on with
  | _ p ih =>
    intro hp fuel hfuel
    cases fuel with
    | zero => omega
    | succ fuel =>
      unfold DetermineAlignedSubtreeRootLoop
      have hne : ¬ ((p : Int) = RootFragmentIndex) := by
        simp only [RootFragmentIndex]
        omega
      have hget : getFragment (fs ++ ext) (p : Int) = getFragment fs (p : Int) :=
        getFragment_append_left fs ext _ (by omega) (by exact_mod_cast hp)
      rw [if_neg hne, hget]
      obtain ⟨h1, h2, _, h4, _⟩ := hvalid p _ (getElem?_getFragment hp)
      by_cases hroot : IsAlignedSubtreeRoot (getFragment fs (p : Int)) = true
      · rw [if_pos hroot, h4, if_pos hroot]
      · rw [if_neg hroot, h4, if_neg hroot]
        by_cases hq : (getFragment fs (p : Int)).parent_fragment < 0
        · have : (getFragment fs (p : Int)).parent_fragment = -1 := by omega
          rw [if_pos hq, this]
          exact DetermineAlignedSubtreeRootLoop_none _ _
        · rw [if_neg hq]
          obtain ⟨q, hq'⟩ := Int.eq_ofNat_of_zero_le (not_lt.mp hq)
          rw [hq'] at h2 ⊢
          have hqp : q < p := by exact_mod_cast h2
          exact ih q hqp (by omega) fuel (by omega)

theorem DetermineAlignedSubtreeRoot_append (fs : List Fragment) (a : Fragment)
    (hvalid : FragmentsValid fs) (h1 : -1 ≤ a.parent_fragment)
    (h2 : a.parent_fragment < (fs.length : Int)) :
    DetermineAlignedSubtreeRoot (fs ++ [a]) (fs.length : Int) =
      (if IsAlignedSubtreeRoot a then (fs.length : Int)
       else if a.parent_fragment < 0 then -1
       else (getFragment fs a.parent_fragment).aligned_subtree_root) := by
  unfold DetermineAlignedSubtreeRoot DetermineAlignedSubtreeRootLoop
  have hne : ¬ ((fs.length : Int) = RootFragmentIndex) := by
    simp only [RootFragmentIndex]
    omega
  rw [if_neg hne, getFragment_append_last]
  by_cases hroot : IsAlignedSubtreeRoot a = true
  · rw [if_pos hroot, if_pos hroot]
  · rw [if_neg hroot, if_neg hroot]
    by_cases hq : a.parent_fragment < 0
    · have : a.parent_fragment = -1 := by omega
      rw [if_pos hq, this]
      exact DetermineAlignedSubtreeRootLoop_none _ _
    · rw [if_neg hq]
      obtain ⟨q, hq'⟩ := Int.eq_ofNat_of_zero_le (not_lt.mp hq)
      rw [hq'] at h2 ⊢
      have hqn : q < fs.length := by exact_mod_cast h2
      exact DetermineAlignedSubtreeRootLoop_of_valid fs [a] hvalid q hqn _
        (by simp only [List.length_append, List.length_singleton]; omega)

theorem FragmentsValid_append (fs : List Fragment) (a : Fragment) (hvalid : FragmentsValid fs)
    (h1 : -1 ≤ a.parent_fragment) (h2 : a.parent_fragment < (fs.length : Int))
    (h3 : a.parent_fragment ≠ -1 →
      (getFragment fs a.parent_fragment).type = FragmentType.InlineBox)
    (h4 : a.aligned_subtree_root =
      (if IsAlignedSubtreeRoot a then (fs.length : Int)
       else if a.parent_fragment < 0 then -1
       else (getFragment fs a.parent_fragment).aligned_subtree_root))
    (h5 : a.baseline_offset = 0) (h6 : a.max_ascent = 0) (h7 : a.max_descent = 0)
    (h8 : a.position.y = 0) :
    FragmentsValid (fs ++ [a]) := by
  intro i f hf
  have hsame : ∀ q : Int, q < (fs.length : Int) → getFragment (fs ++ [a]) q = getFragment fs q := by
    intro q hq
    by_cases h0 : q < 0
    · rw [getFragment_neg h0, getFragment_neg h0]
    · exact getFragment_append_left fs [a] q (not_lt.mp h0) hq
  rcases Nat.lt_trichotomy i fs.length with hi | hi | hi
  · rw [List.getElem?_append_left hi] at hf
    obtain ⟨g1, g2, g3, g4, g5, g6, g7, g8⟩ := hvalid i f hf
    have hq : f.parent_fragment < (fs.length : Int) := by omega
    rw [hsame _ hq]
    exact ⟨g1, g2, g3, g4, g5, g6, g7, g8⟩
  · subst hi
    have hfa : f = a := by
      have : (fs ++ [a])[fs.length]? = some a := by simp
      rw [this] at hf
      exact (Option.some.inj hf).symm
    subst hfa
    rw [hsame _ h2]
    exact ⟨h1, h2, h3, h4, h5, h6, h7, h8⟩
  · have : (fs ++ [a])[i]? = none := by
      apply List.getElem?_eq_none
      simp only [List.length_append, List.length_singleton]
      omega
    rw [this] at hf
    simp at hf

theorem FragmentsValid_nil : FragmentsValid [] := by
  intro i f hf
  simp at hf

theorem GetOpenParent_valid (self : LayoutLineBox) (hopen : OpenFragmentsValid self) :
    -1 ≤ self.GetOpenParent ∧ self.GetOpenParent < (self.fragments.length : Int) ∧
    (self.GetOpenParent ≠ -1 →
      (getFragment self.fragments self.GetOpenParent).type = FragmentType.InlineBox) := by
  unfold LayoutLineBox.GetOpenParent
  by_cases hnil : self.open_fragments = []
  · rw [hnil]
    simp only [List.getLastD_nil, RootFragmentIndex]
    refine ⟨le_refl _, by omega, fun h => absurd rfl h⟩
  · have hlast : self.open_fragments.getLastD RootFragmentIndex
        = self.open_fragments.getLast hnil := by
      rw [List.getLastD_eq_getLast?, List.getLast?_eq_getLast _ hnil]
      rfl
    rw [hlast]
    obtain ⟨h0, hlt, htype, _⟩ := hopen.2 _ (List.getLast_mem hnil)
    exact ⟨by omega, hlt, fun _ => htype⟩

theorem FragmentsValid_appended (heap : BoxHeap) (self : LayoutLineBox) (box : BoxPtr)
    (fragment : FragmentResult) (hopen : OpenFragmentsValid self)
    (hvalid : FragmentsValid self.fragments) :
    FragmentsValid (self.fragments ++ [AddBox.appended_fragment heap self box fragment]) := by
  obtain ⟨h1, h2, h3⟩ := GetOpenParent_valid self hopen
  apply FragmentsValid_append _ _ hvalid h1 h2 h3 _ rfl rfl rfl rfl
  exact DetermineAlignedSubtreeRoot_append self.fragments
    (AddBox.new_fragment heap self box fragment) hvalid h1 h2

theorem mark_has_content_map_tree (indices : List Int) (fs : List Fragment) :
    (indices.foldl
      (fun fs index => modifyFragment fs index (fun f => { f with has_content := true }))
      fs).map Fragment.tree = fs.map Fragment.tree :=
  foldl_list_map_eq Fragment.tree
    (fun fs index => modifyFragment fs index (fun f => { f with has_content := true }))
    (fun fs i => modifyFragment_map_eq Fragment.tree fs i
      (fun f => { f with has_content := true }) (fun _ => rfl)) indices fs

theorem FragmentsValid_AddBox (heap : BoxHeap) (self : LayoutLineBox) (box : BoxPtr)
    (mode : InlineLayoutMode) (line_width : ℚ) (handle : LayoutOverflowHandle)
    (hopen : OpenFragmentsValid self) (hvalid : FragmentsValid self.fragments) :
    FragmentsValid (self.AddBox heap box mode line_width handle).line.fragments := by
  rcases AddBox_line_cases heap self box mode line_width handle with h | ⟨_, h⟩ | ⟨_, h⟩
  · rw [h]
    exact hvalid
  · rw [h]
    exact FragmentsValid_appended heap self box _ hopen hvalid
  · rw [h]
    exact FragmentsValid_of_map_tree (mark_has_content_map_tree _ _)
      (FragmentsValid_appended heap self box _ hopen hvalid)

theorem CloseFragment_map_tree (heap : BoxHeap) (fs : List Fragment) (i : Int) (edge : ℚ) :
    (CloseFragment heap fs i edge).map Fragment.tree = fs.map Fragment.tree := by
  unfold CloseFragment
  exact modifyFragment_map_eq Fragment.tree fs i _ (fun _ => rfl)

theorem CloseInlineBox_map_tree (heap : BoxHeap) (self : LayoutLineBox) (inline_box : BoxPtr) :
    (self.CloseInlineBox heap inline_box).1.fragments.map Fragment.tree
      = self.fragments.map Fragment.tree := by
  unfold LayoutLineBox.CloseInlineBox
  split
  · rfl
  · exact CloseFragment_map_tree heap _ _ _

theorem FragmentsValid_SplitLine (heap : BoxHeap) (self new_line : LayoutLineBox)
    (hopen_valid : OpenFragmentsValid self) (hvalid : FragmentsValid self.fragments)
    (hsplit : (self.SplitLine heap).2 = some new_line) :
    FragmentsValid new_line.fragments := by
  by_cases hopen : self.open_fragments = []
  · rw [SplitLine_of_nil heap self hopen] at hsplit
    simp at hsplit
  · obtain ⟨nl, hnl, hlen, _, _, _, hclone⟩ := SplitLine_new_line heap self hopen
    rw [hsplit] at hnl
    obtain rfl := Option.some.inj hnl
    have hprefix : ∀ k : Nat, k ≤ new_line.fragments.length →
        FragmentsValid (new_line.fragments.take k) := by
      intro k
      induction k with
      | zero =>
        intro _
        rw [List.take_zero]
        exact FragmentsValid_nil
      | succ k ih =>
        intro hk
        have hklt : k < self.open_fragments.length := by omega
        have hprev := ih (by omega)
        have hget := hclone k _ (List.getElem?_eq_getElem hklt)
        have htake : (new_line.fragments.take k).length = k := by
          rw [List.length_take]
          omega
        rw [List.take_succ, hget]
        simp only [Option.toList_some]
        obtain ⟨hi0, hilt, hitype, _⟩ := hopen_valid.2 _ (List.getElem_mem hklt)
        obtain ⟨i, hi⟩ := Int.eq_ofNat_of_zero_le hi0
        rw [hi] at hilt
        have hin : i < self.fragments.length := by exact_mod_cast hilt
        obtain ⟨_, _, _, _, z1, z2, z3, z4⟩ := hvalid i _ (getElem?_getFragment hin)
        rw [← hi] at z1 z2 z3 z4
        have hparent : (SplitLine.clone (getFragment self.fragments self.open_fragments[k])
            (new_line.fragments.take k) 0).parent_fragment = (k : Int) - 1 := by
          simp [SplitLine.clone, htake]
        apply FragmentsValid_append _ _ hprev
        · rw [hparent]; omega
        · rw [hparent, htake]; omega
        · intro hne
          rw [hparent] at hne ⊢
          cases k with
          | zero => exact absurd (by simp) hne
          | succ k =>
            have hk1 : k < self.open_fragments.length := by omega
            have hprev_get := hclone k _ (List.getElem?_eq_getElem hk1)
            have hidx : ((k + 1 : Nat) : Int) - 1 = (k : Int) := by push_cast; ring
            rw [hidx]
            have hin_take : (new_line.fragments.take (k + 1))[k]? = new_line.fragments[k]? :=
              List.getElem?_take_of_lt (by omega)
            rw [getFragment_of_getElem? (hin_take.trans hprev_get)]
            have := (hopen_valid.2 _ (List.getElem_mem hk1)).2.2.1
            simpa [SplitLine.clone] using this
        · have hdet := DetermineAlignedSubtreeRoot_append (new_line.fragments.take k)
            { getFragment self.fragments self.open_fragments[k] with
              position := { (getFragment self.fragments self.open_fragments[k]).position with
                x := 0 }
              parent_fragment := ((new_line.fragments.take k).length : Int) - 1 }
            hprev (by simp only []; omega) (by simp only []; omega)
          exact hdet
        · simpa [SplitLine.clone] using z1
        · simpa [SplitLine.clone] using z2
        · simpa [SplitLine.clone] using z3
        · simpa [SplitLine.clone] using z4
    have := hprefix new_line.fragments.length (le_refl _)
    rwa [List.take_length] at this

theorem FragmentsValid_of_Reachable (heap : BoxHeap) (line : LayoutLineBox)
    (hreach : Reachable heap line) : FragmentsValid line.fragments := by
  induction hreach with
  | new_line => exact FragmentsValid_nil
  | set_line_box self line_position line_width _ ih => exact ih
  | add_box self box mode line_width handle hself ih =>
    exact FragmentsValid_AddBox heap self box mode line_width handle
      (OpenFragmentsValid_of_Reachable heap self hself) ih
  | close_inline_box self inline_box _ ih =>
    exact FragmentsValid_of_map_tree (CloseInlineBox_map_tree heap self inline_box) ih
  | split_line self new_line hself hsplit ih =>
    exact FragmentsValid_SplitLine heap self new_line
      (OpenFragmentsValid_of_Reachable heap self hself) ih hsplit

theorem parentChain_none (fs : List Fragment) (fuel : Nat) :
    parentChain fs fuel (-1) = [] := by
  cases fuel with
  | zero => rfl
  | succ fuel =>
    unfold parentChain
    simp

/-- On a well-formed fragment array the first aligned subtree root on the chain of parents of
a fragment, the fragment itself first, is the aligned subtree root that the fragment has
stored; all fragments of the chain are at or before the fragment. -/
theorem parentChain_of_valid (fs : List Fragment) (hvalid : FragmentsValid fs) :
    ∀ p : Nat, p < fs.length → ∀ fuel : Nat, p + 1 ≤ fuel →
    ((parentChain fs fuel (p : Int)).find?
      (fun j => IsAlignedSubtreeRoot (getFragment fs j))).getD (-1)
      = (getFragment fs (p : Int)).aligned_subtree_root ∧
    (∀ j ∈ parentChain fs fuel (p : Int), 0 ≤ j ∧ j ≤ (p : Int)) := by
  intro p
  induction p using Nat.strong_induction_on with
  | _ p ih =>
    intro hp fuel hfuel
    cases fuel with
    | zero => omega
    | succ fuel =>
      unfold parentChain
      have hneg : ¬ ((p : Int) < 0) := by omega
      rw [if_neg hneg]
      obtain ⟨h1, h2, _, h4, _⟩ := hvalid p _ (getElem?_getFragment hp)
      have hrest : ((parentChain fs fuel (getFragment fs (p : Int)).parent_fragment).find?
            (fun j => IsAlignedSubtreeRoot (getFragment fs j))).getD (-1)
            = (if (getFragment fs (p : Int)).parent_fragment < 0 then -1
               else (getFragment fs (getFragment fs (p : Int)).parent_fragment).aligned_subtree_root) ∧
          (∀ j ∈ parentChain fs fuel (getFragment fs (p : Int)).parent_fragment,
            0 ≤ j ∧ j ≤ (p : Int)) := by
        by_cases hq : (getFragment fs (p : Int)).parent_fragment < 0
        · have : (getFragment fs (p : Int)).parent_fragment = -1 := by omega
          rw [if_pos hq, this, parentChain_none]
          refine ⟨rfl, ?_⟩
          intro j hj
          simp at hj
        · rw [if_neg hq]
          obtain ⟨q, hq'⟩ := Int.eq_ofNat_of_zero_le (not_lt.mp hq)
          rw [hq'] at h2 ⊢
          have hqp : q < p := by exact_mod_cast h2
          obtain ⟨g1, g2⟩ := ih q hqp (by omega) fuel (by omega)
          refine ⟨g1, ?_⟩
          intro j hj
          have := g2 j hj
          omega
      refine ⟨?_, ?_⟩
      · rw [h4]
        by_cases hroot : IsAlignedSubtreeRoot (getFragment fs (p : Int)) = true
        · simp only [List.find?_cons, hroot, if_true]
          rfl
        · have hfalse : IsAlignedSubtreeRoot (getFragment fs (p : Int)) = false := by
            simpa using hroot
          simp only [List.find?_cons, hfalse, if_neg hroot]
          exact hrest.1
      · intro j hj
        rcases List.mem_cons.mp hj with hj | hj
        · rw [hj]
          omega
        · exact hrest.2 j hj

/-! ## The vertical pass of `Close` on a well-formed fragment array -/

/-- The aligned subtree root stored in a fragment of a well-formed array: none or a fragment
at or before it, the fragment itself exactly when it is the root of an aligned subtree, and
otherwise an inline box that is the root of an aligned subtree. -/
theorem aligned_subtree_root_of_valid (fs : List Fragment) (hvalid : FragmentsValid fs) :
    ∀ j : Nat, j < fs.length →
    -1 ≤ (getFragment fs (j : Int)).aligned_subtree_root ∧
    (getFragment fs (j : Int)).aligned_subtree_root ≤ (j : Int) ∧
    (IsAlignedSubtreeRoot (getFragment fs (j : Int)) = true →
      (getFragment fs (j : Int)).aligned_subtree_root = (j : Int)) ∧
    (IsAlignedSubtreeRoot (getFragment fs (j : Int)) = false →
      (getFragment fs (j : Int)).aligned_subtree_root < (j : Int)) ∧
    (0 ≤ (getFragment fs (j : Int)).aligned_subtree_root →
      IsAlignedSubtreeRoot
        (getFragment fs (getFragment fs (j : Int)).aligned_subtree_root) = true ∧
      ((getFragment fs (j : Int)).aligned_subtree_root ≠ (j : Int) →
        (getFragment fs (getFragment fs (j : Int)).aligned_subtree_root).type
          = FragmentType.InlineBox)) := by
  intro j
  induction j using Nat.strong_induction_on with
  | _ j ih =>
    intro hj
    obtain ⟨h1, h2, h3, h4, _⟩ := hvalid j _ (getElem?_getFragment hj)
    by_cases hroot : IsAlignedSubtreeRoot (getFragment fs (j : Int)) = true
    · rw [if_pos hroot] at h4
      rw [h4]
      refine ⟨by omega, le_refl _, fun _ => rfl, ?_, ?_⟩
      · intro hfalse
        rw [hfalse] at hroot
        exact absurd hroot (by decide)
      · intro _
        exact ⟨hroot, fun hne => absurd rfl hne⟩
    · rw [if_neg hroot] at h4
      by_cases hp : (getFragment fs (j : Int)).parent_fragment < 0
      · rw [if_pos hp] at h4
        rw [h4]
        exact ⟨le_refl _, by omega, fun h => absurd h hroot, fun _ => by omega,
          fun h => absurd h (by decide)⟩
      · rw [if_neg hp] at h4
        obtain ⟨p, hp'⟩ := Int.eq_ofNat_of_zero_le (not_lt.mp hp)
        have hpj : p < j := by
          rw [hp'] at h2
          exact_mod_cast h2
        obtain ⟨g1, g2, g3, g4, g5⟩ := ih p hpj (by omega)
        have h3' := h3 (by omega)
        rw [h4, hp']
        rw [hp'] at h3'
        refine ⟨g1, by omega, fun h => absurd h hroot, fun _ => by omega, ?_⟩
        intro h0
        obtain ⟨g6, g7⟩ := g5 h0
        refine ⟨g6, fun _ => ?_⟩
        by_cases heq : (getFragment fs (p : Int)).aligned_subtree_root = (p : Int)
        · rw [heq]
          exact h3'
        · exact g7 heq

theorem baselineOffsetSum_of_stop (heap : BoxHeap) (fs : List Fragment) (r : Int) (fuel : Nat)
    (index : Int) (h : index < 0 ∨ index = r) :
    baselineOffsetSum heap fs r fuel index = 0 := by
  cases fuel with
  | zero => rfl
  | succ fuel =>
    rw [baselineOffsetSum, if_pos h]

theorem baselineOffsetSum_of_go (heap : BoxHeap) (fs : List Fragment) (r : Int) (fuel : Nat)
    (index : Int) (h : ¬ (index < 0 ∨ index = r)) :
    baselineOffsetSum heap fs r (fuel + 1) index =
      (heap (getFragment fs index).box).GetVerticalOffsetFromParent +
        baselineOffsetSum heap fs r fuel (getFragment fs index).parent_fragment := by
  rw [baselineOffsetSum, if_neg h]

/-- On a well-formed array the sum of the vertical offsets along the chain of parents does
not depend on the fuel, once the fuel is above the index of the fragment. -/
theorem baselineOffsetSum_fuel (heap : BoxHeap) (fs : List Fragment)
    (hvalid : FragmentsValid fs) (r : Int) :
    ∀ p : Nat, p < fs.length → ∀ fuel1 fuel2 : Nat, p + 1 ≤ fuel1 → p + 1 ≤ fuel2 →
    baselineOffsetSum heap fs r fuel1 (p : Int) = baselineOffsetSum heap fs r fuel2 (p : Int) := by
  intro p
  induction p using Nat.strong_induction_on with
  | _ p ih =>
    intro hp fuel1 fuel2 h1 h2
    cases fuel1 with
    | zero => omega
    | succ fuel1 =>
      cases fuel2 with
      | zero => omega
      | succ fuel2 =>
        by_cases hstop : (p : Int) < 0 ∨ (p : Int) = r
        · rw [baselineOffsetSum_of_stop heap fs r _ _ hstop,
            baselineOffsetSum_of_stop heap fs r _ _ hstop]
        · rw [baselineOffsetSum_of_go heap fs r _ _ hstop,
            baselineOffsetSum_of_go heap fs r _ _ hstop]
          obtain ⟨_, hlt, _⟩ := hvalid p _ (getElem?_getFragment hp)
          by_cases hq : (getFragment fs (p : Int)).parent_fragment < 0
          · rw [baselineOffsetSum_of_stop heap fs r _ _ (Or.inl hq),
              baselineOffsetSum_of_stop heap fs r _ _ (Or.inl hq)]
          · obtain ⟨q, hq'⟩ := Int.eq_ofNat_of_zero_le (not_lt.mp hq)
            rw [hq'] at hlt ⊢
            have hqp : q < p := by exact_mod_cast hlt
            rw [ih q hqp (by omega) fuel1 fuel2 (by omega) (by omega)]

theorem baselineOffsetSum_congr (heap : BoxHeap) {fs fs' : List Fragment}
    (h : fs'.map Fragment.layout = fs.map Fragment.layout) (r : Int) :
    ∀ (fuel : Nat) (index : Int),
    baselineOffsetSum heap fs' r fuel index = baselineOffsetSum heap fs r fuel index := by
  intro fuel
  induction fuel with
  | zero => intro index; rfl
  | succ fuel ih =>
    intro index
    by_cases hstop : index < 0 ∨ index = r
    · rw [baselineOffsetSum_of_stop heap fs r _ _ hstop,
        baselineOffsetSum_of_stop heap fs' r _ _ hstop]
    · rw [baselineOffsetSum_of_go heap fs r _ _ hstop,
        baselineOffsetSum_of_go heap fs' r _ _ hstop]
      have hfields := layout_fields (getFragment_map_eq Fragment.layout h index)
      rw [hfields.1, hfields.2.2.2.2.2.2.1, ih]

/-- Induction over a `for` loop on the indices `first, ..., last - 1`. -/
theorem foldl_indexRange_induction {σ : Type} (step : σ → Int → σ) (first last : Int)
    (P : Nat → σ → Prop) (s0 : σ) (h0 : P 0 s0)
    (hstep : ∀ (m : Nat) (s : σ), first + (m : Int) < last → P m s →
      P (m + 1) (step s (first + (m : Int)))) :
    P (last - first).toNat ((indexRange first last).foldl step s0) := by
  unfold indexRange
  have key : ∀ m : Nat, m ≤ (last - first).toNat →
      P m (((List.range m).map (fun k : Nat => first + (k : Int))).foldl step s0) := by
    intro m
    induction m with
    | zero => intro _; exact h0
    | succ m ih =>
      intro hm
      rw [List.range_succ, List.map_append, List.foldl_append]
      simp only [List.map_cons, List.map_nil, List.foldl_cons, List.foldl_nil]
      exact hstep m _ (by omega) (ih (by omega))
  exact key _ (le_refl _)

theorem BaselineOffsetsAligned_mono (heap : BoxHeap) (fs : List Fragment)
    {done done' : Nat → Prop} {state : List Fragment}
    (h : BaselineOffsetsAligned heap fs done state)
    (hsub : ∀ j, j < fs.length → done' j → done j) :
    BaselineOffsetsAligned heap fs done' state :=
  ⟨h.1, fun j hj => ⟨fun hd => (h.2 j hj).1 (hsub j hj hd), (h.2 j hj).2⟩⟩

/-- Writing fields other than the baseline offset keeps the baseline offsets aligned. -/
theorem BaselineOffsetsAligned_modify (heap : BoxHeap) (fs : List Fragment)
    {done : Nat → Prop} {state : List Fragment} (i : Int) (g : Fragment → Fragment)
    (hlayout : ∀ f, (g f).layout = f.layout)
    (hbaseline : ∀ f, (g f).baseline_offset = f.baseline_offset)
    (h : BaselineOffsetsAligned heap fs done state) :
    BaselineOffsetsAligned heap fs done (modifyFragment state i g) := by
  have hlen : state.length = fs.length := length_eq_of_map_eq Fragment.layout h.1
  have hval : ∀ j : Nat, j < fs.length →
      (getFragment (modifyFragment state i g) (j : Int)).baseline_offset
        = (getFragment state (j : Int)).baseline_offset := by
    intro j hj
    by_cases hji : (j : Int) = i
    · rw [← hji, getFragment_modifyFragment_self _ _ _ (by omega) (by rw [hlen]; exact_mod_cast hj),
        hbaseline]
    · rw [getFragment_modifyFragment_ne _ _ _ _ hji]
  refine ⟨(modifyFragment_map_eq Fragment.layout state i g hlayout).trans h.1, ?_⟩
  intro j hj
  rw [hval j hj]
  exact h.2 j hj

theorem BaselineOffsetsAligned_initial (heap : BoxHeap) (fs : List Fragment)
    (hvalid : FragmentsValid fs) :
    BaselineOffsetsAligned heap fs (fun _ => False) fs := by
  refine ⟨rfl, fun j hj => ⟨fun h => absurd h not_false, fun _ => ?_⟩⟩
  obtain ⟨_, _, _, _, h5, _⟩ := hvalid j _ (getElem?_getFragment hj)
  exact h5

theorem VerticallyAlignSubtree_step_fragments (heap : BoxHeap) (r : Int)
    (state : VerticalAlignment) (i : Int) :
    (VerticallyAlignSubtree.step heap r state i).fragments =
      if (getFragment state.fragments i).aligned_subtree_root ≠ r then state.fragments
      else modifyFragment state.fragments i (fun f => { f with baseline_offset :=
        (if (getFragment state.fragments i).parent_fragment < 0 then 0
         else (getFragment state.fragments
            (getFragment state.fragments i).parent_fragment).baseline_offset) +
          (heap (getFragment state.fragments i).box).GetVerticalOffsetFromParent }) := by
  unfold VerticallyAlignSubtree.step
  simp only []
  split
  · rfl
  · split <;> rfl

/-- One iteration of `VerticallyAlignSubtree` for the subtree root `r`, at the index
`r + 1 + m`: the fragment there, when it belongs to the subtree, gets the sum of the vertical
offsets up to `r`, since its parent is `r` itself or has been visited before. -/
theorem VerticallyAlignSubtree_step_aligned (heap : BoxHeap) (fs : List Fragment)
    (hvalid : FragmentsValid fs) (r : Int) (done : Nat → Prop)
    (state : VerticalAlignment) (m : Nat)
    (hinv : BaselineOffsetsAligned heap fs
      (fun j => done j ∨ ((getFragment fs (j : Int)).aligned_subtree_root = r ∧ r < (j : Int) ∧
        (j : Int) < r + 1 + (m : Int))) state.fragments) :
    BaselineOffsetsAligned heap fs
      (fun j => done j ∨ ((getFragment fs (j : Int)).aligned_subtree_root = r ∧ r < (j : Int) ∧
        (j : Int) < r + 1 + ((m + 1 : Nat) : Int)))
      (VerticallyAlignSubtree.step heap r state (r + 1 + (m : Int))).fragments := by
  obtain ⟨hlayout, hvals⟩ := hinv
  have hlen : state.fragments.length = fs.length := length_eq_of_map_eq Fragment.layout hlayout
  have hfi := layout_fields (getFragment_map_eq Fragment.layout hlayout (r + 1 + (m : Int)))
  rw [VerticallyAlignSubtree_step_fragments]
  by_cases hasr : (getFragment state.fragments (r + 1 + (m : Int))).aligned_subtree_root ≠ r
  · rw [if_pos hasr]
    refine ⟨hlayout, fun j hj => ⟨?_, (hvals j hj).2⟩⟩
    intro hd
    rcases hd with hd | ⟨h1, h2, h3⟩
    · exact (hvals j hj).1 (Or.inl hd)
    · by_cases hji : (j : Int) = r + 1 + (m : Int)
      · rw [hfi.2.2.2.2.2.2.2.1, ← hji] at hasr
        exact absurd h1 hasr
      · exact (hvals j hj).1 (Or.inr ⟨h1, h2, by omega⟩)
  · rw [if_neg hasr]
    have hasr' : (getFragment fs (r + 1 + (m : Int))).aligned_subtree_root = r := by
      rw [← hfi.2.2.2.2.2.2.2.1]
      exact not_not.mp hasr
    refine ⟨(modifyFragment_map_eq Fragment.layout state.fragments (r + 1 + (m : Int))
      (fun f => { f with baseline_offset :=
        (if (getFragment state.fragments (r + 1 + (m : Int))).parent_fragment < 0 then 0
         else (getFragment state.fragments
            (getFragment state.fragments (r + 1 + (m : Int))).parent_fragment).baseline_offset) +
          (heap (getFragment state.fragments (r + 1 + (m : Int))).box).GetVerticalOffsetFromParent })
      (fun f => rfl)).trans hlayout, ?_⟩
    intro j hj
    by_cases hji : (j : Int) = r + 1 + (m : Int)
    · rw [← hji] at hasr' hfi ⊢
      rw [getFragment_modifyFragment_self _ _ _ (by omega) (by rw [hlen]; exact_mod_cast hj)]
      simp only []
      obtain ⟨_, _, g3, _, _⟩ := aligned_subtree_root_of_valid fs hvalid j hj
      have hnroot : ¬ IsAlignedSubtreeRoot (getFragment fs (j : Int)) = true := by
        intro hroot
        have := g3 hroot
        omega
      refine ⟨fun _ => ?_, fun hroot => absurd hroot hnroot⟩
      obtain ⟨n, hn⟩ : ∃ n, fs.length = n + 1 := ⟨fs.length - 1, by omega⟩
      have hgo : ¬ ((j : Int) < 0 ∨ (j : Int) = r) := by omega
      rw [hasr', hn, baselineOffsetSum_of_go heap fs r n _ hgo, hfi.1, hfi.2.2.2.2.2.2.1]
      obtain ⟨_, hlt, _, h4, _⟩ := hvalid j _ (getElem?_getFragment hj)
      rw [if_neg hnroot] at h4
      by_cases hp : (getFragment fs (j : Int)).parent_fragment < 0
      · rw [if_pos hp, baselineOffsetSum_of_stop heap fs r _ _ (Or.inl hp)]
        ring
      · rw [if_neg hp]
        rw [if_neg hp] at h4
        obtain ⟨p, hp'⟩ := Int.eq_ofNat_of_zero_le (not_lt.mp hp)
        rw [hp'] at hlt h4 ⊢
        have hpj : p < j := by exact_mod_cast hlt
        have hpasr : (getFragment fs (p : Int)).aligned_subtree_root = r := by
          rw [← h4]
          exact hasr'
        obtain ⟨_, _, q3, q4, _⟩ := aligned_subtree_root_of_valid fs hvalid p (by omega)
        by_cases hproot : IsAlignedSubtreeRoot (getFragment fs (p : Int)) = true
        · have hpr : (p : Int) = r := by
            rw [← hpasr]
            exact (q3 hproot).symm
          rw [(hvals p (by omega)).2 hproot,
            baselineOffsetSum_of_stop heap fs r _ _ (Or.inr hpr)]
          ring
        · have hpfalse : IsAlignedSubtreeRoot (getFragment fs (p : Int)) = false := by
            simpa using hproot
          have hrp := q4 hpfalse
          rw [hpasr] at hrp
          rw [(hvals p (by omega)).1 (Or.inr ⟨hpasr, hrp, by omega⟩), hpasr, hn,
            baselineOffsetSum_fuel heap fs hvalid r p (by omega) (n + 1) n (by omega) (by omega)]
          ring
    · rw [getFragment_modifyFragment_ne _ _ _ _ hji]
      refine ⟨fun hd => (hvals j hj).1 ?_, (hvals j hj).2⟩
      rcases hd with hd | ⟨h1, h2, h3⟩
      · exact Or.inl hd
      · exact Or.inr ⟨h1, h2, by omega⟩

/-- One call of `VerticallyAlignSubtree` for the subtree root `r`: the fragments of the
subtree between `r` and `children_end_index` are visited. -/
theorem VerticallyAlignSubtree_aligned (heap : BoxHeap) (fs : List Fragment)
    (hvalid : FragmentsValid fs) (r e : Int) (done : Nat → Prop)
    (fragments : List Fragment) (max_ascent max_descent : ℚ)
    (hinv : BaselineOffsetsAligned heap fs done fragments) :
    BaselineOffsetsAligned heap fs
      (fun j => done j ∨ ((getFragment fs (j : Int)).aligned_subtree_root = r ∧ r < (j : Int) ∧
        (j : Int) < e))
      (VerticallyAlignSubtree heap fragments r e max_ascent max_descent).fragments := by
  unfold VerticallyAlignSubtree
  have key := foldl_indexRange_induction (VerticallyAlignSubtree.step heap r) (r + 1) e
    (fun m s => BaselineOffsetsAligned heap fs
      (fun j => done j ∨ ((getFragment fs (j : Int)).aligned_subtree_root = r ∧ r < (j : Int) ∧
        (j : Int) < r + 1 + (m : Int))) s.fragments)
    { fragments := fragments, max_ascent := max_ascent, max_descent := max_descent }
    (BaselineOffsetsAligned_mono heap fs hinv (by
      intro j _ hd
      rcases hd with hd | ⟨_, h2, h3⟩
      · exact hd
      · simp only [Nat.cast_zero, add_zero] at h3
        omega))
    (fun m s _ hs => VerticallyAlignSubtree_step_aligned heap fs hvalid r done s m hs)
  exact BaselineOffsetsAligned_mono heap fs key (by
    intro j _ hd
    rcases hd with hd | ⟨h1, h2, h3⟩
    · exact Or.inl hd
    · exact Or.inr ⟨h1, h2, by omega⟩)

theorem alignSubtree_fragments (heap : BoxHeap) (state : VerticalAlignment) (i : Int)
    (hroot : IsAlignedSubtreeRoot (getFragment state.fragments i) = true) :
    ∃ a d : ℚ, (Close.alignSubtree heap state i).fragments =
      modifyFragment
        (if (getFragment state.fragments i).type = FragmentType.InlineBox then
          (VerticallyAlignSubtree heap state.fragments i
            (getFragment state.fragments i).children_end_index
            (heap (getFragment state.fragments i).box).GetHeightAboveBaseline
            (heap (getFragment state.fragments i).box).GetDepthBelowBaseline).fragments
         else state.fragments) i
        (fun f => { f with max_ascent := a, max_descent := d }) := by
  unfold Close.alignSubtree
  simp only [hroot, if_true]
  by_cases htype : (getFragment state.fragments i).type = FragmentType.InlineBox
  · simp only [htype, if_true]
    split
    · exact ⟨_, _, rfl⟩
    · split <;> exact ⟨_, _, rfl⟩
  · simp only [htype, if_false]
    split
    · exact ⟨_, _, rfl⟩
    · split <;> exact ⟨_, _, rfl⟩

/-- One iteration of the loop of `Close` over the aligned subtrees: the fragments of the
subtree of the fragment at index `i`, up to its `children_end_index`, are visited. -/
theorem alignSubtree_aligned (heap : BoxHeap) (fs : List Fragment)
    (hvalid : FragmentsValid fs) (done : Nat → Prop) (state : VerticalAlignment) (i : Int)
    (h0 : 0 ≤ i) (hinv : BaselineOffsetsAligned heap fs done state.fragments) :
    BaselineOffsetsAligned heap fs
      (fun j => done j ∨ ((getFragment fs (j : Int)).aligned_subtree_root = i ∧ i < (j : Int) ∧
        (j : Int) < (getFragment fs i).children_end_index))
      (Close.alignSubtree heap state i).fragments := by
  have hfi := layout_fields (getFragment_map_eq Fragment.layout hinv.1 i)
  have hnone : ¬ (IsAlignedSubtreeRoot (getFragment fs i) = true ∧
      (getFragment fs i).type = FragmentType.InlineBox) →
      ∀ state' : List Fragment, BaselineOffsetsAligned heap fs done state' →
      BaselineOffsetsAligned heap fs
        (fun j => done j ∨ ((getFragment fs (j : Int)).aligned_subtree_root = i ∧
          i < (j : Int) ∧ (j : Int) < (getFragment fs i).children_end_index)) state' := by
    intro hnot state' hstate'
    apply BaselineOffsetsAligned_mono heap fs hstate'
    intro j hj hd
    rcases hd with hd | ⟨h1, h2, _⟩
    · exact hd
    · exfalso
      obtain ⟨_, _, _, _, g5⟩ := aligned_subtree_root_of_valid fs hvalid j hj
      rw [h1] at g5
      obtain ⟨g6, g7⟩ := g5 h0
      exact hnot ⟨g6, g7 (by omega)⟩
  by_cases hroot : IsAlignedSubtreeRoot (getFragment state.fragments i) = true
  · obtain ⟨a, d, hfragments⟩ := alignSubtree_fragments heap state i hroot
    rw [hfragments]
    refine BaselineOffsetsAligned_modify heap fs i
      (fun f => { f with max_ascent := a, max_descent := d }) (fun f => rfl) (fun f => rfl) ?_
    by_cases htype : (getFragment state.fragments i).type = FragmentType.InlineBox
    · rw [if_pos htype, hfi.2.2.2.2.2.2.2.2.2.2.2]
      exact VerticallyAlignSubtree_aligned heap fs hvalid i _ done _ _ _ hinv
    · rw [if_neg htype]
      apply hnone _ _ hinv
      rintro ⟨_, h⟩
      rw [hfi.2.2.1] at htype
      exact htype h
  · rw [alignSubtree_of_not_root heap state i hroot]
    apply hnone _ _ hinv
    rintro ⟨h, _⟩
    rw [IsAlignedSubtreeRoot_congr hfi.2.2.2.1] at hroot
    exact hroot h

theorem foldl_alignSubtree_aligned (heap : BoxHeap) (fs : List Fragment)
    (hvalid : FragmentsValid fs) (indices : List Int) :
    ∀ (done : Nat → Prop) (state : VerticalAlignment), (∀ i ∈ indices, 0 ≤ i) →
    BaselineOffsetsAligned heap fs done state.fragments →
    BaselineOffsetsAligned heap fs
      (fun j => done j ∨ ∃ i ∈ indices, (getFragment fs (j : Int)).aligned_subtree_root = i ∧
        i < (j : Int) ∧ (j : Int) < (getFragment fs i).children_end_index)
      (indices.foldl (Close.alignSubtree heap) state).fragments := by
  induction indices with
  | nil =>
    intro done state _ hinv
    apply BaselineOffsetsAligned_mono heap fs hinv
    intro j _ hd
    rcases hd with hd | ⟨i, hi, _⟩
    · exact hd
    · simp at hi
  | cons i rest ih =>
    intro done state hpos hinv
    rw [List.foldl_cons]
    have hstep := alignSubtree_aligned heap fs hvalid done state i
      (hpos i (List.mem_cons_self _ _)) hinv
    have hrest := ih _ (Close.alignSubtree heap state i)
      (fun k hk => hpos k (List.mem_cons_of_mem _ hk)) hstep
    apply BaselineOffsetsAligned_mono heap fs hrest
    intro j _ hd
    rcases hd with hd | ⟨k, hk, hkj⟩
    · exact Or.inl (Or.inl hd)
    · rcases List.mem_cons.mp hk with hki | hkrest
      · rw [hki] at hkj
        exact Or.inl (Or.inr hkj)
      · exact Or.inr ⟨k, hkrest, hkj⟩

/-- After the sizing of `Close` the baseline offset of a fragment is the sum of the vertical
offsets up to its aligned subtree root, when that root is none or when the fragment lies
before the `children_end_index` of that root. -/
theorem sized_aligned (heap : BoxHeap) (fs : List Fragment) (hvalid : FragmentsValid fs)
    (root_inline_box : BoxPtr) :
    BaselineOffsetsAligned heap fs
      (fun j => (getFragment fs (j : Int)).aligned_subtree_root < 0 ∨
        (j : Int) < (getFragment fs (getFragment fs (j : Int)).aligned_subtree_root).children_end_index)
      (Close.sized heap fs root_inline_box).fragments := by
  unfold Close.sized
  have hpass := VerticallyAlignSubtree_aligned heap fs hvalid (-1) (fs.length : Int)
    (fun _ => False) fs (heap root_inline_box).GetHeightAboveBaseline
    (heap root_inline_box).GetDepthBelowBaseline (BaselineOffsetsAligned_initial heap fs hvalid)
  have hloop := foldl_alignSubtree_aligned heap fs hvalid (indexRange 0 (fs.length : Int)) _ _
    (fun i hi => ((mem_indexRange _ _ _).mp hi).1) hpass
  refine ⟨hloop.1, fun j hj => ⟨fun hd => ?_, (hloop.2 j hj).2⟩⟩
  obtain ⟨g1, g2, g3, g4, _⟩ := aligned_subtree_root_of_valid fs hvalid j hj
  by_cases hroot : IsAlignedSubtreeRoot (getFragment fs (j : Int)) = true
  · rw [(hloop.2 j hj).2 hroot, baselineOffsetSum_of_stop heap fs _ _ _ (Or.inr (g3 hroot).symm)]
  · have hfalse : IsAlignedSubtreeRoot (getFragment fs (j : Int)) = false := by
      simpa using hroot
    apply (hloop.2 j hj).1
    by_cases hneg : (getFragment fs (j : Int)).aligned_subtree_root < 0
    · exact Or.inl (Or.inr ⟨by omega, by omega, by exact_mod_cast hj⟩)
    · rcases hd with hd | hd
      · exact absurd hd hneg
      · exact Or.inr ⟨_, (mem_indexRange _ _ _).mpr ⟨by omega, by omega⟩, rfl, g4 hfalse, hd⟩

theorem verticalPosition_congr (max_ascent out_height_of_line : ℚ) {s s' : List Fragment}
    (i : Int) (hself : (getFragment s' i).eraseY = (getFragment s i).eraseY)
    (hroot : ¬ (getFragment s i).vertical_align = VerticalAlign.Top →
      ¬ (getFragment s i).vertical_align = VerticalAlign.Bottom →
      ¬ (getFragment s i).aligned_subtree_root < 0 →
      (getFragment s' (getFragment s i).aligned_subtree_root).position.y
        = (getFragment s (getFragment s i).aligned_subtree_root).position.y) :
    Close.verticalPosition max_ascent out_height_of_line s' i
      = Close.verticalPosition max_ascent out_height_of_line s i := by
  obtain ⟨h1, h2, h3, h4, h5⟩ := eraseY_fields hself
  unfold Close.verticalPosition
  simp only []
  rw [h1, h2, h3, h4, h5]
  by_cases htop : (getFragment s i).vertical_align = VerticalAlign.Top
  · rw [if_pos htop, if_pos htop]
  · rw [if_neg htop, if_neg htop]
    by_cases hbottom : (getFragment s i).vertical_align = VerticalAlign.Bottom
    · rw [if_pos hbottom, if_pos hbottom]
    · rw [if_neg hbottom, if_neg hbottom]
      by_cases hneg : (getFragment s i).aligned_subtree_root < 0
      · rw [if_pos hneg, if_pos hneg]
      · rw [if_neg hneg, if_neg hneg, hroot htop hbottom hneg]

/-- One iteration of the position loop of `Close` at index `m`: the value of the switch for
a fragment at or before `m` is not changed by the assignment, since it reads the position of
an earlier fragment only. -/
theorem positionFragment_verticalPosition (fs : List Fragment) (hvalid : FragmentsValid fs)
    (max_ascent out_height_of_line : ℚ) (s : List Fragment)
    (hs : s.map Fragment.layout = fs.map Fragment.layout) (m j : Nat) (hj : j < fs.length)
    (hjm : j ≤ m) :
    Close.verticalPosition max_ascent out_height_of_line
      (Close.positionFragment max_ascent out_height_of_line s (m : Int)) (j : Int)
      = Close.verticalPosition max_ascent out_height_of_line s (j : Int) := by
  apply verticalPosition_congr
  · exact getFragment_map_eq Fragment.eraseY
      (positionFragment_map_eq Fragment.eraseY (fun f y => rfl) _ _ s (m : Int)) (j : Int)
  · intro htop hbottom hneg
    have hfj := layout_fields (getFragment_map_eq Fragment.layout hs (j : Int))
    obtain ⟨_, _, _, g4, _⟩ := aligned_subtree_root_of_valid fs hvalid j hj
    have hfalse : IsAlignedSubtreeRoot (getFragment fs (j : Int)) = false := by
      rw [← IsAlignedSubtreeRoot_congr hfj.2.2.2.1]
      simp [IsAlignedSubtreeRoot, htop, hbottom]
    have hlt := g4 hfalse
    rw [← hfj.2.2.2.2.2.2.2.1] at hlt
    unfold Close.positionFragment
    rw [getFragment_modifyFragment_ne _ _ _ _ (by omega)]

/-- After the position loop of `Close` every fragment has the vertical position that the
switch of the loop gives on the final fragment array. -/
theorem positioned_position (heap : BoxHeap) (fs : List Fragment) (hvalid : FragmentsValid fs)
    (root_inline_box : BoxPtr) (j : Nat) (hj : j < fs.length) :
    (getFragment (Close.positioned heap fs root_inline_box) (j : Int)).position.y =
      Close.verticalPosition (Close.sized heap fs root_inline_box).max_ascent
        ((Close.sized heap fs root_inline_box).max_ascent +
          (Close.sized heap fs root_inline_box).max_descent)
        (Close.positioned heap fs root_inline_box) (j : Int) := by
  have hsized := sized_map_layout heap fs root_inline_box
  have key := foldl_indexRange_induction
    (Close.positionFragment (Close.sized heap fs root_inline_box).max_ascent
      ((Close.sized heap fs root_inline_box).max_ascent +
        (Close.sized heap fs root_inline_box).max_descent)) 0 (fs.length : Int)
    (fun m s => s.map Fragment.layout = fs.map Fragment.layout ∧
      ∀ k : Nat, k < m → (getFragment s (k : Int)).position.y =
        Close.verticalPosition (Close.sized heap fs root_inline_box).max_ascent
          ((Close.sized heap fs root_inline_box).max_ascent +
            (Close.sized heap fs root_inline_box).max_descent) s (k : Int))
    (Close.sized heap fs root_inline_box).fragments
    ⟨hsized, fun k hk => absurd hk (Nat.not_lt_zero k)⟩
    (by
      intro m s hm hP
      obtain ⟨hlayout, hvals⟩ := hP
      rw [zero_add] at hm ⊢
      have hmlt : m < fs.length := by exact_mod_cast hm
      have hslen : s.length = fs.length := length_eq_of_map_eq Fragment.layout hlayout
      refine ⟨(positionFragment_map_eq Fragment.layout (fun f y => rfl) _ _ s (m : Int)).trans
        hlayout, ?_⟩
      intro k hk
      rw [positionFragment_verticalPosition fs hvalid _ _ s hlayout m k (by omega) (by omega)]
      by_cases hkm : k = m
      · rw [hkm]
        unfold Close.positionFragment
        rw [getFragment_modifyFragment_self _ _ _ (by omega)
          (by rw [hslen]; exact_mod_cast hmlt)]
      · unfold Close.positionFragment
        rw [getFragment_modifyFragment_ne _ _ _ _ (by omega)]
        exact hvals k (by omega))
  have hj' : j < ((fs.length : Int) - 0).toNat := by omega
  exact key.2 j hj'

theorem FragmentsValid_split_of_Reachable (heap : BoxHeap) (line : LayoutLineBox)
    (hreach : Reachable heap line) : FragmentsValid (line.SplitLine heap).1.fragments :=
  FragmentsValid_of_map_tree (SplitLine_map_tree heap line)
    (FragmentsValid_of_Reachable heap line hreach)

/-- The vertical position and the baseline offset of the fragment at index `i` after the
vertical pass of `Close` on a well-formed fragment array. -/
theorem positioned_fragment (heap : BoxHeap) (fs : List Fragment) (hvalid : FragmentsValid fs)
    (root_inline_box : BoxPtr) (i : Nat) (f : Fragment)
    (hf : (Close.positioned heap fs root_inline_box)[i]? = some f) :
    (f.vertical_align = VerticalAlign.Top → f.position.y = f.max_ascent) ∧
    (f.vertical_align = VerticalAlign.Bottom →
      f.position.y = (Close.sized heap fs root_inline_box).max_ascent +
        (Close.sized heap fs root_inline_box).max_descent - f.max_descent) ∧
    (f.vertical_align ≠ VerticalAlign.Top → f.vertical_align ≠ VerticalAlign.Bottom →
      -1 ≤ f.aligned_subtree_root ∧ f.aligned_subtree_root < (i : Int) ∧
      f.position.y =
        (if f.aligned_subtree_root < 0 then (Close.sized heap fs root_inline_box).max_ascent
         else (getFragment (Close.positioned heap fs root_inline_box)
            f.aligned_subtree_root).position.y) + f.baseline_offset ∧
      (f.aligned_subtree_root < 0 ∨
        (i : Int) < (getFragment (Close.positioned heap fs root_inline_box)
          f.aligned_subtree_root).children_end_index →
        f.baseline_offset = baselineOffsetSum heap (Close.positioned heap fs root_inline_box)
          f.aligned_subtree_root (i + 1) (i : Int))) := by
  have hlayout := positioned_map_layout heap fs root_inline_box
  have hi : i < fs.length := by
    rcases List.getElem?_eq_some_iff.mp hf with ⟨hlt, _⟩
    rw [length_eq_of_map_eq Fragment.layout hlayout] at hlt
    exact hlt
  have hget : getFragment (Close.positioned heap fs root_inline_box) (i : Int) = f :=
    getFragment_of_getElem? hf
  have hpos := positioned_position heap fs hvalid root_inline_box i hi
  unfold Close.verticalPosition at hpos
  simp only [] at hpos
  rw [hget] at hpos
  have hfi := layout_fields (getFragment_map_eq Fragment.layout hlayout (i : Int))
  rw [hget] at hfi
  refine ⟨?_, ?_, ?_⟩
  · intro htop
    rw [hpos, if_pos htop]
  · intro hbottom
    have hntop : ¬ f.vertical_align = VerticalAlign.Top := by
      rw [hbottom]
      decide
    rw [hpos, if_neg hntop, if_pos hbottom]
  · intro hntop hnbottom
    rw [if_neg hntop, if_neg hnbottom] at hpos
    obtain ⟨g1, _, _, g4, _⟩ := aligned_subtree_root_of_valid fs hvalid i hi
    have hfalse : IsAlignedSubtreeRoot (getFragment fs (i : Int)) = false := by
      rw [← IsAlignedSubtreeRoot_congr hfi.2.2.2.1]
      simp [IsAlignedSubtreeRoot, hntop, hnbottom]
    have hlt := g4 hfalse
    rw [← hfi.2.2.2.2.2.2.2.1] at g1 hlt
    refine ⟨g1, hlt, hpos, ?_⟩
    intro hvisited
    have hbase := (eraseY_fields (getFragment_map_eq Fragment.eraseY
      (positioned_map_eraseY heap fs root_inline_box) (i : Int))).2.2.2.1
    rw [hget] at hbase
    have hcei := (layout_fields (getFragment_map_eq Fragment.layout hlayout
      f.aligned_subtree_root)).2.2.2.2.2.2.2.2.2.2.2
    rw [hcei, hfi.2.2.2.2.2.2.2.1] at hvisited
    rw [hbase, ((sized_aligned heap fs hvalid root_inline_box).2 i hi).1 hvisited,
      baselineOffsetSum_congr heap hlayout, hfi.2.2.2.2.2.2.2.1]
    exact baselineOffsetSum_fuel heap fs hvalid _ i hi _ _ (by omega) (le_refl _)

/-! ## The vertical pass of `Close` on a line of text fragments -/

theorem VerticallyAlignSubtree_step_text (heap : BoxHeap) (r : Int) (state : VerticalAlignment)
    (i : Int) (htype : (getFragment state.fragments i).type = FragmentType.TextRun) :
    (VerticallyAlignSubtree.step heap r state i).max_ascent = state.max_ascent ∧
    (VerticallyAlignSubtree.step heap r state i).max_descent = state.max_descent := by
  unfold VerticallyAlignSubtree.step
  simp only [htype]
  split
  · exact ⟨rfl, rfl⟩
  · simp

/-- Text fragments are skipped by the sizing of `VerticallyAlignSubtree`. -/
theorem foldl_step_text (heap : BoxHeap) (r : Int) (indices : List Int) :
    ∀ state : VerticalAlignment,
    (∀ i ∈ indices, (getFragment state.fragments i).type = FragmentType.TextRun) →
    (indices.foldl (VerticallyAlignSubtree.step heap r) state).max_ascent = state.max_ascent ∧
    (indices.foldl (VerticallyAlignSubtree.step heap r) state).max_descent
      = state.max_descent := by
  induction indices with
  | nil => intro state _; exact ⟨rfl, rfl⟩
  | cons i rest ih =>
    intro state htype
    rw [List.foldl_cons]
    obtain ⟨h1, h2⟩ := VerticallyAlignSubtree_step_text heap r state i
      (htype i (List.mem_cons_self _ _))
    have hlayout := VerticallyAlignSubtree_step_map_eq Fragment.layout (fun f b => rfl)
      heap r state i
    obtain ⟨h3, h4⟩ := ih (VerticallyAlignSubtree.step heap r state i) (by
      intro k hk
      rw [(layout_fields (getFragment_map_eq Fragment.layout hlayout k)).2.2.1]
      exact htype k (List.mem_cons_of_mem _ hk))
    exact ⟨h3.trans h1, h4.trans h2⟩

theorem alignSubtree_of_top_text (heap : BoxHeap) (state : VerticalAlignment) (i : Int)
    (htop : (getFragment state.fragments i).vertical_align = VerticalAlign.Top)
    (htype : (getFragment state.fragments i).type = FragmentType.TextRun) :
    Close.alignSubtree heap state i =
      { fragments := modifyFragment state.fragments i (fun f => { f with
          max_ascent := (heap (getFragment state.fragments i).box).GetHeightAboveBaseline
          max_descent := (heap (getFragment state.fragments i).box).GetDepthBelowBaseline })
        max_ascent := state.max_ascent
        max_descent := max state.max_descent
          ((heap (getFragment state.fragments i).box).GetHeightAboveBaseline +
            (heap (getFragment state.fragments i).box).GetDepthBelowBaseline -
            state.max_ascent) } := by
  unfold Close.alignSubtree
  simp [IsAlignedSubtreeRoot, htop, htype]

/-- The loop of `Close` over the aligned subtrees on text fragments aligned `Top` or
`Baseline`: the ascent of the line is not changed, and the descent of the line is its start
value or what the height of a `Top` fragment asks for. -/
theorem foldl_alignSubtree_text (heap : BoxHeap) (indices : List Int) :
    ∀ state : VerticalAlignment,
    (∀ i ∈ indices, (getFragment state.fragments i).type = FragmentType.TextRun ∧
      ((getFragment state.fragments i).vertical_align = VerticalAlign.Top ∨
       (getFragment state.fragments i).vertical_align = VerticalAlign.Baseline)) →
    (indices.foldl (Close.alignSubtree heap) state).max_ascent = state.max_ascent ∧
    ((indices.foldl (Close.alignSubtree heap) state).max_descent = state.max_descent ∨
      ∃ i ∈ indices, (getFragment state.fragments i).vertical_align = VerticalAlign.Top ∧
        (indices.foldl (Close.alignSubtree heap) state).max_descent =
          (heap (getFragment state.fragments i).box).GetHeightAboveBaseline +
            (heap (getFragment state.fragments i).box).GetDepthBelowBaseline -
            state.max_ascent) := by
  induction indices with
  | nil => intro state _; exact ⟨rfl, Or.inl rfl⟩
  | cons i rest ih =>
    intro state htext
    rw [List.foldl_cons]
    have hlayout := alignSubtree_map_layout heap state i
    have hfields : ∀ k : Int,
        (getFragment (Close.alignSubtree heap state i).fragments k).box
          = (getFragment state.fragments k).box ∧
        (getFragment (Close.alignSubtree heap state i).fragments k).type
          = (getFragment state.fragments k).type ∧
        (getFragment (Close.alignSubtree heap state i).fragments k).vertical_align
          = (getFragment state.fragments k).vertical_align := by
      intro k
      have := layout_fields (getFragment_map_eq Fragment.layout hlayout k)
      exact ⟨this.1, this.2.2.1, this.2.2.2.1⟩
    obtain ⟨h1, h2⟩ := ih (Close.alignSubtree heap state i) (by
      intro k hk
      rw [(hfields k).2.1, (hfields k).2.2]
      exact htext k (List.mem_cons_of_mem _ hk))
    obtain ⟨htype, hva⟩ := htext i (List.mem_cons_self _ _)
    have hrest : ∀ a : ℚ, (∃ k ∈ rest,
        (getFragment (Close.alignSubtree heap state i).fragments k).vertical_align
          = VerticalAlign.Top ∧
        (List.foldl (Close.alignSubtree heap) (Close.alignSubtree heap state i) rest).max_descent =
          (heap (getFragment (Close.alignSubtree heap state i).fragments k).box).GetHeightAboveBaseline
            + (heap (getFragment (Close.alignSubtree heap state i).fragments
              k).box).GetDepthBelowBaseline - a) →
        ∃ k ∈ i :: rest, (getFragment state.fragments k).vertical_align = VerticalAlign.Top ∧
          (List.foldl (Close.alignSubtree heap) (Close.alignSubtree heap state i) rest).max_descent =
            (heap (getFragment state.fragments k).box).GetHeightAboveBaseline +
              (heap (getFragment state.fragments k).box).GetDepthBelowBaseline - a := by
      rintro a ⟨k, hk, hktop, hkeq⟩
      rw [(hfields k).2.2] at hktop
      rw [(hfields k).1] at hkeq
      exact ⟨k, List.mem_cons_of_mem _ hk, hktop, hkeq⟩
    rcases hva with htop | hbase
    · have hstep := alignSubtree_of_top_text heap state i htop htype
      have hma : (Close.alignSubtree heap state i).max_ascent = state.max_ascent := by
        rw [hstep]
      have hmd : (Close.alignSubtree heap state i).max_descent = max state.max_descent
          ((heap (getFragment state.fragments i).box).GetHeightAboveBaseline +
            (heap (getFragment state.fragments i).box).GetDepthBelowBaseline -
            state.max_ascent) := by
        rw [hstep]
      rw [hma] at h1 h2
      refine ⟨h1, ?_⟩
      rcases h2 with h2 | h2
      · rw [h2, hmd]
        rcases max_choice state.max_descent
          ((heap (getFragment state.fragments i).box).GetHeightAboveBaseline +
            (heap (getFragment state.fragments i).box).GetDepthBelowBaseline -
            state.max_ascent) with hmax | hmax
        · exact Or.inl hmax
        · exact Or.inr ⟨i, List.mem_cons_self _ _, htop, hmax⟩
      · exact Or.inr (hrest _ h2)
    · have hnroot : ¬ IsAlignedSubtreeRoot (getFragment state.fragments i) = true := by
        simp [IsAlignedSubtreeRoot, hbase]
      have hstep := alignSubtree_of_not_root heap state i hnroot
      rw [hstep] at h1 h2 hrest
      rw [hstep]
      refine ⟨h1, ?_⟩
      rcases h2 with h2 | h2
      · exact Or.inl h2
      · exact Or.inr (hrest _ h2)

/-- The maxima that the loop of `Close` stores in a `Top` text fragment are the height above
and the depth below the baseline of its box. -/
theorem foldl_alignSubtree_top_text (heap : BoxHeap) (indices : List Int) :
    ∀ state : VerticalAlignment, indices.Nodup →
    ∀ j ∈ indices, 0 ≤ j → j < (state.fragments.length : Int) →
    (getFragment state.fragments j).vertical_align = VerticalAlign.Top →
    (getFragment state.fragments j).type = FragmentType.TextRun →
    (getFragment (indices.foldl (Close.alignSubtree heap) state).fragments j).max_ascent
      = (heap (getFragment state.fragments j).box).GetHeightAboveBaseline ∧
    (getFragment (indices.foldl (Close.alignSubtree heap) state).fragments j).max_descent
      = (heap (getFragment state.fragments j).box).GetDepthBelowBaseline := by
  induction indices with
  | nil =>
    intro state _ j hj
    simp at hj
  | cons i rest ih =>
    intro state hnodup j hj h0 hlt htop htype
    rw [List.foldl_cons]
    rw [List.nodup_cons] at hnodup
    have hlayout := alignSubtree_map_layout heap state i
    have hlen : (Close.alignSubtree heap state i).fragments.length = state.fragments.length :=
      length_eq_of_map_eq Fragment.layout hlayout
    rcases List.mem_cons.mp hj with hji | hjrest
    · subst hji
      obtain ⟨h1, h2⟩ := foldl_alignSubtree_other heap rest j
        (Close.alignSubtree heap state j) hnodup.1
      rw [h1, h2, alignSubtree_of_top_text heap state j htop htype]
      simp only []
      rw [getFragment_modifyFragment_self _ _ _ h0 hlt]
      exact ⟨rfl, rfl⟩
    · have hfj := layout_fields (getFragment_map_eq Fragment.layout hlayout j)
      have := ih (Close.alignSubtree heap state i) hnodup.2 j hjrest h0 (by rw [hlen]; exact hlt)
        (by rw [hfj.2.2.2.1]; exact htop) (by rw [hfj.2.2.1]; exact htype)
      rw [hfj.1] at this
      exact this

theorem getFragment_mem {fs : List Fragment} {j : Nat} (hj : j < fs.length) :
    getFragment fs (j : Int) ∈ fs :=
  List.getElem?_mem (getElem?_getFragment hj)

/-- The sizing of `Close` on an array of text fragments aligned `Top` or `Baseline`: the
ascent of the line is that of the root inline box, the descent of the line is that of the
root inline box or what the height of a `Top` fragment asks for, and every `Top` fragment
stores the metrics of its box and fits in the line. -/
theorem sized_text (heap : BoxHeap) (fs : List Fragment) (root_inline_box : BoxPtr)
    (htext : ∀ j : Nat, j < fs.length →
      (getFragment fs (j : Int)).type = FragmentType.TextRun ∧
      ((getFragment fs (j : Int)).vertical_align = VerticalAlign.Top ∨
       (getFragment fs (j : Int)).vertical_align = VerticalAlign.Baseline)) :
    (Close.sized heap fs root_inline_box).max_ascent
      = (heap root_inline_box).GetHeightAboveBaseline ∧
    (heap root_inline_box).GetDepthBelowBaseline
      ≤ (Close.sized heap fs root_inline_box).max_descent ∧
    ((Close.sized heap fs root_inline_box).max_descent
        = (heap root_inline_box).GetDepthBelowBaseline ∨
      ∃ j : Nat, j < fs.length ∧
        (getFragment fs (j : Int)).vertical_align = VerticalAlign.Top ∧
        (Close.sized heap fs root_inline_box).max_descent =
          (heap (getFragment fs (j : Int)).box).GetHeightAboveBaseline +
            (heap (getFragment fs (j : Int)).box).GetDepthBelowBaseline -
            (heap root_inline_box).GetHeightAboveBaseline) ∧
    (∀ j : Nat, j < fs.length →
      (getFragment fs (j : Int)).vertical_align = VerticalAlign.Top →
      (getFragment (Close.sized heap fs root_inline_box).fragments (j : Int)).max_ascent
        = (heap (getFragment fs (j : Int)).box).GetHeightAboveBaseline ∧
      (getFragment (Close.sized heap fs root_inline_box).fragments (j : Int)).max_descent
        = (heap (getFragment fs (j : Int)).box).GetDepthBelowBaseline ∧
      (heap (getFragment fs (j : Int)).box).GetHeightAboveBaseline +
        (heap (getFragment fs (j : Int)).box).GetDepthBelowBaseline ≤
        (Close.sized heap fs root_inline_box).max_ascent +
          (Close.sized heap fs root_inline_box).max_descent) := by
  have hindex : ∀ i ∈ indexRange 0 (fs.length : Int), ∃ j : Nat, (j : Int) = i ∧ j < fs.length := by
    intro i hi
    obtain ⟨h0, hlt⟩ := (mem_indexRange _ _ _).mp hi
    obtain ⟨j, hj⟩ := Int.eq_ofNat_of_zero_le h0
    exact ⟨j, hj.symm, by omega⟩
  have hpass_layout := VerticallyAlignSubtree_map_eq Fragment.layout (fun f b => rfl) heap fs
    (-1) (fs.length : Int) (heap root_inline_box).GetHeightAboveBaseline
    (heap root_inline_box).GetDepthBelowBaseline
  have hpass : (VerticallyAlignSubtree heap fs (-1) (fs.length : Int)
        (heap root_inline_box).GetHeightAboveBaseline
        (heap root_inline_box).GetDepthBelowBaseline).max_ascent
        = (heap root_inline_box).GetHeightAboveBaseline ∧
      (VerticallyAlignSubtree heap fs (-1) (fs.length : Int)
        (heap root_inline_box).GetHeightAboveBaseline
        (heap root_inline_box).GetDepthBelowBaseline).max_descent
        = (heap root_inline_box).GetDepthBelowBaseline := by
    unfold VerticallyAlignSubtree
    apply foldl_step_text
    intro i hi
    obtain ⟨j, hj, hjlt⟩ := hindex i hi
    rw [← hj]
    exact (htext j hjlt).1
  have hlen := length_eq_of_map_eq Fragment.layout hpass_layout
  have hfields : ∀ k : Int,
      (getFragment (VerticallyAlignSubtree heap fs (-1) (fs.length : Int)
        (heap root_inline_box).GetHeightAboveBaseline
        (heap root_inline_box).GetDepthBelowBaseline).fragments k).box
        = (getFragment fs k).box ∧
      (getFragment (VerticallyAlignSubtree heap fs (-1) (fs.length : Int)
        (heap root_inline_box).GetHeightAboveBaseline
        (heap root_inline_box).GetDepthBelowBaseline).fragments k).type
        = (getFragment fs k).type ∧
      (getFragment (VerticallyAlignSubtree heap fs (-1) (fs.length : Int)
        (heap root_inline_box).GetHeightAboveBaseline
        (heap root_inline_box).GetDepthBelowBaseline).fragments k).vertical_align
        = (getFragment fs k).vertical_align := by
    intro k
    have := layout_fields (getFragment_map_eq Fragment.layout hpass_layout k)
    exact ⟨this.1, this.2.2.1, this.2.2.2.1⟩
  have hloop := foldl_alignSubtree_text heap (indexRange 0 (fs.length : Int))
    (VerticallyAlignSubtree heap fs (-1) (fs.length : Int)
      (heap root_inline_box).GetHeightAboveBaseline (heap root_inline_box).GetDepthBelowBaseline)
    (by
      intro i hi
      obtain ⟨j, hj, hjlt⟩ := hindex i hi
      rw [(hfields i).2.1, (hfields i).2.2, ← hj]
      exact htext j hjlt)
  have hmono := foldl_mono _ (alignSubtree_mono heap) (indexRange 0 (fs.length : Int))
    (VerticallyAlignSubtree heap fs (-1) (fs.length : Int)
      (heap root_inline_box).GetHeightAboveBaseline (heap root_inline_box).GetDepthBelowBaseline)
  unfold Close.sized
  rw [hpass.1, hpass.2] at hloop
  rw [hpass.2] at hmono
  refine ⟨hloop.1, hmono.2, ?_, ?_⟩
  · rcases hloop.2 with h | ⟨i, hi, htop, h⟩
    · exact Or.inl h
    · obtain ⟨j, hj, hjlt⟩ := hindex i hi
      rw [(hfields i).2.2] at htop
      rw [(hfields i).1] at h
      rw [← hj] at htop h
      exact Or.inr ⟨j, hjlt, htop, h⟩
  · intro j hj htop
    have hmem : (j : Int) ∈ indexRange 0 (fs.length : Int) :=
      (mem_indexRange _ _ _).mpr ⟨by omega, by exact_mod_cast hj⟩
    have hstored := foldl_alignSubtree_top_text heap (indexRange 0 (fs.length : Int))
      (VerticallyAlignSubtree heap fs (-1) (fs.length : Int)
        (heap root_inline_box).GetHeightAboveBaseline
        (heap root_inline_box).GetDepthBelowBaseline)
      (indexRange_nodup _ _) (j : Int) hmem (by omega) (by rw [hlen]; exact_mod_cast hj)
      (by rw [(hfields _).2.2]; exact htop) (by rw [(hfields _).2.1]; exact (htext j hj).1)
    have hfits := foldl_alignSubtree_fits heap (indexRange 0 (fs.length : Int))
      (VerticallyAlignSubtree heap fs (-1) (fs.length : Int)
        (heap root_inline_box).GetHeightAboveBaseline
        (heap root_inline_box).GetDepthBelowBaseline)
      (indexRange_nodup _ _) (j : Int) hmem (by omega) (by rw [hlen]; exact_mod_cast hj)
      (by
        rw [IsAlignedSubtreeRoot_congr (hfields _).2.2]
        simp [IsAlignedSubtreeRoot, htop])
    rw [(hfields _).1] at hstored
    rw [hstored.1, hstored.2] at hfits
    exact ⟨hstored.1, hstored.2, hfits⟩

/-- A line of text fragments aligned `Top` or `Baseline` after `Close`: the heights, and the
vertical position of each fragment. -/
theorem positioned_text (heap : BoxHeap) (fs : List Fragment) (hvalid : FragmentsValid fs)
    (root_inline_box : BoxPtr)
    (htext : ∀ j : Nat, j < fs.length →
      (getFragment fs (j : Int)).type = FragmentType.TextRun ∧
      ((getFragment fs (j : Int)).vertical_align = VerticalAlign.Top ∨
       (getFragment fs (j : Int)).vertical_align = VerticalAlign.Baseline))
    (i : Nat) (f : Fragment) (hf : (Close.positioned heap fs root_inline_box)[i]? = some f) :
    (f.vertical_align = VerticalAlign.Top ∨ f.vertical_align = VerticalAlign.Baseline) ∧
    (f.vertical_align = VerticalAlign.Top →
      f.position.y = (heap f.box).GetHeightAboveBaseline ∧
      (heap f.box).GetHeightAboveBaseline + (heap f.box).GetDepthBelowBaseline ≤
        (Close.sized heap fs root_inline_box).max_ascent +
          (Close.sized heap fs root_inline_box).max_descent) ∧
    (f.vertical_align = VerticalAlign.Baseline →
      f.position.y = (heap root_inline_box).GetHeightAboveBaseline +
        (heap f.box).GetVerticalOffsetFromParent) := by
  have hlayout := positioned_map_layout heap fs root_inline_box
  have hi : i < fs.length := by
    rcases List.getElem?_eq_some_iff.mp hf with ⟨hlt, _⟩
    rw [length_eq_of_map_eq Fragment.layout hlayout] at hlt
    exact hlt
  have hget : getFragment (Close.positioned heap fs root_inline_box) (i : Int) = f :=
    getFragment_of_getElem? hf
  have hfi := layout_fields (getFragment_map_eq Fragment.layout hlayout (i : Int))
  rw [hget] at hfi
  obtain ⟨hA, _, _, hstored⟩ := sized_text heap fs root_inline_box htext
  obtain ⟨p1, _, p3⟩ := positioned_fragment heap fs hvalid root_inline_box i f hf
  refine ⟨by rw [hfi.2.2.2.1]; exact (htext i hi).2, ?_, ?_⟩
  · intro htop
    have htop' : (getFragment fs (i : Int)).vertical_align = VerticalAlign.Top := by
      rw [← hfi.2.2.2.1]
      exact htop
    obtain ⟨s1, _, s3⟩ := hstored i hi htop'
    have hmax := (eraseY_fields (getFragment_map_eq Fragment.eraseY
      (positioned_map_eraseY heap fs root_inline_box) (i : Int))).1
    rw [hget] at hmax
    rw [hfi.1]
    exact ⟨by rw [p1 htop, hmax, s1], s3⟩
  · intro hbase
    have hntop : f.vertical_align ≠ VerticalAlign.Top := by
      rw [hbase]
      decide
    have hnbottom : f.vertical_align ≠ VerticalAlign.Bottom := by
      rw [hbase]
      decide
    obtain ⟨_, _, hy, hsum⟩ := p3 hntop hnbottom
    obtain ⟨v1, v2, v3, v4, _⟩ := hvalid i _ (getElem?_getFragment hi)
    have hparent : (getFragment fs (i : Int)).parent_fragment = -1 := by
      by_contra hne
      have htype := v3 hne
      obtain ⟨p, hp⟩ := Int.eq_ofNat_of_zero_le
        (show 0 ≤ (getFragment fs (i : Int)).parent_fragment by omega)
      rw [hp] at htype v2
      rw [(htext p (by omega)).1] at htype
      exact absurd htype (by decide)
    have hnroot : ¬ IsAlignedSubtreeRoot (getFragment fs (i : Int)) = true := by
      rw [← IsAlignedSubtreeRoot_congr hfi.2.2.2.1]
      simp [IsAlignedSubtreeRoot, hbase]
    rw [if_neg hnroot, hparent, if_pos (by decide)] at v4
    have hasr : f.aligned_subtree_root = -1 := by
      rw [hfi.2.2.2.2.2.2.2.1]
      exact v4
    have hneg : f.aligned_subtree_root < 0 := by
      rw [hasr]
      decide
    rw [if_pos hneg, hsum (Or.inl hneg), hasr,
      baselineOffsetSum_of_go heap _ (-1) i (i : Int) (by omega), hget, hfi.2.2.2.2.2.2.1,
      hparent, baselineOffsetSum_of_stop heap _ (-1) i (-1) (Or.inr rfl), hA] at hy
    rw [hy]
    ring

/-! ## `Close` on a closed line -/

/-- The boxes that receive a `Submit`, with the handle and the width they are given, depend
only on what the vertical pass of `Close` leaves alone. -/
theorem submitted_of_map_layout (offset_parent offset_parent2 : Nat)
    (line_position line_position2 : Vector2f) (offset offset2 : ℚ) (fs : List Fragment) :
    ∀ fs2 : List Fragment, fs2.map Fragment.layout = fs.map Fragment.layout →
    (fs2.filterMap (Close.submit offset_parent2 line_position2 offset2)).map
      (fun call => (call.box, call.fragment_box.fragment_handle, call.fragment_box.layout_width))
    = (fs.filterMap (Close.submit offset_parent line_position offset)).map
      (fun call => (call.box, call.fragment_box.fragment_handle,
        call.fragment_box.layout_width)) := by
  induction fs with
  | nil =>
    intro fs2 h
    have : fs2 = [] := by simpa using h
    rw [this]
    rfl
  | cons f rest ih =>
    intro fs2 h
    cases fs2 with
    | nil => simp at h
    | cons g rest2 =>
      simp only [List.map_cons, List.cons.injEq] at h
      obtain ⟨hgf, hrest⟩ := h
      obtain ⟨h1, h2, h3, _, _, h6, _, _, _, _, _, h12⟩ := layout_fields hgf
      by_cases hc : f.type = FragmentType.InlineBox ∧ f.children_end_index = 0
      · have hs : Close.submit offset_parent line_position offset f = none := by
          unfold Close.submit
          rw [if_pos hc]
        have hs2 : Close.submit offset_parent2 line_position2 offset2 g = none := by
          unfold Close.submit
          rw [h3, h12, if_pos hc]
        rw [List.filterMap_cons, hs2, List.filterMap_cons, hs]
        exact ih rest2 hrest
      · have hs : Close.submit offset_parent line_position offset f = some
            { box := f.box
              fragment_box :=
                { offset_parent := offset_parent
                  fragment_handle := f.fragment_handle
                  position := line_position + f.position + { x := offset, y := 0 }
                  layout_width := f.layout_width
                  split_left := f.split_left
                  split_right := f.split_right } } := by
          unfold Close.submit
          rw [if_neg hc]
        have hs2 : Close.submit offset_parent2 line_position2 offset2 g = some
            { box := g.box
              fragment_box :=
                { offset_parent := offset_parent2
                  fragment_handle := g.fragment_handle
                  position := line_position2 + g.position + { x := offset2, y := 0 }
                  layout_width := g.layout_width
                  split_left := g.split_left
                  split_right := g.split_right } } := by
          unfold Close.submit
          rw [h3, h12, if_neg hc]
        rw [List.filterMap_cons, hs2, List.filterMap_cons, hs]
        simp only [List.map_cons]
        rw [ih rest2 hrest, h1, h2, h6]

/-- After `Close` the stack of open fragments is empty, so `SplitLine` leaves a closed line
as it is. -/
theorem SplitLine_of_closed (heap : BoxHeap) (self : LayoutLineBox) (root_inline_box : BoxPtr)
    (offset_parent : Nat) (line_position : Vector2f) (text_align : TextAlign) :
    (self.Close heap root_inline_box offset_parent line_position text_align).line.SplitLine heap
      = ((self.Close heap root_inline_box offset_parent line_position text_align).line, none) :=
  SplitLine_of_nil heap _ (SplitLine_line_fields heap self).2.2.2

/-! ## The fragments of the root subtree in the sizing of `Close` -/

theorem appended_fragment_fields (heap : BoxHeap) (self : LayoutLineBox) (box : BoxPtr)
    (fragment : FragmentResult) :
    (AddBox.appended_fragment heap self box fragment).box = box ∧
    (AddBox.appended_fragment heap self box fragment).type = fragment.type ∧
    (AddBox.appended_fragment heap self box fragment).position.x
      = self.box_cursor + self.open_spacing_left ∧
    (AddBox.appended_fragment heap self box fragment).layout_width = fragment.layout_width ∧
    (AddBox.appended_fragment heap self box fragment).parent_fragment = self.GetOpenParent ∧
    (AddBox.appended_fragment heap self box fragment).has_content = false ∧
    (AddBox.appended_fragment heap self box fragment).split_left = false ∧
    (AddBox.appended_fragment heap self box fragment).split_right = false ∧
    (AddBox.appended_fragment heap self box fragment).children_end_index = 0 :=
  ⟨rfl, rfl, rfl, rfl, rfl, rfl, rfl, rfl, rfl⟩

theorem mem_mark_has_content (indices : List Int) (fs : List Fragment) (f : Fragment)
    (hf : f ∈ indices.foldl
      (fun fs index => modifyFragment fs index (fun f => { f with has_content := true })) fs) :
    ∃ a ∈ fs, f = a ∨ f = { a with has_content := true } := by
  obtain ⟨j, hj⟩ := List.getElem?_of_mem hf
  rw [foldl_modifyFragment_getElem? _ has_content_idempotent] at hj
  cases ha : fs[j]? with
  | none => rw [ha] at hj; simp at hj
  | some a =>
    rw [ha] at hj
    simp only [Option.map_some', Option.some.injEq] at hj
    refine ⟨a, List.getElem?_mem ha, ?_⟩
    by_cases hmem : (j : Int) ∈ indices
    · rw [if_pos hmem] at hj
      exact Or.inr hj.symm
    · rw [if_neg hmem] at hj
      exact Or.inl hj.symm

theorem FragmentWidthValid_AddBox (heap : BoxHeap) (hcontract : RespectsFragmentContract heap)
    (self : LayoutLineBox) (box : BoxPtr) (mode : InlineLayoutMode) (line_width : ℚ)
    (handle : LayoutOverflowHandle) (hvalid : ∀ f ∈ self.fragments, FragmentWidthValid f) :
    ∀ f ∈ (self.AddBox heap box mode line_width handle).line.fragments,
      FragmentWidthValid f := by
  rcases AddBox_line_cases heap self box mode line_width handle with h | ⟨ht, h⟩ | ⟨ht, h⟩
  · rw [h]
    exact hvalid
  · rw [h]
    intro f hf
    simp only [List.mem_append, List.mem_singleton] at hf
    rcases hf with hf | hf
    · exact hvalid f hf
    · rw [hf]
      exact Or.inl ⟨ht, rfl⟩
  · rw [h]
    intro f hf
    obtain ⟨a, ha, hfa⟩ := mem_mark_has_content _ _ f hf
    have hvalid_a : FragmentWidthValid a := by
      simp only [List.mem_append, List.mem_singleton] at ha
      rcases ha with ha | ha
      · exact hvalid a ha
      · rw [ha]
        exact Or.inr ((hcontract box _ _ _ _ _).2 ht)
    rcases hfa with hfa | hfa
    · rw [hfa]
      exact hvalid_a
    · rw [hfa]
      exact hvalid_a

theorem FragmentWidthValid_CloseInlineBox (heap : BoxHeap) (self : LayoutLineBox)
    (inline_box : BoxPtr) (hopen : OpenFragmentsValid self)
    (hvalid : ∀ f ∈ self.fragments, FragmentWidthValid f) :
    ∀ f ∈ (self.CloseInlineBox heap inline_box).1.fragments, FragmentWidthValid f := by
  rcases CloseInlineBox_cases heap self inline_box hopen with
    h | ⟨top, f0, _, _, _, _, hfragments, _, _⟩
  · rw [h]
    exact hvalid
  · rw [hfragments]
    intro f hf
    rcases List.mem_or_eq_of_mem_set hf with hf | hf
    · exact hvalid f hf
    · rw [hf]
      exact Or.inr (le_max_right _ _)

theorem FragmentWidthValid_SplitLine_new (heap : BoxHeap) (self new_line : LayoutLineBox)
    (hopen_valid : OpenFragmentsValid self)
    (hsplit : (self.SplitLine heap).2 = some new_line) :
    ∀ f ∈ new_line.fragments, FragmentWidthValid f := by
  by_cases hopen : self.open_fragments = []
  · rw [SplitLine_of_nil heap self hopen] at hsplit
    simp at hsplit
  · obtain ⟨nl, hnl, hlen, _, _, _, hclone⟩ := SplitLine_new_line heap self hopen
    rw [hsplit] at hnl
    obtain rfl := Option.some.inj hnl
    intro f hf
    obtain ⟨k, hk⟩ := List.getElem?_of_mem hf
    have hklt : k < self.open_fragments.length := by
      rw [← hlen]
      exact (List.getElem?_eq_some_iff.mp hk).1
    have hget : self.open_fragments[k]? = some self.open_fragments[k] :=
      List.getElem?_eq_getElem hklt
    have := hclone k _ hget
    rw [hk] at this
    obtain ⟨_, _, htype, hend⟩ := hopen_valid.2 _ (List.getElem_mem hklt)
    rw [Option.some.inj this]
    exact Or.inl ⟨by simpa [SplitLine.clone] using htype, by simpa [SplitLine.clone] using hend⟩

theorem FragmentWidthValid_SplitLine (heap : BoxHeap) (self : LayoutLineBox)
    (hvalid : ∀ f ∈ self.fragments, FragmentWidthValid f) :
    ∀ f ∈ (self.SplitLine heap).1.fragments, FragmentWidthValid f := by
  by_cases hopen : self.open_fragments = []
  · rw [SplitLine_of_nil heap self hopen]
    exact hvalid
  · rw [SplitLine_of_ne_nil heap self hopen]
    intro f hf
    obtain ⟨j, hj⟩ := List.getElem?_of_mem hf
    simp only [] at hj
    rw [SplitLine_closed_getElem?] at hj
    cases ha : self.fragments[j]? with
    | none => rw [ha] at hj; simp at hj
    | some a =>
      rw [ha] at hj
      simp only [Option.map_some', Option.some.injEq] at hj
      have hvalid_a := hvalid a (List.getElem?_mem ha)
      rw [← hj]
      split
      · split
        · exact Or.inr (le_max_right _ _)
        · exact hvalid_a
      · exact hvalid_a

theorem FragmentWidthValid_of_Reachable (heap : BoxHeap)
    (hcontract : RespectsFragmentContract heap) (line : LayoutLineBox)
    (hreach : Reachable heap line) : ∀ f ∈ line.fragments, FragmentWidthValid f := by
  induction hreach with
  | new_line =>
    intro f hf
    simp at hf
  | set_line_box self line_position line_width _ ih => exact ih
  | add_box self box mode line_width handle _ ih =>
    exact FragmentWidthValid_AddBox heap hcontract self box mode line_width handle ih
  | close_inline_box self inline_box hself ih =>
    exact FragmentWidthValid_CloseInlineBox heap self inline_box
      (OpenFragmentsValid_of_Reachable heap self hself) ih
  | split_line self new_line hself hsplit _ =>
    exact FragmentWidthValid_SplitLine_new heap self new_line
      (OpenFragmentsValid_of_Reachable heap self hself) hsplit

theorem Example.heap_contract : RespectsFragmentContract Example.heap := by
  have hsized : ∀ width : ℚ, 0 ≤ width → ∀ (mode : InlineLayoutMode)
      (available_width right_spacing_width : ℚ) (first_box : Bool)
      (in_overflow_handle : LayoutOverflowHandle),
      ((Example.sized_box width).CreateFragment mode available_width right_spacing_width
        first_box in_overflow_handle).type ≠ FragmentType.InlineBox ∧
      0 ≤ ((Example.sized_box width).CreateFragment mode available_width right_spacing_width
        first_box in_overflow_handle).layout_width := by
    intro width hwidth mode available_width right_spacing_width first_box in_overflow_handle
    unfold Example.sized_box
    simp only []
    split
    · exact ⟨fun h => FragmentType.noConfusion h, le_refl _⟩
    · exact ⟨fun h => FragmentType.noConfusion h, hwidth⟩
  have hinline : ∀ (left right : ℚ) (mode : InlineLayoutMode)
      (available_width right_spacing_width : ℚ) (first_box : Bool)
      (in_overflow_handle : LayoutOverflowHandle),
      ((Example.inline_box left right).CreateFragment mode available_width right_spacing_width
        first_box in_overflow_handle).type = FragmentType.InlineBox ∧
      ((Example.inline_box left right).CreateFragment mode available_width right_spacing_width
        first_box in_overflow_handle).layout_width = -1 := by
    intro left right mode available_width right_spacing_width first_box in_overflow_handle
    exact ⟨rfl, rfl⟩
  have hof_sized : ∀ b : InlineLevelBox, (∀ (mode : InlineLayoutMode)
      (available_width right_spacing_width : ℚ) (first_box : Bool)
      (in_overflow_handle : LayoutOverflowHandle),
      (b.CreateFragment mode available_width right_spacing_width first_box
        in_overflow_handle).type ≠ FragmentType.InlineBox ∧
      0 ≤ (b.CreateFragment mode available_width right_spacing_width first_box
        in_overflow_handle).layout_width) →
      ∀ (mode : InlineLayoutMode) (available_width right_spacing_width : ℚ) (first_box : Bool)
      (in_overflow_handle : LayoutOverflowHandle),
      ((b.CreateFragment mode available_width right_spacing_width first_box
          in_overflow_handle).type = FragmentType.InlineBox →
        (b.CreateFragment mode available_width right_spacing_width first_box
          in_overflow_handle).layout_width < 0) ∧
      (((b.CreateFragment mode available_width right_spacing_width first_box
          in_overflow_handle).type = FragmentType.SizedBox ∨
        (b.CreateFragment mode available_width right_spacing_width first_box
          in_overflow_handle).type = FragmentType.TextRun) →
        0 ≤ (b.CreateFragment mode available_width right_spacing_width first_box
          in_overflow_handle).layout_width) := by
    intro b hb mode available_width right_spacing_width first_box in_overflow_handle
    obtain ⟨h1, h2⟩ := hb mode available_width right_spacing_width first_box in_overflow_handle
    exact ⟨fun h => absurd h h1, fun _ => h2⟩
  have hof_inline : ∀ b : InlineLevelBox, (∀ (mode : InlineLayoutMode)
      (available_width right_spacing_width : ℚ) (first_box : Bool)
      (in_overflow_handle : LayoutOverflowHandle),
      (b.CreateFragment mode available_width right_spacing_width first_box
        in_overflow_handle).type = FragmentType.InlineBox ∧
      (b.CreateFragment mode available_width right_spacing_width first_box
        in_overflow_handle).layout_width = -1) →
      ∀ (mode : InlineLayoutMode) (available_width right_spacing_width : ℚ) (first_box : Bool)
      (in_overflow_handle : LayoutOverflowHandle),
      ((b.CreateFragment mode available_width right_spacing_width first_box
          in_overflow_handle).type = FragmentType.InlineBox →
        (b.CreateFragment mode available_width right_spacing_width first_box
          in_overflow_handle).layout_width < 0) ∧
      (((b.CreateFragment mode available_width right_spacing_width first_box
          in_overflow_handle).type = FragmentType.SizedBox ∨
        (b.CreateFragment mode available_width right_spacing_width first_box
          in_overflow_handle).type = FragmentType.TextRun) →
        0 ≤ (b.CreateFragment mode available_width right_spacing_width first_box
          in_overflow_handle).layout_width) := by
    intro b hb mode available_width right_spacing_width first_box in_overflow_handle
    obtain ⟨h1, h2⟩ := hb mode available_width right_spacing_width first_box in_overflow_handle
    refine ⟨fun _ => by rw [h2]; norm_num, fun h => ?_⟩
    rw [h1] at h
    rcases h with h | h <;> exact absurd h (by decide)
  intro box mode available_width right_spacing_width first_box in_overflow_handle
  unfold Example.heap
  split_ifs
  · exact hof_sized _ (hsized 30 (by norm_num)) _ _ _ _ _
  · exact hof_sized _ (hsized 50 (by norm_num)) _ _ _ _ _
  · exact hof_sized _ (hsized 40 (by norm_num)) _ _ _ _ _
  · exact hof_inline _ (hinline 5 5) _ _ _ _ _
  · exact hof_inline _ (hinline 0 (-10)) _ _ _ _ _
  · exact hof_inline _ (hinline 0 0) _ _ _ _ _

/-- Every fragment of a closed line that the submission loop does not skip has a width that
is not negative. -/
theorem Close_widths (heap : BoxHeap) (hcontract : RespectsFragmentContract heap)
    (line : LayoutLineBox) (hreach : Reachable heap line) (root_inline_box : BoxPtr) :
    ∀ f ∈ Close.positioned heap (line.SplitLine heap).1.fragments root_inline_box,
      FragmentWidthValid f := by
  intro f hf
  obtain ⟨i, hi⟩ := List.getElem?_of_mem hf
  have hmap := getElem?_map_eq Fragment.layout
    (positioned_map_layout heap (line.SplitLine heap).1.fragments root_inline_box) i
  rw [hi] at hmap
  cases hg : (line.SplitLine heap).1.fragments[i]? with
  | none => rw [hg] at hmap; simp at hmap
  | some g =>
    rw [hg] at hmap
    have hlayout : f.layout = g.layout := by simpa using hmap
    obtain ⟨_, _, h3, _, _, h6, _, _, _, _, _, h12⟩ := layout_fields hlayout
    have hvalid := FragmentWidthValid_SplitLine heap line
      (FragmentWidthValid_of_Reachable heap hcontract line hreach) g (List.getElem?_mem hg)
    unfold FragmentWidthValid at hvalid ⊢
    rw [h3, h6, h12]
    exact hvalid

/-! ## The stack of open fragments as a path -/

theorem getLastD_mem_or (l : List Int) (a : Int) : l.getLastD a = a ∨ l.getLastD a ∈ l := by
  cases l with
  | nil => exact Or.inl rfl
  | cons b rest =>
    right
    rw [List.getLastD_eq_getLast?, List.getLast?_eq_getLast _ (List.cons_ne_nil b rest)]
    exact List.getLast_mem _

theorem getLastD_cons (b : Int) (l : List Int) (a : Int) :
    (b :: l).getLastD a = l.getLastD b := by
  cases l with
  | nil => rfl
  | cons c rest =>
    rw [List.getLastD_eq_getLast?, List.getLastD_eq_getLast?,
      List.getLast?_eq_getLast _ (List.cons_ne_nil b (c :: rest)),
      List.getLast?_eq_getLast _ (List.cons_ne_nil c rest)]
    rfl

theorem getLastD_concat (l : List Int) (b a : Int) : (l ++ [b]).getLastD a = b := by
  rw [List.getLastD_eq_getLast?, List.getLast?_append]
  rfl

theorem chain_concat (R : Int → Int → Prop) (l : List Int) :
    ∀ a b : Int, List.Chain R a l → R (l.getLastD a) b → List.Chain R a (l ++ [b]) := by
  induction l with
  | nil =>
    intro a b _ h
    exact List.Chain.cons h List.Chain.nil
  | cons c rest ih =>
    intro a b hchain h
    rw [getLastD_cons] at h
    rw [List.chain_cons] at hchain
    exact List.Chain.cons hchain.1 (ih c b hchain.2 h)

theorem chain_dropLast (R : Int → Int → Prop) (l : List Int) :
    ∀ a : Int, List.Chain R a l → List.Chain R a l.dropLast := by
  induction l with
  | nil => intro a h; exact h
  | cons c rest ih =>
    intro a hchain
    rw [List.chain_cons] at hchain
    cases rest with
    | nil => exact List.Chain.nil
    | cons d rest2 =>
      rw [List.dropLast_cons₂]
      exact List.Chain.cons hchain.1 (ih c hchain.2)

theorem chain_congr_mem (R R2 : Int → Int → Prop) (l : List Int) :
    ∀ a : Int, (∀ x, ∀ b ∈ l, R x b → R2 x b) → List.Chain R a l → List.Chain R2 a l := by
  induction l with
  | nil => intro a _ _; exact List.Chain.nil
  | cons c rest ih =>
    intro a himp hchain
    rw [List.chain_cons] at hchain
    exact List.Chain.cons (himp a c (List.mem_cons_self _ _) hchain.1)
      (ih c (fun x b hb => himp x b (List.mem_cons_of_mem _ hb)) hchain.2)

/-- The entries of a chain, one by one. -/
theorem chain_getElem? (R : Int → Int → Prop) (l : List Int) :
    ∀ a : Int, List.Chain R a l →
    (∀ first : Int, l[0]? = some first → R a first) ∧
    (∀ (k : Nat) (x y : Int), l[k]? = some x → l[k + 1]? = some y → R x y) := by
  induction l with
  | nil =>
    intro a _
    refine ⟨fun first h => ?_, fun k x y h => ?_⟩
    · simp at h
    · simp at h
  | cons c rest ih =>
    intro a hchain
    rw [List.chain_cons] at hchain
    obtain ⟨h1, h2⟩ := ih c hchain.2
    refine ⟨?_, ?_⟩
    · intro first hfirst
      simp only [List.getElem?_cons_zero, Option.some.injEq] at hfirst
      rw [← hfirst]
      exact hchain.1
    · intro k x y hx hy
      cases k with
      | zero =>
        simp only [List.getElem?_cons_zero, Option.some.injEq] at hx
        simp only [List.getElem?_cons_succ] at hy
        rw [← hx]
        exact h1 y hy
      | succ k =>
        simp only [List.getElem?_cons_succ] at hx hy
        exact h2 k x y hx hy

theorem chain_range_cast (R : Int → Int → Prop) (n : Nat)
    (h : ∀ k : Nat, k < n → R ((k : Int) - 1) (k : Int)) :
    List.Chain R (-1) ((List.range n).map (fun k : Nat => (k : Int))) := by
  induction n with
  | zero => exact List.Chain.nil
  | succ n ih =>
    rw [List.range_succ, List.map_append]
    simp only [List.map_cons, List.map_nil]
    apply chain_concat R _ _ _ (ih (fun k hk => h k (by omega)))
    have hlast : ((List.range n).map (fun k : Nat => (k : Int))).getLastD (-1) = (n : Int) - 1 := by
      cases n with
      | zero => rfl
      | succ m =>
        rw [List.range_succ, List.map_append]
        simp only [List.map_cons, List.map_nil]
        rw [getLastD_concat]
        push_cast
        ring
    rw [hlast]
    exact h n (by omega)

theorem open_fragments_split_last (self : LayoutLineBox) (hopen : OpenFragmentsValid self)
    (top : Int) (hlast : self.open_fragments.getLast? = some top) :
    self.open_fragments = self.open_fragments.dropLast ++ [top] ∧
    top ∉ self.open_fragments.dropLast := by
  have hne : self.open_fragments ≠ [] := by
    intro h
    rw [h] at hlast
    simp at hlast
  have hsplit : self.open_fragments = self.open_fragments.dropLast ++ [top] := by
    have h1 := List.dropLast_append_getLast hne
    have h2 : self.open_fragments.getLast hne = top := by
      have := List.getLast?_eq_getLast _ hne
      rw [hlast] at this
      exact (Option.some.inj this).symm
    rw [h2] at h1
    exact h1.symm
  refine ⟨hsplit, ?_⟩
  have hnodup : (self.open_fragments.dropLast ++ [top]).Nodup := by
    rw [← hsplit]
    exact hopen.1
  rw [List.nodup_append] at hnodup
  intro hmem
  exact hnodup.2.2 hmem (List.mem_singleton_self _)

theorem OpenStackIsPath_AddBox (heap : BoxHeap) (self : LayoutLineBox) (box : BoxPtr)
    (mode : InlineLayoutMode) (line_width : ℚ) (handle : LayoutOverflowHandle)
    (hopen : OpenFragmentsValid self) (hpath : OpenStackIsPath self) :
    OpenStackIsPath (self.AddBox heap box mode line_width handle).line := by
  rcases AddBox_line_cases heap self box mode line_width handle with h | ⟨ht, h⟩ | ⟨ht, h⟩
  · rw [h]
    exact hpath
  · rw [h]
    refine ⟨?_, ?_⟩
    · simp only []
      apply chain_concat
      · apply chain_congr_mem _ _ _ _ _ hpath.1
        intro x b hb hR
        obtain ⟨h0, hlt, _, _⟩ := hopen.2 b hb
        rw [getFragment_append_left _ _ _ h0 hlt]
        exact hR
      · rw [getFragment_append_last]
        refine ⟨?_, rfl⟩
        rcases getLastD_mem_or self.open_fragments (-1) with hlast | hlast
        · rw [hlast]
          omega
        · exact (hopen.2 _ hlast).2.1
    · intro i f hf htype hend
      simp only [] at hf ⊢
      rcases Nat.lt_trichotomy i self.fragments.length with hi | hi | hi
      · rw [List.getElem?_append_left hi] at hf
        exact List.mem_append_left _ (hpath.2 i f hf htype hend)
      · rw [hi]
        exact List.mem_append_right _ (List.mem_singleton_self _)
      · rw [List.getElem?_eq_none (by simp; omega)] at hf
        simp at hf
  · rw [h]
    refine ⟨?_, ?_⟩
    · simp only []
      apply chain_congr_mem _ _ _ _ _ hpath.1
      intro x b hb hR
      obtain ⟨h0, hlt, _, _⟩ := hopen.2 b hb
      rw [getFragment_mark_has_content_of_valid _ _ _ h0
        (by simp only [List.length_append, List.length_singleton]; push_cast; omega),
        if_pos hb, getFragment_append_left _ _ _ h0 hlt]
      exact hR
    · intro i f hf htype hend
      simp only [] at hf ⊢
      rw [foldl_modifyFragment_getElem? _ has_content_idempotent] at hf
      rcases Nat.lt_trichotomy i self.fragments.length with hi | hi | hi
      · rw [List.getElem?_append_left hi] at hf
        cases ha : self.fragments[i]? with
        | none => rw [ha] at hf; simp at hf
        | some a =>
          rw [ha] at hf
          simp only [Option.map_some', Option.some.injEq] at hf
          apply hpath.2 i a ha
          · rw [← htype, ← hf]
            split <;> rfl
          · rw [← hend, ← hf]
            split <;> rfl
      · rw [hi] at hf
        simp only [List.getElem?_concat_length, Option.map_some', Option.some.injEq] at hf
        exfalso
        have htype' : f.type = ((AddBox.call heap self box mode line_width handle).invoke
            heap).type := by
          rw [← hf]
          split <;> rfl
        rw [htype] at htype'
        rcases ht with ht | ht <;> rw [ht] at htype' <;> exact absurd htype' (by decide)
      · rw [List.getElem?_eq_none (by simp; omega)] at hf
        simp at hf

theorem OpenStackIsPath_CloseInlineBox (heap : BoxHeap) (self : LayoutLineBox)
    (inline_box : BoxPtr) (hopen : OpenFragmentsValid self) (hpath : OpenStackIsPath self) :
    OpenStackIsPath (self.CloseInlineBox heap inline_box).1 := by
  rcases CloseInlineBox_cases heap self inline_box hopen with
    h | ⟨top, f0, hlast, hf0, _, hstack, hfragments, _, _⟩
  · rw [h]
    exact hpath
  · obtain ⟨hsplit, hnotmem⟩ := open_fragments_split_last self hopen top hlast
    have htoplt : top < self.fragments.length := (List.getElem?_eq_some_iff.mp hf0).1
    refine ⟨?_, ?_⟩
    · rw [hstack, hfragments]
      apply chain_congr_mem _ _ _ _ _ (chain_dropLast _ _ _ hpath.1)
      intro x b hb hR
      have hne : b ≠ (top : Int) := fun heq => hnotmem (by rw [← heq]; exact hb)
      rw [getFragment_set_ne _ _ _ _ hne]
      exact hR
    · intro i f hf htype hend
      rw [hfragments, List.getElem?_set] at hf
      rw [hstack]
      by_cases hi : top = i
      · rw [if_pos hi, if_pos htoplt] at hf
        rw [← Option.some.inj hf] at hend
        simp only [] at hend
        omega
      · rw [if_neg hi] at hf
        have hmem := hpath.2 i f hf htype hend
        rw [hsplit, List.mem_append, List.mem_singleton] at hmem
        rcases hmem with hmem | hmem
        · exact hmem
        · omega

theorem OpenStackIsPath_SplitLine (heap : BoxHeap) (self new_line : LayoutLineBox)
    (hsplit : (self.SplitLine heap).2 = some new_line) : OpenStackIsPath new_line := by
  by_cases hopen : self.open_fragments = []
  · rw [SplitLine_of_nil heap self hopen] at hsplit
    simp at hsplit
  · obtain ⟨nl, hnl, hlen, hstack, _, _, hclone⟩ := SplitLine_new_line heap self hopen
    rw [hsplit] at hnl
    obtain rfl := Option.some.inj hnl
    refine ⟨?_, ?_⟩
    · rw [hstack]
      apply chain_range_cast
      intro k hk
      have hget : self.open_fragments[k]? = some self.open_fragments[k] :=
        List.getElem?_eq_getElem hk
      rw [getFragment_of_getElem? (hclone k _ hget)]
      refine ⟨by omega, ?_⟩
      simp only [SplitLine.clone, List.length_take]
      rw [hlen, Nat.min_eq_left (le_of_lt hk)]
    · intro i f hf _ _
      rw [hstack, mem_range_cast]
      exact ⟨i, by rw [← hlen]; exact (List.getElem?_eq_some_iff.mp hf).1, rfl⟩

theorem OpenStackIsPath_of_Reachable (heap : BoxHeap) (line : LayoutLineBox)
    (hreach : Reachable heap line) : OpenStackIsPath line := by
  induction hreach with
  | new_line =>
    refine ⟨List.Chain.nil, ?_⟩
    intro i f hf
    simp at hf
  | set_line_box self line_position line_width _ ih => exact ih
  | add_box self box mode line_width handle hself ih =>
    exact OpenStackIsPath_AddBox heap self box mode line_width handle
      (OpenFragmentsValid_of_Reachable heap self hself) ih
  | close_inline_box self inline_box hself ih =>
    exact OpenStackIsPath_CloseInlineBox heap self inline_box
      (OpenFragmentsValid_of_Reachable heap self hself) ih
  | split_line self new_line _ hsplit _ =>
    exact OpenStackIsPath_SplitLine heap self new_line hsplit

theorem chain_of_concat (R : Int → Int → Prop) (l : List Int) :
    ∀ a b : Int, List.Chain R a (l ++ [b]) → List.Chain R a l ∧ R (l.getLastD a) b := by
  induction l with
  | nil =>
    intro a b h
    rw [List.nil_append, List.chain_cons] at h
    exact ⟨List.Chain.nil, h.1⟩
  | cons c rest ih =>
    intro a b h
    rw [List.cons_append, List.chain_cons] at h
    obtain ⟨h1, h2⟩ := ih c b h.2
    rw [getLastD_cons]
    exact ⟨List.Chain.cons h.1 h1, h2⟩

/-- Walking up the parents from the top of the stack of open fragments gives the stack, from
the top down. -/
theorem parentChain_of_path (fs : List Fragment) (stack : List Int) :
    List.Chain (fun a b => a < b ∧ (getFragment fs b).parent_fragment = a) (-1) stack →
    -1 ≤ stack.getLastD (-1) ∧
    ∀ fuel : Nat, stack.length ≤ fuel →
      parentChain fs fuel (stack.getLastD (-1)) = stack.reverse := by
  induction stack using List.reverseRecOn with
  | nil =>
    intro _
    refine ⟨le_refl _, fun fuel _ => ?_⟩
    exact parentChain_none fs fuel
  | append_singleton rest top ih =>
    intro hchain
    obtain ⟨hrest, hlt, hparent⟩ := chain_of_concat _ _ _ _ hchain
    obtain ⟨h1, h2⟩ := ih hrest
    rw [getLastD_concat]
    refine ⟨by omega, ?_⟩
    intro fuel hfuel
    rw [List.length_append, List.length_singleton] at hfuel
    cases fuel with
    | zero => omega
    | succ fuel =>
      rw [parentChain, if_neg (by omega), hparent, h2 fuel (by omega), List.reverse_append]
      rfl

/-! ## The ancestors of a fragment -/

theorem parentChain_neg (fs : List Fragment) (fuel : Nat) (p : Int) (h : p < 0) :
    parentChain fs fuel p = [] := by
  cases fuel with
  | zero => rfl
  | succ fuel => rw [parentChain, if_pos h]

theorem parentChain_succ (fs : List Fragment) (fuel : Nat) (p : Int) (h : 0 ≤ p) :
    parentChain fs (fuel + 1) p
      = p :: parentChain fs fuel (getFragment fs p).parent_fragment := by
  rw [parentChain, if_neg (by omega)]

theorem parentChain_congr_tree {fs fs' : List Fragment}
    (h : fs'.map Fragment.tree = fs.map Fragment.tree) :
    ∀ (fuel : Nat) (p : Int), parentChain fs' fuel p = parentChain fs fuel p := by
  intro fuel
  induction fuel with
  | zero => intro p; rfl
  | succ fuel ih =>
    intro p
    rw [parentChain, parentChain, (tree_fields (getFragment_map_eq Fragment.tree h p)).2.2.2.2.2.1,
      ih]

theorem parentChain_fuel (fs : List Fragment) (hvalid : FragmentsValid fs) :
    ∀ p : Nat, p < fs.length → ∀ fuel1 fuel2 : Nat, p + 1 ≤ fuel1 → p + 1 ≤ fuel2 →
    parentChain fs fuel1 (p : Int) = parentChain fs fuel2 (p : Int) := by
  intro p
  induction p using Nat.strong_induction_on with
  | _ p ih =>
    intro hp fuel1 fuel2 h1 h2
    cases fuel1 with
    | zero => omega
    | succ fuel1 =>
      cases fuel2 with
      | zero => omega
      | succ fuel2 =>
        rw [parentChain_succ fs fuel1 _ (by omega), parentChain_succ fs fuel2 _ (by omega)]
        obtain ⟨_, hlt, _⟩ := hvalid p _ (getElem?_getFragment hp)
        by_cases hq : (getFragment fs (p : Int)).parent_fragment < 0
        · rw [parentChain_neg fs _ _ hq, parentChain_neg fs _ _ hq]
        · obtain ⟨q, hq'⟩ := Int.eq_ofNat_of_zero_le (not_lt.mp hq)
          rw [hq'] at hlt ⊢
          have hqp : q < p := by exact_mod_cast hlt
          rw [ih q hqp (by omega) fuel1 fuel2 (by omega) (by omega)]

theorem parentChain_append (fs : List Fragment) (hvalid : FragmentsValid fs) (a : Fragment) :
    ∀ (fuel : Nat) (p : Int), p < (fs.length : Int) →
    parentChain (fs ++ [a]) fuel p = parentChain fs fuel p := by
  intro fuel
  induction fuel with
  | zero => intro p _; rfl
  | succ fuel ih =>
    intro p hp
    by_cases hneg : p < 0
    · rw [parentChain_neg _ _ _ hneg, parentChain_neg _ _ _ hneg]
    · obtain ⟨n, rfl⟩ := Int.eq_ofNat_of_zero_le (not_lt.mp hneg)
      have hn : n < fs.length := by exact_mod_cast hp
      obtain ⟨_, hlt, _⟩ := hvalid n _ (getElem?_getFragment hn)
      rw [parentChain_succ _ fuel _ (by omega), parentChain_succ _ fuel _ (by omega),
        getFragment_append_left _ _ _ (by omega) hp, ih _ (by omega)]

theorem parentChain_mem (fs : List Fragment) (hvalid : FragmentsValid fs) :
    ∀ (fuel : Nat) (p : Int), p < (fs.length : Int) →
    ∀ x ∈ parentChain fs fuel p, 0 ≤ x ∧ x ≤ p := by
  intro fuel
  induction fuel with
  | zero =>
    intro p _ x hx
    simp [parentChain] at hx
  | succ fuel ih =>
    intro p hp x hx
    by_cases hneg : p < 0
    · rw [parentChain_neg _ _ _ hneg] at hx
      simp at hx
    · rw [parentChain, if_neg hneg] at hx
      rcases List.mem_cons.mp hx with hx | hx
      · rw [hx]
        omega
      · obtain ⟨n, hn⟩ := Int.eq_ofNat_of_zero_le (not_lt.mp hneg)
        rw [hn] at hp hx
        have hn' : n < fs.length := by exact_mod_cast hp
        obtain ⟨_, hlt, _⟩ := hvalid n _ (getElem?_getFragment hn')
        have := ih _ (by omega) x hx
        omega

/-- The ancestors of a fragment are before it. -/
theorem properAncestors_lt (fs : List Fragment) (hvalid : FragmentsValid fs) (j : Nat)
    (hj : j < fs.length) : ∀ x ∈ properAncestors fs (j : Int), 0 ≤ x ∧ x < (j : Int) := by
  intro x hx
  obtain ⟨_, hlt, _⟩ := hvalid j _ (getElem?_getFragment hj)
  have := parentChain_mem fs hvalid _ _ (by omega) x hx
  omega

theorem properAncestors_congr_tree {fs fs' : List Fragment}
    (h : fs'.map Fragment.tree = fs.map Fragment.tree) (j : Int) :
    properAncestors fs' j = properAncestors fs j := by
  unfold properAncestors
  rw [parentChain_congr_tree h, length_eq_of_map_eq Fragment.tree h,
    (tree_fields (getFragment_map_eq Fragment.tree h j)).2.2.2.2.2.1]

theorem properAncestors_append_left (fs : List Fragment) (hvalid : FragmentsValid fs)
    (a : Fragment) (j : Nat) (hj : j < fs.length) :
    properAncestors (fs ++ [a]) (j : Int) = properAncestors fs (j : Int) := by
  unfold properAncestors
  obtain ⟨h1, hlt, _⟩ := hvalid j _ (getElem?_getFragment hj)
  rw [getFragment_append_left _ _ _ (by omega) (by exact_mod_cast hj),
    parentChain_append fs hvalid a _ _ (by omega)]
  by_cases hneg : (getFragment fs (j : Int)).parent_fragment < 0
  · rw [parentChain_neg _ _ _ hneg, parentChain_neg _ _ _ hneg]
  · obtain ⟨q, hq⟩ := Int.eq_ofNat_of_zero_le (not_lt.mp hneg)
    rw [hq] at hlt ⊢
    have hqj : q < j := by exact_mod_cast hlt
    exact parentChain_fuel fs hvalid q (by omega) _ _
      (by simp only [List.length_append, List.length_singleton]; omega) (by omega)

theorem properAncestors_append_last (fs : List Fragment) (hvalid : FragmentsValid fs)
    (a : Fragment) (hparent : a.parent_fragment < (fs.length : Int)) :
    properAncestors (fs ++ [a]) (fs.length : Int)
      = parentChain fs (fs.length + 1) a.parent_fragment := by
  unfold properAncestors
  rw [getFragment_append_last, parentChain_append fs hvalid a _ _ hparent]
  simp only [List.length_append, List.length_singleton]

theorem path_length_le (fs : List Fragment) (stack : List Int) :
    List.Chain (fun a b => a < b ∧ (getFragment fs b).parent_fragment = a) (-1) stack →
    (stack.length : Int) - 1 ≤ stack.getLastD (-1) := by
  induction stack using List.reverseRecOn with
  | nil => intro _; exact le_refl _
  | append_singleton rest top ih =>
    intro hchain
    obtain ⟨hrest, hlt, _⟩ := chain_of_concat _ _ _ _ hchain
    have := ih hrest
    rw [getLastD_concat, List.length_append, List.length_singleton]
    push_cast
    omega

theorem getLastD_range_cast (n : Nat) :
    ((List.range n).map (fun k : Nat => (k : Int))).getLastD (-1) = (n : Int) - 1 := by
  cases n with
  | zero => rfl
  | succ m =>
    rw [List.range_succ, List.map_append]
    simp only [List.map_cons, List.map_nil]
    rw [getLastD_concat]
    push_cast
    ring

/-- The ancestors of the fragment that `AddBox` appends are the fragments on the stack of
open fragments. -/
theorem properAncestors_appended (self : LayoutLineBox) (hopen : OpenFragmentsValid self)
    (hpath : OpenStackIsPath self) (hvalid : FragmentsValid self.fragments) (a : Fragment)
    (hparent : a.parent_fragment = self.GetOpenParent) (x : Int) :
    x ∈ properAncestors (self.fragments ++ [a]) (self.fragments.length : Int) ↔
      x ∈ self.open_fragments := by
  have htop : self.GetOpenParent < (self.fragments.length : Int) := by
    unfold LayoutLineBox.GetOpenParent
    rcases getLastD_mem_or self.open_fragments (-1) with h | h
    · rw [show RootFragmentIndex = -1 from rfl, h]
      omega
    · exact (hopen.2 _ h).2.1
  have hlen := path_length_le self.fragments self.open_fragments hpath.1
  rw [properAncestors_append_last self.fragments hvalid a (by rw [hparent]; exact htop), hparent]
  have hchain := (parentChain_of_path self.fragments self.open_fragments hpath.1).2
    (self.fragments.length + 1) (by
      unfold LayoutLineBox.GetOpenParent at htop
      rw [show RootFragmentIndex = -1 from rfl] at htop
      omega)
  unfold LayoutLineBox.GetOpenParent
  rw [show RootFragmentIndex = -1 from rfl, hchain, List.mem_reverse]

theorem ChildrenContiguous_append (fs : List Fragment) (stack : List Int) (a : Fragment)
    (hvalid : FragmentsValid fs)
    (hstack : ∀ s ∈ stack, 0 ≤ s ∧ s < (fs.length : Int) ∧
      (getFragment fs s).children_end_index = 0)
    (hancestors : ∀ x, x ∈ properAncestors (fs ++ [a]) (fs.length : Int) ↔ x ∈ stack)
    (hend : a.children_end_index = 0) (h : ChildrenContiguous fs stack) :
    ChildrenContiguous (fs ++ [a]) (stack ++ [(fs.length : Int)]) := by
  obtain ⟨hclosed, hopen⟩ := h
  refine ⟨?_, ?_⟩
  · intro i f hf htype hne
    rcases Nat.lt_trichotomy i fs.length with hi | hi | hi
    · rw [List.getElem?_append_left hi] at hf
      obtain ⟨h1, h2, h3⟩ := hclosed i f hf htype hne
      simp only [List.length_append, List.length_singleton]
      refine ⟨h1, by push_cast; omega, ?_⟩
      intro j hj
      rcases Nat.lt_or_ge j fs.length with hjlt | hjge
      · rw [properAncestors_append_left fs hvalid a j hjlt]
        exact h3 j hjlt
      · have hjn : j = fs.length := by omega
        rw [hjn, hancestors]
        constructor
        · intro hmem
          exfalso
          have := (hstack _ hmem).2.2
          rw [getFragment_of_getElem? hf] at this
          exact hne this
        · intro hlt
          omega
    · rw [hi] at hf
      simp only [List.getElem?_concat_length, Option.some.injEq] at hf
      rw [← hf] at hne
      exact absurd hend hne
    · rw [List.getElem?_eq_none (by simp; omega)] at hf
      simp at hf
  · intro s hs j hj
    simp only [List.length_append, List.length_singleton] at hj
    rw [List.mem_append, List.mem_singleton] at hs
    rcases hs with hs | hs
    · rcases Nat.lt_or_ge j fs.length with hjlt | hjge
      · rw [properAncestors_append_left fs hvalid a j hjlt]
        exact hopen s hs j hjlt
      · have hjn : j = fs.length := by omega
        rw [hjn, hancestors]
        exact ⟨fun _ => (hstack s hs).2.1, fun _ => hs⟩
    · rw [hs]
      constructor
      · intro hmem
        exfalso
        rcases Nat.lt_or_ge j fs.length with hjlt | hjge
        · rw [properAncestors_append_left fs hvalid a j hjlt] at hmem
          have := properAncestors_lt fs hvalid j hjlt _ hmem
          omega
        · have hjn : j = fs.length := by omega
          rw [hjn, hancestors] at hmem
          have := (hstack _ hmem).2.1
          omega
      · intro hlt
        omega

/-- The contiguity of the children goes over to an array with the same tree in which the
fragments that are closed were closed before or are closed now, at the end of the array, from
the stack of open fragments. -/
theorem ChildrenContiguous_transfer {fs fs' : List Fragment} {stack stack' : List Int}
    (htree : fs'.map Fragment.tree = fs.map Fragment.tree)
    (hsub : ∀ s ∈ stack', s ∈ stack)
    (hclosed' : ∀ (i : Nat) (f' : Fragment), fs'[i]? = some f' →
      f'.type = FragmentType.InlineBox → f'.children_end_index ≠ 0 →
      (∃ f : Fragment, fs[i]? = some f ∧ f.type = FragmentType.InlineBox ∧
        f.children_end_index = f'.children_end_index) ∨
      ((i : Int) ∈ stack ∧ f'.children_end_index = (fs.length : Int)))
    (h : ChildrenContiguous fs stack) : ChildrenContiguous fs' stack' := by
  obtain ⟨hclosed, hopen⟩ := h
  have hlen := length_eq_of_map_eq Fragment.tree htree
  refine ⟨?_, ?_⟩
  · intro i f' hf' htype hne
    rw [hlen]
    rcases hclosed' i f' hf' htype hne with ⟨f, hf, hftype, hfend⟩ | ⟨hmem, hend⟩
    · obtain ⟨h1, h2, h3⟩ := hclosed i f hf hftype (by rw [hfend]; exact hne)
      rw [← hfend]
      refine ⟨h1, h2, ?_⟩
      intro j hj
      rw [properAncestors_congr_tree htree]
      exact h3 j hj
    · have hi : i < fs.length := by
        rw [← hlen]
        exact (List.getElem?_eq_some_iff.mp hf').1
      rw [hend]
      refine ⟨by exact_mod_cast hi, le_refl _, ?_⟩
      intro j hj
      rw [properAncestors_congr_tree htree, hopen _ hmem j hj]
      constructor
      · intro hlt
        exact ⟨hlt, by exact_mod_cast hj⟩
      · intro hlt
        exact hlt.1
  · intro s hs j hj
    rw [hlen] at hj
    rw [properAncestors_congr_tree htree]
    exact hopen s (hsub s hs) j hj

theorem ChildrenContiguous_AddBox (heap : BoxHeap) (self : LayoutLineBox) (box : BoxPtr)
    (mode : InlineLayoutMode) (line_width : ℚ) (handle : LayoutOverflowHandle)
    (hopen : OpenFragmentsValid self) (hpath : OpenStackIsPath self)
    (hvalid : FragmentsValid self.fragments)
    (h : ChildrenContiguous self.fragments self.open_fragments) :
    ChildrenContiguous (self.AddBox heap box mode line_width handle).line.fragments
      (self.AddBox heap box mode line_width handle).line.open_fragments := by
  have happended : ∀ fragment : FragmentResult,
      ChildrenContiguous (self.fragments ++ [AddBox.appended_fragment heap self box fragment])
        (self.open_fragments ++ [(self.fragments.length : Int)]) := by
    intro fragment
    apply ChildrenContiguous_append self.fragments self.open_fragments _ hvalid _ _ rfl h
    · intro s hs
      obtain ⟨h0, hlt, _, hend⟩ := hopen.2 s hs
      exact ⟨h0, hlt, hend⟩
    · intro x
      exact properAncestors_appended self hopen hpath hvalid _ rfl x
  rcases AddBox_line_cases heap self box mode line_width handle with hline | ⟨_, hline⟩ |
    ⟨_, hline⟩
  · rw [hline]
    exact h
  · rw [hline]
    exact happended _
  · rw [hline]
    apply ChildrenContiguous_transfer (mark_has_content_map_tree _ _)
      (fun s hs => List.mem_append_left _ hs) _ (happended _)
    intro i f' hf' htype hne
    left
    simp only [] at hf'
    rw [foldl_modifyFragment_getElem? _ has_content_idempotent] at hf'
    cases ha : (self.fragments ++ [AddBox.appended_fragment heap self box
        ((AddBox.call heap self box mode line_width handle).invoke heap)])[i]? with
    | none => rw [ha] at hf'; simp at hf'
    | some a =>
      rw [ha] at hf'
      simp only [Option.map_some', Option.some.injEq] at hf'
      refine ⟨a, rfl, ?_, ?_⟩
      · rw [← htype, ← hf']
        split <;> rfl
      · rw [← hf']
        split <;> rfl

theorem ChildrenContiguous_CloseInlineBox (heap : BoxHeap) (self : LayoutLineBox)
    (inline_box : BoxPtr) (hopen : OpenFragmentsValid self)
    (h : ChildrenContiguous self.fragments self.open_fragments) :
    ChildrenContiguous (self.CloseInlineBox heap inline_box).1.fragments
      (self.CloseInlineBox heap inline_box).1.open_fragments := by
  rcases CloseInlineBox_cases heap self inline_box hopen with
    hline | ⟨top, f0, hlast, hf0, _, hstack, hfragments, _, _⟩
  · rw [hline]
    exact h
  · obtain ⟨hsplit, _⟩ := open_fragments_split_last self hopen top hlast
    have htoplt : top < self.fragments.length := (List.getElem?_eq_some_iff.mp hf0).1
    apply ChildrenContiguous_transfer (CloseInlineBox_map_tree heap self inline_box) _ _ h
    · intro s hs
      rw [hstack] at hs
      exact List.mem_of_mem_dropLast hs
    · intro i f' hf' htype hne
      rw [hfragments, List.getElem?_set] at hf'
      by_cases hi : top = i
      · rw [if_pos hi, if_pos htoplt] at hf'
        right
        refine ⟨?_, ?_⟩
        · rw [← hi, hsplit]
          exact List.mem_append_right _ (List.mem_singleton_self _)
        · rw [← Option.some.inj hf']
      · rw [if_neg hi] at hf'
        exact Or.inl ⟨f', hf', htype, rfl⟩

/-- The fragments of the new line of `SplitLine`: each has the fragment before it as its
parent and is not closed. -/
theorem SplitLine_new_line_links (heap : BoxHeap) (self new_line : LayoutLineBox)
    (hopen_valid : OpenFragmentsValid self)
    (hsplit : (self.SplitLine heap).2 = some new_line) :
    new_line.open_fragments =
      (List.range new_line.fragments.length).map (fun k : Nat => (k : Int)) ∧
    ∀ k : Nat, k < new_line.fragments.length →
      (getFragment new_line.fragments (k : Int)).parent_fragment = (k : Int) - 1 ∧
      (getFragment new_line.fragments (k : Int)).children_end_index = 0 := by
  by_cases hopen : self.open_fragments = []
  · rw [SplitLine_of_nil heap self hopen] at hsplit
    simp at hsplit
  · obtain ⟨nl, hnl, hlen, hstack, _, _, hclone⟩ := SplitLine_new_line heap self hopen
    rw [hsplit] at hnl
    obtain rfl := Option.some.inj hnl
    refine ⟨by rw [hstack, hlen], ?_⟩
    intro k hk
    rw [hlen] at hk
    have hget : self.open_fragments[k]? = some self.open_fragments[k] :=
      List.getElem?_eq_getElem hk
    obtain ⟨_, _, _, hend⟩ := hopen_valid.2 _ (List.getElem_mem hk)
    rw [getFragment_of_getElem? (hclone k _ hget)]
    refine ⟨?_, by simpa [SplitLine.clone] using hend⟩
    simp only [SplitLine.clone, List.length_take]
    rw [hlen, Nat.min_eq_left (le_of_lt hk)]

theorem ChildrenContiguous_SplitLine_new (heap : BoxHeap) (self new_line : LayoutLineBox)
    (hopen_valid : OpenFragmentsValid self)
    (hsplit : (self.SplitLine heap).2 = some new_line) :
    ChildrenContiguous new_line.fragments new_line.open_fragments := by
  obtain ⟨hstack, hlinks⟩ := SplitLine_new_line_links heap self new_line hopen_valid hsplit
  refine ⟨?_, ?_⟩
  · intro i f hf _ hne
    have hi : i < new_line.fragments.length := (List.getElem?_eq_some_iff.mp hf).1
    have := (hlinks i hi).2
    rw [getFragment_of_getElem? hf] at this
    exact absurd this hne
  · intro s hs j hj
    rw [hstack, mem_range_cast] at hs
    obtain ⟨k, hk, rfl⟩ := hs
    have hchain : List.Chain
        (fun a b => a < b ∧ (getFragment new_line.fragments b).parent_fragment = a) (-1)
        ((List.range j).map (fun k : Nat => (k : Int))) := by
      apply chain_range_cast
      intro m hm
      exact ⟨by omega, (hlinks m (by omega)).1⟩
    have hwalk := (parentChain_of_path new_line.fragments _ hchain).2
      new_line.fragments.length (by simp; omega)
    rw [getLastD_range_cast] at hwalk
    unfold properAncestors
    rw [(hlinks j hj).1, hwalk, List.mem_reverse, mem_range_cast]
    constructor
    · rintro ⟨m, hm, hkm⟩
      omega
    · intro hlt
      exact ⟨k, by omega, rfl⟩

theorem ChildrenContiguous_of_Reachable (heap : BoxHeap) (line : LayoutLineBox)
    (hreach : Reachable heap line) :
    ChildrenContiguous line.fragments line.open_fragments := by
  induction hreach with
  | new_line =>
    refine ⟨?_, ?_⟩
    · intro i f hf
      simp at hf
    · intro s hs
      simp at hs
  | set_line_box self line_position line_width _ ih => exact ih
  | add_box self box mode line_width handle hself ih =>
    exact ChildrenContiguous_AddBox heap self box mode line_width handle
      (OpenFragmentsValid_of_Reachable heap self hself)
      (OpenStackIsPath_of_Reachable heap self hself)
      (FragmentsValid_of_Reachable heap self hself) ih
  | close_inline_box self inline_box hself ih =>
    exact ChildrenContiguous_CloseInlineBox heap self inline_box
      (OpenFragmentsValid_of_Reachable heap self hself) ih
  | split_line self new_line hself hsplit _ =>
    exact ChildrenContiguous_SplitLine_new heap self new_line
      (OpenFragmentsValid_of_Reachable heap self hself) hsplit

/-- The line that `SplitLine` leaves behind: the open fragments with content are closed at
the end of the array. -/
theorem ChildrenContiguous_SplitLine (heap : BoxHeap) (self : LayoutLineBox)
    (h : ChildrenContiguous self.fragments self.open_fragments) :
    ChildrenContiguous (self.SplitLine heap).1.fragments [] := by
  apply ChildrenContiguous_transfer (SplitLine_map_tree heap self) _ _ h
  · intro s hs
    simp at hs
  · intro i f' hf' htype hne
    by_cases hopen : self.open_fragments = []
    · rw [SplitLine_of_nil heap self hopen] at hf'
      exact Or.inl ⟨f', hf', htype, rfl⟩
    · rw [SplitLine_of_ne_nil heap self hopen] at hf'
      simp only [] at hf'
      rw [SplitLine_closed_getElem?] at hf'
      cases ha : self.fragments[i]? with
      | none => rw [ha] at hf'; simp at hf'
      | some a =>
        rw [ha] at hf'
        simp only [Option.map_some', Option.some.injEq] at hf'
        by_cases hmem : (i : Int) ∈ self.open_fragments
        · rw [if_pos hmem] at hf'
          by_cases hcontent : a.has_content = true
          · rw [if_pos hcontent] at hf'
            right
            refine ⟨hmem, ?_⟩
            rw [← hf']
            rfl
          · rw [if_neg hcontent] at hf'
            rw [← hf']
            rw [← hf'] at htype
            exact Or.inl ⟨a, rfl, htype, rfl⟩
        · rw [if_neg hmem] at hf'
          rw [← hf']
          rw [← hf'] at htype
          exact Or.inl ⟨a, rfl, htype, rfl⟩

/-- The descendants of a closed inline box, on a reachable line and on the line that
`SplitLine` leaves behind. -/
theorem closed_fragment_children (heap : BoxHeap) (line : LayoutLineBox)
    (hreach : Reachable heap line) (fragments : List Fragment)
    (hfragments : fragments = line.fragments ∨ fragments = (line.SplitLine heap).1.fragments) :
    FragmentsValid fragments ∧
    ∀ (i : Nat) (f : Fragment), fragments[i]? = some f → f.type = FragmentType.InlineBox →
      f.children_end_index ≠ 0 →
      (i : Int) < f.children_end_index ∧ f.children_end_index ≤ (fragments.length : Int) ∧
      ∀ j : Nat, j < fragments.length →
        ((i : Int) ∈ properAncestors fragments (j : Int) ↔
          (i : Int) < (j : Int) ∧ (j : Int) < f.children_end_index) := by
  have h := ChildrenContiguous_of_Reachable heap line hreach
  rcases hfragments with hfragments | hfragments
  · rw [hfragments]
    exact ⟨FragmentsValid_of_Reachable heap line hreach, h.1⟩
  · rw [hfragments]
    exact ⟨FragmentsValid_split_of_Reachable heap line hreach,
      (ChildrenContiguous_SplitLine heap line h).1⟩

/-! ## The horizontal layout of a reachable line -/

theorem mark_has_content_getElem? (indices : List Int) (fs : List Fragment) (j : Nat)
    (f : Fragment)
    (hf : (indices.foldl
      (fun fs index => modifyFragment fs index (fun f => { f with has_content := true }))
      fs)[j]? = some f) :
    ∃ a, fs[j]? = some a ∧ (f = a ∨ f = { a with has_content := true }) := by
  rw [foldl_modifyFragment_getElem? _ has_content_idempotent] at hf
  cases ha : fs[j]? with
  | none => rw [ha] at hf; simp at hf
  | some a =>
    rw [ha] at hf
    simp only [Option.map_some', Option.some.injEq] at hf
    refine ⟨a, rfl, ?_⟩
    by_cases hmem : (j : Int) ∈ indices
    · rw [if_pos hmem] at hf
      exact Or.inr hf.symm
    · rw [if_neg hmem] at hf
      exact Or.inl hf.symm

theorem HorizontalLayoutValid_AddBox (heap : BoxHeap) (hheap : SpacingAndWidthsNonnegative heap)
    (self : LayoutLineBox) (box : BoxPtr) (mode : InlineLayoutMode) (line_width : ℚ)
    (handle : LayoutOverflowHandle) (hopen : OpenFragmentsValid self)
    (hchildren : ChildrenContiguous self.fragments self.open_fragments)
    (h : HorizontalLayoutValid heap self) :
    HorizontalLayoutValid heap (self.AddBox heap box mode line_width handle).line := by
  obtain ⟨h1, h2, h3⟩ := h
  rcases AddBox_line_cases heap self box mode line_width handle with hline | ⟨ht, hline⟩ |
    ⟨ht, hline⟩
  · rw [hline]
    exact ⟨h1, h2, h3⟩
  · rw [hline]
    have hleft := (hheap.1 box).1
    have hget : ∀ s ∈ self.open_fragments,
        getFragment (self.fragments ++ [AddBox.appended_fragment heap self box
          ((AddBox.call heap self box mode line_width handle).invoke heap)]) s
          = getFragment self.fragments s := by
      intro s hs
      obtain ⟨h0, hlt, _, _⟩ := hopen.2 s hs
      exact getFragment_append_left _ _ _ h0 hlt
    refine ⟨by simp only []; linarith, ?_, ?_⟩
    · intro s hs
      simp only [] at hs ⊢
      rw [List.mem_append, List.mem_singleton] at hs
      rcases hs with hs | hs
      · rw [hget s hs]
        obtain ⟨g1, g2⟩ := h2 s hs
        exact ⟨by linarith, g2⟩
      · rw [hs, getFragment_append_last]
        refine ⟨?_, fun hc => absurd hc (by simp [AddBox.appended_fragment,
          AddBox.new_fragment])⟩
        simp [contentLeft, AddBox.appended_fragment, AddBox.new_fragment,
          AddBox.box_placement_cursor]
        linarith
    · intro j c hc hctype
      simp only [] at hc ⊢
      rcases Nat.lt_trichotomy j self.fragments.length with hj | hj | hj
      · rw [List.getElem?_append_left hj] at hc
        obtain ⟨g1, g2, g3, g4⟩ := h3 j c hc hctype
        refine ⟨g1, g2, ?_, ?_⟩
        · intro s hs hsj
          rw [List.mem_append, List.mem_singleton] at hs
          rcases hs with hs | hs
          · rw [hget s hs]
            exact g3 s hs hsj
          · omega
        · intro i p hp hptype hpend hij hjend
          rw [List.getElem?_append_left (by omega)] at hp
          exact g4 i p hp hptype hpend hij hjend
      · rw [hj] at hc
        simp only [List.getElem?_concat_length, Option.some.injEq] at hc
        exfalso
        rw [← hc] at hctype
        have : (AddBox.appended_fragment heap self box
            ((AddBox.call heap self box mode line_width handle).invoke heap)).type
            = FragmentType.InlineBox := ht
        rw [this] at hctype
        rcases hctype with hctype | hctype <;> exact absurd hctype (by decide)
      · rw [List.getElem?_eq_none (by simp; omega)] at hc
        simp at hc
  · rw [hline]
    have hwidth : 0 ≤ ((AddBox.call heap self box mode line_width handle).invoke
        heap).layout_width := hheap.2 box _ _ _ _ _ ht
    have hget : ∀ s ∈ self.open_fragments,
        getFragment (self.open_fragments.foldl
          (fun fs index => modifyFragment fs index (fun f => { f with has_content := true }))
          (self.fragments ++ [AddBox.appended_fragment heap self box
            ((AddBox.call heap self box mode line_width handle).invoke heap)])) s
          = { getFragment self.fragments s with has_content := true } := by
      intro s hs
      obtain ⟨h0, hlt, _, _⟩ := hopen.2 s hs
      rw [getFragment_mark_has_content_of_valid _ _ _ h0
        (by simp only [List.length_append, List.length_singleton]; push_cast; omega),
        if_pos hs, getFragment_append_left _ _ _ h0 hlt]
    have hleft_eq : ∀ a : Fragment,
        contentLeft heap { a with has_content := true } = contentLeft heap a := fun _ => rfl
    refine ⟨le_refl _, ?_, ?_⟩
    · intro s hs
      simp only [] at hs ⊢
      rw [hget s hs, hleft_eq]
      obtain ⟨g1, _⟩ := h2 s hs
      unfold AddBox.box_placement_cursor
      exact ⟨by linarith, fun _ => by linarith⟩
    · intro j c hc hctype
      simp only [] at hc ⊢
      obtain ⟨a, ha, hca⟩ := mark_has_content_getElem? _ _ j c hc
      have hfields : c.type = a.type ∧ c.layout_width = a.layout_width ∧
          c.position = a.position := by
        rcases hca with hca | hca <;> rw [hca] <;> exact ⟨rfl, rfl, rfl⟩
      rw [hfields.2.1, hfields.2.2]
      rw [hfields.1] at hctype
      unfold AddBox.box_placement_cursor
      rcases Nat.lt_trichotomy j self.fragments.length with hj | hj | hj
      · rw [List.getElem?_append_left hj] at ha
        obtain ⟨g1, g2, g3, g4⟩ := h3 j a ha hctype
        refine ⟨g1, by linarith, ?_, ?_⟩
        · intro s hs hsj
          rw [hget s hs, hleft_eq]
          exact g3 s hs hsj
        · intro i p hp hptype hpend hij hjend
          obtain ⟨b, hb, hpb⟩ := mark_has_content_getElem? _ _ i p hp
          rw [List.getElem?_append_left (by omega)] at hb
          have hpfields : p.type = b.type ∧ p.layout_width = b.layout_width ∧
              p.children_end_index = b.children_end_index ∧
              contentLeft heap p = contentLeft heap b := by
            rcases hpb with hpb | hpb <;> rw [hpb] <;> exact ⟨rfl, rfl, rfl, rfl⟩
          rw [hpfields.2.2.2, hpfields.2.1]
          rw [hpfields.1] at hptype
          rw [hpfields.2.2.1] at hpend hjend
          exact g4 i b hb hptype hpend hij hjend
      · rw [hj] at ha
        simp only [List.getElem?_concat_length, Option.some.injEq] at ha
        rw [← ha]
        have hx : (AddBox.appended_fragment heap self box
            ((AddBox.call heap self box mode line_width handle).invoke heap)).position.x
            = self.box_cursor + self.open_spacing_left := rfl
        have hw : (AddBox.appended_fragment heap self box
            ((AddBox.call heap self box mode line_width handle).invoke heap)).layout_width
            = ((AddBox.call heap self box mode line_width handle).invoke heap).layout_width :=
          rfl
        rw [hx, hw]
        refine ⟨hwidth, le_refl _, ?_, ?_⟩
        · intro s hs _
          rw [hget s hs, hleft_eq]
          exact (h2 s hs).1
        · intro i p hp hptype hpend hij hjend
          exfalso
          obtain ⟨b, hb, hpb⟩ := mark_has_content_getElem? _ _ i p hp
          rw [List.getElem?_append_left (by omega)] at hb
          have hpfields : p.type = b.type ∧
              p.children_end_index = b.children_end_index := by
            rcases hpb with hpb | hpb <;> rw [hpb] <;> exact ⟨rfl, rfl⟩
          rw [hpfields.1] at hptype
          rw [hpfields.2] at hpend hjend
          have := (hchildren.1 i b hb hptype hpend).2.1
          omega
      · rw [List.getElem?_eq_none (by simp; omega)] at ha
        simp at ha

theorem HorizontalLayoutValid_CloseInlineBox (heap : BoxHeap)
    (hheap : SpacingAndWidthsNonnegative heap) (self : LayoutLineBox) (inline_box : BoxPtr)
    (hopen : OpenFragmentsValid self) (h : HorizontalLayoutValid heap self) :
    HorizontalLayoutValid heap (self.CloseInlineBox heap inline_box).1 := by
  obtain ⟨h1, h2, h3⟩ := h
  rcases CloseInlineBox_cases heap self inline_box hopen with
    hline | ⟨top, f0, hlast, hf0, hbox, hstack, hfragments, hspacing, hcursor⟩
  · rw [hline]
    exact ⟨h1, h2, h3⟩
  · obtain ⟨hsplit, hnotmem⟩ := open_fragments_split_last self hopen top hlast
    have htoplt : top < self.fragments.length := (List.getElem?_eq_some_iff.mp hf0).1
    have htopmem : (top : Int) ∈ self.open_fragments := by
      rw [hsplit]
      exact List.mem_append_right _ (List.mem_singleton_self _)
    have hright := (hheap.1 inline_box).2
    have hget : ∀ s ∈ self.open_fragments.dropLast,
        getFragment (self.CloseInlineBox heap inline_box).1.fragments s
          = getFragment self.fragments s := by
      intro s hs
      have hne : s ≠ (top : Int) := fun heq => hnotmem (by rw [← heq]; exact hs)
      rw [hfragments, getFragment_set_ne _ _ _ _ hne]
    have htype0 : f0.type = FragmentType.InlineBox := by
      have := (hopen.2 _ htopmem).2.2.1
      rw [getFragment_of_getElem? hf0] at this
      exact this
    refine ⟨by rw [hspacing], ?_, ?_⟩
    · intro s hs
      rw [hstack] at hs
      rw [hget s hs, hcursor, hspacing]
      obtain ⟨g1, g2⟩ := h2 s (List.mem_of_mem_dropLast hs)
      exact ⟨by linarith, fun hc => by linarith [g2 hc]⟩
    · intro j c hc hctype
      rw [hfragments, List.getElem?_set] at hc
      have hjne : ¬ top = j := by
        intro hj
        rw [if_pos hj, if_pos htoplt] at hc
        rw [← Option.some.inj hc] at hctype
        simp only [] at hctype
        rw [htype0] at hctype
        rcases hctype with hctype | hctype <;> exact absurd hctype (by decide)
      rw [if_neg hjne] at hc
      obtain ⟨g1, g2, g3, g4⟩ := h3 j c hc hctype
      rw [hcursor]
      refine ⟨g1, by linarith, ?_, ?_⟩
      · intro s hs hsj
        rw [hstack] at hs
        rw [hget s hs]
        exact g3 s (List.mem_of_mem_dropLast hs) hsj
      · intro i p hp hptype hpend hij hjend
        rw [hfragments, List.getElem?_set] at hp
        by_cases hi : top = i
        · rw [if_pos hi, if_pos htoplt] at hp
          have hleft0 := g3 (top : Int) htopmem (by omega)
          rw [getFragment_of_getElem? hf0] at hleft0
          rw [← Option.some.inj hp]
          have hsame : contentLeft heap
              { f0 with
                children_end_index := (self.fragments.length : Int)
                layout_width := max (self.box_cursor + self.open_spacing_left - f0.position.x -
                  (if f0.split_left then 0 else (heap inline_box).GetSpacingLeft)) 0 }
              = contentLeft heap f0 := rfl
          rw [hsame]
          refine ⟨hleft0, ?_⟩
          simp only []
          have hmax := le_max_left (self.box_cursor + self.open_spacing_left - f0.position.x -
            (if f0.split_left then 0 else (heap inline_box).GetSpacingLeft)) 0
          have hcl : contentLeft heap f0 = f0.position.x +
              (if f0.split_left then 0 else (heap inline_box).GetSpacingLeft) := by
            unfold contentLeft
            rw [hbox]
          rw [hcl]
          linarith
        · rw [if_neg hi] at hp
          exact g4 i p hp hptype hpend hij hjend

theorem sum_nonneg_of_forall (l : List ℚ) (h : ∀ x ∈ l, 0 ≤ x) : 0 ≤ l.sum := by
  induction l with
  | nil => simp
  | cons a rest ih =>
    rw [List.sum_cons]
    have := h a (List.mem_cons_self _ _)
    have := ih (fun x hx => h x (List.mem_cons_of_mem _ hx))
    linarith

theorem le_sum_of_mem (l : List ℚ) (h : ∀ x ∈ l, 0 ≤ x) (a : ℚ) (ha : a ∈ l) : a ≤ l.sum := by
  induction l with
  | nil => simp at ha
  | cons b rest ih =>
    rw [List.sum_cons]
    have hb := h b (List.mem_cons_self _ _)
    have hrest := sum_nonneg_of_forall rest (fun x hx => h x (List.mem_cons_of_mem _ hx))
    rcases List.mem_cons.mp ha with ha | ha
    · rw [ha]
      linarith
    · have := ih (fun x hx => h x (List.mem_cons_of_mem _ hx)) ha
      linarith

theorem HorizontalLayoutValid_SplitLine_new (heap : BoxHeap)
    (hheap : SpacingAndWidthsNonnegative heap) (self new_line : LayoutLineBox)
    (hopen_valid : OpenFragmentsValid self)
    (hsplit : (self.SplitLine heap).2 = some new_line) :
    HorizontalLayoutValid heap new_line := by
  by_cases hopen : self.open_fragments = []
  · rw [SplitLine_of_nil heap self hopen] at hsplit
    simp at hsplit
  · obtain ⟨nl, hnl, hlen, hstack, hcursor, hspacing, hclone⟩ :=
      SplitLine_new_line heap self hopen
    rw [hsplit] at hnl
    obtain rfl := Option.some.inj hnl
    have hterms : ∀ x ∈ self.open_fragments.map (fun i =>
        if (getFragment self.fragments i).has_content then 0
        else (heap (getFragment self.fragments i).box).GetSpacingLeft), (0 : ℚ) ≤ x := by
      intro x hx
      rw [List.mem_map] at hx
      obtain ⟨i, _, rfl⟩ := hx
      split
      · exact le_refl _
      · exact (hheap.1 _).1
    have hsum := sum_nonneg_of_forall _ hterms
    refine ⟨by rw [hspacing]; exact hsum, ?_, ?_⟩
    · intro s hs
      rw [hstack, mem_range_cast] at hs
      obtain ⟨k, hk, rfl⟩ := hs
      have hget : self.open_fragments[k]? = some self.open_fragments[k] :=
        List.getElem?_eq_getElem hk
      rw [getFragment_of_getElem? (hclone k _ hget), hcursor, hspacing]
      refine ⟨?_, fun hc => absurd hc (by simp [SplitLine.clone])⟩
      unfold contentLeft
      simp only [SplitLine.clone, zero_add]
      by_cases hc : (getFragment self.fragments self.open_fragments[k]).has_content = true
      · simp only [hc, Bool.true_or, if_true]
        exact hsum
      · by_cases hl : (getFragment self.fragments self.open_fragments[k]).split_left = true
        · simp only [hl, Bool.or_true, if_true]
          exact hsum
        · have hc' : (getFragment self.fragments self.open_fragments[k]).has_content = false := by
            simpa using hc
          have hl' : (getFragment self.fragments self.open_fragments[k]).split_left = false := by
            simpa using hl
          simp only [hc', hl', Bool.or_false, Bool.false_eq_true, if_false]
          apply le_sum_of_mem _ hterms
          rw [List.mem_map]
          refine ⟨self.open_fragments[k], List.getElem_mem hk, ?_⟩
          simp [hc']
    · intro j c hc hctype
      exfalso
      have hj : j < self.open_fragments.length := by
        rw [← hlen]
        exact (List.getElem?_eq_some_iff.mp hc).1
      have hget : self.open_fragments[j]? = some self.open_fragments[j] :=
        List.getElem?_eq_getElem hj
      have := hclone j _ hget
      rw [hc] at this
      obtain ⟨_, _, htype, _⟩ := hopen_valid.2 _ (List.getElem_mem hj)
      have hctype' : c.type = FragmentType.InlineBox := by
        rw [Option.some.inj this]
        simpa [SplitLine.clone] using htype
      rw [hctype'] at hctype
      rcases hctype with hctype | hctype <;> exact absurd hctype (by decide)

theorem HorizontalLayoutValid_of_Reachable (heap : BoxHeap)
    (hheap : SpacingAndWidthsNonnegative heap) (line : LayoutLineBox)
    (hreach : Reachable heap line) : HorizontalLayoutValid heap line := by
  induction hreach with
  | new_line =>
    refine ⟨le_refl _, ?_, ?_⟩
    · intro s hs
      simp at hs
    · intro j c hc
      simp at hc
  | set_line_box self line_position line_width _ ih => exact ih
  | add_box self box mode line_width handle hself ih =>
    exact HorizontalLayoutValid_AddBox heap hheap self box mode line_width handle
      (OpenFragmentsValid_of_Reachable heap self hself)
      (ChildrenContiguous_of_Reachable heap self hself) ih
  | close_inline_box self inline_box hself ih =>
    exact HorizontalLayoutValid_CloseInlineBox heap hheap self inline_box
      (OpenFragmentsValid_of_Reachable heap self hself) ih
  | split_line self new_line hself hsplit _ =>
    exact HorizontalLayoutValid_SplitLine_new heap hheap self new_line
      (OpenFragmentsValid_of_Reachable heap self hself) hsplit

/-- On a reachable line and on the line that `SplitLine` leaves behind, every fixed-size
fragment in the children range of a closed inline box lies in the content range of the
box. -/
theorem fixed_size_in_children_range (heap : BoxHeap) (hheap : SpacingAndWidthsNonnegative heap)
    (line : LayoutLineBox) (hreach : Reachable heap line) (fragments : List Fragment)
    (hfragments : fragments = line.fragments ∨ fragments = (line.SplitLine heap).1.fragments)
    (i j : Nat) (p c : Fragment) (hp : fragments[i]? = some p)
    (hptype : p.type = FragmentType.InlineBox) (hpend : p.children_end_index ≠ 0)
    (hc : fragments[j]? = some c)
    (hctype : c.type = FragmentType.SizedBox ∨ c.type = FragmentType.TextRun)
    (hij : i < j) (hjend : (j : Int) < p.children_end_index) :
    contentLeft heap p ≤ c.position.x ∧
    c.position.x + c.layout_width ≤ contentLeft heap p + p.layout_width := by
  obtain ⟨_, h2, h3⟩ := HorizontalLayoutValid_of_Reachable heap hheap line hreach
  have hopen_valid := OpenFragmentsValid_of_Reachable heap line hreach
  rcases hfragments with hfragments | hfragments
  · rw [hfragments] at hp hc
    exact (h3 j c hc hctype).2.2.2 i p hp hptype hpend hij hjend
  · by_cases hopen : line.open_fragments = []
    · rw [hfragments, SplitLine_of_nil heap line hopen] at hp hc
      exact (h3 j c hc hctype).2.2.2 i p hp hptype hpend hij hjend
    · rw [hfragments, SplitLine_of_ne_nil heap line hopen] at hp hc
      simp only [] at hp hc
      rw [SplitLine_closed_getElem?] at hp hc
      cases ha : line.fragments[j]? with
      | none => rw [ha] at hc; simp at hc
      | some a =>
        cases hb : line.fragments[i]? with
        | none => rw [hb] at hp; simp at hp
        | some b =>
          rw [ha] at hc
          rw [hb] at hp
          simp only [Option.map_some', Option.some.injEq] at hc hp
          have hca : c = a := by
            by_cases hmem : (j : Int) ∈ line.open_fragments
            · exfalso
              have hatype := (hopen_valid.2 _ hmem).2.2.1
              rw [getFragment_of_getElem? ha] at hatype
              have hctype' : c.type = FragmentType.InlineBox := by
                rw [← hc, if_pos hmem]
                split
                · exact hatype
                · exact hatype
              rw [hctype'] at hctype
              rcases hctype with hctype | hctype <;> exact absurd hctype (by decide)
            · rw [← hc, if_neg hmem]
          rw [hca]
          rw [hca] at hctype
          obtain ⟨_, g2, g3, g4⟩ := h3 j a ha hctype
          by_cases hclosed : (i : Int) ∈ line.open_fragments ∧ b.has_content = true
          · rw [if_pos hclosed.1, if_pos hclosed.2] at hp
            rw [← hp]
            have hleft := g3 (i : Int) hclosed.1 (by omega)
            rw [getFragment_of_getElem? hb] at hleft
            have hsame : contentLeft heap
                (SplitLine.closed_fragment heap line.box_cursor line.fragments.length b)
                = contentLeft heap b := rfl
            rw [hsame]
            refine ⟨hleft, ?_⟩
            have hmax := le_max_left (line.box_cursor - b.position.x -
              (if b.split_left then 0 else (heap b.box).GetSpacingLeft)) 0
            have hw : (SplitLine.closed_fragment heap line.box_cursor line.fragments.length
                b).layout_width = max (line.box_cursor - b.position.x -
              (if b.split_left then 0 else (heap b.box).GetSpacingLeft)) 0 := rfl
            rw [hw]
            unfold contentLeft
            linarith
          · have hpb : p = b := by
              rw [← hp]
              by_cases hmem : (i : Int) ∈ line.open_fragments
              · rw [if_pos hmem]
                have : ¬ b.has_content = true := fun hcontent => hclosed ⟨hmem, hcontent⟩
                rw [if_neg this]
              · rw [if_neg hmem]
            rw [hpb] at hptype hpend hjend ⊢
            exact g4 i b hb hptype hpend hij hjend

theorem Example.spaced_heap_nonnegative : SpacingAndWidthsNonnegative Example.spaced_heap := by
  refine ⟨?_, ?_⟩
  · intro box
    unfold Example.spaced_heap
    split_ifs
    · exact ⟨le_refl _, le_refl _⟩
    · exact ⟨by norm_num [Example.inline_box], by norm_num [Example.inline_box]⟩
  · intro box mode available_width right_spacing_width first_box in_overflow_handle
    unfold Example.spaced_heap
    split_ifs
    · intro _
      unfold Example.sized_box
      simp only []
      split
      · exact le_refl _
      · norm_num
    · intro h
      rcases h with h | h <;> exact absurd h (by simp [Example.inline_box])

/-- With sums and differences that are not rounded: for every reachable line with boxes whose left and right spacing are not negative
and whose fixed-size fragments have a width that is not negative: `AddBox` and
`CloseInlineBox` never decrease `box_cursor`; on the line, and on the line that `SplitLine`
leaves behind, every fixed-size fragment `c` lies inside the content range of every closed
inline-box fragment `p` that is its ancestor: `p.position.x + s ≤ c.position.x` and
`c.position.x + c.layout_width ≤ p.position.x + s + p.layout_width`, where `s` is 0 if
`p.split_left` and the left spacing of the box of `p` otherwise; and the clamp at 0 in
`CloseFragment` is not active: for every open fragment the width that `CloseInlineBox` would
take, from the right edge `box_cursor + open_spacing_left`, is not negative, and for every
open fragment with content so is the width that `SplitLine` takes, from the right edge
`box_cursor`. -/
theorem inside_closed_ancestors_of_Reachable (heap : BoxHeap)
    (hheap : SpacingAndWidthsNonnegative heap) (line : LayoutLineBox)
    (hreach : Reachable heap line) :
    (∀ (box : BoxPtr) (mode : InlineLayoutMode) (line_width : ℚ)
        (handle : LayoutOverflowHandle),
      line.box_cursor ≤ (line.AddBox heap box mode line_width handle).line.box_cursor) ∧
    (∀ inline_box : BoxPtr,
      line.box_cursor ≤ (line.CloseInlineBox heap inline_box).1.box_cursor) ∧
    (∀ fragments : List Fragment,
      fragments = line.fragments ∨ fragments = (line.SplitLine heap).1.fragments →
      ∀ (i j fuel : Nat) (p c : Fragment), fragments[i]? = some p →
        p.type = FragmentType.InlineBox → p.children_end_index ≠ 0 →
        fragments[j]? = some c →
        (c.type = FragmentType.SizedBox ∨ c.type = FragmentType.TextRun) →
        fragments.length ≤ fuel → (i : Int) ∈ parentChain fragments fuel c.parent_fragment →
        p.position.x + (if p.split_left then 0 else (heap p.box).GetSpacingLeft)
          ≤ c.position.x ∧
        c.position.x + c.layout_width ≤
          p.position.x + (if p.split_left then 0 else (heap p.box).GetSpacingLeft) +
            p.layout_width) ∧
    (∀ index ∈ line.open_fragments,
      0 ≤ line.box_cursor + line.open_spacing_left -
          (getFragment line.fragments index).position.x -
          (if (getFragment line.fragments index).split_left then 0
           else (heap (getFragment line.fragments index).box).GetSpacingLeft) ∧
      ((getFragment line.fragments index).has_content = true →
        0 ≤ line.box_cursor - (getFragment line.fragments index).position.x -
          (if (getFragment line.fragments index).split_left then 0
           else (heap (getFragment line.fragments index).box).GetSpacingLeft))) := by
  have hopen := OpenFragmentsValid_of_Reachable heap line hreach
  obtain ⟨h1, h2, h3⟩ := HorizontalLayoutValid_of_Reachable heap hheap line hreach
  refine ⟨?_, ?_, ?_, ?_⟩
  · intro box mode line_width handle
    rcases AddBox_line_cases heap line box mode line_width handle with hline | ⟨_, hline⟩ |
      ⟨ht, hline⟩
    · rw [hline]
    · rw [hline]
    · rw [hline]
      have hwidth : 0 ≤ ((AddBox.call heap line box mode line_width handle).invoke
          heap).layout_width := hheap.2 box _ _ _ _ _ ht
      simp only [AddBox.box_placement_cursor]
      linarith
  · intro inline_box
    rcases CloseInlineBox_cases heap line inline_box hopen with
      hline | ⟨_, _, _, _, _, _, _, _, hcursor⟩
    · rw [hline]
    · rw [hcursor]
      have := (hheap.1 inline_box).2
      linarith
  · intro fragments hfragments i j fuel p c hp hptype hpend hc hctype hfuel hancestor
    obtain ⟨hvalid, hchildren⟩ := closed_fragment_children heap line hreach fragments hfragments
    have hj : j < fragments.length := (List.getElem?_eq_some_iff.mp hc).1
    obtain ⟨_, _, hiff⟩ := hchildren i p hp hptype hpend
    have hrange : (i : Int) < (j : Int) ∧ (j : Int) < p.children_end_index := by
      rw [← hiff j hj]
      unfold properAncestors
      rw [getFragment_of_getElem? hc]
      obtain ⟨_, hlt, _⟩ := hvalid j c hc
      by_cases hneg : c.parent_fragment < 0
      · rw [parentChain_neg _ _ _ hneg] at hancestor
        simp at hancestor
      · obtain ⟨q, hq⟩ := Int.eq_ofNat_of_zero_le (not_lt.mp hneg)
        rw [hq] at hlt hancestor ⊢
        have hqj : q < j := by exact_mod_cast hlt
        rw [parentChain_fuel fragments hvalid q (by omega) fragments.length fuel (by omega)
          (by omega)]
        exact hancestor
    have := fixed_size_in_children_range heap hheap line hreach fragments hfragments i j p c hp
      hptype hpend hc hctype (by omega) hrange.2
    unfold contentLeft at this
    exact this
  · intro index hindex
    obtain ⟨g1, g2⟩ := h2 index hindex
    unfold contentLeft at g1 g2
    exact ⟨by linarith, fun hcontent => by linarith [g2 hcontent]⟩

/-! ## `AddBox` and `CloseInlineBox` in binary32 arithmetic, case by case -/

theorem AddBox_of_no_width_available_binary32 (heap : BoxHeap) (self : LayoutLineBox)
    (box : BoxPtr) (mode : InlineLayoutMode) (line_width : ℚ) (handle : LayoutOverflowHandle)
    (h : Binary32.AddBox.no_width_available self mode line_width = true) :
    Binary32.LayoutLineBox.AddBox heap self box mode line_width handle =
      { continue_on_new_line := true, line := self, inout_overflow_handle := handle,
        calls := [] } := by
  simp [Binary32.LayoutLineBox.AddBox, h]

theorem AddBox_of_invalid_binary32 (heap : BoxHeap) (self : LayoutLineBox) (box : BoxPtr)
    (mode : InlineLayoutMode) (line_width : ℚ) (handle : LayoutOverflowHandle)
    (h : Binary32.AddBox.no_width_available self mode line_width = false)
    (hr : ((Binary32.AddBox.call heap self box mode line_width handle).invoke heap).type =
      FragmentType.Invalid) :
    Binary32.LayoutLineBox.AddBox heap self box mode line_width handle =
      { continue_on_new_line := true, line := self, inout_overflow_handle := 0,
        calls := [Binary32.AddBox.call heap self box mode line_width handle] } := by
  simp [Binary32.LayoutLineBox.AddBox, h, hr]

theorem AddBox_of_inline_box_binary32 (heap : BoxHeap) (self : LayoutLineBox) (box : BoxPtr)
    (mode : InlineLayoutMode) (line_width : ℚ) (handle : LayoutOverflowHandle)
    (h : Binary32.AddBox.no_width_available self mode line_width = false)
    (hr : ((Binary32.AddBox.call heap self box mode line_width handle).invoke heap).type =
      FragmentType.InlineBox) :
    Binary32.LayoutLineBox.AddBox heap self box mode line_width handle =
      { continue_on_new_line := false
        line := { self with
          fragments := self.fragments ++ [Binary32.AddBox.appended_fragment heap self box
            ((Binary32.AddBox.call heap self box mode line_width handle).invoke heap)]
          open_fragments := self.open_fragments ++ [(self.fragments.length : Int)]
          open_spacing_left :=
            Binary32.round (self.open_spacing_left + (heap box).GetSpacingLeft) }
        inout_overflow_handle := 0
        calls := [Binary32.AddBox.call heap self box mode line_width handle] } := by
  simp [Binary32.LayoutLineBox.AddBox, h, hr, modifyFragment_append_last,
    Binary32.AddBox.appended_fragment]

theorem AddBox_of_fixed_size_binary32 (heap : BoxHeap) (self : LayoutLineBox) (box : BoxPtr)
    (mode : InlineLayoutMode) (line_width : ℚ) (handle : LayoutOverflowHandle)
    (h : Binary32.AddBox.no_width_available self mode line_width = false)
    (hr : ((Binary32.AddBox.call heap self box mode line_width handle).invoke heap).type =
        FragmentType.SizedBox ∨
      ((Binary32.AddBox.call heap self box mode line_width handle).invoke heap).type =
        FragmentType.TextRun) :
    Binary32.LayoutLineBox.AddBox heap self box mode line_width handle =
      { continue_on_new_line :=
          decide (((Binary32.AddBox.call heap self box mode line_width handle).invoke
            heap).overflow_handle ≠ 0)
        line := { self with
          fragments := self.open_fragments.foldl
            (fun fs index => modifyFragment fs index (fun f => { f with has_content := true }))
            (self.fragments ++ [Binary32.AddBox.appended_fragment heap self box
              ((Binary32.AddBox.call heap self box mode line_width handle).invoke heap)])
          box_cursor := Binary32.round (Binary32.AddBox.box_placement_cursor self +
            ((Binary32.AddBox.call heap self box mode line_width handle).invoke heap).layout_width)
          open_spacing_left := 0 }
        inout_overflow_handle :=
          ((Binary32.AddBox.call heap self box mode line_width handle).invoke heap).overflow_handle
        calls := [Binary32.AddBox.call heap self box mode line_width handle] } := by
  rcases hr with hr | hr <;>
    simp [Binary32.LayoutLineBox.AddBox, h, hr, modifyFragment_append_last,
      Binary32.AddBox.appended_fragment] <;>
    exact fun h0 => h0.symm

theorem no_width_available_iff_binary32 (self : LayoutLineBox) (mode : InlineLayoutMode)
    (line_width : ℚ) :
    Binary32.AddBox.no_width_available self mode line_width = true ↔
      (mode = InlineLayoutMode.WrapAny ∧ Binary32.AddBox.rounded_up_width self line_width < 0) := by
  cases mode <;> simp [Binary32.AddBox.no_width_available]

/-- The rounded available width is not negative when the line is at least as wide as the
place of the next box. -/
theorem Binary32.rounded_up_width_nonneg (self : LayoutLineBox) (line_width : ℚ)
    (h : Binary32.AddBox.box_placement_cursor self ≤ line_width) :
    0 ≤ Binary32.AddBox.rounded_up_width self line_width := by
  unfold Binary32.AddBox.rounded_up_width
  exact le_trans (Binary32.round_nonneg (sub_nonneg.mpr h)) (le_RoundUpFloat _)

theorem no_width_available_eq_false_binary32 (self : LayoutLineBox) (mode : InlineLayoutMode)
    (line_width : ℚ) (h : Binary32.AddBox.box_placement_cursor self ≤ line_width) :
    Binary32.AddBox.no_width_available self mode line_width = false := by
  have h1 := Binary32.rounded_up_width_nonneg self line_width h
  have h2 : ¬ Binary32.AddBox.no_width_available self mode line_width = true := by
    rw [no_width_available_iff_binary32]
    rintro ⟨_, hneg⟩
    linarith
  simpa using h2

/-- A single-precision width that fits in the exact remaining width is offered at least its
own width. -/
theorem Binary32.le_available_width (self : LayoutLineBox) (mode : InlineLayoutMode)
    (line_width width : ℚ) (hmode : mode ≠ InlineLayoutMode.Nowrap)
    (hvalue : Binary32.IsValue width) (h0 : 0 ≤ width)
    (h : Binary32.AddBox.box_placement_cursor self + width ≤ line_width) :
    width ≤ Binary32.AddBox.available_width self mode line_width := by
  have h1 : width ≤ Binary32.AddBox.rounded_up_width self line_width := by
    unfold Binary32.AddBox.rounded_up_width
    exact le_trans (Binary32.le_round_of_le hvalue (by linarith)) (le_RoundUpFloat _)
  unfold Binary32.AddBox.available_width
  rw [if_pos hmode]
  split_ifs with hneg
  · linarith
  · exact h1

theorem CloseInlineBox_of_top_binary32 (heap : BoxHeap) (self : LayoutLineBox)
    (inline_box : BoxPtr) (top : Nat) (f : Fragment)
    (htop : self.open_fragments.getLast? = some (top : Int))
    (hf : self.fragments[top]? = some f) (hbox : f.box = inline_box) :
    (Binary32.LayoutLineBox.CloseInlineBox heap self inline_box).2 = none ∧
    (Binary32.LayoutLineBox.CloseInlineBox heap self inline_box).1.open_fragments
      = self.open_fragments.dropLast ∧
    (Binary32.LayoutLineBox.CloseInlineBox heap self inline_box).1.fragments
      = self.fragments.set top
      { f with
        children_end_index := (self.fragments.length : Int)
        layout_width := max
          (Binary32.round (Binary32.round
            (Binary32.round (self.box_cursor + self.open_spacing_left) - f.position.x) -
            (if f.split_left then 0 else (heap inline_box).GetSpacingLeft))) 0 } ∧
    (Binary32.LayoutLineBox.CloseInlineBox heap self inline_box).1.open_spacing_left = 0 ∧
    (Binary32.LayoutLineBox.CloseInlineBox heap self inline_box).1.box_cursor =
      Binary32.round (Binary32.round (self.box_cursor + self.open_spacing_left) +
        (heap inline_box).GetSpacingRight) := by
  have hlast : self.open_fragments.getLastD RootFragmentIndex = (top : Int) := by
    rw [List.getLastD_eq_getLast?, htop]
    rfl
  have hne : self.open_fragments.isEmpty = false := by
    cases hopen : self.open_fragments with
    | nil => rw [hopen] at htop; simp at htop
    | cons a l => rfl
  have hget : getFragment self.fragments (top : Int) = f := getFragment_of_getElem? hf
  have hclose : Binary32.CloseFragment heap self.fragments (top : Int)
      (Binary32.round (self.box_cursor + self.open_spacing_left)) = self.fragments.set top
      { f with
        children_end_index := (self.fragments.length : Int)
        layout_width := max
          (Binary32.round (Binary32.round
            (Binary32.round (self.box_cursor + self.open_spacing_left) - f.position.x) -
            (if f.split_left then 0 else (heap inline_box).GetSpacingLeft))) 0 } := by
    unfold Binary32.CloseFragment
    rw [modifyFragment_eq_set hf, hbox]
  have hlt : top < self.fragments.length := by
    rcases List.getElem?_eq_some_iff.mp hf with ⟨hlt, _⟩
    exact hlt
  have hcond : ¬ (self.open_fragments.isEmpty = true ∨
      (getFragment self.fragments (self.open_fragments.getLastD RootFragmentIndex)).box
        ≠ inline_box) := by
    rw [hlast, hget, hne]
    simp [hbox]
  unfold Binary32.LayoutLineBox.CloseInlineBox
  rw [if_neg hcond]
  simp only [hlast, hclose]
  simp [getFragment_natCast, List.getElem?_set, hlt, hbox]

/-- The run of `AddBox` in binary32 arithmetic over boxes that fit, from any line without an
open inline box, when no partial sum of the widths is rounded. -/
theorem AddBoxes_of_fit_binary32 (heap : BoxHeap) (line_width : ℚ) (width : BoxPtr → ℚ)
    (boxes : List BoxPtr) :
    ∀ self : LayoutLineBox, self.open_fragments = [] → self.open_spacing_left = 0 →
    (∀ box ∈ boxes, 0 ≤ width box) →
    (∀ box ∈ boxes, Binary32.IsValue (width box)) →
    (∀ i : Nat, i ≤ boxes.length →
      Binary32.IsValue (self.box_cursor + ((boxes.take i).map width).sum)) →
    self.box_cursor + (boxes.map width).sum ≤ line_width →
    (∀ box ∈ boxes, ∀ (available_width : ℚ) (first_box : Bool) (handle : LayoutOverflowHandle),
      width box ≤ available_width →
      (((heap box).CreateFragment InlineLayoutMode.WrapAny available_width 0 first_box
          handle).type = FragmentType.TextRun ∨
        ((heap box).CreateFragment InlineLayoutMode.WrapAny available_width 0 first_box
          handle).type = FragmentType.SizedBox) ∧
      ((heap box).CreateFragment InlineLayoutMode.WrapAny available_width 0 first_box
        handle).layout_width = width box ∧
      ((heap box).CreateFragment InlineLayoutMode.WrapAny available_width 0 first_box
        handle).overflow_handle = 0) →
    (Binary32.AddBoxes heap InlineLayoutMode.WrapAny line_width self boxes).2
      = List.replicate boxes.length false ∧
    (Binary32.AddBoxes heap InlineLayoutMode.WrapAny line_width self boxes).1.fragments.length
      = self.fragments.length + boxes.length ∧
    (Binary32.AddBoxes heap InlineLayoutMode.WrapAny line_width self boxes).1.box_cursor
      = self.box_cursor + (boxes.map width).sum ∧
    (∀ j : Nat, j < self.fragments.length →
      (Binary32.AddBoxes heap InlineLayoutMode.WrapAny line_width self boxes).1.fragments[j]?
        = self.fragments[j]?) ∧
    (∀ i : Nat, i < boxes.length →
      (getFragment
        (Binary32.AddBoxes heap InlineLayoutMode.WrapAny line_width self boxes).1.fragments
        ((self.fragments.length + i : Nat) : Int)).position.x
        = self.box_cursor + ((boxes.take i).map width).sum) := by
  induction boxes with
  | nil =>
    intro self _ _ _ _ _ _ _
    refine ⟨rfl, rfl, ?_, fun j _ => rfl, ?_⟩
    · simp [Binary32.AddBoxes]
    · intro i hi
      simp at hi
  | cons box rest ih =>
    intro self hopen hspacing hnonneg hvalue hexact hsum hfit
    have hrest_nonneg : 0 ≤ (rest.map width).sum :=
      List.sum_nonneg (by
        intro x hx
        rcases List.mem_map.mp hx with ⟨b, hb, rfl⟩
        exact hnonneg b (List.mem_cons_of_mem _ hb))
    have hsum' : self.box_cursor + (width box + (rest.map width).sum) ≤ line_width := by
      simpa using hsum
    have hbox_nonneg : 0 ≤ width box := hnonneg box (List.mem_cons_self _ _)
    have hcursor : Binary32.IsValue self.box_cursor := by
      have := hexact 0 (Nat.zero_le _)
      simpa using this
    have hplace : Binary32.AddBox.box_placement_cursor self = self.box_cursor := by
      unfold Binary32.AddBox.box_placement_cursor
      rw [hspacing, add_zero]
      exact hcursor
    have hnext : Binary32.round (self.box_cursor + width box) = self.box_cursor + width box := by
      have := hexact 1 (by simp)
      simpa using this
    have hno : Binary32.AddBox.no_width_available self InlineLayoutMode.WrapAny line_width
        = false := by
      apply no_width_available_eq_false_binary32
      rw [hplace]
      linarith
    have havailable : width box ≤ Binary32.AddBox.available_width self InlineLayoutMode.WrapAny
        line_width := by
      apply Binary32.le_available_width _ _ _ _ (by decide)
        (hvalue box (List.mem_cons_self _ _)) hbox_nonneg
      rw [hplace]
      linarith
    have hright : Binary32.AddBox.open_spacing_right heap self = 0 := by
      simp [Binary32.AddBox.open_spacing_right, hopen]
    obtain ⟨htype, hwidth, hhandle⟩ := hfit box (List.mem_cons_self _ _)
      (Binary32.AddBox.available_width self InlineLayoutMode.WrapAny line_width)
      (!self.HasContent) 0 havailable
    have hinvoke : (Binary32.AddBox.call heap self box InlineLayoutMode.WrapAny line_width
        0).invoke heap
        = (heap box).CreateFragment InlineLayoutMode.WrapAny
          (Binary32.AddBox.available_width self InlineLayoutMode.WrapAny line_width) 0
          (!self.HasContent) 0 := by
      simp [CreateFragmentCall.invoke, Binary32.AddBox.call, hright]
    rw [← hinvoke] at htype hwidth hhandle
    have hadd := AddBox_of_fixed_size_binary32 heap self box InlineLayoutMode.WrapAny line_width 0
      hno htype.symm
    rw [hwidth, hhandle, hopen, mark_has_content_nil, hplace, hnext] at hadd
    generalize hfrag : Binary32.AddBox.appended_fragment heap self box
      ((Binary32.AddBox.call heap self box InlineLayoutMode.WrapAny line_width 0).invoke heap)
      = fragment at hadd
    have hx : fragment.position.x = self.box_cursor := by
      rw [← hfrag]
      exact hplace
    have hunfold : Binary32.AddBoxes heap InlineLayoutMode.WrapAny line_width self (box :: rest) =
        ((Binary32.AddBoxes heap InlineLayoutMode.WrapAny line_width
            (Binary32.LayoutLineBox.AddBox heap self box InlineLayoutMode.WrapAny line_width
              0).line rest).1,
          (Binary32.LayoutLineBox.AddBox heap self box InlineLayoutMode.WrapAny line_width
            0).continue_on_new_line ::
          (Binary32.AddBoxes heap InlineLayoutMode.WrapAny line_width
            (Binary32.LayoutLineBox.AddBox heap self box InlineLayoutMode.WrapAny line_width
              0).line rest).2) := rfl
    rw [hunfold, hadd]
    simp only []
    obtain ⟨h1, h2, h3, h4, h5⟩ := ih
      { self with
        fragments := self.fragments ++ [fragment]
        open_fragments := []
        box_cursor := self.box_cursor + width box
        open_spacing_left := 0 }
      rfl rfl (fun b hb => hnonneg b (List.mem_cons_of_mem _ hb))
      (fun b hb => hvalue b (List.mem_cons_of_mem _ hb))
      (by
        intro i hi
        have := hexact (i + 1) (by simpa using hi)
        simpa [add_assoc] using this)
      (by simp only []; linarith)
      (fun b hb => hfit b (List.mem_cons_of_mem _ hb))
    simp only [List.length_append, List.length_singleton] at h1 h2 h3 h4 h5
    refine ⟨?_, ?_, ?_, ?_, ?_⟩
    · rw [h1]
      simp [List.replicate_succ]
    · rw [h2]
      simp only [List.length_cons]
      omega
    · rw [h3]
      simp only [List.map_cons, List.sum_cons]
      ring
    · intro j hj
      rw [h4 j (by omega), List.getElem?_append_left hj]
    · intro i hi
      cases i with
      | zero =>
        rw [getFragment_natCast, Nat.add_zero, h4 _ (by omega)]
        simp [hx]
      | succ i =>
        have := h5 i (by simpa using hi)
        have hidx : self.fragments.length + (i + 1) = self.fragments.length + 1 + i := by omega
        rw [hidx, this]
        simp only [List.take_succ_cons, List.map_cons, List.sum_cons]
        ring

/-! ## What `SplitLine` and the vertical pass of `Close` leave alone in binary32 arithmetic -/

theorem SplitLine_of_nil_binary32 (heap : BoxHeap) (self : LayoutLineBox)
    (h : self.open_fragments = []) :
    Binary32.LayoutLineBox.SplitLine heap self = (self, none) := by
  simp [Binary32.LayoutLineBox.SplitLine, h]

theorem SplitLine_of_ne_nil_binary32 (heap : BoxHeap) (self : LayoutLineBox)
    (h : self.open_fragments ≠ []) :
    Binary32.LayoutLineBox.SplitLine heap self =
      ({ self with
          fragments := self.open_fragments.reverse.foldl
            (Binary32.SplitLine.closeOpenFragment heap self.box_cursor) self.fragments
          open_fragments := [] },
       some { self.open_fragments.foldl
            (Binary32.SplitLine.copyOpenFragment heap self.fragments) {} with
          open_fragments :=
            (List.range self.open_fragments.length).map (fun i : Nat => (i : Int)) }) := by
  have : self.open_fragments.isEmpty = false := by
    cases hopen : self.open_fragments with
    | nil => exact absurd hopen h
    | cons a l => rfl
  simp [Binary32.LayoutLineBox.SplitLine, this]

theorem closeOpenFragment_map_tree_binary32 (heap : BoxHeap) (box_cursor : ℚ)
    (fs : List Fragment) (i : Int) :
    (Binary32.SplitLine.closeOpenFragment heap box_cursor fs i).map Fragment.tree
      = fs.map Fragment.tree := by
  unfold Binary32.SplitLine.closeOpenFragment Binary32.CloseFragment
  split
  · refine Eq.trans (modifyFragment_map_eq Fragment.tree _ _ _ ?_)
      (modifyFragment_map_eq Fragment.tree _ _ _ ?_) <;> intro f <;> rfl
  · rfl

theorem SplitLine_map_tree_binary32 (heap : BoxHeap) (self : LayoutLineBox) :
    (Binary32.LayoutLineBox.SplitLine heap self).1.fragments.map Fragment.tree
      = self.fragments.map Fragment.tree := by
  by_cases hopen : self.open_fragments = []
  · rw [SplitLine_of_nil_binary32 heap self hopen]
  · rw [SplitLine_of_ne_nil_binary32 heap self hopen]
    exact foldl_list_map_eq Fragment.tree _
      (closeOpenFragment_map_tree_binary32 heap self.box_cursor) _ _

theorem SplitLine_line_fields_binary32 (heap : BoxHeap) (self : LayoutLineBox) :
    (Binary32.LayoutLineBox.SplitLine heap self).1.box_cursor = self.box_cursor ∧
    (Binary32.LayoutLineBox.SplitLine heap self).1.line_width = self.line_width ∧
    (Binary32.LayoutLineBox.SplitLine heap self).1.offset_horizontal_alignment
      = self.offset_horizontal_alignment ∧
    (Binary32.LayoutLineBox.SplitLine heap self).1.open_fragments = [] := by
  by_cases hopen : self.open_fragments = []
  · rw [SplitLine_of_nil_binary32 heap self hopen]
    exact ⟨rfl, rfl, rfl, hopen⟩
  · rw [SplitLine_of_ne_nil_binary32 heap self hopen]
    exact ⟨rfl, rfl, rfl, rfl⟩

theorem VerticallyAlignSubtree_step_map_eq_binary32 (π : Fragment → Fragment)
    (hπ : ∀ (f : Fragment) (b : ℚ), π { f with baseline_offset := b } = π f)
    (heap : BoxHeap) (subtree_root_index : Int) (state : VerticalAlignment) (i : Int) :
    (Binary32.VerticallyAlignSubtree.step heap subtree_root_index state i).fragments.map π
      = state.fragments.map π := by
  unfold Binary32.VerticallyAlignSubtree.step
  simp only []
  split
  · rfl
  · split <;> exact modifyFragment_map_eq π _ _ _ (fun f => hπ f _)

theorem VerticallyAlignSubtree_map_eq_binary32 (π : Fragment → Fragment)
    (hπ : ∀ (f : Fragment) (b : ℚ), π { f with baseline_offset := b } = π f)
    (heap : BoxHeap) (fragments : List Fragment) (subtree_root_index children_end_index : Int)
    (max_ascent max_descent : ℚ) :
    (Binary32.VerticallyAlignSubtree heap fragments subtree_root_index children_end_index
      max_ascent max_descent).fragments.map π = fragments.map π := by
  unfold Binary32.VerticallyAlignSubtree
  rw [foldl_fragments_map_eq π _
    (VerticallyAlignSubtree_step_map_eq_binary32 π hπ heap subtree_root_index)]

/-- The subtree that `Close.alignSubtree` sizes for the fragment at index `i`, in binary32
arithmetic, when the fragment passes the test `is_root`. -/
theorem alignSubtree_of_root_binary32 (heap : BoxHeap) (is_root : Fragment → Bool)
    (state : VerticalAlignment) (i : Int)
    (hroot : is_root (getFragment state.fragments i) = true) :
    ∃ subtree : VerticalAlignment,
      subtree.fragments.map Fragment.eraseBaseline
        = state.fragments.map Fragment.eraseBaseline ∧
      ((getFragment state.fragments i).type ≠ FragmentType.InlineBox →
        subtree.max_ascent = (heap (getFragment state.fragments i).box).GetHeightAboveBaseline ∧
        subtree.max_descent = (heap (getFragment state.fragments i).box).GetDepthBelowBaseline ∧
        subtree.fragments = state.fragments) ∧
      (Binary32.Close.alignSubtree heap is_root state i).fragments
        = modifyFragment subtree.fragments i
          (fun f => { f with max_ascent := subtree.max_ascent,
                             max_descent := subtree.max_descent }) ∧
      (((getFragment state.fragments i).vertical_align = VerticalAlign.Top ∧
        (Binary32.Close.alignSubtree heap is_root state i).max_ascent = state.max_ascent ∧
        (Binary32.Close.alignSubtree heap is_root state i).max_descent = max state.max_descent
          (Binary32.round (Binary32.round (subtree.max_ascent + subtree.max_descent) -
            state.max_ascent))) ∨
       ((getFragment state.fragments i).vertical_align = VerticalAlign.Bottom ∧
        (Binary32.Close.alignSubtree heap is_root state i).max_ascent = max state.max_ascent
          (Binary32.round (Binary32.round (subtree.max_ascent + subtree.max_descent) -
            state.max_descent)) ∧
        (Binary32.Close.alignSubtree heap is_root state i).max_descent = state.max_descent) ∨
       ((getFragment state.fragments i).vertical_align ≠ VerticalAlign.Top ∧
        (getFragment state.fragments i).vertical_align ≠ VerticalAlign.Bottom ∧
        (Binary32.Close.alignSubtree heap is_root state i).max_ascent = state.max_ascent ∧
        (Binary32.Close.alignSubtree heap is_root state i).max_descent = state.max_descent)) := by
  refine ⟨if (getFragment state.fragments i).type = FragmentType.InlineBox then
      Binary32.VerticallyAlignSubtree heap state.fragments i
        (getFragment state.fragments i).children_end_index
        (heap (getFragment state.fragments i).box).GetHeightAboveBaseline
        (heap (getFragment state.fragments i).box).GetDepthBelowBaseline
    else
      { fragments := state.fragments
        max_ascent := (heap (getFragment state.fragments i).box).GetHeightAboveBaseline
        max_descent := (heap (getFragment state.fragments i).box).GetDepthBelowBaseline },
    ?_, ?_, ?_, ?_⟩
  · split
    · exact VerticallyAlignSubtree_map_eq_binary32 Fragment.eraseBaseline (fun f b => rfl)
        _ _ _ _ _ _
    · rfl
  · intro htype
    rw [if_neg htype]
    exact ⟨rfl, rfl, rfl⟩
  · unfold Binary32.Close.alignSubtree
    simp only [hroot, if_true]
    split_ifs <;> rfl
  · unfold Binary32.Close.alignSubtree
    simp only [hroot, if_true]
    by_cases htop : (getFragment state.fragments i).vertical_align = VerticalAlign.Top
    · left
      rw [if_pos htop]
      exact ⟨htop, rfl, rfl⟩
    · rw [if_neg htop]
      by_cases hbottom : (getFragment state.fragments i).vertical_align = VerticalAlign.Bottom
      · right; left
        rw [if_pos hbottom]
        exact ⟨hbottom, rfl, rfl⟩
      · right; right
        rw [if_neg hbottom]
        exact ⟨htop, hbottom, rfl, rfl⟩

theorem alignSubtree_of_not_root_binary32 (heap : BoxHeap) (is_root : Fragment → Bool)
    (state : VerticalAlignment) (i : Int)
    (hroot : ¬ is_root (getFragment state.fragments i) = true) :
    Binary32.Close.alignSubtree heap is_root state i = state := by
  unfold Binary32.Close.alignSubtree
  simp only [hroot]
  rfl

theorem alignSubtree_map_layout_binary32 (heap : BoxHeap) (is_root : Fragment → Bool)
    (state : VerticalAlignment) (i : Int) :
    (Binary32.Close.alignSubtree heap is_root state i).fragments.map Fragment.layout
      = state.fragments.map Fragment.layout := by
  by_cases hroot : is_root (getFragment state.fragments i) = true
  · obtain ⟨subtree, hsub, _, hfragments, _⟩ :=
      alignSubtree_of_root_binary32 heap is_root state i hroot
    have h1 := congrArg (List.map Fragment.layout) hsub
    simp only [List.map_map] at h1
    have hcomp : Fragment.layout ∘ Fragment.eraseBaseline = Fragment.layout := by
      funext f
      rfl
    rw [hcomp] at h1
    rw [hfragments]
    refine Eq.trans (modifyFragment_map_eq Fragment.layout _ _ _ ?_) h1
    intro f
    rfl
  · rw [alignSubtree_of_not_root_binary32 heap is_root state i hroot]

theorem sized_map_layout_binary32 (heap : BoxHeap) (is_root : Fragment → Bool)
    (fragments : List Fragment) (root_inline_box : BoxPtr) :
    (Binary32.Close.sized heap is_root fragments root_inline_box).fragments.map Fragment.layout
      = fragments.map Fragment.layout := by
  unfold Binary32.Close.sized
  rw [foldl_fragments_map_eq Fragment.layout _ (alignSubtree_map_layout_binary32 heap is_root),
    VerticallyAlignSubtree_map_eq_binary32 Fragment.layout (fun f b => rfl)]

theorem positionFragment_map_eq_binary32 (π : Fragment → Fragment)
    (hπ : ∀ (f : Fragment) (y : ℚ), π { f with position := { f.position with y := y } } = π f)
    (max_ascent out_height_of_line : ℚ) (fs : List Fragment) (i : Int) :
    (Binary32.Close.positionFragment max_ascent out_height_of_line fs i).map π = fs.map π := by
  unfold Binary32.Close.positionFragment
  exact modifyFragment_map_eq π _ _ _ (fun f => hπ f _)

theorem positioned_map_eraseY_binary32 (heap : BoxHeap) (is_root : Fragment → Bool)
    (fragments : List Fragment) (root_inline_box : BoxPtr) :
    (Binary32.Close.positioned heap is_root fragments root_inline_box).map Fragment.eraseY
      = (Binary32.Close.sized heap is_root fragments root_inline_box).fragments.map
        Fragment.eraseY := by
  unfold Binary32.Close.positioned
  rw [foldl_list_map_eq Fragment.eraseY _
    (positionFragment_map_eq_binary32 Fragment.eraseY (fun f y => rfl) _ _)]

theorem positioned_map_layout_binary32 (heap : BoxHeap) (is_root : Fragment → Bool)
    (fragments : List Fragment) (root_inline_box : BoxPtr) :
    (Binary32.Close.positioned heap is_root fragments root_inline_box).map Fragment.layout
      = fragments.map Fragment.layout := by
  unfold Binary32.Close.positioned
  rw [foldl_list_map_eq Fragment.layout _
    (positionFragment_map_eq_binary32 Fragment.layout (fun f y => rfl) _ _),
    sized_map_layout_binary32]

theorem Close_fields_binary32 (heap : BoxHeap) (is_root : Fragment → Bool)
    (self : LayoutLineBox) (root_inline_box : BoxPtr) (offset_parent : Nat)
    (line_position : Vector2f) (text_align : TextAlign) :
    (Binary32.LayoutLineBox.Close heap is_root self root_inline_box offset_parent line_position
      text_align).line.fragments =
      Binary32.Close.positioned heap is_root
        (Binary32.LayoutLineBox.SplitLine heap self).1.fragments root_inline_box ∧
    (Binary32.LayoutLineBox.Close heap is_root self root_inline_box offset_parent line_position
      text_align).line.box_cursor = self.box_cursor ∧
    (Binary32.LayoutLineBox.Close heap is_root self root_inline_box offset_parent line_position
      text_align).line.offset_horizontal_alignment =
      Binary32.Close.horizontalOffset (Binary32.LayoutLineBox.SplitLine heap self).1 text_align ∧
    (Binary32.LayoutLineBox.Close heap is_root self root_inline_box offset_parent line_position
      text_align).submitted =
      (Binary32.Close.positioned heap is_root
        (Binary32.LayoutLineBox.SplitLine heap self).1.fragments root_inline_box).filterMap
        (Binary32.Close.submit offset_parent line_position
          (Binary32.Close.horizontalOffset (Binary32.LayoutLineBox.SplitLine heap self).1
            text_align)) ∧
    (Binary32.LayoutLineBox.Close heap is_root self root_inline_box offset_parent line_position
      text_align).out_height_of_line =
      Binary32.Close.height heap is_root
        (Binary32.LayoutLineBox.SplitLine heap self).1.fragments root_inline_box ∧
    (Binary32.LayoutLineBox.Close heap is_root self root_inline_box offset_parent line_position
      text_align).line.total_height_above_baseline =
      (Binary32.Close.sized heap is_root
        (Binary32.LayoutLineBox.SplitLine heap self).1.fragments root_inline_box).max_ascent ∧
    (Binary32.LayoutLineBox.Close heap is_root self root_inline_box offset_parent line_position
      text_align).line.is_closed = true ∧
    (Binary32.LayoutLineBox.Close heap is_root self root_inline_box offset_parent line_position
      text_align).new_line_box = (Binary32.LayoutLineBox.SplitLine heap self).2 :=
  ⟨rfl, (SplitLine_line_fields_binary32 heap self).1, rfl, rfl, rfl, rfl, rfl, rfl⟩

theorem filterMap_submit_binary32 (offset_parent : Nat) (line_position : Vector2f) (offset : ℚ)
    (fs : List Fragment) (call : SubmitCall)
    (h : call ∈ fs.filterMap (Binary32.Close.submit offset_parent line_position offset)) :
    ∃ f ∈ fs, ¬ (f.type = FragmentType.InlineBox ∧ f.children_end_index = 0) ∧
      call.box = f.box ∧
      call.fragment_box.fragment_handle = f.fragment_handle ∧
      call.fragment_box.position.x
        = Binary32.round (Binary32.round (line_position.x + f.position.x) + offset) ∧
      call.fragment_box.position.y
        = Binary32.round (Binary32.round (line_position.y + f.position.y) + 0) ∧
      call.fragment_box.layout_width = f.layout_width := by
  rw [List.mem_filterMap] at h
  obtain ⟨f, hf, hsubmit⟩ := h
  unfold Binary32.Close.submit at hsubmit
  split at hsubmit
  · simp at hsubmit
  · next hskip =>
    rw [← Option.some.inj hsubmit]
    exact ⟨f, hf, hskip, rfl, rfl, rfl, rfl, rfl⟩

/-! ## The sizing loops of `Close` in binary32 arithmetic -/

theorem VerticallyAlignSubtree_step_mono_binary32 (heap : BoxHeap) (subtree_root_index : Int)
    (state : VerticalAlignment) (i : Int) :
    state.max_ascent
      ≤ (Binary32.VerticallyAlignSubtree.step heap subtree_root_index state i).max_ascent ∧
    state.max_descent
      ≤ (Binary32.VerticallyAlignSubtree.step heap subtree_root_index state i).max_descent := by
  unfold Binary32.VerticallyAlignSubtree.step
  simp only []
  split
  · exact ⟨le_refl _, le_refl _⟩
  · split
    · exact ⟨le_max_left _ _, le_max_left _ _⟩
    · exact ⟨le_refl _, le_refl _⟩

theorem VerticallyAlignSubtree_mono_binary32 (heap : BoxHeap) (fragments : List Fragment)
    (subtree_root_index children_end_index : Int) (max_ascent max_descent : ℚ) :
    max_ascent ≤ (Binary32.VerticallyAlignSubtree heap fragments subtree_root_index
      children_end_index max_ascent max_descent).max_ascent ∧
    max_descent ≤ (Binary32.VerticallyAlignSubtree heap fragments subtree_root_index
      children_end_index max_ascent max_descent).max_descent := by
  unfold Binary32.VerticallyAlignSubtree
  exact foldl_mono _ (VerticallyAlignSubtree_step_mono_binary32 heap subtree_root_index) _ _

theorem alignSubtree_mono_binary32 (heap : BoxHeap) (is_root : Fragment → Bool)
    (state : VerticalAlignment) (i : Int) :
    state.max_ascent ≤ (Binary32.Close.alignSubtree heap is_root state i).max_ascent ∧
    state.max_descent ≤ (Binary32.Close.alignSubtree heap is_root state i).max_descent := by
  by_cases hroot : is_root (getFragment state.fragments i) = true
  · obtain ⟨subtree, _, _, _, h | h | h⟩ :=
      alignSubtree_of_root_binary32 heap is_root state i hroot
    · rw [h.2.1, h.2.2]
      exact ⟨le_refl _, le_max_left _ _⟩
    · rw [h.2.1, h.2.2]
      exact ⟨le_max_left _ _, le_refl _⟩
    · rw [h.2.2.1, h.2.2.2]
      exact ⟨le_refl _, le_refl _⟩
  · rw [alignSubtree_of_not_root_binary32 heap is_root state i hroot]
    exact ⟨le_refl _, le_refl _⟩

/-- The maxima of a fragment other than the one at index `i` are not written by
`Close.alignSubtree` at `i`, in binary32 arithmetic. -/
theorem alignSubtree_other_binary32 (heap : BoxHeap) (is_root : Fragment → Bool)
    (state : VerticalAlignment) (i j : Int)
    (hne : j ≠ i) :
    (getFragment (Binary32.Close.alignSubtree heap is_root state i).fragments j).max_ascent
      = (getFragment state.fragments j).max_ascent ∧
    (getFragment (Binary32.Close.alignSubtree heap is_root state i).fragments j).max_descent
      = (getFragment state.fragments j).max_descent := by
  by_cases hroot : is_root (getFragment state.fragments i) = true
  · obtain ⟨subtree, hsub, _, hfragments, _⟩ :=
      alignSubtree_of_root_binary32 heap is_root state i hroot
    rw [hfragments, getFragment_modifyFragment_ne _ _ _ _ hne]
    obtain ⟨h1, h2, _, _⟩ :=
      eraseBaseline_fields (getFragment_map_eq Fragment.eraseBaseline hsub j)
    exact ⟨h1, h2⟩
  · rw [alignSubtree_of_not_root_binary32 heap is_root state i hroot]
    exact ⟨rfl, rfl⟩

/-- The subtree of the fragment at index `i` fits in the line after `Close.alignSubtree`, as
far as the code computes: the height of the subtree less the ascent (`Top`) or the descent
(`Bottom`) of the line, in binary32 arithmetic, is at most the descent or the ascent of the
line. -/
theorem alignSubtree_fits_binary32 (heap : BoxHeap) (is_root : Fragment → Bool)
    (state : VerticalAlignment) (i : Int)
    (h0 : 0 ≤ i) (hlt : i < (state.fragments.length : Int))
    (hroot : is_root (getFragment state.fragments i) = true) :
    ((getFragment state.fragments i).vertical_align = VerticalAlign.Top →
      Binary32.round (Binary32.round
        ((getFragment (Binary32.Close.alignSubtree heap is_root state i).fragments i).max_ascent +
          (getFragment (Binary32.Close.alignSubtree heap is_root state i).fragments i).max_descent) -
        (Binary32.Close.alignSubtree heap is_root state i).max_ascent)
      ≤ (Binary32.Close.alignSubtree heap is_root state i).max_descent) ∧
    ((getFragment state.fragments i).vertical_align = VerticalAlign.Bottom →
      Binary32.round (Binary32.round
        ((getFragment (Binary32.Close.alignSubtree heap is_root state i).fragments i).max_ascent +
          (getFragment (Binary32.Close.alignSubtree heap is_root state i).fragments i).max_descent) -
        (Binary32.Close.alignSubtree heap is_root state i).max_descent)
      ≤ (Binary32.Close.alignSubtree heap is_root state i).max_ascent) := by
  obtain ⟨subtree, hsub, _, hfragments, hcase⟩ :=
    alignSubtree_of_root_binary32 heap is_root state i hroot
  have hlen : subtree.fragments.length = state.fragments.length :=
    length_eq_of_map_eq Fragment.eraseBaseline hsub
  rw [hfragments, getFragment_modifyFragment_self _ _ _ h0 (by rw [hlen]; exact hlt)]
  simp only []
  rcases hcase with ⟨htop, h1, h2⟩ | ⟨hbottom, h1, h2⟩ | ⟨hnotop, hnobottom, _, _⟩
  · refine ⟨fun _ => ?_, fun h => ?_⟩
    · rw [h1, h2]
      exact le_max_right _ _
    · rw [htop] at h
      exact absurd h (by decide)
  · refine ⟨fun h => ?_, fun _ => ?_⟩
    · rw [hbottom] at h
      exact absurd h (by decide)
    · rw [h1, h2]
      exact le_max_right _ _
  · exact ⟨fun h => absurd h hnotop, fun h => absurd h hnobottom⟩

theorem foldl_alignSubtree_other_binary32 (heap : BoxHeap) (is_root : Fragment → Bool)
    (indices : List Int) (j : Int) :
    ∀ state : VerticalAlignment, j ∉ indices →
    (getFragment (indices.foldl (Binary32.Close.alignSubtree heap is_root) state).fragments j).max_ascent
      = (getFragment state.fragments j).max_ascent ∧
    (getFragment (indices.foldl (Binary32.Close.alignSubtree heap is_root) state).fragments j).max_descent
      = (getFragment state.fragments j).max_descent := by
  induction indices with
  | nil => intro state _; exact ⟨rfl, rfl⟩
  | cons i rest ih =>
    intro state hj
    rw [List.foldl_cons]
    have hne : j ≠ i := fun h => hj (by rw [h]; exact List.mem_cons_self _ _)
    have hrest : j ∉ rest := fun h => hj (List.mem_cons_of_mem _ h)
    obtain ⟨h1, h2⟩ := ih (Binary32.Close.alignSubtree heap is_root state i) hrest
    obtain ⟨h3, h4⟩ := alignSubtree_other_binary32 heap is_root state i j hne
    exact ⟨h1.trans h3, h2.trans h4⟩

/-- Every aligned subtree that the loop of `Close` has sized fits in the line, as far as the
code computes, in binary32 arithmetic. -/
theorem foldl_alignSubtree_fits_binary32 (heap : BoxHeap) (is_root : Fragment → Bool)
    (hframe : ∀ f g : Fragment, f.layout = g.layout → is_root f = is_root g)
    (indices : List Int) :
    ∀ state : VerticalAlignment, indices.Nodup →
    ∀ j ∈ indices, 0 ≤ j → j < (state.fragments.length : Int) →
    is_root (getFragment state.fragments j) = true →
    ((getFragment state.fragments j).vertical_align = VerticalAlign.Top →
      Binary32.round (Binary32.round
        ((getFragment (indices.foldl (Binary32.Close.alignSubtree heap is_root)
            state).fragments j).max_ascent +
          (getFragment (indices.foldl (Binary32.Close.alignSubtree heap is_root)
            state).fragments j).max_descent) -
        (indices.foldl (Binary32.Close.alignSubtree heap is_root) state).max_ascent)
      ≤ (indices.foldl (Binary32.Close.alignSubtree heap is_root) state).max_descent) ∧
    ((getFragment state.fragments j).vertical_align = VerticalAlign.Bottom →
      Binary32.round (Binary32.round
        ((getFragment (indices.foldl (Binary32.Close.alignSubtree heap is_root)
            state).fragments j).max_ascent +
          (getFragment (indices.foldl (Binary32.Close.alignSubtree heap is_root)
            state).fragments j).max_descent) -
        (indices.foldl (Binary32.Close.alignSubtree heap is_root) state).max_descent)
      ≤ (indices.foldl (Binary32.Close.alignSubtree heap is_root) state).max_ascent) := by
  induction indices with
  | nil =>
    intro state _ j hj
    simp at hj
  | cons i rest ih =>
    intro state hnodup j hj h0 hlt hroot
    rw [List.foldl_cons]
    rw [List.nodup_cons] at hnodup
    have hlayout := alignSubtree_map_layout_binary32 heap is_root state i
    have hlen : (Binary32.Close.alignSubtree heap is_root state i).fragments.length
        = state.fragments.length := length_eq_of_map_eq Fragment.layout hlayout
    have hva := (layout_fields (getFragment_map_eq Fragment.layout hlayout j)).2.2.2.1
    rcases List.mem_cons.mp hj with hji | hjrest
    · subst hji
      obtain ⟨h1, h2⟩ := foldl_alignSubtree_other_binary32 heap is_root rest j
        (Binary32.Close.alignSubtree heap is_root state j) hnodup.1
      obtain ⟨h3, h4⟩ := foldl_mono _ (alignSubtree_mono_binary32 heap is_root) rest
        (Binary32.Close.alignSubtree heap is_root state j)
      obtain ⟨htop, hbottom⟩ := alignSubtree_fits_binary32 heap is_root state j h0 hlt hroot
      rw [h1, h2]
      refine ⟨fun h => ?_, fun h => ?_⟩
      · exact le_trans (le_trans (Binary32.round_mono (by linarith)) (htop h)) h4
      · exact le_trans (le_trans (Binary32.round_mono (by linarith)) (hbottom h)) h3
    · rw [← hva]
      apply ih (Binary32.Close.alignSubtree heap is_root state i) hnodup.2 j hjrest h0
        (by rw [hlen]; exact hlt)
      rw [hframe _ _ (getFragment_map_eq Fragment.layout hlayout j)]
      exact hroot

/-! ## The vertical pass of `Close` on a line of text fragments in binary32 arithmetic -/

theorem eraseMaxima_fields {f g : Fragment} (h : f.eraseMaxima = g.eraseMaxima) :
    f.box = g.box ∧ f.type = g.type ∧ f.vertical_align = g.vertical_align ∧
    f.position = g.position ∧ f.parent_fragment = g.parent_fragment ∧
    f.aligned_subtree_root = g.aligned_subtree_root ∧ f.baseline_offset = g.baseline_offset := by
  have h1 : f.eraseMaxima.box = g.eraseMaxima.box := by rw [h]
  have h2 : f.eraseMaxima.type = g.eraseMaxima.type := by rw [h]
  have h3 : f.eraseMaxima.vertical_align = g.eraseMaxima.vertical_align := by rw [h]
  have h4 : f.eraseMaxima.position = g.eraseMaxima.position := by rw [h]
  have h5 : f.eraseMaxima.parent_fragment = g.eraseMaxima.parent_fragment := by rw [h]
  have h6 : f.eraseMaxima.aligned_subtree_root = g.eraseMaxima.aligned_subtree_root := by rw [h]
  have h7 : f.eraseMaxima.baseline_offset = g.eraseMaxima.baseline_offset := by rw [h]
  exact ⟨h1, h2, h3, h4, h5, h6, h7⟩

theorem VerticallyAlignSubtree_step_text_binary32 (heap : BoxHeap) (r : Int)
    (state : VerticalAlignment) (i : Int)
    (htype : (getFragment state.fragments i).type = FragmentType.TextRun) :
    (Binary32.VerticallyAlignSubtree.step heap r state i).max_ascent = state.max_ascent ∧
    (Binary32.VerticallyAlignSubtree.step heap r state i).max_descent = state.max_descent := by
  unfold Binary32.VerticallyAlignSubtree.step
  simp only [htype]
  split
  · exact ⟨rfl, rfl⟩
  · simp

/-- Text fragments are skipped by the sizing of `VerticallyAlignSubtree`, in binary32
arithmetic too. -/
theorem foldl_step_text_binary32 (heap : BoxHeap) (r : Int) (indices : List Int) :
    ∀ state : VerticalAlignment,
    (∀ i ∈ indices, (getFragment state.fragments i).type = FragmentType.TextRun) →
    (indices.foldl (Binary32.VerticallyAlignSubtree.step heap r) state).max_ascent
      = state.max_ascent ∧
    (indices.foldl (Binary32.VerticallyAlignSubtree.step heap r) state).max_descent
      = state.max_descent := by
  induction indices with
  | nil => intro state _; exact ⟨rfl, rfl⟩
  | cons i rest ih =>
    intro state htype
    rw [List.foldl_cons]
    obtain ⟨h1, h2⟩ := VerticallyAlignSubtree_step_text_binary32 heap r state i
      (htype i (List.mem_cons_self _ _))
    have hlayout := VerticallyAlignSubtree_step_map_eq_binary32 Fragment.layout (fun f b => rfl)
      heap r state i
    obtain ⟨h3, h4⟩ := ih (Binary32.VerticallyAlignSubtree.step heap r state i) (by
      intro k hk
      rw [(layout_fields (getFragment_map_eq Fragment.layout hlayout k)).2.2.1]
      exact htype k (List.mem_cons_of_mem _ hk))
    exact ⟨h3.trans h1, h4.trans h2⟩

/-- The step of `VerticallyAlignSubtree` at index `i` leaves every other fragment as it
is. -/
theorem VerticallyAlignSubtree_step_other_binary32 (heap : BoxHeap) (r : Int)
    (state : VerticalAlignment) (i j : Int) (hne : j ≠ i) :
    getFragment (Binary32.VerticallyAlignSubtree.step heap r state i).fragments j
      = getFragment state.fragments j := by
  unfold Binary32.VerticallyAlignSubtree.step
  simp only []
  split
  · rfl
  · split <;> exact getFragment_modifyFragment_ne _ _ _ _ hne

theorem foldl_step_other_binary32 (heap : BoxHeap) (r : Int) (indices : List Int) (j : Int) :
    ∀ state : VerticalAlignment, j ∉ indices →
    getFragment (indices.foldl (Binary32.VerticallyAlignSubtree.step heap r) state).fragments j
      = getFragment state.fragments j := by
  induction indices with
  | nil => intro state _; rfl
  | cons i rest ih =>
    intro state hj
    rw [List.foldl_cons]
    have hne : j ≠ i := fun h => hj (by rw [h]; exact List.mem_cons_self _ _)
    have hrest : j ∉ rest := fun h => hj (List.mem_cons_of_mem _ h)
    rw [ih _ hrest, VerticallyAlignSubtree_step_other_binary32 heap r state i j hne]

/-- The baseline offset that `VerticallyAlignSubtree` gives a fragment of its subtree that
has no parent fragment: the rounded sum of 0 and the vertical offset of its box. -/
theorem foldl_step_baseline_binary32 (heap : BoxHeap) (r : Int) (indices : List Int) :
    ∀ state : VerticalAlignment, indices.Nodup →
    ∀ j ∈ indices, 0 ≤ j → j < (state.fragments.length : Int) →
    (getFragment state.fragments j).aligned_subtree_root = r →
    (getFragment state.fragments j).parent_fragment < 0 →
    (getFragment (indices.foldl (Binary32.VerticallyAlignSubtree.step heap r)
      state).fragments j).baseline_offset
      = Binary32.round (0 + (heap (getFragment state.fragments j).box).GetVerticalOffsetFromParent)
    := by
  induction indices with
  | nil =>
    intro state _ j hj
    simp at hj
  | cons i rest ih =>
    intro state hnodup j hj h0 hlt hasr hparent
    rw [List.foldl_cons]
    rw [List.nodup_cons] at hnodup
    rcases List.mem_cons.mp hj with hji | hjrest
    · subst hji
      rw [foldl_step_other_binary32 heap r rest j _ hnodup.1]
      unfold Binary32.VerticallyAlignSubtree.step
      simp only [hasr, ne_eq, not_true_eq_false, if_false, if_pos hparent]
      split <;> rw [getFragment_modifyFragment_self _ _ _ h0 hlt]
    · have hne : j ≠ i := fun h => hnodup.1 (by rw [← h]; exact hjrest)
      have hsame := VerticallyAlignSubtree_step_other_binary32 heap r state i j hne
      have hlen := length_eq_of_map_eq Fragment.layout
        (VerticallyAlignSubtree_step_map_eq_binary32 Fragment.layout (fun f b => rfl)
          heap r state i)
      have := ih (Binary32.VerticallyAlignSubtree.step heap r state i) hnodup.2 j hjrest h0
        (by rw [hlen]; exact hlt) (by rw [hsame]; exact hasr) (by rw [hsame]; exact hparent)
      rw [hsame] at this
      exact this

/-- On a fragment that is not an inline box, `Close.alignSubtree` writes nothing but the two
maxima of that fragment. -/
theorem alignSubtree_map_eraseMaxima_binary32 (heap : BoxHeap) (is_root : Fragment → Bool)
    (state : VerticalAlignment) (i : Int)
    (htype : (getFragment state.fragments i).type ≠ FragmentType.InlineBox) :
    (Binary32.Close.alignSubtree heap is_root state i).fragments.map Fragment.eraseMaxima
      = state.fragments.map Fragment.eraseMaxima := by
  by_cases hroot : is_root (getFragment state.fragments i) = true
  · obtain ⟨subtree, _, hsub, hfragments, _⟩ :=
      alignSubtree_of_root_binary32 heap is_root state i hroot
    rw [hfragments, (hsub htype).2.2]
    refine modifyFragment_map_eq Fragment.eraseMaxima _ _ _ ?_
    intro f
    rfl
  · rw [alignSubtree_of_not_root_binary32 heap is_root state i hroot]

theorem foldl_alignSubtree_map_eraseMaxima_binary32 (heap : BoxHeap)
    (is_root : Fragment → Bool) (indices : List Int) :
    ∀ state : VerticalAlignment,
    (∀ i ∈ indices, (getFragment state.fragments i).type ≠ FragmentType.InlineBox) →
    (indices.foldl (Binary32.Close.alignSubtree heap is_root) state).fragments.map
        Fragment.eraseMaxima
      = state.fragments.map Fragment.eraseMaxima := by
  induction indices with
  | nil => intro state _; rfl
  | cons i rest ih =>
    intro state htype
    rw [List.foldl_cons]
    have hstep := alignSubtree_map_eraseMaxima_binary32 heap is_root state i
      (htype i (List.mem_cons_self _ _))
    rw [ih (Binary32.Close.alignSubtree heap is_root state i) (by
      intro k hk
      rw [(eraseMaxima_fields (getFragment_map_eq Fragment.eraseMaxima hstep k)).2.1]
      exact htype k (List.mem_cons_of_mem _ hk)), hstep]

/-- One iteration of the loop of `Close` over the aligned subtrees on a text fragment aligned
`Top` or `Baseline`, in binary32 arithmetic: the ascent of the line is not changed, and the
descent of the line is not changed or becomes what the height of the `Top` fragment asks
for. -/
theorem alignSubtree_text_binary32 (heap : BoxHeap) (is_root : Fragment → Bool)
    (state : VerticalAlignment) (i : Int)
    (htype : (getFragment state.fragments i).type = FragmentType.TextRun)
    (hva : (getFragment state.fragments i).vertical_align = VerticalAlign.Top ∨
      (getFragment state.fragments i).vertical_align = VerticalAlign.Baseline) :
    (Binary32.Close.alignSubtree heap is_root state i).max_ascent = state.max_ascent ∧
    ((Binary32.Close.alignSubtree heap is_root state i).max_descent = state.max_descent ∨
      ((getFragment state.fragments i).vertical_align = VerticalAlign.Top ∧
       is_root (getFragment state.fragments i) = true ∧
       (Binary32.Close.alignSubtree heap is_root state i).max_descent =
        Binary32.round (Binary32.round
          ((heap (getFragment state.fragments i).box).GetHeightAboveBaseline +
            (heap (getFragment state.fragments i).box).GetDepthBelowBaseline) -
          state.max_ascent))) := by
  have hnbox : (getFragment state.fragments i).type ≠ FragmentType.InlineBox := by
    rw [htype]
    decide
  by_cases hroot : is_root (getFragment state.fragments i) = true
  · obtain ⟨subtree, _, hsub, _, hcase⟩ :=
      alignSubtree_of_root_binary32 heap is_root state i hroot
    obtain ⟨ha, hd, _⟩ := hsub hnbox
    rw [ha, hd] at hcase
    rcases hcase with ⟨htop, h1, h2⟩ | ⟨hbottom, _, _⟩ | ⟨_, _, h1, h2⟩
    · refine ⟨h1, ?_⟩
      rw [h2]
      rcases max_choice state.max_descent (Binary32.round (Binary32.round
          ((heap (getFragment state.fragments i).box).GetHeightAboveBaseline +
            (heap (getFragment state.fragments i).box).GetDepthBelowBaseline) -
          state.max_ascent)) with hmax | hmax
      · exact Or.inl hmax
      · exact Or.inr ⟨htop, hroot, hmax⟩
    · rcases hva with hva | hva <;> rw [hva] at hbottom <;> exact absurd hbottom (by decide)
    · exact ⟨h1, Or.inl h2⟩
  · rw [alignSubtree_of_not_root_binary32 heap is_root state i hroot]
    exact ⟨rfl, Or.inl rfl⟩

/-- The loop of `Close` over the aligned subtrees on text fragments aligned `Top` or
`Baseline`, in binary32 arithmetic: the ascent of the line is not changed, and the descent of
the line is its start value or what the height of a `Top` fragment that passes the test
`is_root` asks for. -/
theorem foldl_alignSubtree_text_binary32 (heap : BoxHeap) (is_root : Fragment → Bool)
    (indices : List Int) :
    ∀ state : VerticalAlignment,
    (∀ i ∈ indices, (getFragment state.fragments i).type = FragmentType.TextRun ∧
      ((getFragment state.fragments i).vertical_align = VerticalAlign.Top ∨
       (getFragment state.fragments i).vertical_align = VerticalAlign.Baseline)) →
    (indices.foldl (Binary32.Close.alignSubtree heap is_root) state).max_ascent
      = state.max_ascent ∧
    ((indices.foldl (Binary32.Close.alignSubtree heap is_root) state).max_descent
        = state.max_descent ∨
      ∃ i ∈ indices, (getFragment state.fragments i).vertical_align = VerticalAlign.Top ∧
        (indices.foldl (Binary32.Close.alignSubtree heap is_root) state).max_descent =
          Binary32.round (Binary32.round
            ((heap (getFragment state.fragments i).box).GetHeightAboveBaseline +
              (heap (getFragment state.fragments i).box).GetDepthBelowBaseline) -
            state.max_ascent)) := by
  induction indices with
  | nil => intro state _; exact ⟨rfl, Or.inl rfl⟩
  | cons i rest ih =>
    intro state htext
    rw [List.foldl_cons]
    have hlayout := alignSubtree_map_layout_binary32 heap is_root state i
    have hfields : ∀ k : Int,
        (getFragment (Binary32.Close.alignSubtree heap is_root state i).fragments k).box
          = (getFragment state.fragments k).box ∧
        (getFragment (Binary32.Close.alignSubtree heap is_root state i).fragments k).type
          = (getFragment state.fragments k).type ∧
        (getFragment (Binary32.Close.alignSubtree heap is_root state i).fragments
          k).vertical_align = (getFragment state.fragments k).vertical_align := by
      intro k
      have := layout_fields (getFragment_map_eq Fragment.layout hlayout k)
      exact ⟨this.1, this.2.2.1, this.2.2.2.1⟩
    obtain ⟨h1, h2⟩ := ih (Binary32.Close.alignSubtree heap is_root state i) (by
      intro k hk
      rw [(hfields k).2.1, (hfields k).2.2]
      exact htext k (List.mem_cons_of_mem _ hk))
    obtain ⟨htype, hva⟩ := htext i (List.mem_cons_self _ _)
    obtain ⟨hma, hmd⟩ := alignSubtree_text_binary32 heap is_root state i htype hva
    rw [hma] at h1 h2
    refine ⟨h1, ?_⟩
    rcases h2 with h2 | ⟨k, hk, hktop, hkeq⟩
    · rw [h2]
      rcases hmd with hmd | ⟨htop, _, hmd⟩
      · exact Or.inl hmd
      · exact Or.inr ⟨i, List.mem_cons_self _ _, htop, hmd⟩
    · rw [(hfields k).2.2] at hktop
      rw [(hfields k).1] at hkeq
      exact Or.inr ⟨k, List.mem_cons_of_mem _ hk, hktop, hkeq⟩

/-- The maxima that the loop of `Close` stores in a fragment that passes the test `is_root`
and is not an inline box are the height above and the depth below the baseline of its
box. -/
theorem foldl_alignSubtree_stored_binary32 (heap : BoxHeap) (is_root : Fragment → Bool)
    (hframe : ∀ f g : Fragment, f.layout = g.layout → is_root f = is_root g)
    (indices : List Int) :
    ∀ state : VerticalAlignment, indices.Nodup →
    ∀ j ∈ indices, 0 ≤ j → j < (state.fragments.length : Int) →
    is_root (getFragment state.fragments j) = true →
    (getFragment state.fragments j).type ≠ FragmentType.InlineBox →
    (getFragment (indices.foldl (Binary32.Close.alignSubtree heap is_root)
        state).fragments j).max_ascent
      = (heap (getFragment state.fragments j).box).GetHeightAboveBaseline ∧
    (getFragment (indices.foldl (Binary32.Close.alignSubtree heap is_root)
        state).fragments j).max_descent
      = (heap (getFragment state.fragments j).box).GetDepthBelowBaseline := by
  induction indices with
  | nil =>
    intro state _ j hj
    simp at hj
  | cons i rest ih =>
    intro state hnodup j hj h0 hlt hroot htype
    rw [List.foldl_cons]
    rw [List.nodup_cons] at hnodup
    have hlayout := alignSubtree_map_layout_binary32 heap is_root state i
    have hlen : (Binary32.Close.alignSubtree heap is_root state i).fragments.length
        = state.fragments.length := length_eq_of_map_eq Fragment.layout hlayout
    rcases List.mem_cons.mp hj with hji | hjrest
    · subst hji
      obtain ⟨h1, h2⟩ := foldl_alignSubtree_other_binary32 heap is_root rest j
        (Binary32.Close.alignSubtree heap is_root state j) hnodup.1
      obtain ⟨subtree, _, hsub, hfragments, _⟩ :=
        alignSubtree_of_root_binary32 heap is_root state j hroot
      obtain ⟨ha, hd, hfs⟩ := hsub htype
      rw [h1, h2, hfragments,
        getFragment_modifyFragment_self _ _ _ h0 (by rw [hfs]; exact hlt)]
      exact ⟨ha, hd⟩
    · have hfj := layout_fields (getFragment_map_eq Fragment.layout hlayout j)
      have := ih (Binary32.Close.alignSubtree heap is_root state i) hnodup.2 j hjrest h0
        (by rw [hlen]; exact hlt)
        (by rw [hframe _ _ (getFragment_map_eq Fragment.layout hlayout j)]; exact hroot)
        (by rw [hfj.2.2.1]; exact htype)
      rw [hfj.1] at this
      exact this

/-- The step of the position loop of `Close` at index `i` leaves every other fragment as it
is. -/
theorem foldl_positionFragment_other_binary32 (max_ascent out_height_of_line : ℚ)
    (indices : List Int) (j : Int) :
    ∀ fs : List Fragment, j ∉ indices →
    getFragment (indices.foldl (Binary32.Close.positionFragment max_ascent out_height_of_line)
      fs) j = getFragment fs j := by
  induction indices with
  | nil => intro fs _; rfl
  | cons i rest ih =>
    intro fs hj
    rw [List.foldl_cons]
    have hne : j ≠ i := fun h => hj (by rw [h]; exact List.mem_cons_self _ _)
    have hrest : j ∉ rest := fun h => hj (List.mem_cons_of_mem _ h)
    rw [ih _ hrest]
    unfold Binary32.Close.positionFragment
    exact getFragment_modifyFragment_ne _ _ _ _ hne

/-- The vertical position that the position loop of `Close` gives a fragment, in binary32
arithmetic: its `max_ascent` when it is aligned `Top`, and the ascent of the line plus its
baseline offset, rounded, when it is aligned neither `Top` nor `Bottom` and has no aligned
subtree root. -/
theorem foldl_positionFragment_binary32 (max_ascent out_height_of_line : ℚ)
    (indices : List Int) :
    ∀ fs : List Fragment, indices.Nodup →
    ∀ j ∈ indices, 0 ≤ j → j < (fs.length : Int) →
    ((getFragment fs j).vertical_align = VerticalAlign.Top →
      (getFragment (indices.foldl (Binary32.Close.positionFragment max_ascent
        out_height_of_line) fs) j).position.y = (getFragment fs j).max_ascent) ∧
    ((getFragment fs j).vertical_align ≠ VerticalAlign.Top →
      (getFragment fs j).vertical_align ≠ VerticalAlign.Bottom →
      (getFragment fs j).aligned_subtree_root < 0 →
      (getFragment (indices.foldl (Binary32.Close.positionFragment max_ascent
        out_height_of_line) fs) j).position.y
        = Binary32.round (max_ascent + (getFragment fs j).baseline_offset)) := by
  induction indices with
  | nil =>
    intro fs _ j hj
    simp at hj
  | cons i rest ih =>
    intro fs hnodup j hj h0 hlt
    rw [List.foldl_cons]
    rw [List.nodup_cons] at hnodup
    rcases List.mem_cons.mp hj with hji | hjrest
    · subst hji
      rw [foldl_positionFragment_other_binary32 max_ascent out_height_of_line rest j _
        hnodup.1]
      unfold Binary32.Close.positionFragment
      rw [getFragment_modifyFragment_self _ _ _ h0 hlt]
      unfold Binary32.Close.verticalPosition
      refine ⟨fun htop => ?_, fun hntop hnbottom hasr => ?_⟩
      · simp only [htop, if_true]
      · simp only [if_neg hntop, if_neg hnbottom, if_pos hasr]
    · have hne : j ≠ i := fun h => hnodup.1 (by rw [← h]; exact hjrest)
      have hsame : getFragment (Binary32.Close.positionFragment max_ascent out_height_of_line
          fs i) j = getFragment fs j := by
        unfold Binary32.Close.positionFragment
        exact getFragment_modifyFragment_ne _ _ _ _ hne
      have hlen : (Binary32.Close.positionFragment max_ascent out_height_of_line
          fs i).length = fs.length := by
        unfold Binary32.Close.positionFragment
        exact modifyFragment_length _ _ _
      have := ih (Binary32.Close.positionFragment max_ascent out_height_of_line fs i)
        hnodup.2 j hjrest h0 (by rw [hlen]; exact hlt)
      rw [hsame] at this
      exact this

/-- The sizing of `Close` on an array of text fragments aligned `Top` or `Baseline`, in
binary32 arithmetic: the ascent of the line is that of the root inline box, the descent of
the line is that of the root inline box or what the height of a `Top` fragment asks for, and
the root pass of `VerticallyAlignSubtree` gives every fragment without parent fragment and
without aligned subtree root its vertical offset as baseline offset. -/
theorem sized_text_binary32 (heap : BoxHeap) (is_root : Fragment → Bool)
    (fs : List Fragment) (root_inline_box : BoxPtr)
    (htext : ∀ j : Nat, j < fs.length →
      (getFragment fs (j : Int)).type = FragmentType.TextRun ∧
      ((getFragment fs (j : Int)).vertical_align = VerticalAlign.Top ∨
       (getFragment fs (j : Int)).vertical_align = VerticalAlign.Baseline)) :
    (Binary32.Close.sized heap is_root fs root_inline_box).max_ascent
      = (heap root_inline_box).GetHeightAboveBaseline ∧
    (heap root_inline_box).GetDepthBelowBaseline
      ≤ (Binary32.Close.sized heap is_root fs root_inline_box).max_descent ∧
    ((Binary32.Close.sized heap is_root fs root_inline_box).max_descent
        = (heap root_inline_box).GetDepthBelowBaseline ∨
      ∃ j : Nat, j < fs.length ∧
        (getFragment fs (j : Int)).vertical_align = VerticalAlign.Top ∧
        (Binary32.Close.sized heap is_root fs root_inline_box).max_descent =
          Binary32.round (Binary32.round
            ((heap (getFragment fs (j : Int)).box).GetHeightAboveBaseline +
              (heap (getFragment fs (j : Int)).box).GetDepthBelowBaseline) -
            (heap root_inline_box).GetHeightAboveBaseline)) ∧
    (∀ j : Nat, j < fs.length →
      (getFragment fs (j : Int)).aligned_subtree_root = -1 →
      (getFragment fs (j : Int)).parent_fragment < 0 →
      (getFragment (Binary32.Close.sized heap is_root fs root_inline_box).fragments
        (j : Int)).baseline_offset
        = Binary32.round (0 + (heap (getFragment fs (j : Int)).box).GetVerticalOffsetFromParent))
    := by
  have hindex : ∀ i ∈ indexRange 0 (fs.length : Int),
      ∃ j : Nat, (j : Int) = i ∧ j < fs.length := by
    intro i hi
    obtain ⟨h0, hlt⟩ := (mem_indexRange _ _ _).mp hi
    obtain ⟨j, hj⟩ := Int.eq_ofNat_of_zero_le h0
    exact ⟨j, hj.symm, by omega⟩
  have hpass_layout := VerticallyAlignSubtree_map_eq_binary32 Fragment.layout (fun f b => rfl)
    heap fs (-1) (fs.length : Int) (heap root_inline_box).GetHeightAboveBaseline
    (heap root_inline_box).GetDepthBelowBaseline
  have hpass : (Binary32.VerticallyAlignSubtree heap fs (-1) (fs.length : Int)
        (heap root_inline_box).GetHeightAboveBaseline
        (heap root_inline_box).GetDepthBelowBaseline).max_ascent
        = (heap root_inline_box).GetHeightAboveBaseline ∧
      (Binary32.VerticallyAlignSubtree heap fs (-1) (fs.length : Int)
        (heap root_inline_box).GetHeightAboveBaseline
        (heap root_inline_box).GetDepthBelowBaseline).max_descent
        = (heap root_inline_box).GetDepthBelowBaseline := by
    unfold Binary32.VerticallyAlignSubtree
    apply foldl_step_text_binary32
    intro i hi
    have hi' : i ∈ indexRange 0 (fs.length : Int) := by
      rw [mem_indexRange] at hi ⊢
      omega
    obtain ⟨j, hj, hjlt⟩ := hindex i hi'
    rw [← hj]
    exact (htext j hjlt).1
  have hfields : ∀ k : Int,
      (getFragment (Binary32.VerticallyAlignSubtree heap fs (-1) (fs.length : Int)
        (heap root_inline_box).GetHeightAboveBaseline
        (heap root_inline_box).GetDepthBelowBaseline).fragments k).box
        = (getFragment fs k).box ∧
      (getFragment (Binary32.VerticallyAlignSubtree heap fs (-1) (fs.length : Int)
        (heap root_inline_box).GetHeightAboveBaseline
        (heap root_inline_box).GetDepthBelowBaseline).fragments k).type
        = (getFragment fs k).type ∧
      (getFragment (Binary32.VerticallyAlignSubtree heap fs (-1) (fs.length : Int)
        (heap root_inline_box).GetHeightAboveBaseline
        (heap root_inline_box).GetDepthBelowBaseline).fragments k).vertical_align
        = (getFragment fs k).vertical_align := by
    intro k
    have := layout_fields (getFragment_map_eq Fragment.layout hpass_layout k)
    exact ⟨this.1, this.2.2.1, this.2.2.2.1⟩
  have hloop := foldl_alignSubtree_text_binary32 heap is_root (indexRange 0 (fs.length : Int))
    (Binary32.VerticallyAlignSubtree heap fs (-1) (fs.length : Int)
      (heap root_inline_box).GetHeightAboveBaseline (heap root_inline_box).GetDepthBelowBaseline)
    (by
      intro i hi
      obtain ⟨j, hj, hjlt⟩ := hindex i hi
      rw [(hfields i).2.1, (hfields i).2.2, ← hj]
      exact htext j hjlt)
  have hmono := foldl_mono _ (alignSubtree_mono_binary32 heap is_root)
    (indexRange 0 (fs.length : Int))
    (Binary32.VerticallyAlignSubtree heap fs (-1) (fs.length : Int)
      (heap root_inline_box).GetHeightAboveBaseline (heap root_inline_box).GetDepthBelowBaseline)
  have hmaxima := foldl_alignSubtree_map_eraseMaxima_binary32 heap is_root
    (indexRange 0 (fs.length : Int))
    (Binary32.VerticallyAlignSubtree heap fs (-1) (fs.length : Int)
      (heap root_inline_box).GetHeightAboveBaseline (heap root_inline_box).GetDepthBelowBaseline)
    (by
      intro i hi
      obtain ⟨j, hj, hjlt⟩ := hindex i hi
      rw [(hfields i).2.1, ← hj, (htext j hjlt).1]
      decide)
  unfold Binary32.Close.sized
  rw [hpass.1, hpass.2] at hloop
  rw [hpass.2] at hmono
  refine ⟨hloop.1, hmono.2, ?_, ?_⟩
  · rcases hloop.2 with h | ⟨i, hi, htop, h⟩
    · exact Or.inl h
    · obtain ⟨j, hj, hjlt⟩ := hindex i hi
      rw [(hfields i).2.2] at htop
      rw [(hfields i).1] at h
      rw [← hj] at htop h
      exact Or.inr ⟨j, hjlt, htop, h⟩
  · intro j hj hasr hparent
    rw [(eraseMaxima_fields (getFragment_map_eq Fragment.eraseMaxima hmaxima (j : Int))).2.2.2.2.2.2]
    unfold Binary32.VerticallyAlignSubtree
    have hmem : (j : Int) ∈ indexRange (-1 + 1) (fs.length : Int) :=
      (mem_indexRange _ _ _).mpr ⟨by omega, by exact_mod_cast hj⟩
    exact foldl_step_baseline_binary32 heap (-1) (indexRange (-1 + 1) (fs.length : Int))
      { fragments := fs, max_ascent := (heap root_inline_box).GetHeightAboveBaseline,
        max_descent := (heap root_inline_box).GetDepthBelowBaseline }
      (indexRange_nodup _ _) (j : Int) hmem (by omega) (by exact_mod_cast hj) hasr hparent

/-- The maxima that the sizing of `Close` stores in a text fragment that passes the test
`is_root`, in binary32 arithmetic, are the metrics of its box, and the `Top` fragments among
them fit in the line as far as the code computes. -/
theorem sized_text_stored_binary32 (heap : BoxHeap) (is_root : Fragment → Bool)
    (hframe : ∀ f g : Fragment, f.layout = g.layout → is_root f = is_root g)
    (fs : List Fragment) (root_inline_box : BoxPtr) (j : Nat) (hj : j < fs.length)
    (htype : (getFragment fs (j : Int)).type = FragmentType.TextRun)
    (hroot : is_root (getFragment fs (j : Int)) = true) :
    (getFragment (Binary32.Close.sized heap is_root fs root_inline_box).fragments
      (j : Int)).max_ascent = (heap (getFragment fs (j : Int)).box).GetHeightAboveBaseline ∧
    (getFragment (Binary32.Close.sized heap is_root fs root_inline_box).fragments
      (j : Int)).max_descent = (heap (getFragment fs (j : Int)).box).GetDepthBelowBaseline ∧
    ((getFragment fs (j : Int)).vertical_align = VerticalAlign.Top →
      Binary32.round (Binary32.round
        ((heap (getFragment fs (j : Int)).box).GetHeightAboveBaseline +
          (heap (getFragment fs (j : Int)).box).GetDepthBelowBaseline) -
        (Binary32.Close.sized heap is_root fs root_inline_box).max_ascent)
      ≤ (Binary32.Close.sized heap is_root fs root_inline_box).max_descent) := by
  have hpass_layout := VerticallyAlignSubtree_map_eq_binary32 Fragment.layout (fun f b => rfl)
    heap fs (-1) (fs.length : Int) (heap root_inline_box).GetHeightAboveBaseline
    (heap root_inline_box).GetDepthBelowBaseline
  have hlen := length_eq_of_map_eq Fragment.layout hpass_layout
  have hfj := layout_fields (getFragment_map_eq Fragment.layout hpass_layout (j : Int))
  have hmem : (j : Int) ∈ indexRange 0 (fs.length : Int) :=
    (mem_indexRange _ _ _).mpr ⟨by omega, by exact_mod_cast hj⟩
  have hroot2 : is_root (getFragment (Binary32.VerticallyAlignSubtree heap fs (-1)
      (fs.length : Int) (heap root_inline_box).GetHeightAboveBaseline
      (heap root_inline_box).GetDepthBelowBaseline).fragments (j : Int)) = true := by
    rw [hframe _ _ (getFragment_map_eq Fragment.layout hpass_layout (j : Int))]
    exact hroot
  have hstored := foldl_alignSubtree_stored_binary32 heap is_root hframe
    (indexRange 0 (fs.length : Int))
    (Binary32.VerticallyAlignSubtree heap fs (-1) (fs.length : Int)
      (heap root_inline_box).GetHeightAboveBaseline
      (heap root_inline_box).GetDepthBelowBaseline)
    (indexRange_nodup _ _) (j : Int) hmem (by omega) (by rw [hlen]; exact_mod_cast hj)
    hroot2 (by rw [hfj.2.2.1, htype]; decide)
  have hfits := foldl_alignSubtree_fits_binary32 heap is_root hframe
    (indexRange 0 (fs.length : Int))
    (Binary32.VerticallyAlignSubtree heap fs (-1) (fs.length : Int)
      (heap root_inline_box).GetHeightAboveBaseline
      (heap root_inline_box).GetDepthBelowBaseline)
    (indexRange_nodup _ _) (j : Int) hmem (by omega) (by rw [hlen]; exact_mod_cast hj) hroot2
  rw [hfj.1] at hstored
  rw [hfj.2.2.2.1] at hfits
  unfold Binary32.Close.sized
  refine ⟨hstored.1, hstored.2, fun htop => ?_⟩
  have := hfits.1 htop
  rw [hstored.1, hstored.2] at this
  exact this

/-- The vertical position of the fragment at index `j` after the vertical pass of `Close`, in
binary32 arithmetic: the `max_ascent` that the sizing has left in the fragment when it is
aligned `Top`, and the ascent of the line plus the baseline offset of the fragment, rounded,
when it is aligned `Baseline` and has no aligned subtree root. -/
theorem positioned_position_binary32 (heap : BoxHeap) (is_root : Fragment → Bool)
    (fs : List Fragment) (root_inline_box : BoxPtr) (j : Nat) (hj : j < fs.length) :
    ((getFragment fs (j : Int)).vertical_align = VerticalAlign.Top →
      (getFragment (Binary32.Close.positioned heap is_root fs root_inline_box)
        (j : Int)).position.y
        = (getFragment (Binary32.Close.sized heap is_root fs root_inline_box).fragments
          (j : Int)).max_ascent) ∧
    ((getFragment fs (j : Int)).vertical_align = VerticalAlign.Baseline →
      (getFragment fs (j : Int)).aligned_subtree_root < 0 →
      (getFragment (Binary32.Close.positioned heap is_root fs root_inline_box)
        (j : Int)).position.y
        = Binary32.round ((Binary32.Close.sized heap is_root fs root_inline_box).max_ascent +
          (getFragment (Binary32.Close.sized heap is_root fs root_inline_box).fragments
            (j : Int)).baseline_offset)) := by
  have hlayout := sized_map_layout_binary32 heap is_root fs root_inline_box
  have hlen := length_eq_of_map_eq Fragment.layout hlayout
  have hfj := layout_fields (getFragment_map_eq Fragment.layout hlayout (j : Int))
  have hmem : (j : Int) ∈ indexRange 0 (fs.length : Int) :=
    (mem_indexRange _ _ _).mpr ⟨by omega, by exact_mod_cast hj⟩
  obtain ⟨htop, hbase⟩ := foldl_positionFragment_binary32
    (Binary32.Close.sized heap is_root fs root_inline_box).max_ascent
    (Binary32.Close.height heap is_root fs root_inline_box)
    (indexRange 0 (fs.length : Int))
    (Binary32.Close.sized heap is_root fs root_inline_box).fragments
    (indexRange_nodup _ _) (j : Int) hmem (by omega) (by rw [hlen]; exact_mod_cast hj)
  unfold Binary32.Close.positioned
  refine ⟨fun h => htop (by rw [hfj.2.2.2.1]; exact h), fun h hasr => ?_⟩
  apply hbase
  · rw [hfj.2.2.2.1, h]
    decide
  · rw [hfj.2.2.2.1, h]
    decide
  · rw [hfj.2.2.2.2.2.2.2.1]
    exact hasr

/-! ## The cursor of a line in binary32 arithmetic -/

theorem AddBox_line_cases_binary32 (heap : BoxHeap) (self : LayoutLineBox) (box : BoxPtr)
    (mode : InlineLayoutMode) (line_width : ℚ) (handle : LayoutOverflowHandle) :
    (Binary32.LayoutLineBox.AddBox heap self box mode line_width handle).line = self ∨
    (((Binary32.AddBox.call heap self box mode line_width handle).invoke heap).type
        = FragmentType.InlineBox ∧
      (Binary32.LayoutLineBox.AddBox heap self box mode line_width handle).line =
        { self with
          fragments := self.fragments ++ [Binary32.AddBox.appended_fragment heap self box
            ((Binary32.AddBox.call heap self box mode line_width handle).invoke heap)]
          open_fragments := self.open_fragments ++ [(self.fragments.length : Int)]
          open_spacing_left :=
            Binary32.round (self.open_spacing_left + (heap box).GetSpacingLeft) }) ∨
    ((((Binary32.AddBox.call heap self box mode line_width handle).invoke heap).type
        = FragmentType.SizedBox ∨
      ((Binary32.AddBox.call heap self box mode line_width handle).invoke heap).type
        = FragmentType.TextRun) ∧
      (Binary32.LayoutLineBox.AddBox heap self box mode line_width handle).line =
        { self with
          fragments := self.open_fragments.foldl
            (fun fs index => modifyFragment fs index (fun f => { f with has_content := true }))
            (self.fragments ++ [Binary32.AddBox.appended_fragment heap self box
              ((Binary32.AddBox.call heap self box mode line_width handle).invoke heap)])
          box_cursor := Binary32.round (Binary32.AddBox.box_placement_cursor self +
            ((Binary32.AddBox.call heap self box mode line_width handle).invoke
              heap).layout_width)
          open_spacing_left := 0 }) := by
  cases hno : Binary32.AddBox.no_width_available self mode line_width
  · cases ht : ((Binary32.AddBox.call heap self box mode line_width handle).invoke heap).type
    · left
      rw [AddBox_of_invalid_binary32 heap self box mode line_width handle hno ht]
    · right; left
      rw [AddBox_of_inline_box_binary32 heap self box mode line_width handle hno ht]
      exact ⟨rfl, rfl⟩
    · right; right
      rw [AddBox_of_fixed_size_binary32 heap self box mode line_width handle hno (Or.inl ht)]
      exact ⟨Or.inl rfl, rfl⟩
    · right; right
      rw [AddBox_of_fixed_size_binary32 heap self box mode line_width handle hno (Or.inr ht)]
      exact ⟨Or.inr rfl, rfl⟩
  · left
    rw [AddBox_of_no_width_available_binary32 heap self box mode line_width handle hno]

/-- In binary32 arithmetic `AddBox` does not move the cursor of a line back, when the cursor
is a single-precision value and the spacing and the widths are not negative; the new cursor is
a single-precision value again and the open left spacing stays not negative. -/
theorem AddBox_cursor_binary32 (heap : BoxHeap) (hheap : SpacingAndWidthsNonnegative heap)
    (self : LayoutLineBox) (hvalue : Binary32.IsValue self.box_cursor)
    (hspacing : 0 ≤ self.open_spacing_left) (box : BoxPtr) (mode : InlineLayoutMode)
    (line_width : ℚ) (handle : LayoutOverflowHandle) :
    self.box_cursor
      ≤ (Binary32.LayoutLineBox.AddBox heap self box mode line_width handle).line.box_cursor ∧
    Binary32.IsValue
      (Binary32.LayoutLineBox.AddBox heap self box mode line_width handle).line.box_cursor ∧
    0 ≤ (Binary32.LayoutLineBox.AddBox heap self box mode line_width
      handle).line.open_spacing_left := by
  rcases AddBox_line_cases_binary32 heap self box mode line_width handle with hline |
    ⟨_, hline⟩ | ⟨ht, hline⟩
  · rw [hline]
    exact ⟨le_refl _, hvalue, hspacing⟩
  · rw [hline]
    exact ⟨le_refl _, hvalue,
      Binary32.round_nonneg (add_nonneg hspacing (hheap.1 box).1)⟩
  · rw [hline]
    have hwidth : 0 ≤ ((Binary32.AddBox.call heap self box mode line_width handle).invoke
        heap).layout_width := hheap.2 box _ _ _ _ _ ht
    have h1 : self.box_cursor ≤ Binary32.AddBox.box_placement_cursor self :=
      Binary32.le_round_of_le hvalue (by linarith)
    have h2 : Binary32.AddBox.box_placement_cursor self ≤
        Binary32.round (Binary32.AddBox.box_placement_cursor self +
          ((Binary32.AddBox.call heap self box mode line_width handle).invoke
            heap).layout_width) :=
      Binary32.le_round_of_le (Binary32.isValue_round _) (by linarith)
    exact ⟨le_trans h1 h2, Binary32.isValue_round _, le_refl _⟩

/-- In binary32 arithmetic `CloseInlineBox` does not move the cursor of a line back, when the
cursor is a single-precision value and the spacing is not negative. -/
theorem CloseInlineBox_cursor_binary32 (heap : BoxHeap)
    (hheap : SpacingAndWidthsNonnegative heap) (self : LayoutLineBox)
    (hvalue : Binary32.IsValue self.box_cursor) (hspacing : 0 ≤ self.open_spacing_left)
    (inline_box : BoxPtr) :
    self.box_cursor
      ≤ (Binary32.LayoutLineBox.CloseInlineBox heap self inline_box).1.box_cursor ∧
    Binary32.IsValue (Binary32.LayoutLineBox.CloseInlineBox heap self inline_box).1.box_cursor ∧
    0 ≤ (Binary32.LayoutLineBox.CloseInlineBox heap self inline_box).1.open_spacing_left := by
  unfold Binary32.LayoutLineBox.CloseInlineBox
  split
  · exact ⟨le_refl _, hvalue, hspacing⟩
  · refine ⟨?_, Binary32.isValue_round _, le_refl _⟩
    have h1 : self.box_cursor ≤ Binary32.round (self.box_cursor + self.open_spacing_left) :=
      Binary32.le_round_of_le hvalue (by linarith)
    refine le_trans h1 (Binary32.le_round_of_le (Binary32.isValue_round _) ?_)
    have := (hheap.1 (getFragment (Binary32.CloseFragment heap self.fragments
      (self.open_fragments.getLastD RootFragmentIndex)
      (Binary32.round (self.box_cursor + self.open_spacing_left)))
      (self.open_fragments.getLastD RootFragmentIndex)).box).2
    linarith

theorem copyOpenFragment_cursor_binary32 (heap : BoxHeap)
    (hheap : SpacingAndWidthsNonnegative heap) (fragments : List Fragment)
    (new_line : LayoutLineBox) (i : Int) :
    (Binary32.SplitLine.copyOpenFragment heap fragments new_line i).box_cursor
      = new_line.box_cursor ∧
    (0 ≤ new_line.open_spacing_left →
      0 ≤ (Binary32.SplitLine.copyOpenFragment heap fragments new_line i).open_spacing_left)
    := by
  unfold Binary32.SplitLine.copyOpenFragment
  simp only []
  split
  · exact ⟨rfl, fun h => h⟩
  · exact ⟨rfl, fun h => Binary32.round_nonneg (add_nonneg h (hheap.1 _).1)⟩

theorem foldl_copyOpenFragment_cursor_binary32 (heap : BoxHeap)
    (hheap : SpacingAndWidthsNonnegative heap) (fragments : List Fragment)
    (indices : List Int) :
    ∀ new_line : LayoutLineBox,
    (indices.foldl (Binary32.SplitLine.copyOpenFragment heap fragments) new_line).box_cursor
      = new_line.box_cursor ∧
    (0 ≤ new_line.open_spacing_left →
      0 ≤ (indices.foldl (Binary32.SplitLine.copyOpenFragment heap fragments)
        new_line).open_spacing_left) := by
  induction indices with
  | nil => intro new_line; exact ⟨rfl, fun h => h⟩
  | cons i rest ih =>
    intro new_line
    rw [List.foldl_cons]
    obtain ⟨h1, h2⟩ := copyOpenFragment_cursor_binary32 heap hheap fragments new_line i
    obtain ⟨h3, h4⟩ := ih (Binary32.SplitLine.copyOpenFragment heap fragments new_line i)
    exact ⟨h3.trans h1, fun h => h4 (h2 h)⟩

/-- The cursor of a line made in binary32 arithmetic is a single-precision value, and the
open left spacing is not negative when the spacing of the boxes is not. -/
theorem cursor_of_Reachable_binary32 (heap : BoxHeap)
    (hheap : SpacingAndWidthsNonnegative heap) (line : LayoutLineBox)
    (hreach : Binary32.Reachable heap line) :
    Binary32.IsValue line.box_cursor ∧ 0 ≤ line.open_spacing_left := by
  induction hreach with
  | new_line => exact ⟨Binary32.isValue_zero, le_refl _⟩
  | set_line_box self line_position line_width _ ih => exact ih
  | add_box self box mode line_width handle _ ih =>
    exact (AddBox_cursor_binary32 heap hheap self ih.1 ih.2 box mode line_width handle).2
  | close_inline_box self inline_box _ ih =>
    exact (CloseInlineBox_cursor_binary32 heap hheap self ih.1 ih.2 inline_box).2
  | split_line self new_line _ hsplit _ =>
    by_cases hopen : self.open_fragments = []
    · rw [SplitLine_of_nil_binary32 heap self hopen] at hsplit
      simp at hsplit
    · rw [SplitLine_of_ne_nil_binary32 heap self hopen] at hsplit
      simp only [Option.some.injEq] at hsplit
      rw [← hsplit]
      obtain ⟨h1, h2⟩ := foldl_copyOpenFragment_cursor_binary32 heap hheap self.fragments
        self.open_fragments {}
      refine ⟨?_, h2 (le_refl _)⟩
      show Binary32.IsValue (List.foldl (Binary32.SplitLine.copyOpenFragment heap
        self.fragments) {} self.open_fragments).box_cursor
      rw [h1]
      exact Binary32.isValue_zero

theorem Reachable_of_ReachableWithoutRounding (heap : BoxHeap) (line : LayoutLineBox)
    (hreach : Binary32.ReachableWithoutRounding heap line) : Reachable heap line := by
  induction hreach with
  | new_line => exact Reachable.new_line
  | set_line_box self line_position line_width _ ih =>
    exact Reachable.set_line_box self line_position line_width ih
  | add_box self box mode line_width handle _ heq ih =>
    rw [heq]
    exact Reachable.add_box self box mode line_width handle ih
  | close_inline_box self inline_box _ heq ih =>
    rw [heq]
    exact Reachable.close_inline_box self inline_box ih
  | split_line self new_line _ heq hsplit ih =>
    rw [heq] at hsplit
    exact Reachable.split_line self new_line ih hsplit

theorem Reachable_of_ReachableWithoutRounding_binary32 (heap : BoxHeap) (line : LayoutLineBox)
    (hreach : Binary32.ReachableWithoutRounding heap line) : Binary32.Reachable heap line := by
  induction hreach with
  | new_line => exact Binary32.Reachable.new_line
  | set_line_box self line_position line_width _ ih =>
    exact Binary32.Reachable.set_line_box self line_position line_width ih
  | add_box self box mode line_width handle _ _ ih =>
    exact Binary32.Reachable.add_box self box mode line_width handle ih
  | close_inline_box self inline_box _ _ ih =>
    exact Binary32.Reachable.close_inline_box self inline_box ih
  | split_line self new_line _ _ hsplit ih =>
    exact Binary32.Reachable.split_line self new_line ih hsplit

theorem Example.sized_box_nonnegative (width : ℚ) (hwidth : 0 ≤ width)
    (mode : InlineLayoutMode) (available_width right_spacing_width : ℚ) (first_box : Bool)
    (in_overflow_handle : LayoutOverflowHandle) :
    0 ≤ ((Example.sized_box width).CreateFragment mode available_width
      right_spacing_width first_box in_overflow_handle).layout_width := by
  unfold Example.sized_box
  simp only []
  split
  · exact le_refl _
  · exact hwidth

theorem Example.inline_box_type (l r : ℚ)
    (mode : InlineLayoutMode) (available_width right_spacing_width : ℚ) (first_box : Bool)
    (in_overflow_handle : LayoutOverflowHandle) :
    ((Example.inline_box l r).CreateFragment mode available_width
      right_spacing_width first_box in_overflow_handle).type = FragmentType.InlineBox := rfl

theorem Example.box_cases_ite (c : Prop) [Decidable c] (a b : InlineLevelBox)
    (ha : (∃ width : ℚ, 0 ≤ width ∧ a = Example.sized_box width) ∨
      (∃ l r : ℚ, 0 ≤ l ∧ 0 ≤ r ∧ a = Example.inline_box l r))
    (hb : (∃ width : ℚ, 0 ≤ width ∧ b = Example.sized_box width) ∨
      (∃ l r : ℚ, 0 ≤ l ∧ 0 ≤ r ∧ b = Example.inline_box l r)) :
    (∃ width : ℚ, 0 ≤ width ∧ (if c then a else b) = Example.sized_box width) ∨
    (∃ l r : ℚ, 0 ≤ l ∧ 0 ≤ r ∧ (if c then a else b) = Example.inline_box l r) := by
  split
  · exact ha
  · exact hb

theorem Example.binary32_heap_cases (box : BoxPtr) :
    (∃ width : ℚ, 0 ≤ width ∧ Example.binary32_heap box = Example.sized_box width) ∨
    (∃ l r : ℚ, 0 ≤ l ∧ 0 ≤ r ∧ Example.binary32_heap box = Example.inline_box l r) := by
  unfold Example.binary32_heap
  refine Example.box_cases_ite _ _ _ (Or.inl ⟨_, by norm_num, rfl⟩) ?_
  refine Example.box_cases_ite _ _ _ (Or.inl ⟨_, by norm_num, rfl⟩) ?_
  refine Example.box_cases_ite _ _ _ (Or.inl ⟨_, by norm_num, rfl⟩) ?_
  refine Example.box_cases_ite _ _ _ (Or.inr ⟨_, _, by norm_num, le_refl _, rfl⟩) ?_
  refine Example.box_cases_ite _ _ _ (Or.inl ⟨_, by norm_num, rfl⟩) ?_
  refine Example.box_cases_ite _ _ _ (Or.inl ⟨_, by norm_num, rfl⟩) ?_
  refine Example.box_cases_ite _ _ _ (Or.inl ⟨_, by norm_num, rfl⟩) ?_
  refine Example.box_cases_ite _ _ _ (Or.inr ⟨_, _, by norm_num, le_refl _, rfl⟩) ?_
  refine Example.box_cases_ite _ _ _ (Or.inl ⟨_, le_refl _, rfl⟩) ?_
  refine Example.box_cases_ite _ _ _ (Or.inl ⟨_, by norm_num, rfl⟩) ?_
  exact Or.inr ⟨_, _, le_refl _, le_refl _, rfl⟩

theorem Example.binary32_heap_nonnegative :
    SpacingAndWidthsNonnegative Example.binary32_heap := by
  refine ⟨?_, ?_⟩
  · intro box
    rcases Example.binary32_heap_cases box with ⟨width, _, h⟩ | ⟨l, r, hl, hr, h⟩
    · rw [h]
      exact ⟨le_refl _, le_refl _⟩
    · rw [h]
      exact ⟨hl, hr⟩
  · intro box mode available_width right_spacing_width first_box in_overflow_handle
    rcases Example.binary32_heap_cases box with ⟨width, hwidth, h⟩ | ⟨l, r, _, _, h⟩
    · rw [h]
      exact fun _ => Example.sized_box_nonnegative width hwidth _ _ _ _ _
    · rw [h, Example.inline_box_type]
      intro hcase
      rcases hcase with hcase | hcase <;> exact absurd hcase (by decide)

/-! ## The text box -/

theorem alignSubtree_congr_binary32 (heap : BoxHeap) (is_root is_root2 : Fragment → Bool)
    (state : VerticalAlignment) (i : Int)
    (h : is_root (getFragment state.fragments i) = is_root2 (getFragment state.fragments i)) :
    Binary32.Close.alignSubtree heap is_root state i
      = Binary32.Close.alignSubtree heap is_root2 state i := by
  unfold Binary32.Close.alignSubtree
  simp only [h]

theorem foldl_alignSubtree_congr_binary32 (heap : BoxHeap)
    (is_root is_root2 : Fragment → Bool)
    (hframe : ∀ f g : Fragment, f.layout = g.layout → is_root f = is_root g)
    (hframe2 : ∀ f g : Fragment, f.layout = g.layout → is_root2 f = is_root2 g)
    (fs : List Fragment) (hagree : ∀ f ∈ fs, is_root f = is_root2 f) (indices : List Int) :
    ∀ state : VerticalAlignment,
    state.fragments.map Fragment.layout = fs.map Fragment.layout →
    (∀ i ∈ indices, 0 ≤ i ∧ i < (fs.length : Int)) →
    indices.foldl (Binary32.Close.alignSubtree heap is_root) state
      = indices.foldl (Binary32.Close.alignSubtree heap is_root2) state := by
  induction indices with
  | nil => intro state _ _; rfl
  | cons i rest ih =>
    intro state hlayout hrange
    rw [List.foldl_cons, List.foldl_cons]
    obtain ⟨h0, hlt⟩ := hrange i (List.mem_cons_self _ _)
    obtain ⟨j, rfl⟩ := Int.eq_ofNat_of_zero_le h0
    have hj : j < fs.length := by exact_mod_cast hlt
    have hsame := getFragment_map_eq Fragment.layout hlayout (j : Int)
    have hstep := alignSubtree_congr_binary32 heap is_root is_root2 state (j : Int) (by
      rw [hframe _ _ hsame, hframe2 _ _ hsame]
      exact hagree _ (getFragment_mem hj))
    rw [← hstep]
    exact ih _ ((alignSubtree_map_layout_binary32 heap is_root state (j : Int)).trans hlayout)
      (fun k hk => hrange k (List.mem_cons_of_mem _ hk))

/-- `Close` does the same under two tests `IsAlignedSubtreeRoot` that agree on the fragments
of the line. -/
theorem Close_congr_binary32 (heap : BoxHeap) (is_root is_root2 : Fragment → Bool)
    (hframe : ∀ f g : Fragment, f.layout = g.layout → is_root f = is_root g)
    (hframe2 : ∀ f g : Fragment, f.layout = g.layout → is_root2 f = is_root2 g)
    (self : LayoutLineBox) (root_inline_box : BoxPtr) (offset_parent : Nat)
    (line_position : Vector2f) (text_align : TextAlign)
    (hagree : ∀ f ∈ (Binary32.LayoutLineBox.SplitLine heap self).1.fragments,
      is_root f = is_root2 f) :
    Binary32.LayoutLineBox.Close heap is_root self root_inline_box offset_parent line_position
        text_align
      = Binary32.LayoutLineBox.Close heap is_root2 self root_inline_box offset_parent
        line_position text_align := by
  have hsized : Binary32.Close.sized heap is_root
      (Binary32.LayoutLineBox.SplitLine heap self).1.fragments root_inline_box
      = Binary32.Close.sized heap is_root2
        (Binary32.LayoutLineBox.SplitLine heap self).1.fragments root_inline_box := by
    unfold Binary32.Close.sized
    exact foldl_alignSubtree_congr_binary32 heap is_root is_root2 hframe hframe2 _ hagree _ _
      (VerticallyAlignSubtree_map_eq_binary32 Fragment.layout (fun f b => rfl) _ _ _ _ _ _)
      (fun i hi => (mem_indexRange _ _ _).mp hi)
  have hheight : Binary32.Close.height heap is_root
      (Binary32.LayoutLineBox.SplitLine heap self).1.fragments root_inline_box
      = Binary32.Close.height heap is_root2
        (Binary32.LayoutLineBox.SplitLine heap self).1.fragments root_inline_box := by
    unfold Binary32.Close.height
    rw [hsized]
  have hpositioned : Binary32.Close.positioned heap is_root
      (Binary32.LayoutLineBox.SplitLine heap self).1.fragments root_inline_box
      = Binary32.Close.positioned heap is_root2
        (Binary32.LayoutLineBox.SplitLine heap self).1.fragments root_inline_box := by
    unfold Binary32.Close.positioned
    rw [hsized, hheight]
  unfold Binary32.LayoutLineBox.Close
  simp only [hsized, hheight, hpositioned]

/-! ## Claims on `AddBox` and `CloseInlineBox` -/

/-- C2: under `WrapAny`, when the box answers the call of `CreateFragment` that `AddBox`
makes with an `Invalid` fragment (it does not fit in the remaining width and is not the
first box on the line), `AddBox` returns true and leaves the line as it was: the fragment
array, `box_cursor`, `open_spacing_left` and the stack of open fragments are unchanged. -/
theorem AddBox_invalid_fragment_requests_new_line (heap : BoxHeap) (self : LayoutLineBox)
    (box : BoxPtr) (line_width : ℚ) (handle : LayoutOverflowHandle)
    (hinvalid : ((AddBox.call heap self box InlineLayoutMode.WrapAny line_width handle).invoke
      heap).type = FragmentType.Invalid) :
    (self.AddBox heap box InlineLayoutMode.WrapAny line_width handle).continue_on_new_line = true ∧
    (self.AddBox heap box InlineLayoutMode.WrapAny line_width handle).line = self := by
  cases h : AddBox.no_width_available self InlineLayoutMode.WrapAny line_width
  · rw [AddBox_of_invalid heap self box _ line_width handle h hinvalid]
    exact ⟨rfl, rfl⟩
  · rw [AddBox_of_no_width_available heap self box _ line_width handle h]
    exact ⟨rfl, rfl⟩

/-- C2, the scenario of the spec: after boxes of width 30 and 30 on a line of width 80 a box
of width 50 is refused (an `Invalid` fragment), `AddBox` returns true and the line keeps its
2 fragments and `box_cursor = 60`; the same box on a new line is accepted, with
`box_cursor = 50`. -/
theorem AddBox_invalid_fragment_requests_new_line_witness :
    ((AddBox.call Example.heap Example.line_30_30 2 InlineLayoutMode.WrapAny 80 0).invoke
      Example.heap).type = FragmentType.Invalid ∧
    ((Example.line_30_30.AddBox Example.heap 2 InlineLayoutMode.WrapAny 80 0).continue_on_new_line
      = true ∧
     (Example.line_30_30.AddBox Example.heap 2 InlineLayoutMode.WrapAny 80 0).line
      = Example.line_30_30) ∧
    Example.line_30_30.fragments.length = 2 ∧
    Example.line_30_30.box_cursor = 60 ∧
    (({} : LayoutLineBox).AddBox Example.heap 2 InlineLayoutMode.WrapAny 80 0).continue_on_new_line
      = false ∧
    (({} : LayoutLineBox).AddBox Example.heap 2 InlineLayoutMode.WrapAny 80 0).line.fragments.length
      = 1 ∧
    (({} : LayoutLineBox).AddBox Example.heap 2 InlineLayoutMode.WrapAny 80 0).line.box_cursor
      = 50 :=
  ⟨by with_unfolding_all decide,
   AddBox_invalid_fragment_requests_new_line Example.heap Example.line_30_30 2 80 0
     (by with_unfolding_all decide),
   by with_unfolding_all decide, by with_unfolding_all decide, by with_unfolding_all decide,
   by with_unfolding_all decide, by with_unfolding_all decide⟩

/-- C7: when the stack of open fragments is empty, or the fragment on top of it was not
produced by `inline_box`, `CloseInlineBox` reports the mismatch and returns the line as it
was: every fragment, the stack, `box_cursor` and `open_spacing_left` are unchanged. -/
theorem CloseInlineBox_mismatch_ignored (heap : BoxHeap) (self : LayoutLineBox)
    (inline_box : BoxPtr)
    (hmismatch : self.open_fragments = [] ∨
      (getFragment self.fragments (self.open_fragments.getLastD (-1))).box ≠ inline_box) :
    self.CloseInlineBox heap inline_box = (self, some "Inline box open/close mismatch.") := by
  unfold LayoutLineBox.CloseInlineBox
  rw [if_pos]
  rcases hmismatch with h | h
  · left
    rw [h]
    rfl
  · right
    exact h

/-- C7 on two examples: closing an inline box on a new line, and closing the box at address 6
while the box at address 4 is the one on top of the stack. -/
theorem CloseInlineBox_mismatch_ignored_witness :
    ({} : LayoutLineBox).CloseInlineBox Example.heap 4 =
      ({}, some "Inline box open/close mismatch.") ∧
    Example.line_box_40.CloseInlineBox Example.heap 6 =
      (Example.line_box_40, some "Inline box open/close mismatch.") :=
  ⟨CloseInlineBox_mismatch_ignored Example.heap {} 4 (Or.inl rfl),
   CloseInlineBox_mismatch_ignored Example.heap Example.line_box_40 6
     (Or.inr (by with_unfolding_all decide))⟩

/-! ## Claims on `SplitLine` -/

/-- C9: for a reachable line with `n ≥ 1` open fragments, `SplitLine` returns a new line
with exactly `n` fragments; fragment `k` is a copy of the `k`-th open fragment (all fields but
the position, the parent, the aligned subtree root, `split_left` and `has_content` are those of
the source), has type `InlineBox`, `children_end_index = 0`, `has_content = false`,
`position.x = 0` and `parent_fragment = k - 1`; the stack of open fragments of the new line
is `[0, ..., n-1]` and its `box_cursor` is 0. So the integrity assertions at the end of
`SplitLine` hold: the type, `parent_fragment < k`, the parent is none or an inline box, the
aligned subtree root is none or an aligned subtree root, `children_end_index = 0`, and the
stack is as long as the fragment array. -/
theorem SplitLine_new_line_integrity (heap : BoxHeap) (self : LayoutLineBox)
    (hreach : Reachable heap self) (hopen : self.open_fragments ≠ []) :
    ∃ new_line : LayoutLineBox, (self.SplitLine heap).2 = some new_line ∧
      new_line.fragments.length = self.open_fragments.length ∧
      new_line.open_fragments =
        (List.range self.open_fragments.length).map (fun k : Nat => (k : Int)) ∧
      new_line.open_fragments.length = new_line.fragments.length ∧
      new_line.box_cursor = 0 ∧
      (∀ (k : Nat) (i : Int), self.open_fragments[k]? = some i →
        ∃ clone : Fragment, new_line.fragments[k]? = some clone ∧
          clone = { getFragment self.fragments i with
            position := { x := 0, y := (getFragment self.fragments i).position.y }
            parent_fragment := (k : Int) - 1
            aligned_subtree_root := clone.aligned_subtree_root
            split_left := clone.split_left
            has_content := false } ∧
          clone.type = FragmentType.InlineBox ∧
          clone.children_end_index = 0 ∧
          clone.has_content = false ∧
          clone.position.x = 0 ∧
          clone.parent_fragment = (k : Int) - 1 ∧
          clone.parent_fragment < (k : Int) ∧
          (clone.parent_fragment = -1 ∨
            (getFragment new_line.fragments clone.parent_fragment).type
              = FragmentType.InlineBox) ∧
          (clone.aligned_subtree_root = -1 ∨
            IsAlignedSubtreeRoot (getFragment new_line.fragments clone.aligned_subtree_root)
              = true)) := by
  have hvalid := OpenFragmentsValid_of_Reachable heap self hreach
  obtain ⟨new_line, hsome, hlen, hstack, hcursor, _, hclone⟩ :=
    SplitLine_new_line heap self hopen
  have htype : ∀ (k : Nat) (i : Int), self.open_fragments[k]? = some i →
      (getFragment new_line.fragments (k : Int)).type = FragmentType.InlineBox := by
    intro k i hk
    rw [getFragment_of_getElem? (hclone k i hk)]
    have hmem : i ∈ self.open_fragments := List.getElem?_mem hk
    simpa [SplitLine.clone] using (hvalid.2 i hmem).2.2.1
  refine ⟨new_line, hsome, hlen, hstack, ?_, hcursor, ?_⟩
  · rw [hstack, hlen]
    simp
  · intro k i hk
    have hklt : k < self.open_fragments.length := by
      rcases List.getElem?_eq_some_iff.mp hk with ⟨hlt, _⟩
      exact hlt
    have htake : (new_line.fragments.take k).length = k := by
      rw [List.length_take]
      omega
    have hmem : i ∈ self.open_fragments := List.getElem?_mem hk
    obtain ⟨_, _, hsrc_type, hsrc_end⟩ := hvalid.2 i hmem
    refine ⟨_, hclone k i hk, ?_, ?_, ?_, rfl, rfl, ?_, ?_, ?_, ?_⟩
    · simp [SplitLine.clone, htake]
    · simpa [SplitLine.clone] using hsrc_type
    · simpa [SplitLine.clone] using hsrc_end
    · simp [SplitLine.clone, htake]
    · simp only [SplitLine.clone, htake]
      omega
    · simp only [SplitLine.clone, htake]
      cases k with
      | zero => left; simp
      | succ k =>
        right
        have hprev : k < self.open_fragments.length := by omega
        have := htype k _ (List.getElem?_eq_getElem hprev)
        have hidx : ((k + 1 : Nat) : Int) - 1 = (k : Int) := by push_cast; ring
        rw [hidx]
        exact this
    · have hroot := DetermineAlignedSubtreeRootLoop_root
        (new_line.fragments.take k ++ [{ getFragment self.fragments i with
          position := { (getFragment self.fragments i).position with x := 0 }
          parent_fragment := ((new_line.fragments.take k).length : Int) - 1 }])
        ((new_line.fragments.take k ++ [{ getFragment self.fragments i with
          position := { (getFragment self.fragments i).position with x := 0 }
          parent_fragment := ((new_line.fragments.take k).length : Int) - 1 }]).length + 1)
        ((new_line.fragments.take k).length : Int)
      rcases hroot with hroot | hroot
      · left
        exact hroot
      · right
        exact IsAlignedSubtreeRoot_of_prefix new_line.fragments k
          { getFragment self.fragments i with
            position := { (getFragment self.fragments i).position with x := 0 }
            parent_fragment := ((new_line.fragments.take k).length : Int) - 1 }
          _ (hclone k i hk) rfl _ hroot

/-- C9 on an example: the line with the open inline box at address 4 and a box of width 40
in it is split; the new line holds one fragment, the copy of the inline-box fragment at
`position.x = 0` without parent, and its stack of open fragments is `[0]`. -/
theorem SplitLine_new_line_integrity_witness :
    (∃ new_line : LayoutLineBox, (Example.line_box_40.SplitLine Example.heap).2 = some new_line ∧
      new_line.fragments.length = Example.line_box_40.open_fragments.length ∧
      new_line.open_fragments =
        (List.range Example.line_box_40.open_fragments.length).map (fun k : Nat => (k : Int)) ∧
      new_line.open_fragments.length = new_line.fragments.length ∧
      new_line.box_cursor = 0 ∧
      (∀ (k : Nat) (i : Int), Example.line_box_40.open_fragments[k]? = some i →
        ∃ clone : Fragment, new_line.fragments[k]? = some clone ∧
          clone = { getFragment Example.line_box_40.fragments i with
            position := { x := 0, y := (getFragment Example.line_box_40.fragments i).position.y }
            parent_fragment := (k : Int) - 1
            aligned_subtree_root := clone.aligned_subtree_root
            split_left := clone.split_left
            has_content := false } ∧
          clone.type = FragmentType.InlineBox ∧
          clone.children_end_index = 0 ∧
          clone.has_content = false ∧
          clone.position.x = 0 ∧
          clone.parent_fragment = (k : Int) - 1 ∧
          clone.parent_fragment < (k : Int) ∧
          (clone.parent_fragment = -1 ∨
            (getFragment new_line.fragments clone.parent_fragment).type
              = FragmentType.InlineBox) ∧
          (clone.aligned_subtree_root = -1 ∨
            IsAlignedSubtreeRoot (getFragment new_line.fragments clone.aligned_subtree_root)
              = true))) ∧
    Example.line_continued.fragments.length = 1 ∧
    Example.line_continued.open_fragments = [0] ∧
    (getFragment Example.line_continued.fragments 0).parent_fragment = -1 ∧
    (getFragment Example.line_continued.fragments 0).type = FragmentType.InlineBox :=
  ⟨SplitLine_new_line_integrity Example.heap Example.line_box_40
    (Reachable.add_box _ 3 InlineLayoutMode.WrapAny 80 0
      (Reachable.add_box _ 4 InlineLayoutMode.WrapAny 80 0 Reachable.new_line))
    (by with_unfolding_all decide),
   by with_unfolding_all decide, by with_unfolding_all decide, by with_unfolding_all decide,
   by with_unfolding_all decide⟩

/-- C16, what the code does: the text box asks the line generator with
`allow_empty = (mode == WrapAny)`, whatever `first_box` is. Under `Wrap` and `Nowrap`
`allow_empty` is false, and under `WrapAny` with `first_box = false` it is true, as claimed;
but under `WrapAny` with `first_box = true` it is true as well, and when the generator then
answers with no text (nothing of `Example.text_element` fits in width 0) the first box of the
line gets an `Invalid` fragment. -/
theorem text_box_allow_empty_ignores_first_box :
    (∀ (mode : InlineLayoutMode) (available_width right_spacing_width : ℚ) (first_box : Bool)
      (handle : LayoutOverflowHandle),
      (InlineLevelBox_Text.generateLineCall mode available_width right_spacing_width first_box
        handle).allow_empty = decide (mode = InlineLayoutMode.WrapAny) ∧
      (InlineLevelBox_Text.generateLineCall mode available_width right_spacing_width first_box
        handle).first_box = first_box) ∧
    (InlineLevelBox_Text.generateLineCall InlineLayoutMode.WrapAny 0 0 true 0).allow_empty
      = true ∧
    (InlineLevelBox_Text.CreateFragment Example.text_element InlineLayoutMode.WrapAny 0 0 true
      0).type = FragmentType.Invalid := by
  refine ⟨fun _ _ _ _ _ => ⟨rfl, rfl⟩, rfl, ?_⟩
  with_unfolding_all decide

/-- C20: in every reachable line (built from a new line or from a line made by `SplitLine`
with `SetLineBox`, `AddBox` and `CloseInlineBox`), the fragment at index `i` has
`-1 ≤ parent_fragment < i`, and a parent other than -1 is the index of a fragment of type
`InlineBox`. -/
theorem parent_fragment_before_fragment (heap : BoxHeap) (line : LayoutLineBox)
    (hreach : Reachable heap line) (i : Nat) (f : Fragment)
    (hf : line.fragments[i]? = some f) :
    -1 ≤ f.parent_fragment ∧ f.parent_fragment < (i : Int) ∧
    (f.parent_fragment ≠ -1 →
      (getFragment line.fragments f.parent_fragment).type = FragmentType.InlineBox) := by
  obtain ⟨h1, h2, h3, _⟩ := FragmentsValid_of_Reachable heap line hreach i f hf
  exact ⟨h1, h2, h3⟩

/-- C20 on an example: the box of width 40 in the open inline box is the fragment at index
1, and its parent is the inline-box fragment at index 0. -/
theorem parent_fragment_before_fragment_witness :
    (getFragment Example.line_box_40.fragments 1).parent_fragment = 0 ∧
    (-1 ≤ (getFragment Example.line_box_40.fragments 1).parent_fragment ∧
     (getFragment Example.line_box_40.fragments 1).parent_fragment < ((1 : Nat) : Int) ∧
     ((getFragment Example.line_box_40.fragments 1).parent_fragment ≠ -1 →
      (getFragment Example.line_box_40.fragments
        (getFragment Example.line_box_40.fragments 1).parent_fragment).type
        = FragmentType.InlineBox)) :=
  ⟨by with_unfolding_all decide,
   parent_fragment_before_fragment Example.heap Example.line_box_40
    (Reachable.add_box _ 3 InlineLayoutMode.WrapAny 80 0
      (Reachable.add_box _ 4 InlineLayoutMode.WrapAny 80 0 Reachable.new_line))
    1 (getFragment Example.line_box_40.fragments 1) (by with_unfolding_all decide)⟩

/-- C14, as the code has it: `Close` leaves the line with `is_closed = true`. In a build in
which `RMLUI_ASSERT` is fatal, a second call of `Close` stops at its first statement: there is
no result, so nothing is mutated, no continuation line is made and no box receives a
`Submit`. In a build in which the assertion expands to nothing, the second call is not
rejected and runs as `Close` does: it makes no continuation line and leaves the cursor, the
line width and everything in the fragments but the values of the vertical pass unchanged, the
line stays closed, and every box that received a `Submit` receives another one, in the same
order and with the same handle and width. -/
theorem Close_on_closed_line (heap : BoxHeap) (self : LayoutLineBox)
    (root_inline_box : BoxPtr) (offset_parent : Nat) (line_position : Vector2f)
    (text_align : TextAlign) (root_inline_box2 : BoxPtr) (offset_parent2 : Nat)
    (line_position2 : Vector2f) (text_align2 : TextAlign) :
    (self.Close heap root_inline_box offset_parent line_position text_align).line.is_closed
      = true ∧
    LayoutLineBox.CloseChecked true heap
      (self.Close heap root_inline_box offset_parent line_position text_align).line
      root_inline_box2 offset_parent2 line_position2 text_align2 = none ∧
    LayoutLineBox.CloseChecked false heap
      (self.Close heap root_inline_box offset_parent line_position text_align).line
      root_inline_box2 offset_parent2 line_position2 text_align2
      = some ((self.Close heap root_inline_box offset_parent line_position text_align).line.Close
          heap root_inline_box2 offset_parent2 line_position2 text_align2) ∧
    ((self.Close heap root_inline_box offset_parent line_position text_align).line.Close
      heap root_inline_box2 offset_parent2 line_position2 text_align2).new_line_box = none ∧
    ((self.Close heap root_inline_box offset_parent line_position text_align).line.Close
      heap root_inline_box2 offset_parent2 line_position2 text_align2).line.is_closed = true ∧
    ((self.Close heap root_inline_box offset_parent line_position text_align).line.Close
      heap root_inline_box2 offset_parent2 line_position2 text_align2).line.box_cursor
      = (self.Close heap root_inline_box offset_parent line_position text_align).line.box_cursor ∧
    ((self.Close heap root_inline_box offset_parent line_position text_align).line.Close
      heap root_inline_box2 offset_parent2 line_position2 text_align2).line.line_width
      = (self.Close heap root_inline_box offset_parent line_position text_align).line.line_width ∧
    ((self.Close heap root_inline_box offset_parent line_position text_align).line.Close
      heap root_inline_box2 offset_parent2 line_position2
      text_align2).line.fragments.map Fragment.layout
      = (self.Close heap root_inline_box offset_parent line_position
          text_align).line.fragments.map Fragment.layout ∧
    ((self.Close heap root_inline_box offset_parent line_position text_align).line.Close
      heap root_inline_box2 offset_parent2 line_position2 text_align2).submitted.map
      (fun call => (call.box, call.fragment_box.fragment_handle, call.fragment_box.layout_width))
      = (self.Close heap root_inline_box offset_parent line_position text_align).submitted.map
      (fun call => (call.box, call.fragment_box.fragment_handle,
        call.fragment_box.layout_width)) := by
  have hsplit := SplitLine_of_closed heap self root_inline_box offset_parent line_position
    text_align
  obtain ⟨hfragments, hcursor, _, hsubmitted, _, _, hclosed, hnew⟩ := Close_fields heap
    (self.Close heap root_inline_box offset_parent line_position text_align).line
    root_inline_box2 offset_parent2 line_position2 text_align2
  have hlayout : ((self.Close heap root_inline_box offset_parent line_position
      text_align).line.Close heap root_inline_box2 offset_parent2 line_position2
      text_align2).line.fragments.map Fragment.layout
      = (self.Close heap root_inline_box offset_parent line_position
          text_align).line.fragments.map Fragment.layout := by
    rw [hfragments, hsplit]
    exact positioned_map_layout heap _ root_inline_box2
  refine ⟨rfl, ?_, ?_, ?_, hclosed, hcursor, ?_, hlayout, ?_⟩
  · unfold LayoutLineBox.CloseChecked
    rw [if_pos]
    rfl
  · unfold LayoutLineBox.CloseChecked
    rw [if_neg]
    simp
  · rw [hnew, hsplit]
  · exact (SplitLine_line_fields heap _).2.1
  · rw [hfragments] at hlayout
    rw [hsubmitted]
    exact submitted_of_map_layout _ _ _ _ _ _ _ _ hlayout

/-- C14 as stated fails where the assertion expands to nothing: `Example.line_top_text` is
closed with `Left`, then `Close` is called again with `Right`. The second call is not
rejected: the box at address 11 receives a second `Submit` and the horizontal offset changes
from 0 to 70. -/
theorem second_Close_counterexample :
    (Example.line_top_text.Close Example.vertical_heap 10 0 {} TextAlign.Left).line.is_closed
      = true ∧
    (Example.line_top_text.Close Example.vertical_heap 10 0 {} TextAlign.Left).submitted.map
      (fun call => call.box) = [11] ∧
    (Example.line_top_text.Close Example.vertical_heap 10 0 {}
      TextAlign.Left).line.offset_horizontal_alignment = 0 ∧
    (LayoutLineBox.CloseChecked false Example.vertical_heap
      (Example.line_top_text.Close Example.vertical_heap 10 0 {} TextAlign.Left).line
      10 0 {} TextAlign.Right).map (fun second => second.submitted.map (fun call => call.box))
      = some [11] ∧
    (LayoutLineBox.CloseChecked false Example.vertical_heap
      (Example.line_top_text.Close Example.vertical_heap 10 0 {} TextAlign.Left).line
      10 0 {} TextAlign.Right).map (fun second => second.line.offset_horizontal_alignment)
      = some 70 :=
  ⟨by with_unfolding_all decide, by with_unfolding_all decide, by with_unfolding_all decide,
   by with_unfolding_all decide, by with_unfolding_all decide⟩

/-! ## Claims on the overflow handle of `AddBox` -/

/-- C24: for every reachable line (built with `SetLineBox`, `AddBox` and `CloseInlineBox` from
a new line or from a line made by `SplitLine`) with boxes that respect the fragment contract
asserted in `AddBox`, the assertion `layout_width >= 0` of the submission loop of `Close`
holds: every fragment box that is submitted has a width that is not negative, and so has
every fragment of the closed line other than the inline boxes with `children_end_index = 0`
that the loop skips. Nothing is asked of the spacing of the boxes. -/
theorem Close_submitted_width_nonnegative (heap : BoxHeap)
    (hcontract : RespectsFragmentContract heap) (line : LayoutLineBox)
    (hreach : Reachable heap line) (root_inline_box : BoxPtr) (offset_parent : Nat)
    (line_position : Vector2f) (text_align : TextAlign) :
    (∀ call ∈ (line.Close heap root_inline_box offset_parent line_position
        text_align).submitted, 0 ≤ call.fragment_box.layout_width) ∧
    (∀ f ∈ (line.Close heap root_inline_box offset_parent line_position
        text_align).line.fragments,
      ¬ (f.type = FragmentType.InlineBox ∧ f.children_end_index = 0) → 0 ≤ f.layout_width) := by
  have hwidths := Close_widths heap hcontract line hreach root_inline_box
  have hskip : ∀ f ∈ Close.positioned heap (line.SplitLine heap).1.fragments root_inline_box,
      ¬ (f.type = FragmentType.InlineBox ∧ f.children_end_index = 0) → 0 ≤ f.layout_width := by
    intro f hf hnot
    rcases hwidths f hf with h | h
    · exact absurd h hnot
    · exact h
  refine ⟨?_, hskip⟩
  intro call hcall
  have hsubmitted : (line.Close heap root_inline_box offset_parent line_position
      text_align).submitted
      = (Close.positioned heap (line.SplitLine heap).1.fragments root_inline_box).filterMap
        (Close.submit offset_parent line_position
          (Close.horizontalOffset (line.SplitLine heap).1 text_align)) := rfl
  rw [hsubmitted, List.mem_filterMap] at hcall
  obtain ⟨f, hf, hsubmit⟩ := hcall
  unfold Close.submit at hsubmit
  by_cases hcond : f.type = FragmentType.InlineBox ∧ f.children_end_index = 0
  · rw [if_pos hcond] at hsubmit
    simp at hsubmit
  · rw [if_neg hcond] at hsubmit
    rw [← Option.some.inj hsubmit]
    exact hskip f hf hcond

/-- C24 on an example with a negative spacing: the inline box at address 5 (right spacing
-10) was opened and closed in the open inline box at address 6; it is the one fragment that
is submitted, with the width 0 that `CloseFragment` clamped. -/
theorem Close_submitted_width_nonnegative_witness :
    (Example.heap 5).GetSpacingRight = -10 ∧
    (Example.line_negative_spacing.Close Example.heap 6 0 {} TextAlign.Left).submitted.map
      (fun call => (call.box, call.fragment_box.layout_width)) = [(5, 0)] ∧
    (∀ call ∈ (Example.line_negative_spacing.Close Example.heap 6 0 {}
        TextAlign.Left).submitted, 0 ≤ call.fragment_box.layout_width) :=
  ⟨by with_unfolding_all decide, by with_unfolding_all decide,
   (Close_submitted_width_nonnegative Example.heap Example.heap_contract
    Example.line_negative_spacing
    (Reachable.close_inline_box _ 5
      (Reachable.add_box _ 5 InlineLayoutMode.WrapAny 80 0
        (Reachable.add_box _ 6 InlineLayoutMode.WrapAny 80 0 Reachable.new_line)))
    6 0 {} TextAlign.Left).1⟩

/-! ## Claims on the stack of open fragments -/

/-- C21: in every reachable line (built with `SetLineBox`, `AddBox` and `CloseInlineBox` from
a new line or from a line made by `SplitLine`, and not closed), the stack of open fragments
is the path from the implicit root of the line to the deepest open inline box: its entries
are strictly increasing indices of `InlineBox` fragments, the first entry has
`parent_fragment = -1`, each later entry has the entry before it as its `parent_fragment`,
so that the chain of parents from the last entry is the stack from the top down; and an
`InlineBox` fragment has `children_end_index = 0` if and only if its index is on the stack. -/
theorem open_fragments_is_path (heap : BoxHeap) (line : LayoutLineBox)
    (hreach : Reachable heap line) :
    line.open_fragments.Pairwise (fun a b => a < b) ∧
    (∀ index ∈ line.open_fragments, 0 ≤ index ∧ index < (line.fragments.length : Int) ∧
      (getFragment line.fragments index).type = FragmentType.InlineBox) ∧
    (∀ first : Int, line.open_fragments[0]? = some first →
      (getFragment line.fragments first).parent_fragment = -1) ∧
    (∀ (k : Nat) (previous entry : Int), line.open_fragments[k]? = some previous →
      line.open_fragments[k + 1]? = some entry →
      previous < entry ∧ (getFragment line.fragments entry).parent_fragment = previous) ∧
    (∀ fuel : Nat, line.open_fragments.length ≤ fuel →
      parentChain line.fragments fuel line.GetOpenParent = line.open_fragments.reverse) ∧
    (∀ (i : Nat) (f : Fragment), line.fragments[i]? = some f →
      f.type = FragmentType.InlineBox →
      (f.children_end_index = 0 ↔ (i : Int) ∈ line.open_fragments)) := by
  have hopen := OpenFragmentsValid_of_Reachable heap line hreach
  have hpath := OpenStackIsPath_of_Reachable heap line hreach
  obtain ⟨hfirst, hnext⟩ := chain_getElem? _ _ _ hpath.1
  refine ⟨?_, ?_, fun first h => (hfirst first h).2, hnext,
    (parentChain_of_path line.fragments line.open_fragments hpath.1).2, ?_⟩
  · have hlt : List.Chain (fun a b : Int => a < b) (-1) line.open_fragments :=
      chain_congr_mem _ _ _ _ (fun x b _ h => h.1) hpath.1
    exact (List.pairwise_cons.mp (List.Chain.pairwise hlt)).2
  · intro index hindex
    obtain ⟨h0, hlt, htype, _⟩ := hopen.2 index hindex
    exact ⟨h0, hlt, htype⟩
  · intro i f hf htype
    constructor
    · exact hpath.2 i f hf htype
    · intro hmem
      have := (hopen.2 _ hmem).2.2.2
      rw [getFragment_of_getElem? hf] at this
      exact this

/-- C21 on an example: on the line on which the inline box at address 13 and in it the inline
box at address 14 are open, the stack is `[0, 1]`, the fragment at index 0 has no parent and
the fragment at index 1 has the fragment at index 0 as its parent. -/
theorem open_fragments_is_path_witness :
    Example.line_open_top_box.open_fragments = [0, 1] ∧
    (getFragment Example.line_open_top_box.fragments 0).parent_fragment = -1 ∧
    (getFragment Example.line_open_top_box.fragments 1).parent_fragment = 0 ∧
    (∀ fuel : Nat, Example.line_open_top_box.open_fragments.length ≤ fuel →
      parentChain Example.line_open_top_box.fragments fuel Example.line_open_top_box.GetOpenParent
        = Example.line_open_top_box.open_fragments.reverse) :=
  ⟨by with_unfolding_all decide, by with_unfolding_all decide, by with_unfolding_all decide,
   (open_fragments_is_path Example.vertical_heap Example.line_open_top_box
    (Reachable.add_box _ 14 InlineLayoutMode.WrapAny 100 0
      (Reachable.add_box _ 13 InlineLayoutMode.WrapAny 100 0
        (Reachable.set_line_box _ {} 100 Reachable.new_line)))).2.2.2.2.1⟩

/-! ## Claims on the children of an inline box -/

/-- C22: on every reachable line, and on the line that `SplitLine` leaves behind, for every
inline-box fragment at index `i` that has been closed (by `CloseInlineBox`, or by `SplitLine`
as a right split: its `children_end_index = e` is not 0): `i < e ≤` number of fragments, and
a fragment at index `j` is a descendant of `i` (`i` is on the chain of `parent_fragment`
that starts at the parent of `j`, however far the chain is followed) if and only if
`i < j < e`. -/
theorem children_are_contiguous (heap : BoxHeap) (line : LayoutLineBox)
    (hreach : Reachable heap line) (fragments : List Fragment)
    (hfragments : fragments = line.fragments ∨ fragments = (line.SplitLine heap).1.fragments)
    (i : Nat) (f : Fragment) (hf : fragments[i]? = some f)
    (htype : f.type = FragmentType.InlineBox) (hclosed : f.children_end_index ≠ 0) :
    (i : Int) < f.children_end_index ∧ f.children_end_index ≤ (fragments.length : Int) ∧
    ∀ (j fuel : Nat), j < fragments.length → fragments.length ≤ fuel →
      ((i : Int) ∈ parentChain fragments fuel (getFragment fragments (j : Int)).parent_fragment ↔
        (i : Int) < (j : Int) ∧ (j : Int) < f.children_end_index) := by
  obtain ⟨hvalid, hchildren⟩ := closed_fragment_children heap line hreach fragments hfragments
  obtain ⟨h1, h2, h3⟩ := hchildren i f hf htype hclosed
  refine ⟨h1, h2, ?_⟩
  intro j fuel hj hfuel
  rw [← h3 j hj]
  unfold properAncestors
  obtain ⟨_, hlt, _⟩ := hvalid j _ (getElem?_getFragment hj)
  by_cases hneg : (getFragment fragments (j : Int)).parent_fragment < 0
  · rw [parentChain_neg _ _ _ hneg, parentChain_neg _ _ _ hneg]
  · obtain ⟨q, hq⟩ := Int.eq_ofNat_of_zero_le (not_lt.mp hneg)
    rw [hq] at hlt ⊢
    have hqj : q < j := by exact_mod_cast hlt
    rw [parentChain_fuel fragments hvalid q (by omega) fuel fragments.length (by omega)
      (by omega)]

/-- C22 on an example: the inline box at address 4 was closed around the box of width 40; its
fragment at index 0 has `children_end_index = 2`, and the fragment at index 1 is its one
descendant. -/
theorem children_are_contiguous_witness :
    Example.line_closed_box_40.fragments.length = 2 ∧
    (getFragment Example.line_closed_box_40.fragments 0).children_end_index = 2 ∧
    (getFragment Example.line_closed_box_40.fragments 1).parent_fragment = 0 ∧
    (((0 : Nat) : Int) < (getFragment Example.line_closed_box_40.fragments 0).children_end_index ∧
      (getFragment Example.line_closed_box_40.fragments 0).children_end_index
        ≤ (Example.line_closed_box_40.fragments.length : Int) ∧
      ∀ (j fuel : Nat), j < Example.line_closed_box_40.fragments.length →
        Example.line_closed_box_40.fragments.length ≤ fuel →
        (((0 : Nat) : Int) ∈ parentChain Example.line_closed_box_40.fragments fuel
            (getFragment Example.line_closed_box_40.fragments (j : Int)).parent_fragment ↔
          ((0 : Nat) : Int) < (j : Int) ∧
          (j : Int) < (getFragment Example.line_closed_box_40.fragments 0).children_end_index)) :=
  ⟨by with_unfolding_all decide, by with_unfolding_all decide, by with_unfolding_all decide,
   children_are_contiguous Example.heap Example.line_closed_box_40
    (Reachable.close_inline_box _ 4
      (Reachable.add_box _ 3 InlineLayoutMode.WrapAny 80 0
        (Reachable.add_box _ 4 InlineLayoutMode.WrapAny 80 0 Reachable.new_line)))
    Example.line_closed_box_40.fragments (Or.inl rfl) 0
    (getFragment Example.line_closed_box_40.fragments 0)
    (by with_unfolding_all decide) (by with_unfolding_all decide)
    (by with_unfolding_all decide)⟩

/-! ## Claims that depend on the rounding of sums -/

/-- C6: in binary32 arithmetic, on a new line of width at least `l + w`, opening an inline
box with left spacing `l ≥ 0` and right spacing `r`, adding a box that answers with a
fixed-size fragment of width `w ≥ 0`, and closing the inline box leaves two fragments,
provided `l`, `w`, the sum `l + w` and the sum `l + w + r` are single-precision values (the
two additions round nothing): the inline box at `position.x = 0` with `layout_width = w` and
`children_end_index = 2`, and the fixed-size fragment at `position.x = l` with
`parent_fragment = 0`; no fragment is open and `box_cursor = l + w + r`. -/
theorem inline_box_around_fixed_size_exact_sums (heap : BoxHeap) (inline_box box : BoxPtr)
    (mode : InlineLayoutMode) (line_width : ℚ) (handle₁ handle₂ : LayoutOverflowHandle)
    (l r w : ℚ) (line₁ line₂ line₃ : LayoutLineBox)
    (hl : (heap inline_box).GetSpacingLeft = l) (hr : (heap inline_box).GetSpacingRight = r)
    (hl0 : 0 ≤ l) (hw0 : 0 ≤ w) (hwide : l + w ≤ line_width)
    (hlvalue : Binary32.IsValue l) (hwvalue : Binary32.IsValue w)
    (hsum : Binary32.IsValue (l + w)) (hcursor : Binary32.IsValue (l + w + r))
    (hopen : ((Binary32.AddBox.call heap {} inline_box mode line_width handle₁).invoke heap).type
      = FragmentType.InlineBox)
    (hline₁ : line₁ =
      (Binary32.LayoutLineBox.AddBox heap {} inline_box mode line_width handle₁).line)
    (hfixed : ((Binary32.AddBox.call heap line₁ box mode line_width handle₂).invoke heap).type =
        FragmentType.TextRun ∨
      ((Binary32.AddBox.call heap line₁ box mode line_width handle₂).invoke heap).type =
        FragmentType.SizedBox)
    (hwidth : ((Binary32.AddBox.call heap line₁ box mode line_width handle₂).invoke
      heap).layout_width = w)
    (hline₂ : line₂ = (Binary32.LayoutLineBox.AddBox heap line₁ box mode line_width handle₂).line)
    (hline₃ : line₃ = (Binary32.LayoutLineBox.CloseInlineBox heap line₂ inline_box).1) :
    line₃.fragments.length = 2 ∧
    (getFragment line₃.fragments 0).position.x = 0 ∧
    (getFragment line₃.fragments 0).layout_width = w ∧
    (getFragment line₃.fragments 0).children_end_index = 2 ∧
    (getFragment line₃.fragments 1).position.x = l ∧
    (getFragment line₃.fragments 1).parent_fragment = 0 ∧
    line₃.open_fragments = [] ∧
    line₃.box_cursor = l + w + r := by
  have hzero : Binary32.round (0 + 0) = 0 := by rw [add_zero]; exact Binary32.round_zero
  have hplace₁ : Binary32.AddBox.box_placement_cursor {} = 0 := hzero
  have hno₁ : Binary32.AddBox.no_width_available {} mode line_width = false := by
    apply no_width_available_eq_false_binary32
    rw [hplace₁]
    linarith
  rw [AddBox_of_inline_box_binary32 heap {} inline_box mode line_width handle₁ hno₁ hopen]
    at hline₁
  have hspacing₁ : Binary32.round ((0 : ℚ) + l) = l := by rw [zero_add]; exact hlvalue
  simp only [List.nil_append, List.length_nil, Nat.cast_zero, hl] at hline₁
  have hplace₂ : Binary32.AddBox.box_placement_cursor line₁ = l := by
    rw [hline₁]
    show Binary32.round (0 + Binary32.round (0 + l)) = l
    rw [hspacing₁, hspacing₁]
  have hno₂ : Binary32.AddBox.no_width_available line₁ mode line_width = false := by
    apply no_width_available_eq_false_binary32
    rw [hplace₂]
    linarith
  rw [AddBox_of_fixed_size_binary32 heap line₁ box mode line_width handle₂ hno₂ hfixed.symm]
    at hline₂
  simp only [hwidth, hplace₂] at hline₂
  generalize hfrag₂ : Binary32.AddBox.appended_fragment heap line₁ box
    ((Binary32.AddBox.call heap line₁ box mode line_width handle₂).invoke heap) = fragment₂
    at hline₂
  have hx₂ : fragment₂.position.x = l := by
    rw [← hfrag₂]
    exact hplace₂
  have hp₂ : fragment₂.parent_fragment = 0 := by
    rw [← hfrag₂, hline₁]
    simp [Binary32.AddBox.appended_fragment, Binary32.AddBox.new_fragment,
      LayoutLineBox.GetOpenParent]
  generalize hfrag₁ : Binary32.AddBox.appended_fragment heap {} inline_box
    ((Binary32.AddBox.call heap {} inline_box mode line_width handle₁).invoke heap) = fragment₁
    at hline₁
  have hx₁ : fragment₁.position.x = 0 := by
    rw [← hfrag₁]
    exact hplace₁
  have hs₁ : fragment₁.split_left = false := by
    rw [← hfrag₁]
    rfl
  have hb₁ : fragment₁.box = inline_box := by
    rw [← hfrag₁]
    rfl
  have hfragments₂ : line₂.fragments = [{ fragment₁ with has_content := true }, fragment₂] := by
    rw [hline₂, hline₁]
    simp [modifyFragment]
  have hopen₂ : line₂.open_fragments = [0] := by
    rw [hline₂, hline₁]
  have hcursor₂ : line₂.box_cursor = l + w := by
    rw [hline₂]
    exact hsum
  have hspacing₂ : line₂.open_spacing_left = 0 := by
    rw [hline₂]
  have hclose := CloseInlineBox_of_top_binary32 heap line₂ inline_box 0
    { fragment₁ with has_content := true }
    (by rw [hopen₂]; rfl) (by rw [hfragments₂]; rfl) hb₁
  rw [← hline₃] at hclose
  obtain ⟨_, hstack, hfragments₃, _, hcursor₃⟩ := hclose
  rw [hfragments₂] at hfragments₃
  have hedge : Binary32.round (l + w + 0) = l + w := by rw [add_zero]; exact hsum
  simp only [List.set_cons_zero, hs₁, hx₁, hl, hcursor₂, hspacing₂, List.length_cons,
    List.length_nil, hedge] at hfragments₃
  have hmax : max (Binary32.round (Binary32.round (l + w - 0) -
      if false = true then 0 else l)) 0 = w := by
    rw [sub_zero, hsum]
    simp only [Bool.false_eq_true, if_false, add_sub_cancel_left]
    rw [hwvalue]
    exact max_eq_left hw0
  refine ⟨?_, ?_, ?_, ?_, ?_, ?_, ?_, ?_⟩
  · rw [hfragments₃]; rfl
  · rw [hfragments₃]
    simpa [getFragment] using hx₁
  · rw [hfragments₃]
    simpa [getFragment] using hmax
  · rw [hfragments₃]
    simp [getFragment]
  · rw [hfragments₃]
    simpa [getFragment] using hx₂
  · rw [hfragments₃]
    simpa [getFragment] using hp₂
  · rw [hstack, hopen₂]; rfl
  · rw [hcursor₃, hcursor₂, hspacing₂, hr, hedge]
    exact hcursor

/-- C6 on the example of the spec, in binary32 arithmetic: with spacing 5 on both sides and a
box of width 40, the inline box is closed with `layout_width = 40` and `box_cursor = 50`. -/
theorem inline_box_around_fixed_size_exact_sums_witness :
    (getFragment (Binary32.LayoutLineBox.CloseInlineBox Example.heap
      (Binary32.LayoutLineBox.AddBox Example.heap
        (Binary32.LayoutLineBox.AddBox Example.heap {} 4 InlineLayoutMode.WrapAny 80 0).line
        3 InlineLayoutMode.WrapAny 80 0).line 4).1.fragments 0).layout_width = 40 ∧
    (Binary32.LayoutLineBox.CloseInlineBox Example.heap
      (Binary32.LayoutLineBox.AddBox Example.heap
        (Binary32.LayoutLineBox.AddBox Example.heap {} 4 InlineLayoutMode.WrapAny 80 0).line
        3 InlineLayoutMode.WrapAny 80 0).line 4).1.box_cursor = 5 + 40 + 5 :=
  have h := inline_box_around_fixed_size_exact_sums Example.heap 4 3 InlineLayoutMode.WrapAny
    80 0 0 5 5 40 _ _ _
    (by decide!) (by decide!) (by decide!) (by decide!) (by decide!)
    (by unfold Binary32.IsValue; decide!) (by unfold Binary32.IsValue; decide!)
    (by unfold Binary32.IsValue; decide!) (by unfold Binary32.IsValue; decide!)
    (by decide!) rfl (by decide!) (by decide!) rfl rfl
  ⟨h.2.2.1, h.2.2.2.2.2.2.2⟩

/-- The claim C6 as it stands fails in binary32 arithmetic: with left spacing `l` = 0.3, no
right spacing and a box of width `w` = 0.1 on a line of width 100, `l + w` is rounded to
`13421773 / 2 ^ 25`, the inline box is closed with the width `3355443 / 2 ^ 25` (0.099999994),
which is not `w`, and `box_cursor` is not `l + w`. -/
theorem inline_box_width_counterexample :
    (Example.binary32_heap 24).GetSpacingLeft = 5033165 / 16777216 ∧
    (Example.binary32_heap 24).GetSpacingRight = 0 ∧
    ((Binary32.AddBox.call Example.binary32_heap
      (Binary32.LayoutLineBox.AddBox Example.binary32_heap {} 24 InlineLayoutMode.WrapAny 100
        0).line 25 InlineLayoutMode.WrapAny 100 0).invoke Example.binary32_heap).layout_width
      = 13421773 / 134217728 ∧
    Binary32.IsValue (5033165 / 16777216) ∧ Binary32.IsValue (13421773 / 134217728) ∧
    (getFragment Example.line_tenth_in_box.fragments 0).layout_width = 3355443 / 33554432 ∧
    (getFragment Example.line_tenth_in_box.fragments 0).layout_width ≠ 13421773 / 134217728 ∧
    Example.line_tenth_in_box.box_cursor = 13421773 / 33554432 ∧
    Example.line_tenth_in_box.box_cursor ≠ 5033165 / 16777216 + 13421773 / 134217728 + 0 :=
  ⟨by decide!, by decide!, by decide!, by unfold Binary32.IsValue; decide!,
   by unfold Binary32.IsValue; decide!, by decide!, by decide!, by decide!, by decide!⟩

/-- C1: in binary32 arithmetic, on a new line of width `line_width`, boxes that are added in
order under `WrapAny`, whose widths are single-precision values, not negative, with every
partial sum `w1 + ... + wi` a single-precision value (the additions round nothing) and the
whole sum at most `line_width`, and each of which answers with a fixed-size fragment of its
whole width and a zero overflow handle whenever the available width is at least its width,
are all placed: every call of `AddBox` returns false, the line has one fragment per box,
fragment `i` starts at the sum of the widths before it, and the final `box_cursor` is the sum
of all widths. -/
theorem AddBox_sequence_with_exact_sums (heap : BoxHeap) (line_width : ℚ) (width : BoxPtr → ℚ)
    (boxes : List BoxPtr)
    (hnonneg : ∀ box ∈ boxes, 0 ≤ width box)
    (hvalue : ∀ box ∈ boxes, Binary32.IsValue (width box))
    (hexact : ∀ i : Nat, i ≤ boxes.length →
      Binary32.IsValue (((boxes.take i).map width).sum))
    (hsum : (boxes.map width).sum ≤ line_width)
    (hfit : ∀ box ∈ boxes, ∀ (available_width : ℚ) (first_box : Bool)
      (handle : LayoutOverflowHandle), width box ≤ available_width →
      (((heap box).CreateFragment InlineLayoutMode.WrapAny available_width 0 first_box
          handle).type = FragmentType.TextRun ∨
        ((heap box).CreateFragment InlineLayoutMode.WrapAny available_width 0 first_box
          handle).type = FragmentType.SizedBox) ∧
      ((heap box).CreateFragment InlineLayoutMode.WrapAny available_width 0 first_box
        handle).layout_width = width box ∧
      ((heap box).CreateFragment InlineLayoutMode.WrapAny available_width 0 first_box
        handle).overflow_handle = 0) :
    (Binary32.AddBoxes heap InlineLayoutMode.WrapAny line_width {} boxes).2
      = List.replicate boxes.length false ∧
    (Binary32.AddBoxes heap InlineLayoutMode.WrapAny line_width {} boxes).1.fragments.length
      = boxes.length ∧
    (∀ i : Nat, i < boxes.length →
      (getFragment
        (Binary32.AddBoxes heap InlineLayoutMode.WrapAny line_width {} boxes).1.fragments
        (i : Int)).position.x = ((boxes.take i).map width).sum) ∧
    (Binary32.AddBoxes heap InlineLayoutMode.WrapAny line_width {} boxes).1.box_cursor
      = (boxes.map width).sum := by
  obtain ⟨h1, h2, h3, _, h5⟩ := AddBoxes_of_fit_binary32 heap line_width width boxes {} rfl rfl
    hnonneg hvalue (by
      intro i hi
      have := hexact i hi
      simpa using this)
    (by simpa using hsum) hfit
  refine ⟨h1, by simpa using h2, ?_, by simpa using h3⟩
  intro i hi
  have := h5 i hi
  simpa using this

/-- C1 on the example of the spec, in binary32 arithmetic: widths 30 and 30 on a line of
width 80 give no request for a new line, 2 fragments at 0 and 30, and `box_cursor = 60`. -/
theorem AddBox_sequence_with_exact_sums_witness :
    ((Binary32.AddBoxes Example.heap InlineLayoutMode.WrapAny 80 {} [1, 1]).2
      = List.replicate [1, 1].length false ∧
    (Binary32.AddBoxes Example.heap InlineLayoutMode.WrapAny 80 {} [1, 1]).1.fragments.length
      = [1, 1].length ∧
    (∀ i : Nat, i < [1, 1].length →
      (getFragment
        (Binary32.AddBoxes Example.heap InlineLayoutMode.WrapAny 80 {} [1, 1]).1.fragments
        (i : Int)).position.x = (([1, 1].take i).map (fun _ => (30 : ℚ))).sum) ∧
    (Binary32.AddBoxes Example.heap InlineLayoutMode.WrapAny 80 {} [1, 1]).1.box_cursor
      = ([1, 1].map (fun _ => (30 : ℚ))).sum) ∧
    (Binary32.AddBoxes Example.heap InlineLayoutMode.WrapAny 80 {} [1, 1]).1.box_cursor = 60 :=
  ⟨AddBox_sequence_with_exact_sums Example.heap 80 (fun _ => 30) [1, 1]
    (by intro box _; norm_num)
    (by intro box _; show Binary32.round (30 : ℚ) = 30; decide!)
    (by
      intro i hi
      have hcases : i = 0 ∨ i = 1 ∨ i = 2 := by
        simp only [List.length_cons, List.length_nil] at hi
        omega
      rcases hcases with rfl | rfl | rfl <;> unfold Binary32.IsValue <;> decide!)
    (by norm_num)
    (by
      intro box hbox available_width first_box handle havailable
      have hbox1 : box = 1 := by simpa using hbox
      subst hbox1
      have hlt : ¬ available_width < 30 := not_lt.mpr havailable
      simp [Example.heap, Example.sized_box, hlt]),
   by decide!⟩

/-- The claim C1 as it stands fails in binary32 arithmetic: the widths 11.869145, 113.112465
and 28.000002 sum up to less than the line width 152.98161, exactly and as `float` sum, but
the cursor after two boxes is the rounded sum 124.98161, the width offered to the third box
is `RoundUpFloat(28.0)` = 28, less than its width, and the third call of `AddBox` asks for a
new line. -/
theorem AddBox_sequence_counterexample :
    (∀ box ∈ [21, 22, 23], ∀ (available_width : ℚ) (first_box : Bool)
      (handle : LayoutOverflowHandle),
      ((Example.binary32_heap box).CreateFragment InlineLayoutMode.WrapAny 0 0 true 0).layout_width
        ≤ available_width →
      ((Example.binary32_heap box).CreateFragment InlineLayoutMode.WrapAny available_width 0
        first_box handle).type = FragmentType.SizedBox ∧
      ((Example.binary32_heap box).CreateFragment InlineLayoutMode.WrapAny available_width 0
        first_box handle).layout_width
        = ((Example.binary32_heap box).CreateFragment InlineLayoutMode.WrapAny 0 0 true
          0).layout_width ∧
      ((Example.binary32_heap box).CreateFragment InlineLayoutMode.WrapAny available_width 0
        first_box handle).overflow_handle = 0) ∧
    [21, 22, 23].map (fun box => ((Example.binary32_heap box).CreateFragment
      InlineLayoutMode.WrapAny 0 0 true 0).layout_width)
      = [12445701 / 1048576, 14825877 / 131072, 14680065 / 524288] ∧
    (12445701 / 1048576 : ℚ) + 14825877 / 131072 + 14680065 / 524288 ≤ 10025803 / 65536 ∧
    Binary32.round (Binary32.round ((12445701 / 1048576 : ℚ) + 14825877 / 131072) +
      14680065 / 524288) ≤ 10025803 / 65536 ∧
    (Binary32.AddBoxes Example.binary32_heap InlineLayoutMode.WrapAny (10025803 / 65536) {}
      [21, 22, 23]).2 = [false, false, true] ∧
    (Binary32.AddBoxes Example.binary32_heap InlineLayoutMode.WrapAny (10025803 / 65536) {}
      [21, 22, 23]).1.fragments.length = 2 ∧
    (Binary32.AddBoxes Example.binary32_heap InlineLayoutMode.WrapAny (10025803 / 65536) {}
      [21, 22, 23]).1.box_cursor = 8190795 / 65536 ∧
    Binary32.AddBox.available_width
      (Binary32.AddBoxes Example.binary32_heap InlineLayoutMode.WrapAny (10025803 / 65536) {}
        [21, 22]).1 InlineLayoutMode.WrapAny (10025803 / 65536) = 28 :=
  ⟨by
    intro box hbox available_width first_box handle havailable
    have hcases : box = 21 ∨ box = 22 ∨ box = 23 := by simpa using hbox
    rcases hcases with rfl | rfl | rfl <;>
      simp only [Example.binary32_heap, Example.sized_box] at havailable ⊢ <;>
      norm_num at havailable ⊢ <;>
      rw [if_neg (fun h => absurd h.2 (not_lt.mpr havailable))] <;>
      exact ⟨rfl, rfl, rfl⟩,
   by decide!, by norm_num, by decide!, by decide!, by decide!, by decide!, by decide!⟩

/-- C12: in binary32 arithmetic, for a line with line width `L` and `box_cursor = c` whose
horizontal offset has not been set yet, `Close` sets the horizontal offset as follows: when
`c < L` it is 0 for `Left` and `Justify`, the rounded half of the rounded `L - c` for `Center`
and the rounded `L - c` for `Right`; when `c ≥ L` it is 0. The offset is never negative,
`GetExtentRight` is the rounded sum of `c` and the offset, and every submitted fragment is at
its unaligned position `line_position.x + position.x` plus the offset, both sums rounded.
When `c` is a single-precision value, `GetExtentRight` is `c` for `Left` and `Justify` and
whenever `c ≥ L`; when `c`, `L` and the difference `L - c` are single-precision values (the
subtraction rounds nothing), `GetExtentRight` is at most `max c L` for every alignment. This holds whatever the test
`IsAlignedSubtreeRoot` (the parameter `is_root`) answers. -/
theorem Close_horizontal_alignment_rounded (heap : BoxHeap) (is_root : Fragment → Bool)
    (self : LayoutLineBox) (root_inline_box : BoxPtr) (offset_parent : Nat) (line_position : Vector2f)
    (text_align : TextAlign) (hzero : self.offset_horizontal_alignment = 0) :
    (self.box_cursor < self.line_width →
      (text_align = TextAlign.Left ∨ text_align = TextAlign.Justify →
        (Binary32.LayoutLineBox.Close heap is_root self root_inline_box offset_parent line_position
          text_align).line.offset_horizontal_alignment = 0) ∧
      (text_align = TextAlign.Center →
        (Binary32.LayoutLineBox.Close heap is_root self root_inline_box offset_parent line_position
          text_align).line.offset_horizontal_alignment
          = Binary32.round (Binary32.round (self.line_width - self.box_cursor) * (1 / 2))) ∧
      (text_align = TextAlign.Right →
        (Binary32.LayoutLineBox.Close heap is_root self root_inline_box offset_parent line_position
          text_align).line.offset_horizontal_alignment
          = Binary32.round (self.line_width - self.box_cursor))) ∧
    (self.line_width ≤ self.box_cursor →
      (Binary32.LayoutLineBox.Close heap is_root self root_inline_box offset_parent line_position
        text_align).line.offset_horizontal_alignment = 0) ∧
    0 ≤ (Binary32.LayoutLineBox.Close heap is_root self root_inline_box offset_parent line_position
      text_align).line.offset_horizontal_alignment ∧
    Binary32.LayoutLineBox.GetExtentRight
      (Binary32.LayoutLineBox.Close heap is_root self root_inline_box offset_parent line_position
        text_align).line
      = Binary32.round (self.box_cursor +
        (Binary32.LayoutLineBox.Close heap is_root self root_inline_box offset_parent line_position
          text_align).line.offset_horizontal_alignment) ∧
    (Binary32.IsValue self.box_cursor →
      (self.line_width ≤ self.box_cursor ∨ text_align = TextAlign.Left ∨
        text_align = TextAlign.Justify) →
      Binary32.LayoutLineBox.GetExtentRight
        (Binary32.LayoutLineBox.Close heap is_root self root_inline_box offset_parent line_position
          text_align).line = self.box_cursor) ∧
    (Binary32.IsValue self.box_cursor → Binary32.IsValue self.line_width →
      Binary32.IsValue (self.line_width - self.box_cursor) →
      Binary32.LayoutLineBox.GetExtentRight
        (Binary32.LayoutLineBox.Close heap is_root self root_inline_box offset_parent line_position
          text_align).line ≤ max self.box_cursor self.line_width) ∧
    (∀ call ∈ (Binary32.LayoutLineBox.Close heap is_root self root_inline_box offset_parent line_position
        text_align).submitted,
      ∃ j : Nat, j < self.fragments.length ∧
        call.box = (getFragment self.fragments (j : Int)).box ∧
        call.fragment_box.position.x = Binary32.round
          (Binary32.round (line_position.x + (getFragment self.fragments (j : Int)).position.x) +
          (Binary32.LayoutLineBox.Close heap is_root self root_inline_box offset_parent line_position
            text_align).line.offset_horizontal_alignment)) := by
  obtain ⟨hfragments, hcursor, hoffset, hsubmitted, _⟩ :=
    Close_fields_binary32 heap is_root self root_inline_box offset_parent line_position text_align
  obtain ⟨hc, hw, ho, _⟩ := SplitLine_line_fields_binary32 heap self
  have hvalue : (Binary32.LayoutLineBox.Close heap is_root self root_inline_box offset_parent
      line_position text_align).line.offset_horizontal_alignment =
      if self.box_cursor < self.line_width then
        (if text_align = TextAlign.Center then
          Binary32.round (Binary32.round (self.line_width - self.box_cursor) * (1 / 2))
         else if text_align = TextAlign.Right then
          Binary32.round (self.line_width - self.box_cursor)
         else 0)
      else 0 := by
    rw [hoffset]
    unfold Binary32.Close.horizontalOffset
    simp only [hc, hw, ho, hzero]
    by_cases hlt : self.box_cursor < self.line_width
    · rw [if_pos hlt, if_pos hlt]
      cases text_align <;> simp
    · rw [if_neg hlt, if_neg hlt]
  have hnonneg : 0 ≤ (Binary32.LayoutLineBox.Close heap is_root self root_inline_box offset_parent
      line_position text_align).line.offset_horizontal_alignment := by
    rw [hvalue]
    by_cases hlt : self.box_cursor < self.line_width
    · rw [if_pos hlt]
      have hdiff : 0 ≤ Binary32.round (self.line_width - self.box_cursor) :=
        Binary32.round_nonneg (by linarith)
      split_ifs
      · exact Binary32.round_nonneg (by positivity)
      · exact hdiff
      · exact le_refl _
    · rw [if_neg hlt]
  have hextent : Binary32.LayoutLineBox.GetExtentRight
      (Binary32.LayoutLineBox.Close heap is_root self root_inline_box offset_parent line_position
        text_align).line
      = Binary32.round (self.box_cursor +
        (Binary32.LayoutLineBox.Close heap is_root self root_inline_box offset_parent line_position
          text_align).line.offset_horizontal_alignment) := by
    unfold Binary32.LayoutLineBox.GetExtentRight
    rw [hcursor]
  refine ⟨?_, ?_, hnonneg, hextent, ?_, ?_, ?_⟩
  · intro hlt
    rw [hvalue, if_pos hlt]
    refine ⟨?_, ?_, ?_⟩
    · rintro (h | h) <;> rw [h] <;> simp
    · intro h
      rw [h]
      simp
    · intro h
      rw [h]
      simp
  · intro hge
    rw [hvalue, if_neg (not_lt.mpr hge)]
  · intro hcvalue hcase
    have hoff : (Binary32.LayoutLineBox.Close heap is_root self root_inline_box offset_parent
        line_position text_align).line.offset_horizontal_alignment = 0 := by
      rw [hvalue]
      rcases hcase with h | h | h
      · rw [if_neg (not_lt.mpr h)]
      · rw [h]; simp
      · rw [h]; simp
    rw [hextent, hoff, add_zero]
    exact hcvalue
  · intro hcvalue hwvalue hdvalue
    rw [hextent]
    apply Binary32.round_le_of_le
    · rcases le_total self.box_cursor self.line_width with h | h
      · rw [max_eq_right h]; exact hwvalue
      · rw [max_eq_left h]; exact hcvalue
    · rw [hvalue]
      by_cases hlt : self.box_cursor < self.line_width
      · rw [if_pos hlt]
        apply le_max_of_le_right
        have hd : Binary32.round (self.line_width - self.box_cursor)
            = self.line_width - self.box_cursor := hdvalue
        split_ifs
        · rw [hd]
          have hhalf : Binary32.round ((self.line_width - self.box_cursor) * (1 / 2))
              ≤ self.line_width - self.box_cursor :=
            Binary32.round_le_of_le hdvalue (by linarith)
          linarith
        · rw [hd]
          linarith
        · linarith
      · rw [if_neg hlt]
        simp
  · intro call hcall
    rw [hsubmitted] at hcall
    obtain ⟨f, hf, _, hbox, _, hx, _⟩ := filterMap_submit_binary32 _ _ _ _ call hcall
    obtain ⟨j, hj⟩ := List.mem_iff_getElem?.mp hf
    have hlayout := positioned_map_layout_binary32 heap is_root
      (Binary32.LayoutLineBox.SplitLine heap self).1.fragments root_inline_box
    have htree := SplitLine_map_tree_binary32 heap self
    have hjlt : j < (Binary32.Close.positioned heap is_root
        (Binary32.LayoutLineBox.SplitLine heap self).1.fragments root_inline_box).length := by
      rcases List.getElem?_eq_some_iff.mp hj with ⟨hlt, _⟩
      exact hlt
    have hlen : (Binary32.Close.positioned heap is_root
        (Binary32.LayoutLineBox.SplitLine heap self).1.fragments root_inline_box).length
        = self.fragments.length := by
      rw [length_eq_of_map_eq Fragment.layout hlayout]
      exact length_eq_of_map_eq Fragment.tree htree
    have hget : getFragment (Binary32.Close.positioned heap is_root
        (Binary32.LayoutLineBox.SplitLine heap self).1.fragments root_inline_box) (j : Int) = f :=
      getFragment_of_getElem? hj
    have h1 := getFragment_map_eq Fragment.layout hlayout (j : Int)
    have h2 := getFragment_map_eq Fragment.tree htree (j : Int)
    rw [hget] at h1
    have hfbox : f.box = (getFragment self.fragments (j : Int)).box :=
      (layout_fields h1).1.trans (tree_fields h2).1
    have hfx : f.position.x = (getFragment self.fragments (j : Int)).position.x :=
      (layout_fields h1).2.2.2.2.1.trans (congrArg Vector2f.x (tree_fields h2).2.2.2.2.1)
    refine ⟨j, by omega, hbox.trans hfbox, ?_⟩
    rw [hx, hfx, hoffset]

/-- C12 on the example of the spec, in binary32 arithmetic: with line width 100 and
`box_cursor = 60` the offset is 20 for `Center`, 40 for `Right` and 0 for `Left`. -/
theorem Close_horizontal_alignment_rounded_witness :
    Example.line_two_texts.line_width = 100 ∧ Example.line_two_texts.box_cursor = 60 ∧
    (Binary32.LayoutLineBox.Close Example.vertical_heap IsAlignedSubtreeRoot Example.line_two_texts 10 0 {}
      TextAlign.Center).line.offset_horizontal_alignment = 20 ∧
    (Binary32.LayoutLineBox.Close Example.vertical_heap IsAlignedSubtreeRoot Example.line_two_texts 10 0 {}
      TextAlign.Right).line.offset_horizontal_alignment = 40 ∧
    (Binary32.LayoutLineBox.Close Example.vertical_heap IsAlignedSubtreeRoot Example.line_two_texts 10 0 {}
      TextAlign.Left).line.offset_horizontal_alignment = 0 ∧
    (Binary32.LayoutLineBox.Close Example.vertical_heap IsAlignedSubtreeRoot Example.line_two_texts 10 0 {}
      TextAlign.Center).submitted.map (fun call => call.fragment_box.position.x) = [20, 50] ∧
    Binary32.LayoutLineBox.GetExtentRight (Binary32.LayoutLineBox.Close Example.vertical_heap IsAlignedSubtreeRoot
      Example.line_two_texts 10 0 {} TextAlign.Center).line = 80 ∧
    0 ≤ (Binary32.LayoutLineBox.Close Example.vertical_heap IsAlignedSubtreeRoot Example.line_two_texts 10 0 {}
      TextAlign.Center).line.offset_horizontal_alignment :=
  ⟨by decide!, by decide!, by decide!, by decide!, by decide!, by decide!, by decide!,
   (Close_horizontal_alignment_rounded Example.vertical_heap IsAlignedSubtreeRoot
     Example.line_two_texts 10 0 {}
     TextAlign.Center (by decide!)).2.2.1⟩

/-- The claim C12 as it stands fails in binary32 arithmetic: on the line of width `L` = 10.2
with `box_cursor = c` = 2.1, `Right` gives the offset 8.1000004 (`L - c` rounded up) and
`GetExtentRight` = 10.200001 (`2673869 / 2 ^ 18`), which is more than `max c L`. -/
theorem Close_extent_right_counterexample :
    Example.line_right_aligned.line_width = 10695475 / 1048576 ∧
    Example.line_right_aligned.box_cursor = 4404019 / 2097152 ∧
    (Binary32.LayoutLineBox.Close Example.binary32_heap IsAlignedSubtreeRoot Example.line_right_aligned 0 0 {}
      TextAlign.Right).line.offset_horizontal_alignment = 4246733 / 524288 ∧
    (Binary32.LayoutLineBox.Close Example.binary32_heap IsAlignedSubtreeRoot Example.line_right_aligned 0 0 {}
      TextAlign.Right).line.offset_horizontal_alignment ≠
      Example.line_right_aligned.line_width - Example.line_right_aligned.box_cursor ∧
    Binary32.LayoutLineBox.GetExtentRight (Binary32.LayoutLineBox.Close Example.binary32_heap IsAlignedSubtreeRoot
      Example.line_right_aligned 0 0 {} TextAlign.Right).line = 2673869 / 262144 ∧
    ¬ Binary32.LayoutLineBox.GetExtentRight (Binary32.LayoutLineBox.Close Example.binary32_heap IsAlignedSubtreeRoot
      Example.line_right_aligned 0 0 {} TextAlign.Right).line ≤
      max Example.line_right_aligned.box_cursor Example.line_right_aligned.line_width :=
  ⟨by decide!, by decide!, by decide!, by decide!, by decide!, by decide!⟩

/-- C19: in binary32 arithmetic and whatever the test `IsAlignedSubtreeRoot` (the parameter
`is_root`) answers, as long as the answer does not depend on what the vertical pass writes,
the height that `Close` returns is the rounded sum of the
locals `max_ascent` and `max_descent` at the end of the sizing, and `GetBaseline` is that
`max_ascent`. Both are at least the height above and the depth below the baseline of the
root inline box, so the height of the line is at least their rounded sum. Every aligned
subtree fits in the line as far as the code computes, whatever the order of the subtrees: for
every fragment of the closed line that passes the test, its height
`max_ascent + max_descent` less the ascent of the line is at most the descent of the line
when it is `Top` aligned, and its height less the descent of the line is at most the ascent
of the line when it is `Bottom` aligned (sum and difference rounded). Hence the height of
the subtree is at most the height of the line whenever that difference is a single-precision
value (it is not rounded). -/
theorem Close_line_height_rounded (heap : BoxHeap) (is_root : Fragment → Bool)
    (self : LayoutLineBox) (root_inline_box : BoxPtr) (offset_parent : Nat)
    (line_position : Vector2f) (text_align : TextAlign)
    (hframe : ∀ f g : Fragment, f.layout = g.layout → is_root f = is_root g) :
    (Binary32.LayoutLineBox.Close heap is_root self root_inline_box offset_parent line_position
      text_align).out_height_of_line = Binary32.round
      ((Binary32.Close.sized heap is_root (Binary32.LayoutLineBox.SplitLine heap self).1.fragments
        root_inline_box).max_ascent +
      (Binary32.Close.sized heap is_root (Binary32.LayoutLineBox.SplitLine heap self).1.fragments
        root_inline_box).max_descent) ∧
    (Binary32.LayoutLineBox.Close heap is_root self root_inline_box offset_parent line_position
      text_align).line.GetBaseline =
      (Binary32.Close.sized heap is_root (Binary32.LayoutLineBox.SplitLine heap self).1.fragments
        root_inline_box).max_ascent ∧
    (heap root_inline_box).GetHeightAboveBaseline ≤
      (Binary32.Close.sized heap is_root (Binary32.LayoutLineBox.SplitLine heap self).1.fragments
        root_inline_box).max_ascent ∧
    (heap root_inline_box).GetDepthBelowBaseline ≤
      (Binary32.Close.sized heap is_root (Binary32.LayoutLineBox.SplitLine heap self).1.fragments
        root_inline_box).max_descent ∧
    Binary32.round ((heap root_inline_box).GetHeightAboveBaseline +
        (heap root_inline_box).GetDepthBelowBaseline) ≤
      (Binary32.LayoutLineBox.Close heap is_root self root_inline_box offset_parent line_position
        text_align).out_height_of_line ∧
    (∀ f ∈ (Binary32.LayoutLineBox.Close heap is_root self root_inline_box offset_parent line_position
        text_align).line.fragments,
      is_root f = true →
      (f.vertical_align = VerticalAlign.Top →
        Binary32.round (Binary32.round (f.max_ascent + f.max_descent) -
          (Binary32.Close.sized heap is_root (Binary32.LayoutLineBox.SplitLine heap self).1.fragments
            root_inline_box).max_ascent) ≤
        (Binary32.Close.sized heap is_root (Binary32.LayoutLineBox.SplitLine heap self).1.fragments
          root_inline_box).max_descent) ∧
      (f.vertical_align = VerticalAlign.Bottom →
        Binary32.round (Binary32.round (f.max_ascent + f.max_descent) -
          (Binary32.Close.sized heap is_root (Binary32.LayoutLineBox.SplitLine heap self).1.fragments
            root_inline_box).max_descent) ≤
        (Binary32.Close.sized heap is_root (Binary32.LayoutLineBox.SplitLine heap self).1.fragments
          root_inline_box).max_ascent) ∧
      (f.vertical_align = VerticalAlign.Top ∨ f.vertical_align = VerticalAlign.Bottom →
        (f.vertical_align = VerticalAlign.Top →
          Binary32.IsValue (Binary32.round (f.max_ascent + f.max_descent) -
            (Binary32.Close.sized heap is_root (Binary32.LayoutLineBox.SplitLine heap self).1.fragments
              root_inline_box).max_ascent)) →
        (f.vertical_align = VerticalAlign.Bottom →
          Binary32.IsValue (Binary32.round (f.max_ascent + f.max_descent) -
            (Binary32.Close.sized heap is_root (Binary32.LayoutLineBox.SplitLine heap self).1.fragments
              root_inline_box).max_descent)) →
        Binary32.round (f.max_ascent + f.max_descent) ≤
          (Binary32.LayoutLineBox.Close heap is_root self root_inline_box offset_parent line_position
            text_align).out_height_of_line)) := by
  obtain ⟨hfragments, _, _, _, hheight, hbaseline, _⟩ :=
    Close_fields_binary32 heap is_root self root_inline_box offset_parent line_position text_align
  generalize hfs : (Binary32.LayoutLineBox.SplitLine heap self).1.fragments = fs
    at hfragments hheight hbaseline ⊢
  have hmono : (heap root_inline_box).GetHeightAboveBaseline ≤
      (Binary32.Close.sized heap is_root fs root_inline_box).max_ascent ∧
      (heap root_inline_box).GetDepthBelowBaseline ≤
      (Binary32.Close.sized heap is_root fs root_inline_box).max_descent := by
    unfold Binary32.Close.sized
    obtain ⟨h1, h2⟩ := VerticallyAlignSubtree_mono_binary32 heap fs (-1) (fs.length : Int)
      (heap root_inline_box).GetHeightAboveBaseline (heap root_inline_box).GetDepthBelowBaseline
    obtain ⟨h3, h4⟩ := foldl_mono _ (alignSubtree_mono_binary32 heap is_root)
      (indexRange 0 (fs.length : Int))
      (Binary32.VerticallyAlignSubtree heap fs (-1) (fs.length : Int)
        (heap root_inline_box).GetHeightAboveBaseline (heap root_inline_box).GetDepthBelowBaseline)
    exact ⟨le_trans h1 h3, le_trans h2 h4⟩
  have hheight' : (Binary32.LayoutLineBox.Close heap is_root self root_inline_box offset_parent
      line_position text_align).out_height_of_line = Binary32.round
      ((Binary32.Close.sized heap is_root fs root_inline_box).max_ascent +
      (Binary32.Close.sized heap is_root fs root_inline_box).max_descent) := hheight
  refine ⟨hheight', hbaseline, hmono.1, hmono.2, ?_, ?_⟩
  · rw [hheight']
    exact Binary32.round_mono (by linarith [hmono.1, hmono.2])
  · intro f hf hroot
    rw [hfragments] at hf
    obtain ⟨j, hj⟩ := List.mem_iff_getElem?.mp hf
    have hjlt : j < (Binary32.Close.positioned heap is_root fs root_inline_box).length := by
      rcases List.getElem?_eq_some_iff.mp hj with ⟨hlt, _⟩
      exact hlt
    have hy := positioned_map_eraseY_binary32 heap is_root fs root_inline_box
    have hlen1 := length_eq_of_map_eq Fragment.eraseY hy
    have hget : getFragment (Binary32.Close.positioned heap is_root fs root_inline_box) (j : Int) = f :=
      getFragment_of_getElem? hj
    obtain ⟨h1, h2, h3, _⟩ := eraseY_fields (getFragment_map_eq Fragment.eraseY hy (j : Int))
    rw [hget] at h1 h2 h3
    have hpass_layout := VerticallyAlignSubtree_map_eq_binary32 Fragment.layout (fun f b => rfl)
      heap fs (-1) (fs.length : Int)
      (heap root_inline_box).GetHeightAboveBaseline (heap root_inline_box).GetDepthBelowBaseline
    have hlen2 := length_eq_of_map_eq Fragment.layout hpass_layout
    have hsized_layout := sized_map_layout_binary32 heap is_root fs root_inline_box
    have hlen3 := length_eq_of_map_eq Fragment.layout hsized_layout
    have hsame := getFragment_map_eq Fragment.layout
      (hsized_layout.trans hpass_layout.symm) (j : Int)
    have hva_sized := (layout_fields hsame).2.2.2.1
    have hfinal_layout := getFragment_map_eq Fragment.layout
      ((positioned_map_layout_binary32 heap is_root fs root_inline_box).trans
        hpass_layout.symm) (j : Int)
    rw [hget] at hfinal_layout
    have hfits := foldl_alignSubtree_fits_binary32 heap is_root hframe
      (indexRange 0 (fs.length : Int))
      (Binary32.VerticallyAlignSubtree heap fs (-1) (fs.length : Int)
        (heap root_inline_box).GetHeightAboveBaseline (heap root_inline_box).GetDepthBelowBaseline)
      (indexRange_nodup _ _) (j : Int)
      ((mem_indexRange _ _ _).mpr ⟨by omega, by omega⟩) (by omega) (by omega)
      (by
        rw [← hframe _ _ hfinal_layout]
        exact hroot)
    rw [← hva_sized, ← h3] at hfits
    have hsized : (indexRange 0 (fs.length : Int)).foldl (Binary32.Close.alignSubtree heap is_root)
        (Binary32.VerticallyAlignSubtree heap fs (-1) (fs.length : Int)
          (heap root_inline_box).GetHeightAboveBaseline
          (heap root_inline_box).GetDepthBelowBaseline)
        = Binary32.Close.sized heap is_root fs root_inline_box := rfl
    rw [hsized, ← h1, ← h2] at hfits
    obtain ⟨htop, hbottom⟩ := hfits
    refine ⟨htop, hbottom, ?_⟩
    intro halign hdtop hdbottom
    rw [hheight', ← Binary32.round_round (f.max_ascent + f.max_descent)]
    rcases halign with h | h
    · have := htop h
      rw [hdtop h] at this
      exact Binary32.round_mono (by linarith)
    · have := hbottom h
      rw [hdbottom h] at this
      exact Binary32.round_mono (by linarith)

/-- C19 on an example, in binary32 arithmetic and with the test `IsAlignedSubtreeRoot` as
modelled: on the line with a `Top` text fragment (20 above and 1 below the baseline) and a
`Baseline` text fragment, with the root inline box 10 above and 8 below the baseline, the
height is 21, at least the 18 of the root inline box. -/
theorem Close_line_height_rounded_witness :
    (∀ f g : Fragment, f.layout = g.layout → IsAlignedSubtreeRoot f = IsAlignedSubtreeRoot g) ∧
    (Binary32.LayoutLineBox.Close Example.vertical_heap IsAlignedSubtreeRoot
      Example.line_top_and_baseline_text 10 0 {} TextAlign.Left).out_height_of_line = 21 ∧
    Binary32.round ((Example.vertical_heap 10).GetHeightAboveBaseline +
      (Example.vertical_heap 10).GetDepthBelowBaseline) ≤
      (Binary32.LayoutLineBox.Close Example.vertical_heap IsAlignedSubtreeRoot
        Example.line_top_and_baseline_text 10 0 {} TextAlign.Left).out_height_of_line :=
  ⟨fun f g h => IsAlignedSubtreeRoot_congr (layout_fields h).2.2.2.1, by decide!,
   (Close_line_height_rounded Example.vertical_heap IsAlignedSubtreeRoot
     Example.line_top_and_baseline_text 10 0 {} TextAlign.Left
     (fun f g h => IsAlignedSubtreeRoot_congr (layout_fields h).2.2.2.1)).2.2.2.2.1⟩

/-- The claim C19 as it stands fails in binary32 arithmetic: with the root inline box 0.6
above and 0 below the baseline and a `Top` text fragment 3 above and 0.2 below, the line gets
the descent 2.6 (`3.2 - 0.6` rounded down) and `Close` returns the height 3.1999998
(`3355443 / 2 ^ 20`), less than `max_ascent + max_descent` of the aligned subtree root,
exactly and as `float` sum. It is so for every test `IsAlignedSubtreeRoot` that the fragment
passes. -/
theorem Close_subtree_fits_counterexample :
    (Example.binary32_vertical_heap 40).GetHeightAboveBaseline = 5033165 / 8388608 ∧
    (Example.binary32_vertical_heap 40).GetDepthBelowBaseline = 0 ∧
    (Example.line_top_text_3.fragments.map (fun f =>
      (f.type, f.vertical_align, (Example.binary32_vertical_heap f.box).GetHeightAboveBaseline,
        (Example.binary32_vertical_heap f.box).GetDepthBelowBaseline)))
      = [(FragmentType.TextRun, VerticalAlign.Top, 3, 13421773 / 67108864)] ∧
    (Binary32.LayoutLineBox.Close Example.binary32_vertical_heap IsAlignedSubtreeRoot
      Example.line_top_text_3 40 0 {} TextAlign.Left).out_height_of_line
      = 3355443 / 1048576 ∧
    (Binary32.LayoutLineBox.Close Example.binary32_vertical_heap IsAlignedSubtreeRoot
      Example.line_top_text_3 40 0 {} TextAlign.Left).line.fragments.map
        (fun f => (IsAlignedSubtreeRoot f, f.max_ascent, f.max_descent))
      = [(true, 3, 13421773 / 67108864)] ∧
    ¬ (3 : ℚ) + 13421773 / 67108864 ≤
      (Binary32.LayoutLineBox.Close Example.binary32_vertical_heap IsAlignedSubtreeRoot
        Example.line_top_text_3 40 0 {} TextAlign.Left).out_height_of_line ∧
    ¬ Binary32.round ((3 : ℚ) + 13421773 / 67108864) ≤
      (Binary32.LayoutLineBox.Close Example.binary32_vertical_heap IsAlignedSubtreeRoot
        Example.line_top_text_3 40 0 {} TextAlign.Left).out_height_of_line ∧
    (∀ is_root : Fragment → Bool,
      (∀ f g : Fragment, f.layout = g.layout → is_root f = is_root g) →
      is_root (getFragment Example.line_top_text_3.fragments 0) = true →
      (Binary32.LayoutLineBox.Close Example.binary32_vertical_heap is_root
        Example.line_top_text_3 40 0 {} TextAlign.Left).out_height_of_line
        = 3355443 / 1048576 ∧
      (Binary32.LayoutLineBox.Close Example.binary32_vertical_heap is_root
        Example.line_top_text_3 40 0 {} TextAlign.Left).line.fragments.map
          (fun f => (f.max_ascent, f.max_descent))
        = [(3, 13421773 / 67108864)]) :=
  ⟨by decide!, by decide!, by decide!, by decide!, by decide!, by decide!, by decide!,
   fun is_root hframe hroot => by
    have hsplit : (Binary32.LayoutLineBox.SplitLine Example.binary32_vertical_heap
        Example.line_top_text_3).1.fragments
        = [getFragment Example.line_top_text_3.fragments 0] := by decide!
    have hmodel : IsAlignedSubtreeRoot (getFragment Example.line_top_text_3.fragments 0)
        = true := by decide!
    rw [Close_congr_binary32 Example.binary32_vertical_heap is_root IsAlignedSubtreeRoot
      hframe (fun f g h => IsAlignedSubtreeRoot_congr (layout_fields h).2.2.2.1)
      Example.line_top_text_3 40 0 {} TextAlign.Left (by
        intro f hf
        rw [hsplit, List.mem_singleton] at hf
        rw [hf, hroot, hmodel])]
    exact ⟨by decide!, by decide!⟩⟩

/-- C13, as the code has it, in binary32 arithmetic and with the test `IsAlignedSubtreeRoot`
as the parameter `is_root` (its answer must not depend on what the vertical pass writes): for
every line whose fragments are text fragments aligned `Top` or `Baseline`, the `Baseline` ones
without parent fragment and without aligned subtree root, `Close` sizes the line from the
root inline box and the heights of the `Top` fragments. Text fragments add nothing to the
ascent: the baseline of the line is the ascent `A` of the root inline box. The height of the
line is `A + D` rounded, where the descent `D` is the descent of the root inline box or
`(a + d) - A` (sum and difference rounded) of a `Top` fragment with ascent `a` and descent
`d`; it is at least the rounded sum of ascent and descent of the root inline box and at least
`A + ((a + d) - A)`, rounded at each operation, for every `Top` fragment that passes the
test. A `Top` fragment that passes the test is placed at its own ascent and a `Baseline`
fragment at `A` plus its vertical offset (rounded). With ascents and descents that are not
negative, a `Baseline` fragment without vertical offset lies in `[0, line_height]`, and a `Top`
fragment that passes the test has `0 ≤ position.y`, and `position.y ≤ line_height` when its
ascent is a single-precision value and the difference `(a + d) - A` is one (is not
rounded). -/
theorem Close_text_line_height_rounded (heap : BoxHeap) (is_root : Fragment → Bool)
    (line : LayoutLineBox) (root_inline_box : BoxPtr) (offset_parent : Nat)
    (line_position : Vector2f) (text_align : TextAlign)
    (hframe : ∀ f g : Fragment, f.layout = g.layout → is_root f = is_root g)
    (htext : ∀ f ∈ line.fragments, f.type = FragmentType.TextRun ∧
      (f.vertical_align = VerticalAlign.Top ∨
        (f.vertical_align = VerticalAlign.Baseline ∧ f.aligned_subtree_root = -1 ∧
          f.parent_fragment < 0))) :
    (Binary32.LayoutLineBox.Close heap is_root line root_inline_box offset_parent line_position
      text_align).line.total_height_above_baseline
      = (heap root_inline_box).GetHeightAboveBaseline ∧
    Binary32.round ((heap root_inline_box).GetHeightAboveBaseline +
        (heap root_inline_box).GetDepthBelowBaseline)
      ≤ (Binary32.LayoutLineBox.Close heap is_root line root_inline_box offset_parent
          line_position text_align).out_height_of_line ∧
    ((Binary32.LayoutLineBox.Close heap is_root line root_inline_box offset_parent
        line_position text_align).out_height_of_line
        = Binary32.round ((heap root_inline_box).GetHeightAboveBaseline +
          (heap root_inline_box).GetDepthBelowBaseline) ∨
      ∃ f ∈ (Binary32.LayoutLineBox.Close heap is_root line root_inline_box offset_parent
          line_position text_align).line.fragments,
        f.vertical_align = VerticalAlign.Top ∧
        (Binary32.LayoutLineBox.Close heap is_root line root_inline_box offset_parent
          line_position text_align).out_height_of_line
          = Binary32.round ((heap root_inline_box).GetHeightAboveBaseline +
            Binary32.round (Binary32.round
              ((heap f.box).GetHeightAboveBaseline + (heap f.box).GetDepthBelowBaseline) -
              (heap root_inline_box).GetHeightAboveBaseline))) ∧
    (∀ f ∈ (Binary32.LayoutLineBox.Close heap is_root line root_inline_box offset_parent
        line_position text_align).line.fragments,
      (f.vertical_align = VerticalAlign.Top → is_root f = true →
        f.position.y = (heap f.box).GetHeightAboveBaseline ∧
        Binary32.round ((heap root_inline_box).GetHeightAboveBaseline +
          Binary32.round (Binary32.round
            ((heap f.box).GetHeightAboveBaseline + (heap f.box).GetDepthBelowBaseline) -
            (heap root_inline_box).GetHeightAboveBaseline))
          ≤ (Binary32.LayoutLineBox.Close heap is_root line root_inline_box offset_parent
              line_position text_align).out_height_of_line ∧
        (0 ≤ (heap f.box).GetHeightAboveBaseline → 0 ≤ f.position.y) ∧
        (0 ≤ (heap f.box).GetDepthBelowBaseline →
          Binary32.IsValue (heap f.box).GetHeightAboveBaseline →
          Binary32.IsValue (Binary32.round
            ((heap f.box).GetHeightAboveBaseline + (heap f.box).GetDepthBelowBaseline) -
            (heap root_inline_box).GetHeightAboveBaseline) →
          f.position.y ≤ (Binary32.LayoutLineBox.Close heap is_root line root_inline_box
            offset_parent line_position text_align).out_height_of_line)) ∧
      (f.vertical_align = VerticalAlign.Baseline →
        f.position.y = Binary32.round ((heap root_inline_box).GetHeightAboveBaseline +
          Binary32.round (0 + (heap f.box).GetVerticalOffsetFromParent)) ∧
        (0 ≤ (heap root_inline_box).GetHeightAboveBaseline →
          0 ≤ (heap root_inline_box).GetDepthBelowBaseline →
          (heap f.box).GetVerticalOffsetFromParent = 0 →
          0 ≤ f.position.y ∧
          f.position.y ≤ (Binary32.LayoutLineBox.Close heap is_root line root_inline_box
            offset_parent line_position text_align).out_height_of_line))) := by
  obtain ⟨hfragments, _, _, _, hheight, hbaseline, _⟩ :=
    Close_fields_binary32 heap is_root line root_inline_box offset_parent line_position
      text_align
  have htree := SplitLine_map_tree_binary32 heap line
  have hlen := length_eq_of_map_eq Fragment.tree htree
  have hfs : ∀ j : Nat, j < (Binary32.LayoutLineBox.SplitLine heap line).1.fragments.length →
      (getFragment (Binary32.LayoutLineBox.SplitLine heap line).1.fragments (j : Int)).type
        = FragmentType.TextRun ∧
      ((getFragment (Binary32.LayoutLineBox.SplitLine heap line).1.fragments
          (j : Int)).vertical_align = VerticalAlign.Top ∨
       ((getFragment (Binary32.LayoutLineBox.SplitLine heap line).1.fragments
          (j : Int)).vertical_align = VerticalAlign.Baseline ∧
        (getFragment (Binary32.LayoutLineBox.SplitLine heap line).1.fragments
          (j : Int)).aligned_subtree_root = -1 ∧
        (getFragment (Binary32.LayoutLineBox.SplitLine heap line).1.fragments
          (j : Int)).parent_fragment < 0)) := by
    intro j hj
    have hfields := tree_fields (getFragment_map_eq Fragment.tree htree (j : Int))
    rw [hfields.2.2.1, hfields.2.2.2.1, hfields.2.2.2.2.2.1, hfields.2.2.2.2.2.2.1]
    exact htext _ (getFragment_mem (by rw [← hlen]; exact hj))
  generalize (Binary32.LayoutLineBox.SplitLine heap line).1.fragments = fs
    at hfragments hheight hbaseline hfs
  have hfs2 : ∀ j : Nat, j < fs.length →
      (getFragment fs (j : Int)).type = FragmentType.TextRun ∧
      ((getFragment fs (j : Int)).vertical_align = VerticalAlign.Top ∨
       (getFragment fs (j : Int)).vertical_align = VerticalAlign.Baseline) := by
    intro j hj
    obtain ⟨h1, h2⟩ := hfs j hj
    exact ⟨h1, h2.imp id (fun h => h.1)⟩
  obtain ⟨hA, hD, hattained, hoffset⟩ := sized_text_binary32 heap is_root fs root_inline_box hfs2
  have hlayout := positioned_map_layout_binary32 heap is_root fs root_inline_box
  have hlen2 := length_eq_of_map_eq Fragment.layout hlayout
  have hH : Binary32.Close.height heap is_root fs root_inline_box
      = Binary32.round ((heap root_inline_box).GetHeightAboveBaseline +
        (Binary32.Close.sized heap is_root fs root_inline_box).max_descent) := by
    unfold Binary32.Close.height
    rw [hA]
  rw [hfragments, hheight, hbaseline, hH]
  refine ⟨hA, Binary32.round_mono (by linarith), ?_, ?_⟩
  · rcases hattained with h | ⟨j, hj, htop, h⟩
    · left
      rw [h]
    · right
      have hfj := layout_fields (getFragment_map_eq Fragment.layout hlayout (j : Int))
      refine ⟨getFragment (Binary32.Close.positioned heap is_root fs root_inline_box) (j : Int),
        getFragment_mem (by rw [hlen2]; exact hj), ?_, ?_⟩
      · rw [hfj.2.2.2.1]
        exact htop
      · rw [hfj.1, h]
  · intro f hf
    obtain ⟨i, hi⟩ := List.getElem?_of_mem hf
    have hilt : i < fs.length := by
      rcases List.getElem?_eq_some_iff.mp hi with ⟨hlt, _⟩
      rw [hlen2] at hlt
      exact hlt
    have hget : getFragment (Binary32.Close.positioned heap is_root fs root_inline_box)
        (i : Int) = f := getFragment_of_getElem? hi
    have hfi := layout_fields (getFragment_map_eq Fragment.layout hlayout (i : Int))
    have hroot_eq := hframe _ _ (getFragment_map_eq Fragment.layout hlayout (i : Int))
    rw [hget] at hfi hroot_eq
    obtain ⟨ptop, pbase⟩ := positioned_position_binary32 heap is_root fs root_inline_box i hilt
    rw [hget, ← hfi.2.2.2.1] at ptop pbase
    refine ⟨fun htop hroot => ?_, fun hbase => ?_⟩
    · obtain ⟨s1, s2, s3⟩ := sized_text_stored_binary32 heap is_root hframe fs root_inline_box
        i hilt (hfs2 i hilt).1 (by rw [← hroot_eq]; exact hroot)
      rw [← hfi.1] at s1 s2 s3
      rw [← hfi.2.2.2.1, hA] at s3
      have hy : f.position.y = (heap f.box).GetHeightAboveBaseline := by
        rw [ptop htop, s1]
      refine ⟨hy, Binary32.round_mono (by linarith [s3 htop]), fun h0 => by rw [hy]; exact h0,
        fun hd ha hdiff => ?_⟩
      rw [hy]
      have h1 : (heap f.box).GetHeightAboveBaseline ≤ Binary32.round
          ((heap f.box).GetHeightAboveBaseline + (heap f.box).GetDepthBelowBaseline) :=
        Binary32.le_round_of_le ha (by linarith)
      have h2 := s3 htop
      rw [hdiff] at h2
      have h3 : Binary32.round (Binary32.round
          ((heap f.box).GetHeightAboveBaseline + (heap f.box).GetDepthBelowBaseline))
          ≤ Binary32.round ((heap root_inline_box).GetHeightAboveBaseline +
            (Binary32.Close.sized heap is_root fs root_inline_box).max_descent) :=
        Binary32.round_mono (by linarith)
      rw [Binary32.round_round] at h3
      exact le_trans h1 h3
    · have hbase2 : (getFragment fs (i : Int)).vertical_align = VerticalAlign.Baseline := by
        rw [← hfi.2.2.2.1]
        exact hbase
      obtain ⟨_, h2⟩ := hfs i hilt
      rcases h2 with h2 | ⟨_, hasr, hparent⟩
      · rw [hbase2] at h2
        exact absurd h2 (by decide)
      · have hy : f.position.y = Binary32.round ((heap root_inline_box).GetHeightAboveBaseline +
            Binary32.round (0 + (heap f.box).GetVerticalOffsetFromParent)) := by
          rw [pbase hbase (by rw [hasr]; decide), hA,
            hoffset i hilt hasr hparent, hfi.1]
        refine ⟨hy, fun h0 hd0 hoff => ?_⟩
        rw [hy, hoff, add_zero, Binary32.round_zero]
        exact ⟨Binary32.round_nonneg (by linarith), Binary32.round_mono (by linarith)⟩

/-- C13 on an example: a `Top` text fragment (20 above and 1 below the baseline) and a
`Baseline` text fragment on a line with the root inline box 10 above and 8 below the
baseline, with `Top` and `Bottom` fragments as the roots of aligned subtrees: the height of
the line is 21, the height of the `Top` fragment, and the fragments are at 20 and at 10. -/
theorem Close_text_line_height_rounded_witness :
    (∀ f g : Fragment, f.layout = g.layout → IsAlignedSubtreeRoot f = IsAlignedSubtreeRoot g) ∧
    (∀ f ∈ Example.line_top_and_baseline_text.fragments, f.type = FragmentType.TextRun ∧
      (f.vertical_align = VerticalAlign.Top ∨
        (f.vertical_align = VerticalAlign.Baseline ∧ f.aligned_subtree_root = -1 ∧
          f.parent_fragment < 0))) ∧
    (Binary32.LayoutLineBox.Close Example.vertical_heap IsAlignedSubtreeRoot
      Example.line_top_and_baseline_text 10 0 {} TextAlign.Left).out_height_of_line = 21 ∧
    (Binary32.LayoutLineBox.Close Example.vertical_heap IsAlignedSubtreeRoot
      Example.line_top_and_baseline_text 10 0 {} TextAlign.Left).line.fragments.map
        (fun f => f.position.y) = [20, 10] ∧
    (Binary32.LayoutLineBox.Close Example.vertical_heap IsAlignedSubtreeRoot
      Example.line_top_and_baseline_text 10 0 {}
      TextAlign.Left).line.total_height_above_baseline
      = (Example.vertical_heap 10).GetHeightAboveBaseline :=
  ⟨fun f g h => IsAlignedSubtreeRoot_congr (layout_fields h).2.2.2.1, by decide!,
   by decide!, by decide!,
   (Close_text_line_height_rounded Example.vertical_heap IsAlignedSubtreeRoot
    Example.line_top_and_baseline_text 10 0 {} TextAlign.Left
    (fun f g h => IsAlignedSubtreeRoot_congr (layout_fields h).2.2.2.1) (by decide!)).1⟩

/-- The claim C13 as it stands fails. On the line with one `Baseline` text fragment, 20 above
and 5 below the baseline, and the root inline box 10 above and 8 below the baseline, `Close`
returns the height 18, whatever the test `IsAlignedSubtreeRoot` answers, not
`max (10, 20) + max (8, 5)`. On the line with one `Top` text fragment, 20 above and 1 below
the baseline, it returns 21 when the fragment passes the test and 18 when it does not, not
`max (10, 20) + max (8, 1)`. In binary32 arithmetic, on the line with one `Top` text fragment
23.1 above and 0 below the baseline and the root inline box 4.3 above and 0.2 below, the
fragment, when it passes the test, is placed at `position.y = 23.1` (`12111053 / 2 ^ 19`),
above the height 23.099998 (`3027763 / 2 ^ 17`) that `Close` returns. -/
theorem Close_text_height_rounded_counterexample :
    (Example.vertical_heap 10).GetHeightAboveBaseline = 10 ∧
    (Example.vertical_heap 10).GetDepthBelowBaseline = 8 ∧
    (Example.line_baseline_text.fragments.map (fun f =>
      (f.type, f.vertical_align, (Example.vertical_heap f.box).GetHeightAboveBaseline,
        (Example.vertical_heap f.box).GetDepthBelowBaseline)))
      = [(FragmentType.TextRun, VerticalAlign.Baseline, 20, 5)] ∧
    (∀ is_root : Fragment → Bool,
      (Binary32.LayoutLineBox.Close Example.vertical_heap is_root Example.line_baseline_text
        10 0 {} TextAlign.Left).out_height_of_line = 18) ∧
    (18 : ℚ) ≠ max (10 : ℚ) 20 + max (8 : ℚ) 5 ∧
    (Example.line_top_text.fragments.map (fun f =>
      (f.type, f.vertical_align, (Example.vertical_heap f.box).GetHeightAboveBaseline,
        (Example.vertical_heap f.box).GetDepthBelowBaseline)))
      = [(FragmentType.TextRun, VerticalAlign.Top, 20, 1)] ∧
    (Binary32.LayoutLineBox.Close Example.vertical_heap IsAlignedSubtreeRoot
      Example.line_top_text 10 0 {} TextAlign.Left).out_height_of_line = 21 ∧
    (∀ is_root : Fragment → Bool,
      (Binary32.LayoutLineBox.Close Example.vertical_heap is_root Example.line_top_text
        10 0 {} TextAlign.Left).out_height_of_line = 18 ∨
      (Binary32.LayoutLineBox.Close Example.vertical_heap is_root Example.line_top_text
        10 0 {} TextAlign.Left).out_height_of_line = 21) ∧
    (18 : ℚ) ≠ max (10 : ℚ) 20 + max (8 : ℚ) 1 ∧
    (21 : ℚ) ≠ max (10 : ℚ) 20 + max (8 : ℚ) 1 ∧
    (Example.binary32_vertical_heap 42).GetHeightAboveBaseline = 4508877 / 1048576 ∧
    (Example.binary32_vertical_heap 42).GetDepthBelowBaseline = 13421773 / 67108864 ∧
    (Example.line_top_text_23.fragments.map (fun f =>
      (f.type, f.vertical_align, (Example.binary32_vertical_heap f.box).GetHeightAboveBaseline,
        (Example.binary32_vertical_heap f.box).GetDepthBelowBaseline)))
      = [(FragmentType.TextRun, VerticalAlign.Top, 12111053 / 524288, 0)] ∧
    (Binary32.LayoutLineBox.Close Example.binary32_vertical_heap IsAlignedSubtreeRoot
      Example.line_top_text_23 42 0 {} TextAlign.Left).out_height_of_line
      = 3027763 / 131072 ∧
    (Binary32.LayoutLineBox.Close Example.binary32_vertical_heap IsAlignedSubtreeRoot
      Example.line_top_text_23 42 0 {} TextAlign.Left).line.fragments.map
        (fun f => (IsAlignedSubtreeRoot f, f.position.y))
      = [(true, 12111053 / 524288)] ∧
    (3027763 : ℚ) / 131072 < 12111053 / 524288 ∧
    (∀ is_root : Fragment → Bool,
      (∀ f g : Fragment, f.layout = g.layout → is_root f = is_root g) →
      is_root (getFragment Example.line_top_text_23.fragments 0) = true →
      (Binary32.LayoutLineBox.Close Example.binary32_vertical_heap is_root
        Example.line_top_text_23 42 0 {} TextAlign.Left).out_height_of_line
        = 3027763 / 131072 ∧
      (Binary32.LayoutLineBox.Close Example.binary32_vertical_heap is_root
        Example.line_top_text_23 42 0 {} TextAlign.Left).line.fragments.map
          (fun f => f.position.y)
        = [12111053 / 524288]) :=
  ⟨by decide!, by decide!, by decide!,
   fun is_root => by
    have hheight := (Close_fields_binary32 Example.vertical_heap is_root
      Example.line_baseline_text 10 0 {} TextAlign.Left).2.2.2.2.1
    have hsplit : (Binary32.LayoutLineBox.SplitLine Example.vertical_heap
        Example.line_baseline_text).1.fragments = Example.line_baseline_text.fragments := by
      decide!
    have hlen : Example.line_baseline_text.fragments.length = 1 := by decide!
    have hva : (getFragment Example.line_baseline_text.fragments ((0 : Nat) : Int)).type
          = FragmentType.TextRun ∧
        (getFragment Example.line_baseline_text.fragments ((0 : Nat) : Int)).vertical_align
          = VerticalAlign.Baseline := by decide!
    obtain ⟨hA, _, hattained, _⟩ := sized_text_binary32 Example.vertical_heap is_root
      Example.line_baseline_text.fragments 10 (by
        intro j hj
        rw [hlen] at hj
        have hj0 : j = 0 := by omega
        subst hj0
        exact ⟨hva.1, Or.inr hva.2⟩)
    rw [hheight, hsplit]
    unfold Binary32.Close.height
    rw [hA]
    rcases hattained with h | ⟨j, hj, htop, _⟩
    · rw [h]
      decide!
    · rw [hlen] at hj
      have hj0 : j = 0 := by omega
      subst hj0
      rw [hva.2] at htop
      exact absurd htop (by decide),
   by decide!, by decide!, by decide!,
   fun is_root => by
    have hheight := (Close_fields_binary32 Example.vertical_heap is_root
      Example.line_top_text 10 0 {} TextAlign.Left).2.2.2.2.1
    have hsplit : (Binary32.LayoutLineBox.SplitLine Example.vertical_heap
        Example.line_top_text).1.fragments = Example.line_top_text.fragments := by
      decide!
    have hlen : Example.line_top_text.fragments.length = 1 := by decide!
    have hva : (getFragment Example.line_top_text.fragments ((0 : Nat) : Int)).type
          = FragmentType.TextRun ∧
        (getFragment Example.line_top_text.fragments ((0 : Nat) : Int)).vertical_align
          = VerticalAlign.Top := by decide!
    obtain ⟨hA, _, hattained, _⟩ := sized_text_binary32 Example.vertical_heap is_root
      Example.line_top_text.fragments 10 (by
        intro j hj
        rw [hlen] at hj
        have hj0 : j = 0 := by omega
        subst hj0
        exact ⟨hva.1, Or.inl hva.2⟩)
    rw [hheight, hsplit]
    unfold Binary32.Close.height
    rw [hA]
    rcases hattained with h | ⟨j, hj, _, h⟩
    · left
      rw [h]
      decide!
    · right
      rw [hlen] at hj
      have hj0 : j = 0 := by omega
      subst hj0
      rw [h]
      decide!,
   by decide!, by decide!, by decide!, by decide!, by decide!, by decide!, by decide!,
   by decide!,
   fun is_root hframe hroot => by
    have hsplit : (Binary32.LayoutLineBox.SplitLine Example.binary32_vertical_heap
        Example.line_top_text_23).1.fragments
        = [getFragment Example.line_top_text_23.fragments 0] := by decide!
    have hmodel : IsAlignedSubtreeRoot (getFragment Example.line_top_text_23.fragments 0)
        = true := by decide!
    rw [Close_congr_binary32 Example.binary32_vertical_heap is_root IsAlignedSubtreeRoot
      hframe (fun f g h => IsAlignedSubtreeRoot_congr (layout_fields h).2.2.2.1)
      Example.line_top_text_23 42 0 {} TextAlign.Left (by
        intro f hf
        rw [hsplit, List.mem_singleton] at hf
        rw [hf, hroot, hmodel])]
    exact ⟨by decide!, by decide!⟩⟩

/-- C25, as the code has it, in binary32 arithmetic: for every line made by `AddBox`,
`CloseInlineBox` and `SplitLine` with boxes whose left and right spacing are not negative and
whose fixed-size fragments have a width that is not negative, `AddBox` and `CloseInlineBox`
never decrease `box_cursor`. When no operation on the way to the line has rounded a sum or a
difference, then on the line, and on the line that `SplitLine` leaves behind without
rounding, every fixed-size fragment `c` lies inside the content range of every closed
inline-box fragment `p` that is its ancestor: `p.position.x + s ≤ c.position.x` and
`c.position.x + c.layout_width ≤ p.position.x + s + p.layout_width`, where `s` is 0 if
`p.split_left` and the left spacing of the box of `p` otherwise; and the clamp at 0 in
`CloseFragment` is not active where the right edge and its distance to the fragment are
single-precision values: for every open fragment the width that `CloseInlineBox` would take,
from the right edge `box_cursor + open_spacing_left`, is not negative, and for every open
fragment with content so is the width that `SplitLine` takes, from the right edge
`box_cursor`. -/
theorem fixed_size_inside_closed_ancestors_rounded (heap : BoxHeap)
    (hheap : SpacingAndWidthsNonnegative heap) (line : LayoutLineBox)
    (hreach : Binary32.Reachable heap line) :
    (∀ (box : BoxPtr) (mode : InlineLayoutMode) (line_width : ℚ)
        (handle : LayoutOverflowHandle),
      line.box_cursor
        ≤ (Binary32.LayoutLineBox.AddBox heap line box mode line_width
            handle).line.box_cursor) ∧
    (∀ inline_box : BoxPtr,
      line.box_cursor
        ≤ (Binary32.LayoutLineBox.CloseInlineBox heap line inline_box).1.box_cursor) ∧
    (Binary32.ReachableWithoutRounding heap line →
      (∀ fragments : List Fragment,
        fragments = line.fragments ∨
          (fragments = (Binary32.LayoutLineBox.SplitLine heap line).1.fragments ∧
            (Binary32.LayoutLineBox.SplitLine heap line).1.fragments
              = (line.SplitLine heap).1.fragments) →
        ∀ (i j fuel : Nat) (p c : Fragment), fragments[i]? = some p →
          p.type = FragmentType.InlineBox → p.children_end_index ≠ 0 →
          fragments[j]? = some c →
          (c.type = FragmentType.SizedBox ∨ c.type = FragmentType.TextRun) →
          fragments.length ≤ fuel → (i : Int) ∈ parentChain fragments fuel c.parent_fragment →
          p.position.x + (if p.split_left then 0 else (heap p.box).GetSpacingLeft)
            ≤ c.position.x ∧
          c.position.x + c.layout_width ≤
            p.position.x + (if p.split_left then 0 else (heap p.box).GetSpacingLeft) +
              p.layout_width) ∧
      (∀ index ∈ line.open_fragments,
        (Binary32.IsValue (line.box_cursor + line.open_spacing_left) →
          Binary32.IsValue (line.box_cursor + line.open_spacing_left -
            (getFragment line.fragments index).position.x) →
          0 ≤ Binary32.round (Binary32.round
            (Binary32.round (line.box_cursor + line.open_spacing_left) -
              (getFragment line.fragments index).position.x) -
            (if (getFragment line.fragments index).split_left then 0
             else (heap (getFragment line.fragments index).box).GetSpacingLeft))) ∧
        ((getFragment line.fragments index).has_content = true →
          Binary32.IsValue (line.box_cursor -
            (getFragment line.fragments index).position.x) →
          0 ≤ Binary32.round (Binary32.round
            (line.box_cursor - (getFragment line.fragments index).position.x) -
            (if (getFragment line.fragments index).split_left then 0
             else (heap (getFragment line.fragments index).box).GetSpacingLeft))))) := by
  obtain ⟨hvalue, hspacing⟩ := cursor_of_Reachable_binary32 heap hheap line hreach
  refine ⟨fun box mode line_width handle =>
      (AddBox_cursor_binary32 heap hheap line hvalue hspacing box mode line_width handle).1,
    fun inline_box =>
      (CloseInlineBox_cursor_binary32 heap hheap line hvalue hspacing inline_box).1,
    fun hexact => ?_⟩
  obtain ⟨_, _, hinside, hclamp⟩ := inside_closed_ancestors_of_Reachable heap hheap line
    (Reachable_of_ReachableWithoutRounding heap line hexact)
  refine ⟨?_, ?_⟩
  · intro fragments hfragments
    apply hinside fragments
    rcases hfragments with h | ⟨h, heq⟩
    · exact Or.inl h
    · exact Or.inr (h.trans heq)
  · intro index hindex
    obtain ⟨h1, h2⟩ := hclamp index hindex
    refine ⟨fun hedge hdiff => ?_, fun hcontent hdiff => ?_⟩
    · rw [hedge, hdiff]
      have := Binary32.round_mono h1
      rwa [Binary32.round_zero] at this
    · rw [hdiff]
      have := Binary32.round_mono (h2 hcontent)
      rwa [Binary32.round_zero] at this

/-- C25 on an example: an inline box with left and right spacing 5 around the box of width
30, made in binary32 arithmetic without rounding. The inline box is at 0 and 30 wide, its
content starts at 5, and the box of width 30 is at 5: it fills the content range from 5 to
35. -/
theorem fixed_size_inside_closed_ancestors_rounded_witness :
    SpacingAndWidthsNonnegative Example.spaced_heap ∧
    Binary32.Reachable Example.spaced_heap Example.line_spaced_binary32 ∧
    Binary32.ReachableWithoutRounding Example.spaced_heap Example.line_spaced_binary32 ∧
    Example.line_spaced_binary32.fragments.map
      (fun f => (f.type, f.position.x, f.layout_width, f.parent_fragment))
      = [(FragmentType.InlineBox, 0, 30, -1), (FragmentType.SizedBox, 5, 30, 0)] ∧
    ((getFragment Example.line_spaced_binary32.fragments 0).position.x +
        (if (getFragment Example.line_spaced_binary32.fragments 0).split_left then 0
         else (Example.spaced_heap
          (getFragment Example.line_spaced_binary32.fragments 0).box).GetSpacingLeft)
      ≤ (getFragment Example.line_spaced_binary32.fragments 1).position.x ∧
    (getFragment Example.line_spaced_binary32.fragments 1).position.x +
        (getFragment Example.line_spaced_binary32.fragments 1).layout_width ≤
      (getFragment Example.line_spaced_binary32.fragments 0).position.x +
        (if (getFragment Example.line_spaced_binary32.fragments 0).split_left then 0
         else (Example.spaced_heap
          (getFragment Example.line_spaced_binary32.fragments 0).box).GetSpacingLeft) +
        (getFragment Example.line_spaced_binary32.fragments 0).layout_width) :=
  ⟨Example.spaced_heap_nonnegative,
   Binary32.Reachable.close_inline_box _ 4
    (Binary32.Reachable.add_box _ 1 InlineLayoutMode.WrapAny 80 0
      (Binary32.Reachable.add_box _ 4 InlineLayoutMode.WrapAny 80 0
        Binary32.Reachable.new_line)),
   Binary32.ReachableWithoutRounding.close_inline_box _ 4
    (Binary32.ReachableWithoutRounding.add_box _ 1 InlineLayoutMode.WrapAny 80 0
      (Binary32.ReachableWithoutRounding.add_box _ 4 InlineLayoutMode.WrapAny 80 0
        Binary32.ReachableWithoutRounding.new_line (by decide!)) (by decide!)) (by decide!),
   by decide!,
   ((fixed_size_inside_closed_ancestors_rounded Example.spaced_heap
    Example.spaced_heap_nonnegative Example.line_spaced_binary32
    (Binary32.Reachable.close_inline_box _ 4
      (Binary32.Reachable.add_box _ 1 InlineLayoutMode.WrapAny 80 0
        (Binary32.Reachable.add_box _ 4 InlineLayoutMode.WrapAny 80 0
          Binary32.Reachable.new_line)))).2.2
    (Binary32.ReachableWithoutRounding.close_inline_box _ 4
      (Binary32.ReachableWithoutRounding.add_box _ 1 InlineLayoutMode.WrapAny 80 0
        (Binary32.ReachableWithoutRounding.add_box _ 4 InlineLayoutMode.WrapAny 80 0
          Binary32.ReachableWithoutRounding.new_line (by decide!)) (by decide!))
      (by decide!))).1
    Example.line_spaced_binary32.fragments (Or.inl rfl) 0 1 2
    (getFragment Example.line_spaced_binary32.fragments 0)
    (getFragment Example.line_spaced_binary32.fragments 1)
    (by decide!) (by decide!) (by decide!) (by decide!) (by decide!) (by decide!)
    (by decide!)⟩

/-- The claim C25 as it stands fails in binary32 arithmetic, with spacing and widths that are
not negative. After the box of width 100.2 (`6566707 / 2 ^ 16`), the inline box without
spacing around the box of width 0.1 (`13421773 / 2 ^ 27`) closes with the width 0.09999847
(`13107 / 2 ^ 17`), less than the width of its child: the child ends to the right of the
content range. After the box of width 277.8 (`4551475 / 2 ^ 14`), the box of width 0 in the
inline box with left spacing 16.4 (`8598323 / 2 ^ 19`) is placed at 294.19998
(`9640345 / 2 ^ 15`), to the left of the content range of the inline box, which starts at
`277.8 + 16.4`, and the width that `CloseInlineBox` takes for the inline box is negative
before the clamp (`-3 / 2 ^ 19`). -/
theorem fixed_size_outside_closed_ancestor_counterexample :
    SpacingAndWidthsNonnegative Example.binary32_heap ∧
    Binary32.Reachable Example.binary32_heap Example.line_tenth_after_100 ∧
    Example.line_tenth_after_100.fragments.map
      (fun f => (f.type, f.position.x, f.layout_width, f.parent_fragment))
      = [(FragmentType.SizedBox, 0, 6566707 / 65536, -1),
         (FragmentType.InlineBox, 6566707 / 65536, 13107 / 131072, -1),
         (FragmentType.SizedBox, 6566707 / 65536, 13421773 / 134217728, 1)] ∧
    Example.line_tenth_after_100.fragments.map
      (fun f => (f.children_end_index, f.split_left,
        (Example.binary32_heap f.box).GetSpacingLeft))
      = [(0, false, 0), (3, false, 0), (0, false, 0)] ∧
    ¬ ((6566707 : ℚ) / 65536 + 13421773 / 134217728
        ≤ 6566707 / 65536 + 0 + 13107 / 131072) ∧
    Binary32.Reachable Example.binary32_heap Example.line_spacing_after_277 ∧
    Example.line_spacing_after_277.open_fragments = [1] ∧
    Example.line_spacing_after_277.fragments.map
      (fun f => (f.type, f.position.x, f.layout_width, f.parent_fragment))
      = [(FragmentType.SizedBox, 0, 4551475 / 16384, -1),
         (FragmentType.InlineBox, 4551475 / 16384, -1, -1),
         (FragmentType.SizedBox, 9640345 / 32768, 0, 1)] ∧
    Example.line_spacing_after_277.fragments.map
      (fun f => (f.children_end_index, f.split_left,
        (Example.binary32_heap f.box).GetSpacingLeft))
      = [(0, false, 0), (0, false, 8598323 / 524288), (0, false, 0)] ∧
    ¬ ((4551475 : ℚ) / 16384 + 8598323 / 524288 ≤ 9640345 / 32768) ∧
    Binary32.round (Binary32.round
      (Binary32.round (Example.line_spacing_after_277.box_cursor +
        Example.line_spacing_after_277.open_spacing_left) -
        (getFragment Example.line_spacing_after_277.fragments 1).position.x) -
      (if (getFragment Example.line_spacing_after_277.fragments 1).split_left then 0
       else (Example.binary32_heap
        (getFragment Example.line_spacing_after_277.fragments 1).box).GetSpacingLeft))
      = -3 / 524288 ∧
    (Binary32.LayoutLineBox.CloseInlineBox Example.binary32_heap
      Example.line_spacing_after_277 28).1.fragments.map
      (fun f => (f.type, f.position.x, f.layout_width, f.children_end_index))
      = [(FragmentType.SizedBox, 0, 4551475 / 16384, 0),
         (FragmentType.InlineBox, 4551475 / 16384, 0, 3),
         (FragmentType.SizedBox, 9640345 / 32768, 0, 0)] :=
  ⟨Example.binary32_heap_nonnegative,
   Binary32.Reachable.close_inline_box _ 31
    (Binary32.Reachable.add_box _ 25 InlineLayoutMode.WrapAny 1000 0
      (Binary32.Reachable.add_box _ 31 InlineLayoutMode.WrapAny 1000 0
        (Binary32.Reachable.add_box _ 26 InlineLayoutMode.WrapAny 1000 0
          Binary32.Reachable.new_line))),
   by decide!, by decide!, by decide!,
   Binary32.Reachable.add_box _ 29 InlineLayoutMode.WrapAny 1000 0
    (Binary32.Reachable.add_box _ 28 InlineLayoutMode.WrapAny 1000 0
      (Binary32.Reachable.add_box _ 27 InlineLayoutMode.WrapAny 1000 0
        Binary32.Reachable.new_line)),
   by decide!, by decide!, by decide!, by decide!, by decide!, by decide!⟩

end Rml
